import Mathlib

/-! DGD collection runtime (`src/array.cpp`): arrays, set algebra, mappings

A shallow embedding of the array and mapping code of `array.cpp`.

* A `Value` is the tagged union of the interpreter.  The pointer `u.array` of a
  collection value is modelled by the identity of the header it points to: the
  kind of collection, its address and the (immutable) tag stored in the header.
* Element buffers are lists; the `size` field of a header is the length of its
  buffer.  Sizes are `unsigned short` in the source, the casts are kept where
  the source has them.
* Collaborators that are not part of `array.cpp` (the float and string
  comparators, `qsort`, the hash functions, `DESTRUCTED`, the plane predicates)
  are fields of `Env`.
-/

namespace Dgd

/-- Largest value of an `unsigned short`. -/
def USHRT_MAX : Nat := 65535

/-- Values of the interpreter: `T_NIL`, `T_INT`, `T_FLOAT`, `T_STRING`,
`T_OBJECT`, `T_ARRAY`, `T_MAPPING`, `T_LWOBJECT`.  A string value is the
pointer `u.string` to a `String` (its address) together with the text found
there: `cmp` and the hash read the text, `map_index` compares the pointer with
that of its `verify` argument. -/
inductive Value where
  | nil
  | int (number : Int)
  | flt (high low : Nat)
  | str (addr : Nat) (text : List Nat)
  | obj (oindex objcnt : Nat)
  | arr (addr tag : Nat)
  | map (addr tag : Nat)
  | lwo (addr tag : Nat)
  deriving DecidableEq, Repr, Inhabited

/-- Modelled from the spec: the type ordinals of `interpret.h` (spec 3.1, tag
set in the order Nil, Int, Float, String, Object, Array, Mapping,
LightWeight). -/
def Value.type : Value → Nat
  | .nil => 0
  | .int _ => 1
  | .flt _ _ => 2
  | .str _ _ => 3
  | .obj _ _ => 4
  | .arr _ _ => 5
  | .map _ _ => 6
  | .lwo _ _ => 7

/-- Modelled from the spec: the macro `T_INDEXED` of `interpret.h`, true for
the collection handles (array, mapping, light-weight object). -/
def T_INDEXED (t : Nat) : Bool := decide (5 ≤ t)

/-- The macro `VAL_NIL`. -/
def VAL_NIL (v : Value) : Bool := decide (v.type = 0)

/-- The tag read through `v->u.array->tag`. -/
def Value.atag : Value → Nat
  | .arr _ t => t
  | .map _ t => t
  | .lwo _ t => t
  | _ => 0

/-- The pointer comparison `v1->u.array == v3->u.array` on two collection
values: the same header. -/
def same_array : Value → Value → Bool
  | .arr a t, .arr b u => decide (a = b ∧ t = u)
  | .map a t, .map b u => decide (a = b ∧ t = u)
  | .lwo a t, .lwo b u => decide (a = b ∧ t = u)
  | _, _ => false

/-- Error kinds raised through `error()`. -/
inductive Error where
  | array_too_large
  | mapping_too_large
  | mapping_too_large_to_grow
  | array_index_out_of_range
  | invalid_array_range
  | identical_indices
  deriving DecidableEq, Repr

/-- The process-wide state and the collaborators `array.cpp` consumes. -/
structure Env where
  /-- The static `max_size`, set by `arr_init`. -/
  max_size : Nat
  /-- The global destruct epoch `odcount`. -/
  odcount : Nat
  /-- The macro `DESTRUCTED` on an object value (index, update counter). -/
  destructed : Nat → Nat → Bool
  /-- The first element of the light-weight object at an address
  (`d_get_elts(v->u.array)`). -/
  lwo_elt0 : Nat → Nat → Value
  /-- The float comparator `Float::cmp`. -/
  flt_cmp : Nat × Nat → Nat × Nat → Int
  /-- The string comparator `str_cmp`. -/
  str_cmp : List Nat → List Nat → Int
  /-- The C library `qsort` applied to a buffer of values with `cmp`. -/
  qsort : List Value → List Value
  /-- The C library `qsort` applied to a buffer of index/value pairs with
  `cmp` on the index. -/
  qsort2 : List (Value × Value) → List (Value × Value)
  /-- The macro `VFLT_HASH`. -/
  flt_hash : Nat × Nat → Nat
  /-- The string hash `Hashtab::hashstr(text, STRMAPHASHSZ)`. -/
  hashstr : List Nat → Nat

/-- The function `cmp`: compare two values. -/
def cmp (env : Env) (v1 v2 : Value) : Int :=
  let i : Int := (v1.type : Int) - (v2.type : Int)
  if i ≠ 0 then i
  else
    match v1, v2 with
    | .nil, _ => 0
    | .int a, .int b => if a ≤ b then (if a < b then -1 else 0) else 1
    | .flt h1 l1, .flt h2 l2 => env.flt_cmp (h1, l1) (h2, l2)
    | .str _ s1, .str _ s2 => env.str_cmp s1 s2
    | .obj i1 _, .obj i2 _ => if i1 ≤ i2 then (if i1 < i2 then -1 else 0) else 1
    | .arr _ t1, .arr _ t2 => if t1 ≤ t2 then (if t1 < t2 then -1 else 0) else 1
    | .map _ t1, .map _ t2 => if t1 ≤ t2 then (if t1 < t2 then -1 else 0) else 1
    | .lwo _ t1, .lwo _ t2 => if t1 ≤ t2 then (if t1 < t2 then -1 else 0) else 1
    | _, _ => 0

/-- The `unsigned short` mask `-step` of `search`. -/
def search_mask (step : Nat) : Nat := (65536 - step % 65536) % 65536

/-- The forward probe of `search` over the entries that share the tag. -/
def search_fwd (v1 : Value) (v2 : List Value) (h step : Nat) : Nat → Nat → Option Nat
  | 0, _ => none
  | fuel + 1, m =>
    let m := m + step
    if m = h then none
    else
      let v3 := v2.getD m Value.nil
      if !T_INDEXED v3.type then none
      else if same_array v1 v3 then some m
      else if v1.atag ≠ v3.atag then none
      else search_fwd v1 v2 h step fuel m

/-- The backward probe of `search` over the entries that share the tag. -/
def search_bwd (v1 : Value) (v2 : List Value) (l step : Nat) : Nat → Nat → Option Nat
  | 0, _ => none
  | fuel + 1, m =>
    if m = l then none
    else
      let v3 := v2.getD (m - step) Value.nil
      if !T_INDEXED v3.type then none
      else
        let m := m - step
        if same_array v1 v3 then some m
        else if v1.atag ≠ v3.atag then none
        else search_bwd v1 v2 l step fuel m

/-- The loop of `search`: `ok m` is a `return m` from inside the loop, `error l`
is the exit to "not found" with the lower bound `l` reached. -/
def search_loop (env : Env) (v1 : Value) (v2 : List Value) (step : Nat) :
    Nat → Nat → Nat → Except Nat Nat
  | 0, l, _ => .error l
  | fuel + 1, l, h =>
    if l < h then
      let m := ((l + h) >>> 1) &&& search_mask step
      let v3 := v2.getD m Value.nil
      let c := cmp env v1 v3
      if c = 0 then
        if T_INDEXED v1.type && !same_array v1 v3 then
          match search_fwd v1 v2 h step h m with
          | some r => .ok r
          | none =>
            match search_bwd v1 v2 l step h m with
            | some r => .ok r
            | none => .error l
        else .ok m
      else if c < 0 then search_loop env v1 v2 step fuel l m
      else search_loop env v1 v2 step fuel (m + step) h
    else .error l

/-- The function `search`: search for a value in a sorted buffer of `h`
entries at stride `step`. -/
def search (env : Env) (v1 : Value) (v2 : List Value) (h step : Nat) (place : Bool) : Int :=
  match search_loop env v1 v2 step (h + 1) 0 h with
  | .ok m => (m : Int)
  | .error l => if place then (l : Int) else -1

/-- An entry of the hash table of a mapping (`struct mapelt`); `next` is the
rest of the chain it is in. -/
structure mapelt where
  hashval : Nat
  add : Bool
  idx : Value
  val : Value
  deriving DecidableEq, Repr

/-- The hash table of a mapping (`struct maphash`): `table` holds the chains,
one per bucket. -/
structure maphash where
  size : Nat
  sizemod : Nat
  tablesize : Nat
  table : List (List mapelt)
  deriving DecidableEq, Repr

/-- The header of an array, mapping or light-weight object: the element buffer
(`size` is its length; a mapping holds index/value pairs), the destruct epoch
last observed, for mappings the hash table and its modification flag, and the
reference count.  `arr_alloc` sets `hashmod = FALSE`, `hashed = NULL` and
`ref = 0`. -/
structure Array where
  elts : List Value
  odcount : Nat
  hashmod : Bool := false
  hashed : Option maphash := none
  ref : Nat := 0
  deriving DecidableEq, Repr

/-- The field `size`. -/
def Array.size (a : Array) : Nat := a.elts.length

/-- The destruct test of `copytmp` and of the set operations on one entry: a
destructed object, or a light-weight object whose first element is one. -/
def is_destructed (env : Env) : Value → Bool
  | .obj i c => env.destructed i c
  | .lwo a t =>
    match env.lwo_elt0 a t with
    | .obj i c => env.destructed i c
    | _ => false
  | _ => false

/-- One step of the scrub loops: `d_assign_elt(data, a, v, &nil_value)` on a
destructed entry. -/
def scrub_elt (env : Env) (v : Value) : Value :=
  if is_destructed env v then Value.nil else v

/-- The function `copytmp`: the temporary copy of the values of `a`, and `a`
afterwards. -/
def copytmp (env : Env) (a : Array) : List Value × Array :=
  if a.odcount = env.odcount then (a.elts, a)
  else
    let elts := a.elts.map (scrub_elt env)
    (elts, { a with elts := elts, odcount := env.odcount })

/-- Modelled from the spec: `i_copy` of the interpreter, which copies `n`
values and takes a reference on each (spec 6, per-value refcount primitive). -/
def i_copy (v : List Value) (n : Nat) : List Value := v.take n

/-- The function `arr_new`: the size check, and the `size` field of the new
header after the cast to `unsigned short`. -/
def arr_new (env : Env) (size : Nat) : Except Error Nat :=
  if size > env.max_size then .error .array_too_large
  else .ok (size % 65536)

/-- The outcome of a binary array operation: the new array and the two
operands as the call leaves them. -/
structure Result where
  val : Array
  a1 : Array
  a2 : Array
  deriving DecidableEq, Repr

/-- The function `arr_add`: add two arrays. -/
def arr_add (env : Env) (a1 a2 : Array) : Except Error Result :=
  match arr_new env (a1.size + a2.size) with
  | .error e => .error e
  | .ok sz =>
    .ok { val := { elts := (i_copy a1.elts a1.size ++ i_copy a2.elts a2.size).take sz,
                   odcount := env.odcount },
          a1 := a1, a2 := a2 }

/-- The loop of `arr_sub` (and of `arr_setadd`, `arr_setxadd`): the entries of
`v1` that `search` does not find in the sorted buffer `v2`. -/
def sub_loop (env : Env) (v2 : List Value) (size : Nat) : List Value → List Value
  | [] => []
  | v :: v1 =>
    if search env v v2 size 1 false < 0 then v :: sub_loop env v2 size v1
    else sub_loop env v2 size v1

/-- The loop of `arr_intersect`: the entries of `v1` that `search` finds in the
sorted buffer `v2`. -/
def intersect_loop (env : Env) (v2 : List Value) (size : Nat) : List Value → List Value
  | [] => []
  | v :: v1 =>
    if search env v v2 size 1 false ≥ 0 then v :: intersect_loop env v2 size v1
    else intersect_loop env v2 size v1

/-- The first operand of `arr_sub` and `arr_intersect` as the element loop
leaves it: scrubbed in place when its `odcount` is stale. -/
def scrub_operand (env : Env) (a : Array) : Array :=
  if a.odcount = env.odcount then a
  else { a with elts := a.elts.map (scrub_elt env), odcount := env.odcount }

/-- The function `arr_sub`: subtract one array from another. -/
def arr_sub (env : Env) (a1 a2 : Array) : Except Error Result :=
  if a2.size = 0 then
    match arr_new env a1.size with
    | .error e => .error e
    | .ok sz =>
      .ok { val := { elts := (i_copy a1.elts a1.size).take sz, odcount := env.odcount },
            a1 := a1, a2 := a2 }
  else
    match arr_new env a1.size with
    | .error e => .error e
    | .ok sz =>
      if sz = 0 then
        .ok { val := { elts := [], odcount := env.odcount }, a1 := a1, a2 := a2 }
      else
        let size := a2.size
        let t := copytmp env a2
        let v2 := env.qsort t.1
        let a1' := scrub_operand env a1
        .ok { val := { elts := sub_loop env v2 size a1'.elts, odcount := env.odcount },
              a1 := a1', a2 := t.2 }

/-- The function `arr_intersect`: A - (A - B). -/
def arr_intersect (env : Env) (a1 a2 : Array) : Except Error Result :=
  if a1.size = 0 ∨ a2.size = 0 then
    match arr_new env 0 with
    | .error e => .error e
    | .ok _ => .ok { val := { elts := [], odcount := env.odcount }, a1 := a1, a2 := a2 }
  else
    match arr_new env a1.size with
    | .error e => .error e
    | .ok _ =>
      let t := copytmp env a2
      let v2 := env.qsort t.1
      let a1' := scrub_operand env a1
      .ok { val := { elts := intersect_loop env v2 a2.size a1'.elts, odcount := env.odcount },
            a1 := a1', a2 := t.2 }

/-- The function `arr_setadd`: A + (B - A). -/
def arr_setadd (env : Env) (a1 a2 : Array) : Except Error Result :=
  if a1.size = 0 then
    match arr_new env a2.size with
    | .error e => .error e
    | .ok sz =>
      .ok { val := { elts := (i_copy a2.elts a2.size).take sz, odcount := env.odcount },
            a1 := a1, a2 := a2 }
  else if a2.size = 0 then
    match arr_new env a1.size with
    | .error e => .error e
    | .ok sz =>
      .ok { val := { elts := (i_copy a1.elts a1.size).take sz, odcount := env.odcount },
            a1 := a1, a2 := a2 }
  else
    let size := a1.size
    let t := copytmp env a1
    let v1 := env.qsort t.1
    let a2' := scrub_operand env a2
    let v3 := sub_loop env v1 size a2'.elts
    let n := v3.length
    if size + n > env.max_size then .error .array_too_large
    else
      match arr_new env (size + n) with
      | .error e => .error e
      | .ok sz =>
        .ok { val := { elts := (i_copy t.2.elts size ++ i_copy v3 n).take sz,
                       odcount := env.odcount },
              a1 := t.2, a2 := a2' }

/-- The first loop of `arr_setxadd`: the entries of `v1` not found in `v2`
(first half of the result) and the entries found (kept for the next round). -/
def setxadd_split (env : Env) (v2 : List Value) (size : Nat) :
    List Value → List Value × List Value
  | [] => ([], [])
  | v :: v1 =>
    let r := setxadd_split env v2 size v1
    if search env v v2 size 1 false < 0 then (v :: r.1, r.2) else (r.1, v :: r.2)

/-- The function `arr_setxadd`: (A - B) + (B - A). -/
def arr_setxadd (env : Env) (a1 a2 : Array) : Except Error Result :=
  if a1.size = 0 then
    match arr_new env a2.size with
    | .error e => .error e
    | .ok sz =>
      .ok { val := { elts := (i_copy a2.elts a2.size).take sz, odcount := env.odcount },
            a1 := a1, a2 := a2 }
  else if a2.size = 0 then
    match arr_new env a1.size with
    | .error e => .error e
    | .ok sz =>
      .ok { val := { elts := (i_copy a1.elts a1.size).take sz, odcount := env.odcount },
            a1 := a1, a2 := a2 }
  else
    let t1 := copytmp env a1
    let t2 := copytmp env a2
    let v2 := env.qsort t2.1
    let s := setxadd_split env v2 a2.size t1.1
    let v3 := s.1
    let num := v3.length
    let v1 := env.qsort s.2
    let w := sub_loop env v1 s.2.length t2.2.elts
    let n := w.length
    if num + n > env.max_size then .error .array_too_large
    else
      match arr_new env (num + n) with
      | .error e => .error e
      | .ok sz =>
        .ok { val := { elts := (i_copy v3 num ++ i_copy w n).take sz, odcount := env.odcount },
              a1 := t1.2, a2 := t2.2 }

/-- The comparator laws of a total order, for the float and string
comparators. -/
structure TotalCmp {α : Type} (c : α → α → Int) : Prop where
  refl : ∀ a, c a a = 0
  eq_of_zero : ∀ a b, c a b = 0 → a = b
  swap : ∀ a b, c a b < 0 ↔ 0 < c b a
  trans : ∀ a b d, c a b ≤ 0 → c b d ≤ 0 → c a d ≤ 0

/-- The float and string comparators are total orders. -/
structure Env.CmpLawful (env : Env) : Prop where
  flt : TotalCmp env.flt_cmp
  str : TotalCmp env.str_cmp

/-- What the code assumes of its configuration and collaborators: the cap fits
the size field, the float and string comparators are total orders and `qsort`
returns its input sorted by `cmp`. -/
structure Env.Lawful (env : Env) : Prop where
  cmp_laws : env.CmpLawful
  /-- The configured cap fits the `unsigned short` size field, also for
  mappings, which hold `2 * max_size` entries. -/
  max_fits : 2 * env.max_size ≤ USHRT_MAX
  qsort_perm : ∀ l, (env.qsort l).Perm l
  qsort_sorted : ∀ l, (env.qsort l).Pairwise (fun a b => cmp env a b ≤ 0)
  qsort2_perm : ∀ l, (env.qsort2 l).Perm l
  qsort2_sorted : ∀ l, (env.qsort2 l).Pairwise (fun p q => cmp env p.1 q.1 ≤ 0)

/-- Equality of two values as the code tests it (`map_sort`, `map_index`,
`search`): `cmp` is zero and, for collection handles, the header is the
same. -/
def veq (env : Env) (a b : Value) : Bool :=
  decide (cmp env a b = 0) && (!T_INDEXED a.type || same_array a b)

/-- The keys of a buffer of `n` entries at stride `step` are in `cmp` order. -/
def SortedAt (env : Env) (buf : List Value) (n step : Nat) : Prop :=
  ∀ i j, i < j → j < n → step ∣ i → step ∣ j →
    cmp env (buf.getD i Value.nil) (buf.getD j Value.nil) ≤ 0

/-- What one run of the loop of `search` establishes. -/
def SearchPost (env : Env) (v : Value) (buf : List Value) (n step : Nat) :
    Except Nat Nat → Prop
  | .ok m => m < n ∧ step ∣ m ∧ veq env v (buf.getD m Value.nil) = true
  | .error l => l ≤ n ∧ step ∣ l ∧ ∀ i, i < n → step ∣ i → veq env v (buf.getD i Value.nil) = false

/-- The difference of two lists of values in the words of the spec: the
entries of `A` that are equal to no entry of `B`, in the order of `A`. -/
def sub_spec (env : Env) (A B : List Value) : List Value :=
  A.filter (fun x => !B.any (fun y => veq env x y))

/-- The intersection of two lists of values in the words of the spec: the
entries of `A` that are equal to some entry of `B`, in the order of `A`. -/
def intersect_spec (env : Env) (A B : List Value) : List Value :=
  A.filter (fun x => B.any (fun y => veq env x y))

/-- The elements a set operation works on: those of `a`, with the destruct
scrub applied when the `odcount` of `a` is stale (`copytmp`). -/
def Array.live (env : Env) (a : Array) : List Value := (copytmp env a).1

/-- A float comparator for the reference environment: the halves in
lexicographic order. -/
def ref_flt_cmp (a b : Nat × Nat) : Int :=
  if a.1 < b.1 then -1 else if b.1 < a.1 then 1
  else if a.2 < b.2 then -1 else if b.2 < a.2 then 1 else 0

/-- A string comparator for the reference environment: the bytes in
lexicographic order. -/
def ref_str_cmp : List Nat → List Nat → Int
  | [], [] => 0
  | [], _ :: _ => -1
  | _ :: _, [] => 1
  | a :: s, b :: t => if a < b then -1 else if b < a then 1 else ref_str_cmp s t

/-- The reference environment before its sort functions are filled in. -/
def ref_env0 (max_size odcount : Nat) : Env where
  max_size := max_size
  odcount := odcount
  destructed := fun _ _ => false
  lwo_elt0 := fun _ _ => Value.nil
  flt_cmp := ref_flt_cmp
  str_cmp := ref_str_cmp
  qsort := fun l => l
  qsort2 := fun l => l
  flt_hash := fun f => f.1 + f.2
  hashstr := fun s => s.sum

/-- A reference environment, used to run the code on concrete inputs: cap
`max_size`, epoch `odcount`, no destructed object, lexicographic float and
string comparators, insertion sort for `qsort`. -/
def ref_env (max_size odcount : Nat) : Env :=
  { ref_env0 max_size odcount with
    qsort := List.insertionSort (fun a b => cmp (ref_env0 max_size odcount) a b ≤ 0)
    qsort2 := List.insertionSort (fun p q => cmp (ref_env0 max_size odcount) p.1 q.1 ≤ 0) }

/-- A well-formed operand of the set algebra: an array as `arr_new` builds
them, within the configured cap, whose entries refer to no destructed object,
so that the destruct scrub of spec 4.4 has nothing to replace. -/
def Array.ok (env : Env) (a : Array) : Prop :=
  a.size ≤ env.max_size ∧ ∀ v ∈ a.elts, is_destructed env v = false

/-- The function `map_new`: the size check, and the `size` field of the new
header after the cast to `unsigned short`. -/
def map_new (env : Env) (size : Nat) : Except Error Nat :=
  if size > env.max_size <<< 1 then .error .mapping_too_large
  else .ok (size % 65536)

/-- The hash value `map_index` computes for an index, by type. -/
def map_hash (env : Env) : Value → Nat
  | .nil => 4747
  | .int n => (n % 4294967296).toNat
  | .flt h l => env.flt_hash (h, l)
  | .str _ s => (env.hashstr s ^^^ s.length) % 4294967296
  | .obj i _ => i
  | .arr a _ => (a >>> 3) % 65536
  | .map a _ => (a >>> 3) % 65536
  | .lwo a _ => (a >>> 3) % 65536

/-- The test `val->type == T_OBJECT && val->u.objcnt != idx.u.objcnt` of
`map_index`: the stored index is a stale handle of the object. -/
def stale_object : Value → Value → Bool
  | .obj _ c, .obj _ c' => decide (c ≠ c')
  | _, _ => false

/-- The assignment `idx.u.objcnt = val->u.objcnt` that `map_index` makes when
`val` is an object. -/
def refresh_objcnt : Value → Value → Value
  | .obj _ c, .obj i _ => .obj i c
  | _, idx => idx

/-- The test `verify == NULL || (stored.type == T_STRING && stored.u.string ==
verify->u.string)` of `map_index`: the stored value is a string and it is the
same `String` as that of `verify`, by address; the texts are not compared. -/
def verify_ok : Option Value → Value → Bool
  | none, _ => true
  | some (.str p' _), .str p _ => decide (p = p')
  | some _, _ => false

/-- The position in a chain of the first entry whose index equals `val`
(`cmp` is zero and, for collection handles, the header is the same). -/
def chain_find (env : Env) (val : Value) : List mapelt → Option Nat
  | [] => none
  | e :: es =>
    if veq env val e.idx then some 0
    else
      match chain_find env val es with
      | some n => some (n + 1)
      | none => none

/-- The first loop of `map_dehash` in clean mode: the index/value pairs of the
array part without those whose index or value is a destructed object. -/
def dehash_clean_elts (env : Env) : List Value → List Value
  | k :: v :: rest =>
    if is_destructed env k || is_destructed env v then dehash_clean_elts env rest
    else k :: v :: dehash_clean_elts env rest
  | _ => []

/-- One chain of the table in the clean mode of `map_dehash`: the chain without
the entries that hold a destructed object and with every `add` flag cleared,
and the index/value pairs copied out of the entries that had `add` set. -/
def dehash_clean_chain (env : Env) : List mapelt → List mapelt × List (Value × Value)
  | [] => ([], [])
  | e :: es =>
    let r := dehash_clean_chain env es
    if is_destructed env e.idx || is_destructed env e.val then r
    else if e.add then ({ e with add := false } :: r.1, (e.idx, e.val) :: r.2)
    else (e :: r.1, r.2)

/-- The table loop of `map_dehash` in clean mode, with the counter `i` of
entries still to visit: the new table, the pairs copied out, and `j`, the
number of entries kept. -/
def dehash_clean_table (env : Env) :
    Nat → List (List mapelt) → List (List mapelt) × List (Value × Value) × Nat
  | _, [] => ([], [], 0)
  | i, c :: t =>
    if i > 0 then
      let r := dehash_clean_chain env c
      let rest := dehash_clean_table env (i - c.length) t
      (r.1 :: rest.1, r.2 ++ rest.2.1, r.1.length + rest.2.2)
    else (c :: t, [], 0)

/-- One chain of the table in the plain mode of `map_dehash`, with the counter
`i` of `add` entries still to find: the counter afterwards, the chain with the
flags cleared, and the pairs copied out. -/
def dehash_chain : Nat → List mapelt → Nat × List mapelt × List (Value × Value)
  | i, [] => (i, [], [])
  | i, e :: es =>
    if e.add then
      if i - 1 = 0 then (0, { e with add := false } :: es, [(e.idx, e.val)])
      else
        let r := dehash_chain (i - 1) es
        (r.1, { e with add := false } :: r.2.1, (e.idx, e.val) :: r.2.2)
    else
      let r := dehash_chain i es
      (r.1, e :: r.2.1, r.2.2)

/-- The table loop of `map_dehash` in plain mode. -/
def dehash_table : Nat → List (List mapelt) → List (List mapelt) × List (Value × Value)
  | _, [] => ([], [])
  | i, c :: t =>
    if i > 0 then
      let r := dehash_chain i c
      let rest := dehash_table r.1 t
      (r.2.1 :: rest.1, r.2.2 ++ rest.2)
    else (c :: t, [])

/-- A buffer of index/value pairs laid out as `elts` holds them. -/
def flat : List (Value × Value) → List Value
  | [] => []
  | (k, v) :: ps => k :: v :: flat ps

/-- The merge loop of `map_dehash`: the sorted array part `v1` and the sorted
pairs `v2` of the hash table, merged by `cmp` on the index, the array part
first on a tie; then the tails are copied. -/
def merge_elts (env : Env) : Nat → List Value → List (Value × Value) → List Value
  | 0, v1, v2 => v1 ++ flat v2
  | fuel + 1, k1 :: x1 :: v1, (k2, x2) :: v2 =>
    if cmp env k1 k2 ≤ 0 then k1 :: x1 :: merge_elts env fuel v1 ((k2, x2) :: v2)
    else k2 :: x2 :: merge_elts env fuel (k1 :: x1 :: v1) v2
  | _ + 1, v1, v2 => v1 ++ flat v2

/-- The first part of `map_dehash`: in clean mode, remove destructed objects
from the array part. -/
def map_dehash_array (env : Env) (m : Array) (clean : Bool) : Array :=
  if clean && decide (m.size ≠ 0) then { m with elts := dehash_clean_elts env m.elts }
  else m

/-- The second part of `map_dehash`: merge a copy of the hash table `h` of `m`
with the sorted array. -/
def map_dehash_merge (env : Env) (m : Array) (h : maphash) (clean : Bool) : Array :=
  if clean then
    let r := dehash_clean_table env h.size h.table
    let v2 := r.2.1
    { m with
      hashed := some { h with table := r.1, size := r.2.2, sizemod := 0 }
      hashmod := false
      elts := if v2.length ≠ 0 then
          merge_elts env (m.elts.length + v2.length) m.elts (env.qsort2 v2)
        else m.elts }
  else
    let r := dehash_table h.sizemod h.table
    let v2 := r.2
    { m with
      hashed := some { h with table := r.1, sizemod := 0 }
      hashmod := false
      elts := if h.sizemod ≠ 0 then
          merge_elts env (m.elts.length + v2.length) m.elts (env.qsort2 v2)
        else m.elts }

/-- The function `map_dehash`: commit changes from the hash table to the array
part. -/
def map_dehash (env : Env) (m : Array) (clean : Bool) : Array :=
  let m1 := map_dehash_array env m clean
  match m1.hashed with
  | none => m1
  | some h =>
    if m1.hashmod || (clean && decide (h.size ≠ 0)) then map_dehash_merge env m1 h clean
    else m1

/-- The function `map_compact`: copy new elements from the hash table into the
array, and remove destructed objects.  `foreign` is the plane test
`!THISPLANE(m->primary) || !SAMEPLANE(data, m->primary->data)`. -/
def map_compact (env : Env) (foreign : Bool) (m : Array) : Array :=
  if m.hashmod || decide (m.odcount ≠ env.odcount) then
    let m1 := if m.hashmod && foreign then map_dehash env m false else m
    { map_dehash env m1 true with odcount := env.odcount }
  else m

/-- The function `map_size`: the mapping after compaction and its number of
pairs. -/
def map_size (env : Env) (foreign : Bool) (m : Array) : Array × Nat :=
  let m1 := map_compact env foreign m
  (m1, m1.size >>> 1)

/-- Put an entry at the head of the chain of its bucket, `hashval %
tablesize`. -/
def table_push (ts : Nat) (table : List (List mapelt)) (e : mapelt) : List (List mapelt) :=
  table.set (e.hashval % ts) (e :: table.getD (e.hashval % ts) [])

/-- The copy loop of `map_grow` over one chain of the old table. -/
def rehash_chain (ts : Nat) : List (List mapelt) → List mapelt → List (List mapelt)
  | table, [] => table
  | table, e :: es => rehash_chain ts (table_push ts table e) es

/-- The copy loop of `map_grow` over the old table, with the counter `j` of
entries still to copy. -/
def rehash_table (ts : Nat) : Nat → List (List mapelt) → List (List mapelt) →
    List (List mapelt)
  | _, table, [] => table
  | j, table, c :: t =>
    if j > 0 then rehash_table ts (j - c.length) (rehash_chain ts table c) t
    else table

/-- The size of a fresh hash table, `MTABLE_SIZE`. -/
def MTABLE_SIZE : Nat := 16

/-- The hash table `map_grow` adds its entry to: a fresh table of
`MTABLE_SIZE` chains when there is none, the table extended to twice its size
when it is three quarters full, the table as it is otherwise. -/
def map_grow_table : Option maphash → maphash
  | none => { size := 0, sizemod := 0, tablesize := MTABLE_SIZE,
              table := List.replicate MTABLE_SIZE [] }
  | some h =>
    if h.size <<< 2 ≥ h.tablesize * 3 then
      let i := h.tablesize <<< 1
      { size := h.size, sizemod := h.sizemod, tablesize := i,
        table := rehash_table i h.size (List.replicate i []) h.table }
    else h

/-- The end of `map_grow`: count the new entry and put it, with `add = FALSE`
and nil index and value, at the head of its chain. -/
def map_grow_entry (h : maphash) (hashval : Nat) : maphash :=
  { h with size := h.size + 1
           table := table_push h.tablesize h.table
             { hashval := hashval, add := false, idx := Value.nil, val := Value.nil } }

/-- The number of pending additions of a mapping, `(h == NULL) ? 0 :
h->sizemod`. -/
def Array.pending (m : Array) : Nat :=
  match m.hashed with
  | none => 0
  | some h => h.sizemod

/-- The test of `map_grow` for a mapping that is full: an addition to a mapping
whose pairs and pending additions reach `max_size`. -/
def map_grow_full (env : Env) (m : Array) (add : Bool) : Bool :=
  add && decide ((m.size >>> 1) + m.pending ≥ env.max_size)

/-- The function `map_grow`: add an entry with hash value `hashval` to the hash
table of `m`, at the head of its chain; the entry is returned with `add =
FALSE` and nil index and value, for the caller to fill in. -/
def map_grow (env : Env) (foreign : Bool) (m : Array) (hashval : Nat) (add : Bool) :
    Except Error Array :=
  if map_grow_full env m add then
    let m1 := map_compact env foreign m
    if m1.size >>> 1 ≥ env.max_size then .error .mapping_too_large_to_grow
    else .ok { m1 with hashed := some (map_grow_entry (map_grow_table m1.hashed) hashval) }
  else .ok { m with hashed := some (map_grow_entry (map_grow_table m.hashed) hashval) }

/-- Overwrite the entry at the head of chain `b` of the table (the entry
`map_grow` returned). -/
def table_set_head (table : List (List mapelt)) (b : Nat) (e : mapelt) : List (List mapelt) :=
  table.set b (e :: (table.getD b []).tail)

/-- The end of `map_index`, when the index was not found in the hash table:
`map_grow`, and the new entry filled in with the index and the value, as an
addition (`add`) or as a copy of a pair of the array part. -/
def map_index_extend (env : Env) (foreign : Bool) (m : Array) (i : Nat) (add : Bool)
    (idx x : Value) : Except Error Array :=
  match map_grow env foreign m i add with
  | .error e => .error e
  | .ok m' =>
    match m'.hashed with
    | none => .ok m'
    | some h =>
      let e : mapelt := { hashval := i, add := add, idx := idx, val := x }
      let table := table_set_head h.table (i % h.tablesize) e
      if add then
        .ok { m' with hashed := some { h with table := table, sizemod := h.sizemod + 1 },
                      hashmod := true }
      else .ok { m' with hashed := some { h with table := table } }

/-- What `map_index` does with the entry `e` it has found at position `pos` of
chain `b` of the hash table: the mapping afterwards, and either the value
returned or, on a `break`, `none`: go on with the array part. -/
def map_index_hashed (m : Array) (h : maphash) (b pos : Nat) (e : mapelt) (val : Value)
    (elt : Option Value) (del : Bool) (verify : Option Value) : Array × Option Value :=
  let chain := h.table.getD b []
  if elt.isSome && verify_ok verify e.val then
    let x := elt.getD Value.nil
    let e1 : mapelt := { e with idx := refresh_objcnt val e.idx, val := x }
    let h' : maphash := { h with table := h.table.set b (chain.set pos e1) }
    if e.add then ({ m with hashed := some h' }, some x)
    else ({ m with hashed := some h' }, none)
  else if del || stale_object val e.idx then
    let sizemod := if e.add then h.sizemod - 1 else h.sizemod
    let hashmod := if e.add && decide (sizemod = 0) then false else m.hashmod
    let h' : maphash :=
      { h with table := h.table.set b (chain.eraseIdx pos), size := h.size - 1,
               sizemod := sizemod }
    if e.add then ({ m with hashed := some h', hashmod := hashmod }, some Value.nil)
    else ({ m with hashed := some h', hashmod := hashmod }, none)
  else (m, some e.val)

/-- The lookup of `map_index` in the hash table: `none` when there is no table
or no entry for `val` in its chain. -/
def map_index_lookup (env : Env) (m : Array) (val : Value) (elt : Option Value) (del : Bool)
    (verify : Option Value) : Option (Array × Option Value) :=
  match m.hashed with
  | none => none
  | some h =>
    let b := map_hash env val % h.tablesize
    match chain_find env val (h.table.getD b []) with
    | none => none
    | some pos =>
      some (map_index_hashed m h b pos ((h.table.getD b []).getD pos
        { hashval := 0, add := false, idx := Value.nil, val := Value.nil }) val elt del verify)

/-- The array part of `map_index` and its end: `hash` tells whether the index
was found in the hash table. -/
def map_index_array (env : Env) (foreign : Bool) (m : Array) (val : Value)
    (elt : Option Value) (del : Bool) (verify : Option Value) (hash : Bool) :
    Except Error (Array × Value) :=
  let i := map_hash env val
  let n : Int := if m.size > 0 then search env val m.elts m.size 2 false else -1
  if n ≥ 0 then
    let n := n.toNat
    let v := m.elts.getD n Value.nil
    let v1 := m.elts.getD (n + 1) Value.nil
    if elt.isSome && verify_ok verify v1 then
      let x := elt.getD Value.nil
      let v' := refresh_objcnt val v
      let m := { m with elts := (m.elts.set (n + 1) x).set n v' }
      if !hash then
        match map_index_extend env foreign m i false v' x with
        | .error e => .error e
        | .ok m' => .ok (m', x)
      else .ok (m, x)
    else if del || stale_object val v then
      .ok ({ m with elts := (m.elts.eraseIdx n).eraseIdx n }, Value.nil)
    else if !hash then
      match map_index_extend env foreign m i false v v1 with
      | .error e => .error e
      | .ok m' => .ok (m', v1)
    else .ok (m, v1)
  else
    match elt with
    | none => .ok (m, Value.nil)
    | some x =>
      if !hash then
        match map_index_extend env foreign m i true val x with
        | .error e => .error e
        | .ok m' => .ok (m', x)
      else .ok (m, x)

/-- The flag `del` of `map_index`: an assignment of nil is a deletion. -/
def map_index_del : Option Value → Bool
  | some x => VAL_NIL x
  | none => false

/-- The argument `elt` of `map_index` after its first test: reset to `NULL`
for a deletion. -/
def map_index_elt (elt : Option Value) : Option Value :=
  if map_index_del elt then none else elt

/-- The second test of `map_index`: a mapping with pending additions that is
indexed from another plane is folded first. -/
def map_index_plane (env : Env) (foreign : Bool) (m : Array) : Array :=
  if m.hashmod && foreign then map_dehash env m false else m

/-- The body of `map_index` after its first two tests: the hash table, then the
array part. -/
def map_index_body (env : Env) (foreign : Bool) (m : Array) (val : Value)
    (elt : Option Value) (del : Bool) (verify : Option Value) : Except Error (Array × Value) :=
  match map_index_lookup env m val elt del verify with
  | some (m', some r) => .ok (m', r)
  | some (m', none) => map_index_array env foreign m' val elt del verify true
  | none => map_index_array env foreign m val elt del verify false

/-- The function `map_index`: index a mapping with a value; with `elt`
supplied, perform an assignment (a nil `elt` deletes).  The result is the
mapping afterwards and the value the returned pointer refers to. -/
def map_index (env : Env) (foreign : Bool) (m : Array) (val : Value) (elt : Option Value)
    (verify : Option Value) : Except Error (Array × Value) :=
  map_index_body env foreign (map_index_plane env foreign m) val (map_index_elt elt)
    (map_index_del elt) verify

/-- The indices of the pairs of a buffer, every second entry. -/
def elts_indices : List Value → List Value
  | k :: _ :: rest => k :: elts_indices rest
  | _ => []

/-- The values of the pairs of a buffer, every second entry. -/
def elts_values : List Value → List Value
  | _ :: v :: rest => v :: elts_values rest
  | _ => []

/-- The function `map_indices`: the mapping after compaction and the array of
its indices. -/
def map_indices (env : Env) (foreign : Bool) (m : Array) : Except Error (Array × Array) :=
  let m1 := map_compact env foreign m
  let n := m1.size >>> 1
  match arr_new env n with
  | .error e => .error e
  | .ok sz => .ok (m1, { elts := (elts_indices m1.elts).take sz, odcount := env.odcount })

/-- The function `map_values`: the mapping after compaction and the array of
its values. -/
def map_values (env : Env) (foreign : Bool) (m : Array) : Except Error (Array × Array) :=
  let m1 := map_compact env foreign m
  let n := m1.size >>> 1
  match arr_new env n with
  | .error e => .error e
  | .ok sz => .ok (m1, { elts := (elts_values m1.elts).take sz, odcount := env.odcount })

/-- The shape every mapping header keeps: the element buffer holds whole
index/value pairs, and a hash table has `tablesize > 0` chains. -/
def Array.wf (m : Array) : Prop :=
  m.elts.length % 2 = 0 ∧
    ∀ h, m.hashed = some h → h.table.length = h.tablesize ∧ 0 < h.tablesize

/-- The mappings reachable from an empty mapping by calls of `map_index` that
return, in any environment and with any arguments. -/
inductive Reachable : Array → Prop
  | empty (od : Nat) : Reachable { elts := [], odcount := od }
  | index (env : Env) (foreign : Bool) (m : Array) (val : Value) (elt verify : Option Value)
      (m' : Array) (r : Value) :
      Reachable m → map_index env foreign m val elt verify = .ok (m', r) → Reachable m'

/-- The index and value of the entry `map_index` finds for `k` in a chain: the
first entry whose index equals `k`. -/
def chain_lookup (env : Env) (k : Value) (chain : List mapelt) : Option (Value × Value) :=
  (chain.find? (fun e => veq env k e.idx)).map (fun e => (e.idx, e.val))

/-- The index and value of the entry `map_index` finds for `k` in the hash
table of `m`. -/
def hash_lookup (env : Env) (k : Value) (m : Array) : Option (Value × Value) :=
  match m.hashed with
  | none => none
  | some h => chain_lookup env k (h.table.getD (map_hash env k % h.tablesize) [])

/-- The index and value of an entry. -/
def mapelt.pair (e : mapelt) : Value × Value := (e.idx, e.val)

/-- The reference environment one destruct epoch later, after the object with
index `oindex` has been destructed. -/
def ref_env_after (max_size odcount oindex : Nat) : Env :=
  { ref_env max_size (odcount + 1) with destructed := fun i _ => decide (i = oindex) }

/-- The representation invariant of the hash table `h` of a mapping whose array
part has the indices `keys` (spec 3.2, 3.3): the table has `tablesize` chains,
`size` counts its entries and `sizemod` those with `add` set, `hashmod` tells
whether there are any, every entry sits in the chain of its hash value, which
is the hash of its index, no two entries have equal indices, a pending addition
is equal to no index of the array part, and the pairs of the array with the
pending additions are within the configured cap. -/
structure TableOK (env : Env) (keys : List Value) (hashmod : Bool) (h : maphash) : Prop where
  len : h.table.length = h.tablesize
  pos : 0 < h.tablesize
  size_eq : h.size = h.table.flatten.length
  sizemod_eq : h.sizemod = (h.table.flatten.filter (fun e => e.add)).length
  hashmod_eq : hashmod = decide (0 < h.sizemod)
  bucket : ∀ b e, e ∈ h.table.getD b [] → e.hashval % h.tablesize = b
  hashval : ∀ e ∈ h.table.flatten, e.hashval = map_hash env e.idx
  distinct : (h.table.flatten.map (fun e => e.idx)).Pairwise (fun a b => veq env a b = false)
  fresh : ∀ e ∈ h.table.flatten, e.add = true → ∀ x ∈ keys, veq env e.idx x = false
  cap : keys.length + h.sizemod ≤ env.max_size

/-- The representation invariant of a mapping (spec 3.2): the array part holds
whole pairs sorted by `cmp` on the index, no two indices are equal, and the hash
table, when there is one, is consistent with it; without a hash table `hashmod`
is false and the pairs are within the configured cap. -/
structure Inv (env : Env) (m : Array) : Prop where
  even : m.elts.length % 2 = 0
  sorted : (elts_indices m.elts).Pairwise (fun a b => cmp env a b ≤ 0)
  distinct : (elts_indices m.elts).Pairwise (fun a b => veq env a b = false)
  nohash : m.hashed = none → m.hashmod = false ∧ (elts_indices m.elts).length ≤ env.max_size
  table : ∀ h, m.hashed = some h → TableOK env (elts_indices m.elts) m.hashmod h

/-- No index of the mapping, in the array part or in the hash table, is equal
to `k`. -/
def KeyFree (env : Env) (k : Value) (m : Array) : Prop :=
  (∀ x ∈ elts_indices m.elts, veq env k x = false) ∧
    ∀ h, m.hashed = some h → ∀ e ∈ h.table.flatten, veq env k e.idx = false

/-- The entry of a chain with its `add` flag cleared. -/
def mapelt.clear (e : mapelt) : mapelt := { e with add := false }

/-- The test of `map_dehash` in clean mode on an entry of the hash table:
neither its index nor its value is a destructed object. -/
def mapelt.live (env : Env) (e : mapelt) : Bool :=
  !(is_destructed env e.idx || is_destructed env e.val)

/-- All indices a mapping holds: those of the array part, then those of the
entries of the hash table. -/
def Array.keys (m : Array) : List Value :=
  elts_indices m.elts ++
    match m.hashed with
    | none => []
    | some h => h.table.flatten.map (fun e => e.idx)

/-- The function `arr_ckrange`: check an array subrange. -/
def arr_ckrange (a : Array) (l1 l2 : Int) : Except Error Unit :=
  if l1 < 0 ∨ l1 > l2 + 1 ∨ l2 ≥ (a.size : Int) then .error .invalid_array_range
  else .ok ()

/-- The function `arr_range`: return a subrange of an array. -/
def arr_range (env : Env) (a : Array) (l1 l2 : Int) : Except Error Array :=
  if l1 < 0 ∨ l1 > l2 + 1 ∨ l2 ≥ (a.size : Int) then .error .invalid_array_range
  else
    match arr_new env (l2 - l1 + 1).toNat with
    | .error e => .error e
    | .ok sz =>
      .ok { elts := (i_copy (a.elts.drop l1.toNat) ((l2 - l1 + 1).toNat % 65536)).take sz,
            odcount := env.odcount }

/-- A backup record (`struct arrbak`): the address of the array backed up, the
original size, the original elements (`NULL` for an empty array) and the
original dataplane. -/
structure arrbak where
  arr : Nat
  size : Nat
  original : Option (List Value)
  plane : Nat
  deriving DecidableEq, Repr

/-- The memory the backup code works on: the collection headers by address
(`none`: no header there, never allocated or deleted), and the backup chunks by
the address of the chunk pointer (`abchunk **`; `none` is a `NULL` chunk). -/
structure Store where
  heap : Nat → Option Array
  chunks : Nat → Option (List arrbak)

/-- The collaborators of the backup code that are not in `array.cpp`: the
reference primitive `i_del_value` of the interpreter and the hooks
`d_commit_arr` and `d_discard_arr` of the persistent layer. -/
structure Hooks where
  i_del_value : Store → Value → Store
  d_commit_arr : Store → Nat → Nat → Nat → Store × Option Nat
  d_discard_arr : Store → Nat → Nat → Store

/-- Write a header at an address. -/
def Store.put (s : Store) (a : Nat) (hdr : Option Array) : Store :=
  { s with heap := fun x => if x = a then hdr else s.heap x }

/-- Modelled from the spec: the macro `arr_ref` of `array.h`, which takes a
reference on a collection (spec 4.9, "increment `ref` on the collection"). -/
def arr_ref (s : Store) (a : Nat) : Store :=
  match s.heap a with
  | none => s
  | some hdr => s.put a (some { hdr with ref := hdr.ref + 1 })

/-- The address a collection value points to (`v->u.array`). -/
def Value.addr : Value → Option Nat
  | .arr a _ => some a
  | .map a _ => some a
  | .lwo a _ => some a
  | _ => none

/-- The entries of the chains of a hash table that the loops of `arr_del` and
of `abchunk::item` visit, with the counter `i` of entries still to visit. -/
def table_entries : Nat → List (List mapelt) → List mapelt
  | _, [] => []
  | i, c :: t => if i > 0 then c ++ table_entries (i - c.length) t else []

/-- The values `arr_del` and the discard branch of `abchunk::item` release
when they free a hash table: the index and the value of every entry with
`add` set. -/
def table_added : List mapelt → List Value
  | [] => []
  | e :: es => if e.add then e.idx :: e.val :: table_added es else table_added es

/-- The decrement `--(a->ref)` of `arr_del`.  The reference count, declared
in `array.h` with the other fields of the header, is taken to be an unsigned
32-bit `Uint` as the tag is: from 0 the decrement wraps to the largest value,
so that the result is 0 for a count of 1 only.  On the counts a `Uint` holds
this is `(r + 4294967295) % 4294967296`. -/
def ref_dec (r : Nat) : Nat := if r = 0 then 4294967295 else r - 1

/-- The function `arr_del`: remove a reference from an array or mapping; if
none are left (`--(a->ref) == 0`), its elements and the added entries of its
hash table are released and the header is deleted.  The static list `dlist`,
which defers the deletion of arrays released meanwhile, is left to
`i_del_value`. -/
def arr_del (hk : Hooks) (s : Store) (a : Nat) : Store :=
  match s.heap a with
  | none => s
  | some hdr =>
    if ref_dec hdr.ref = 0 then
      let s1 := s.put a (some { hdr with ref := 0 })
      let s2 := hdr.elts.foldl hk.i_del_value s1
      let s3 :=
        match (s2.heap a).bind (fun hdr2 => hdr2.hashed) with
        | none => s2
        | some h => (table_added (table_entries h.size h.table)).foldl hk.i_del_value s2
      s3.put a none
    else s.put a (some { hdr with ref := ref_dec hdr.ref })

/-- The function `abchunk::backup`: add an array backup to the backup chunk
at `ac`, which is created when there is none. -/
def abchunk.backup (s : Store) (ac : Nat) (a : Nat) (elts : Option (List Value)) (size : Nat)
    (plane : Nat) : Store :=
  { s with chunks := fun c =>
      if c = ac then
        some ((s.chunks ac).getD [] ++
          [{ arr := a, size := size, original := elts, plane := plane }])
      else s.chunks c }

/-- The loop of `arr_backup` over the copied elements: a reference is taken on
every collection among them. -/
def backup_refs (s : Store) : List Value → Store
  | [] => s
  | v :: vs =>
    match v.addr with
    | some b => backup_refs (arr_ref s b) vs
    | none => backup_refs s vs

/-- The function `arr_backup`: make a backup of the current elements of the
array or mapping at address `a`; `plane` is `a->primary->plane`. -/
def arr_backup (s : Store) (ac : Nat) (a : Nat) (plane : Nat) : Store :=
  match s.heap a with
  | none => s
  | some hdr =>
    let s1 := if hdr.size ≠ 0 then backup_refs s hdr.elts else s
    let elts := if hdr.size ≠ 0 then some hdr.elts else none
    arr_ref (abchunk.backup s1 ac a elts hdr.size plane) a

/-- The commit branch of `abchunk::item`, for the backup record `ab`. -/
def abchunk.item_commit (hk : Hooks) (s : Store) (plane : Nat) (merge : Bool) (ab : arrbak) :
    Store :=
  let r := hk.d_commit_arr s ab.arr plane ab.plane
  if merge then
    match r.2 with
    | some ac => abchunk.backup r.1 ac ab.arr ab.original ab.size ab.plane
    | none =>
      let s1 :=
        match ab.original with
        | some o => (o.take ab.size).foldl hk.i_del_value r.1
        | none => r.1
      arr_del hk s1 ab.arr
  else r.1

/-- The first loop of the discard branch of `abchunk::item`: the current
elements of the array at `a` are released. -/
def discard_elts (hk : Hooks) (s : Store) (a : Nat) : Store :=
  match s.heap a with
  | none => s
  | some hdr => hdr.elts.foldl hk.i_del_value s

/-- The header at `a` with its hash table removed (`a->hashed = NULL;
a->hashmod = FALSE`). -/
def discard_unhash (s : Store) (a : Nat) : Store :=
  match s.heap a with
  | none => s
  | some hdr => s.put a (some { hdr with hashed := none, hashmod := false })

/-- The second part of the discard branch of `abchunk::item`: the hash table
of the array at `a`, when there is one, is freed, the added entries being
released. -/
def discard_hash (hk : Hooks) (s : Store) (a : Nat) : Store :=
  match (s.heap a).bind (fun hdr => hdr.hashed) with
  | none => s
  | some h =>
    discard_unhash ((table_added (table_entries h.size h.table)).foldl hk.i_del_value s) a

/-- The end of the discard branch of `abchunk::item`: `a->elts = ab->original;
a->size = ab->size`. -/
def discard_restore (s : Store) (ab : arrbak) : Store :=
  match s.heap ab.arr with
  | none => s
  | some hdr => s.put ab.arr (some { hdr with elts := (ab.original.getD []).take ab.size })

/-- The discard branch of `abchunk::item`, for the backup record `ab`. -/
def abchunk.item_discard (hk : Hooks) (s : Store) (ab : arrbak) : Store :=
  arr_del hk
    (discard_restore
      (discard_hash hk (discard_elts hk (hk.d_discard_arr s ab.arr ab.plane) ab.arr) ab.arr) ab)
    ab.arr

/-- The function `abchunk::item`: commit (to `plane`) or discard (`plane` is
`NULL`) one backup record. -/
def abchunk.item (hk : Hooks) (plane : Option Nat) (merge : Bool) (s : Store) (ab : arrbak) :
    Store :=
  match plane with
  | some p => abchunk.item_commit hk s p merge ab
  | none => abchunk.item_discard hk s ab

/-- Modelled from the spec: `Chunk::items` of the chunk allocator, which calls
`item` on every record of the chunk (spec 4.9: commit and discard are total
over the chunk, the order within a chunk is irrelevant). -/
def abchunk.items (hk : Hooks) (plane : Option Nat) (merge : Bool) (s : Store)
    (records : List arrbak) : Store :=
  records.foldl (abchunk.item hk plane merge) s

/-- The function `arr_commit`: commit current array values and discard
originals; with `merge` the chunk is deleted and `*ac` reset. -/
def arr_commit (hk : Hooks) (s : Store) (ac : Nat) (plane : Nat) (merge : Bool) : Store :=
  match s.chunks ac with
  | none => s
  | some records =>
    let s1 := abchunk.items hk (some plane) merge s records
    if merge then { s1 with chunks := fun c => if c = ac then none else s1.chunks c }
    else s1

/-- The function `arr_discard`: restore originals and discard current values;
the chunk is deleted (`*ac` is left to the caller). -/
def arr_discard (hk : Hooks) (s : Store) (ac : Nat) : Store :=
  match s.chunks ac with
  | none => s
  | some records =>
    let s1 := abchunk.items hk none false s records
    { s1 with chunks := fun c => if c = ac then none else s1.chunks c }

/-- A reference instance of the hooks, for concrete runs: `i_del_value` and
`d_discard_arr` leave the store alone, and `d_commit_arr` returns the
forwarding chunk `fwd` (`none`: no forwarding chunk). -/
def ref_hooks (fwd : Option Nat) : Hooks :=
  { i_del_value := fun s _ => s
    d_commit_arr := fun s _ _ _ => (s, fwd)
    d_discard_arr := fun s _ _ => s }

/-- The store that holds the single header `hdr`, at address `a`, and no
backup chunk. -/
def ref_store (a : Nat) (hdr : Array) : Store :=
  { heap := fun x => if x = a then some hdr else none
    chunks := fun _ => none }

/-- The index/value pairs of a buffer. -/
def elts_pairs : List Value → List (Value × Value)
  | k :: v :: rest => (k, v) :: elts_pairs rest
  | _ => []

/-- The start of the subrange in `map_range` (an `unsigned short`): 0 without
a lower bound, else the position `search` returns for it. -/
def map_range_from (env : Env) (m : Array) : Option Value → Nat
  | none => 0
  | some v1 => (search env v1 m.elts m.size 2 true).toNat % 65536

/-- The end of the subrange in `map_range` (an `unsigned short`): the size
without an upper bound, else the position `search` returns for it, moved past
the pair there when its index is the bound. -/
def map_range_to (env : Env) (m : Array) : Option Value → Nat
  | none => m.size
  | some v2 =>
    let to_ := (search env v2 m.elts m.size 2 true).toNat % 65536
    if to_ < m.size ∧ cmp env v2 (m.elts.getD to_ Value.nil) = 0 ∧
        (!T_INDEXED v2.type || same_array v2 (m.elts.getD to_ Value.nil)) then
      (to_ + 2) % 65536
    else to_

/-- The end of `map_range`: the new mapping with the pairs from `from_` up to
`to_`. -/
def map_range_copy (env : Env) (m : Array) (from_ to_ : Nat) : Except Error Array :=
  if from_ ≥ to_ then
    match map_new env 0 with
    | .error e => .error e
    | .ok _ => .ok { elts := [], odcount := env.odcount }
  else
    match map_new env (to_ - from_) with
    | .error e => .error e
    | .ok sz =>
      .ok { elts := (i_copy (m.elts.drop from_) (to_ - from_)).take sz,
            odcount := env.odcount }

/-- The function `map_range`: return a mapping value subrange; the result is
the mapping after compaction and the new mapping. -/
def map_range (env : Env) (foreign : Bool) (m : Array) (v1 v2 : Option Value) :
    Except Error (Array × Array) :=
  let m1 := map_compact env foreign m
  match map_range_copy env m1 (map_range_from env m1 v1) (map_range_to env m1 v2) with
  | .error e => .error e
  | .ok range => .ok (m1, range)

/-- What one run of the loop of `search` establishes when no entry of the
buffer is a collection: `ok m` is the position of an entry that compares
equal, `error l` the position before which the entries are smaller and from
which on they are greater. -/
def PlacePost (env : Env) (v : Value) (buf : List Value) (n step : Nat) :
    Except Nat Nat → Prop
  | .ok m => m < n ∧ step ∣ m ∧ cmp env v (buf.getD m Value.nil) = 0
  | .error l => l ≤ n ∧ step ∣ l ∧
      (∀ i, i < l → step ∣ i → 0 < cmp env v (buf.getD i Value.nil)) ∧
      ∀ i, l ≤ i → i < n → step ∣ i → cmp env v (buf.getD i Value.nil) < 0

/-- The interval of `map_range` in the words of the spec: `lo <= k <= hi`
under `cmp`, both bounds inclusive, an absent bound being unbounded. -/
def in_range (env : Env) (lo hi : Option Value) (k : Value) : Bool :=
  (match lo with
   | none => true
   | some l => decide (cmp env l k ≤ 0)) &&
  (match hi with
   | none => true
   | some h => decide (cmp env k h ≤ 0))

/-- The look-ahead of `map_add` over the pairs of `m2` after the current one:
whether the array of `v1` "is somewhere else in m2"; the scan ends at the
first index that is no collection or has another tag. -/
def map_add_ahead (v1 : Value) : List Value → Bool
  | v :: _ :: rest =>
    if !T_INDEXED v.type || decide (v.atag ≠ v1.atag) then false
    else if same_array v v1 then true
    else map_add_ahead v1 rest
  | _ => false

/-- The merge loop of `map_add` and the copy of the tails, on the array parts
of `m1` and `m2`. -/
def map_add_loop (env : Env) : Nat → List Value → List Value → List Value
  | 0, v1, v2 => v1 ++ v2
  | fuel + 1, k1 :: x1 :: v1, k2 :: x2 :: v2 =>
    let c := cmp env k1 k2
    if c < 0 then k1 :: x1 :: map_add_loop env fuel v1 (k2 :: x2 :: v2)
    else if c = 0 then
      if T_INDEXED k1.type && !same_array k1 k2 then
        if map_add_ahead k1 v2 then k2 :: x2 :: map_add_loop env fuel v1 v2
        else k2 :: x2 :: k1 :: x1 :: map_add_loop env fuel v1 v2
      else k2 :: x2 :: map_add_loop env fuel v1 v2
    else k2 :: x2 :: map_add_loop env fuel (k1 :: x1 :: v1) v2
  | _ + 1, v1, v2 => v1 ++ v2

/-- The outcome of a binary mapping operation: the new mapping and the two
operands as the call leaves them. -/
structure MapResult where
  val : Array
  m1 : Array
  a2 : Array
  deriving DecidableEq, Repr

/-- The function `map_add`: add two mappings; `f1` and `f2` are the plane
tests of `map_compact` for the two operands. -/
def map_add (env : Env) (f1 f2 : Bool) (m1 m2 : Array) : Except Error MapResult :=
  let m1' := map_compact env f1 m1
  let m2' := map_compact env f2 m2
  match map_new env (m1'.size + m2'.size) with
  | .error e => .error e
  | .ok sz =>
    if sz = 0 then .ok { val := { elts := [], odcount := env.odcount }, m1 := m1', a2 := m2' }
    else
      .ok { val := { elts := map_add_loop env (m1'.size + m2'.size) m1'.elts m2'.elts,
                     odcount := env.odcount },
            m1 := m1', a2 := m2' }

/-- The look-ahead of `map_sub` and `map_intersect` over the entries of the
sorted array after the current one: whether the array of `v1` "is somewhere
else in a2". -/
def arr_ahead (v1 : Value) : List Value → Bool
  | v :: rest =>
    if !T_INDEXED v.type || decide (v.atag ≠ v1.atag) then false
    else if same_array v v1 then true
    else arr_ahead v1 rest
  | [] => false

/-- The merge loop of `map_sub` and the copy of the tail of `m1`. -/
def map_sub_loop (env : Env) : Nat → List Value → List Value → List Value
  | 0, v1, _ => v1
  | fuel + 1, k1 :: x1 :: v1, w :: v2 =>
    let c := cmp env k1 w
    if c < 0 then k1 :: x1 :: map_sub_loop env fuel v1 (w :: v2)
    else if c > 0 then map_sub_loop env fuel (k1 :: x1 :: v1) v2
    else if T_INDEXED k1.type && !same_array k1 w then
      if arr_ahead k1 v2 then map_sub_loop env fuel v1 (w :: v2)
      else k1 :: x1 :: map_sub_loop env fuel v1 (w :: v2)
    else map_sub_loop env fuel v1 (w :: v2)
  | _ + 1, v1, _ => v1

/-- The function `map_sub`: subtract an array from a mapping. -/
def map_sub (env : Env) (f : Bool) (m1 a2 : Array) : Except Error MapResult :=
  let m1' := map_compact env f m1
  match map_new env m1'.size with
  | .error e => .error e
  | .ok sz =>
    if m1'.size = 0 then
      .ok { val := { elts := [], odcount := env.odcount }, m1 := m1', a2 := a2 }
    else if a2.size = 0 then
      .ok { val := { elts := (i_copy m1'.elts m1'.size).take sz, odcount := env.odcount },
            m1 := m1', a2 := a2 }
    else
      let t := copytmp env a2
      let v2 := env.qsort t.1
      .ok { val := { elts := map_sub_loop env (m1'.size + a2.size) m1'.elts v2,
                     odcount := env.odcount },
            m1 := m1', a2 := t.2 }

/-- The merge loop of `map_intersect`. -/
def map_intersect_loop (env : Env) : Nat → List Value → List Value → List Value
  | 0, _, _ => []
  | fuel + 1, k1 :: x1 :: v1, w :: v2 =>
    let c := cmp env k1 w
    if c < 0 then map_intersect_loop env fuel v1 (w :: v2)
    else if c > 0 then map_intersect_loop env fuel (k1 :: x1 :: v1) v2
    else if T_INDEXED k1.type && !same_array k1 w then
      if arr_ahead k1 v2 then k1 :: x1 :: map_intersect_loop env fuel v1 v2
      else map_intersect_loop env fuel (k1 :: x1 :: v1) v2
    else k1 :: x1 :: map_intersect_loop env fuel v1 v2
  | _ + 1, _, _ => []

/-- The function `map_intersect`: intersect a mapping with an array. -/
def map_intersect (env : Env) (f : Bool) (m1 a2 : Array) : Except Error MapResult :=
  let m1' := map_compact env f m1
  if a2.size = 0 then
    match map_new env 0 with
    | .error e => .error e
    | .ok _ => .ok { val := { elts := [], odcount := env.odcount }, m1 := m1', a2 := a2 }
  else
    match map_new env m1'.size with
    | .error e => .error e
    | .ok _ =>
      if m1'.size = 0 then
        .ok { val := { elts := [], odcount := env.odcount }, m1 := m1', a2 := a2 }
      else
        let t := copytmp env a2
        let v2 := env.qsort t.1
        .ok { val := { elts := map_intersect_loop env (m1'.size + a2.size) m1'.elts v2,
                       odcount := env.odcount },
              m1 := m1', a2 := t.2 }

/-- The difference of a mapping and an array in the words of the spec: the
pairs whose index is equal to no entry of the array, in order. -/
def map_sub_spec (env : Env) (ps : List (Value × Value)) (a : List Value) :
    List (Value × Value) :=
  ps.filter (fun p => !a.any (fun y => veq env p.1 y))

/-- The intersection of a mapping and an array in the words of the spec: the
pairs whose index is equal to some entry of the array, in order. -/
def map_intersect_spec (env : Env) (ps : List (Value × Value)) (a : List Value) :
    List (Value × Value) :=
  ps.filter (fun p => a.any (fun y => veq env p.1 y))

/-- The hash table of a mapping is coherent with its array part (spec 3.3): an
entry that is no pending addition is a copy of a pair of the array part. -/
def Coherent (m : Array) : Prop :=
  ∀ h, m.hashed = some h → ∀ e ∈ h.table.flatten, e.add = false →
    (e.idx, e.val) ∈ elts_pairs m.elts

/-- A header in memory together with the fields that tie it to its dataspace:
the generation `tag`, the owner `primary` and the links `prev` and `next` of
the list of all collections of the dataspace. -/
structure Cell where
  hdr : Array
  tag : Nat
  primary : Nat
  prev : Nat
  next : Nat
  deriving DecidableEq, Repr

/-- The memory `arr_new` and its siblings work on: the headers by address (the
list head `data->alist` of a dataspace is one of them; `none`: no header
there) and the static counter `tag`. -/
structure Mem where
  cells : Nat → Option Cell
  tag : Nat

/-- Write a header at an address. -/
def Mem.set (s : Mem) (a : Nat) (c : Cell) : Mem :=
  { s with cells := fun x => if x = a then some c else s.cells x }

/-- The function `arr_alloc`: a new header of `size` entries with
`hashmod = FALSE`, `ref = 0`, `odcount = 0` and `hashed = NULL`.  The field
`size` is the length of the buffer in this model, so the buffer, which the
caller allocates and fills, is held as `size` nil entries until then. -/
def arr_alloc (size : Nat) : Array :=
  { elts := List.replicate (size % 65536) Value.nil, odcount := 0, hashmod := false,
    hashed := none, ref := 0 }

/-- The common end of `arr_new`, `map_new`, `lwo_new` and `lwo_copy`: the new
header gets the next tag, the global `odcount` and its owner, and is linked in
at the head of the list of the dataspace.  `a` is the address `achunk.alloc`
returned, `alist` the address of `data->alist` and `alocal` that of
`data->plane->alocal`. -/
def arr_link (env : Env) (s : Mem) (alist alocal a : Nat) (hdr : Array) : Mem :=
  let head := match s.cells alist with
    | some c => c.next
    | none => alist
  let s1 := s.set a { hdr := { hdr with odcount := env.odcount }, tag := s.tag,
                      primary := alocal, prev := alist, next := head }
  let s2 := match s1.cells head with
    | some c => s1.set head { c with prev := a }
    | none => s1
  let s3 := match s2.cells alist with
    | some c => s2.set alist { c with next := a }
    | none => s2
  { s3 with tag := (s.tag + 1) % 4294967296 }

/-- The function `arr_new` on the memory: the size check, the new header and
its place in the list of the dataspace. -/
def Mem.arr_new (env : Env) (s : Mem) (alist alocal a : Nat) (size : Nat) : Except Error Mem :=
  if size > env.max_size then .error .array_too_large
  else .ok (arr_link env s alist alocal a (arr_alloc size))

/-- The function `map_new` on the memory: the size check, the new header and
its place in the list of the dataspace. -/
def Mem.map_new (env : Env) (s : Mem) (alist alocal a : Nat) (size : Nat) : Except Error Mem :=
  if size > env.max_size <<< 1 then .error .mapping_too_large
  else .ok (arr_link env s alist alocal a (arr_alloc size))

/-- The function `lwo_new`: a new light-weight object of the object with index
`oindex` and count `objcnt`, whose update counter is `update`; `vars` are the
`ctrl->nvariables` values the collaborator `d_new_variables` writes. -/
def Mem.lwo_new (env : Env) (s : Mem) (alist alocal a : Nat) (oindex objcnt update : Nat)
    (vars : List Value) : Mem :=
  arr_link env s alist alocal a
    { arr_alloc (vars.length + 2) with
      elts := Value.obj oindex objcnt :: Value.flt 0 update :: vars }

/-- The function `lwo_copy`: a copy of the light-weight object with the header
`src`. -/
def Mem.lwo_copy (env : Env) (s : Mem) (alist alocal a : Nat) (src : Array) : Mem :=
  arr_link env s alist alocal a { arr_alloc src.size with elts := i_copy src.elts src.size }

/-- A memory that holds the empty list of a dataspace: the list head at
address `alist` points to itself. -/
def ref_mem (alist tag : Nat) : Mem :=
  { cells := fun x =>
      if x = alist then
        some { hdr := { elts := [], odcount := 0 }, tag := 0, primary := 0, prev := alist,
               next := alist }
      else none
    tag := tag }

/-- What `arr_new` and its siblings establish for the new header at address
`a` in the dataspace with list head `alist`, from the memory `s` to the memory
`s1`: the reference count is `ref`, there is no hash table, `hashmod` is false,
`odcount` is the global one, the tag is the counter of before, the header is
the `next` of the list head, its `prev` is the list head, its `next` is the
head of before, and the `prev` of the head of before is the new header. -/
def NewLinked (env : Env) (s s1 : Mem) (alist a : Nat) (ref : Nat) : Prop :=
  ∃ c cell c1, s.cells alist = some c ∧ s1.cells a = some cell ∧ s1.cells alist = some c1 ∧
    cell.hdr.ref = ref ∧ cell.hdr.hashed = none ∧ cell.hdr.hashmod = false ∧
    cell.hdr.odcount = env.odcount ∧ cell.tag = s.tag ∧
    c1.next = a ∧ cell.prev = alist ∧ cell.next = c.next ∧
    (∀ old, s.cells c.next = some old →
      ∃ old1, s1.cells c.next = some old1 ∧ old1.prev = a) ∧
    s1.tag = (s.tag + 1) % 4294967296

/-- An entry of the array merge table (`struct arrh`); `next` is the rest of
the chain it is in. -/
structure arrh where
  arr : Nat
  index : Nat
  deriving DecidableEq, Repr

/-- The function `arr_merge`: the array merge table `aht`, by bucket, with
every chain empty. -/
def arr_merge : Nat → List arrh := fun _ => []

/-- The loop of `arr_put` over a chain: the stored index of the first entry
for the array at address `a`. -/
def arrh_find (a : Nat) : List arrh → Option Nat
  | [] => none
  | h :: rest => if h.arr = a then some h.index else arrh_find a rest

/-- The function `arr_put`: put an array in the merge table, and return its
"index".  `tabsz` is the constant `ARRMERGETABSZ`, which is not defined in
`array.cpp`; the result is the table and the store afterwards, and the index
returned. -/
def arr_put (tabsz : Nat) (aht : Nat → List arrh) (s : Store) (a idx : Nat) :
    ((Nat → List arrh) × Store) × Nat :=
  match arrh_find a (aht (a % tabsz)) with
  | some j => ((aht, s), j)
  | none =>
    ((fun b => if b = a % tabsz then aht b ++ [{ arr := a, index := idx }] else aht b,
      arr_ref s a), idx)

/-- The index the merge table holds for the array at address `a`, as `arr_put`
looks it up: in the chain of the bucket of `a`. -/
def registered (tabsz : Nat) (aht : Nat → List arrh) (a : Nat) : Option Nat :=
  arrh_find a (aht (a % tabsz))

/-- The first loop of `map_sort`: the pairs whose value is not nil, moved to
the front of the buffer; a pair with a nil value is skipped (and its index
released with `i_del_value`). -/
def map_sort_prune : List Value → List Value
  | k :: v :: rest =>
    if !VAL_NIL v then k :: v :: map_sort_prune rest else map_sort_prune rest
  | _ => []

/-- The second loop of `map_sort`, over the sorted pairs: whether two
neighbours have identical indices (`cmp` is zero and, for collections, the
header is the same). -/
def map_sort_check (env : Env) : List (Value × Value) → Bool
  | p :: q :: rest =>
    (decide (cmp env p.1 q.1 = 0) && (!T_INDEXED p.1.type || same_array p.1 q.1)) ||
      map_sort_check env (q :: rest)
  | _ => false

/-- The function `map_sort`: prune and sort a mapping. -/
def map_sort (env : Env) (m : Array) : Except Error Array :=
  let ps := elts_pairs (map_sort_prune m.elts)
  if ps.length ≠ 0 then
    let sorted := env.qsort2 ps
    if map_sort_check env sorted then .error .identical_indices
    else .ok { m with elts := flat sorted }
  else .ok { m with elts := [] }

/-- The function `map_rmhash`: delete the hash table of a mapping, after the
pending additions have been folded into the array part. -/
def map_rmhash (env : Env) (m : Array) : Array :=
  match m.hashed with
  | none => m
  | some _ =>
    let m1 := if m.hashmod then map_dehash env m false else m
    { m1 with hashed := none }

/-- The size of the hash table of a mapping (spec 3.3): `MTABLE_SIZE` times a
power of two, and at least four thirds of the number of entries. -/
def Load (m : Array) : Prop :=
  ∀ h, m.hashed = some h →
    (∃ k, h.tablesize = MTABLE_SIZE * 2 ^ k) ∧ 4 * h.size ≤ 3 * h.tablesize

/-- The shape of the hash table of a mapping (spec 3.2, 3.3): without a table
`hashmod` is false; with a table, `size` is the number of entries chained in
it, `sizemod` the number of those with `add` set, every entry sits in the chain
`hashval % tablesize`, there are `tablesize` chains, `tablesize` is 16 times a
power of two with `4 * size <= 3 * tablesize`, and `hashmod` is true exactly
when `sizemod > 0`. -/
def Shape (m : Array) : Prop :=
  (m.hashed = none → m.hashmod = false) ∧
  ∀ h, m.hashed = some h →
    h.size = h.table.flatten.length ∧
    h.sizemod = (h.table.flatten.filter (fun e => e.add)).length ∧
    (∀ b e, e ∈ h.table.getD b [] → e.hashval % h.tablesize = b) ∧
    h.table.length = h.tablesize ∧
    (∃ k, h.tablesize = 16 * 2 ^ k) ∧
    4 * h.size ≤ 3 * h.tablesize ∧
    (m.hashmod = true ↔ 0 < h.sizemod)

/-- Two environments of one run: the cap, the comparators and the hash
functions are the same; the destruct epoch, the destructed objects and the
sort function may differ. -/
def SameOrder (env e : Env) : Prop :=
  e.max_size = env.max_size ∧ e.flt_cmp = env.flt_cmp ∧ e.str_cmp = env.str_cmp ∧
    e.flt_hash = env.flt_hash ∧ e.hashstr = env.hashstr

/-- The mappings reachable from a new mapping (no hash table, the array part in
order) by `map_index`, `map_dehash`, `map_compact` and `map_rmhash`, in the
environments of one run. -/
inductive Reach (env : Env) : Array → Prop
  | fresh (m : Array) : m.hashed = none → Inv env m → Reach env m
  | index (e : Env) (f : Bool) (m : Array) (val : Value) (elt verify : Option Value)
      (m' : Array) (r : Value) :
      e.Lawful → SameOrder env e → Reach env m →
      map_index e f m val elt verify = .ok (m', r) → Reach env m'
  | dehash (e : Env) (m : Array) (clean : Bool) :
      e.Lawful → SameOrder env e → Reach env m → Reach env (map_dehash e m clean)
  | compact (e : Env) (f : Bool) (m : Array) :
      e.Lawful → SameOrder env e → Reach env m → Reach env (map_compact e f m)
  | rmhash (e : Env) (m : Array) :
      e.Lawful → SameOrder env e → Reach env m → Reach env (map_rmhash e m)

/-! ## Properties -/

theorem cmp_of_type_ne (env : Env) {a b : Value} (h : a.type ≠ b.type) :
    cmp env a b = (a.type : Int) - (b.type : Int) := by
  unfold cmp
  have : (a.type : Int) - (b.type : Int) ≠ 0 := by omega
  simp [this]

theorem cmp_type_le (env : Env) {a b : Value} (h : cmp env a b ≤ 0) : a.type ≤ b.type := by
  by_contra hlt
  have hne : a.type ≠ b.type := by omega
  rw [cmp_of_type_ne env hne] at h
  omega

theorem cmp_type_eq (env : Env) {a b : Value} (h : cmp env a b = 0) : a.type = b.type := by
  by_contra hne
  rw [cmp_of_type_ne env hne] at h
  omega

theorem cmp_refl (env : Env) (hl : env.CmpLawful) (a : Value) : cmp env a a = 0 := by
  cases a <;> simp [cmp, hl.flt.refl, hl.str.refl]

theorem cmp_swap (env : Env) (hl : env.CmpLawful) (a b : Value) :
    cmp env a b < 0 ↔ 0 < cmp env b a := by
  by_cases hne : a.type = b.type
  · cases a <;> cases b <;> simp [Value.type] at hne <;> simp [cmp, Value.type]
    · split_ifs <;> omega
    · exact hl.flt.swap _ _
    · exact hl.str.swap _ _
    · split_ifs <;> omega
    · split_ifs <;> omega
    · split_ifs <;> omega
    · split_ifs <;> omega
  · rw [cmp_of_type_ne env hne, cmp_of_type_ne env (Ne.symm hne)]
    omega

theorem cmp_trans (env : Env) (hl : env.CmpLawful) {a b c : Value}
    (h1 : cmp env a b ≤ 0) (h2 : cmp env b c ≤ 0) : cmp env a c ≤ 0 := by
  have t1 := cmp_type_le env h1
  have t2 := cmp_type_le env h2
  by_cases hac : a.type = c.type
  · have hab : a.type = b.type := by omega
    have hbc : b.type = c.type := by omega
    cases a <;> cases b <;> simp [Value.type] at hab <;>
      cases c <;> simp [Value.type] at hbc <;> simp [cmp, Value.type] at h1 h2 ⊢
    · split_ifs at h1 h2 ⊢ <;> omega
    · exact hl.flt.trans _ _ _ h1 h2
    · exact hl.str.trans _ _ _ h1 h2
    · split_ifs at h1 h2 ⊢ <;> omega
    · split_ifs at h1 h2 ⊢ <;> omega
    · split_ifs at h1 h2 ⊢ <;> omega
    · split_ifs at h1 h2 ⊢ <;> omega
  · rw [cmp_of_type_ne env hac]
    omega

theorem cmp_ge_iff (env : Env) (hl : env.CmpLawful) (a b : Value) :
    0 ≤ cmp env a b ↔ cmp env b a ≤ 0 := by
  have := cmp_swap env hl a b
  constructor <;> intro h <;> omega

theorem cmp_zero_symm (env : Env) (hl : env.CmpLawful) {a b : Value} (h : cmp env a b = 0) :
    cmp env b a = 0 := by
  have h1 := cmp_swap env hl a b
  have h2 := cmp_swap env hl b a
  omega

theorem cmp_lt_of_lt_of_le (env : Env) (hl : env.CmpLawful) {a b c : Value}
    (h1 : cmp env a b < 0) (h2 : cmp env b c ≤ 0) : cmp env a c < 0 := by
  by_contra h
  have h3 : cmp env c a ≤ 0 := (cmp_ge_iff env hl a c).1 (by omega)
  have h4 := cmp_trans env hl h2 h3
  have := cmp_swap env hl a b
  omega

theorem cmp_gt_of_le_of_gt (env : Env) (hl : env.CmpLawful) {a b c : Value}
    (h1 : cmp env b c ≤ 0) (h2 : 0 < cmp env a c) : 0 < cmp env a b := by
  by_contra h
  have h3 : cmp env a b ≤ 0 := by omega
  have h4 := cmp_trans env hl h3 h1
  omega

theorem same_array_eq {a b : Value} (h : same_array a b = true) : a = b := by
  cases a <;> cases b <;> simp [same_array] at h <;> simp [h]

theorem same_array_indexed {a b : Value} (h : same_array a b = true) :
    T_INDEXED a.type = true := by
  cases a <;> cases b <;> simp [same_array] at h <;> simp [T_INDEXED, Value.type]

theorem same_array_self {a : Value} (h : T_INDEXED a.type = true) : same_array a a = true := by
  cases a <;> simp [T_INDEXED, Value.type] at h <;> simp [same_array]

/-- Two collection handles that compare equal have the same kind and tag. -/
theorem cmp_zero_mate (env : Env) {a b : Value} (h : cmp env a b = 0)
    (ha : T_INDEXED a.type = true) : T_INDEXED b.type = true ∧ a.atag = b.atag := by
  have ht := cmp_type_eq env h
  refine ⟨by rw [← ht]; exact ha, ?_⟩
  cases a <;> simp [T_INDEXED, Value.type] at ha <;>
    cases b <;> simp [Value.type] at ht <;> simp [cmp, Value.type] at h <;>
    simp [Value.atag] <;> split_ifs at h <;> omega

theorem veq_iff (env : Env) (a b : Value) :
    veq env a b = true ↔ cmp env a b = 0 ∧ (T_INDEXED a.type = true → same_array a b = true) := by
  unfold veq
  cases hT : T_INDEXED a.type <;> simp [hT]

theorem veq_refl (env : Env) (hl : env.CmpLawful) (a : Value) : veq env a a = true := by
  rw [veq_iff]
  exact ⟨cmp_refl env hl a, fun h => same_array_self h⟩

theorem veq_symm (env : Env) (hl : env.CmpLawful) {a b : Value} (h : veq env a b = true) :
    veq env b a = true := by
  rw [veq_iff] at h ⊢
  refine ⟨cmp_zero_symm env hl h.1, fun hb => ?_⟩
  have ha : T_INDEXED a.type = true := by rw [cmp_type_eq env h.1]; exact hb
  have := same_array_eq (h.2 ha)
  subst this
  exact same_array_self hb

theorem veq_trans (env : Env) (hl : env.CmpLawful) {a b c : Value}
    (h1 : veq env a b = true) (h2 : veq env b c = true) : veq env a c = true := by
  rw [veq_iff] at h1 h2 ⊢
  have e1 : cmp env a c ≤ 0 := cmp_trans env hl (le_of_eq h1.1) (le_of_eq h2.1)
  have e2 : cmp env c a ≤ 0 :=
    cmp_trans env hl (le_of_eq (cmp_zero_symm env hl h2.1)) (le_of_eq (cmp_zero_symm env hl h1.1))
  have e3 := (cmp_ge_iff env hl a c).2 e2
  refine ⟨by omega, fun ha => ?_⟩
  have hab := same_array_eq (h1.2 ha)
  subst hab
  exact h2.2 ha

theorem veq_of_same_array (env : Env) (hl : env.CmpLawful) {a b : Value}
    (h : same_array a b = true) : veq env a b = true := by
  have := same_array_eq h
  subst this
  exact veq_refl env hl a

theorem land_65535 (x : Nat) : x &&& 65535 = x % 65536 := by
  have := Nat.and_pow_two_sub_one_eq_mod x 16
  simpa using this

theorem land_65534 (x : Nat) : x &&& 65534 = 2 * ((x / 2) % 32768) := by
  have h1 : (x &&& 65534) / 2 = (x / 2) % 32768 := by
    rw [Nat.and_div_two]
    have := Nat.and_pow_two_sub_one_eq_mod (x / 2) 15
    simpa using this
  have h2 : ¬ ((x &&& 65534) % 2 = 1) := by
    rw [Nat.and_mod_two_eq_one]
    omega
  omega

theorem search_mid_one (l h : Nat) (hh : h ≤ USHRT_MAX) (hl : l < h) :
    ((l + h) >>> 1) &&& search_mask 1 = (l + h) / 2 := by
  have : search_mask 1 = 65535 := by decide
  rw [this, land_65535, Nat.shiftRight_eq_div_pow]
  unfold USHRT_MAX at hh
  omega

theorem search_mid_two (l h : Nat) (hh : h ≤ USHRT_MAX) (hl : l < h) :
    ((l + h) >>> 1) &&& search_mask 2 = 2 * ((l + h) / 4) := by
  have : search_mask 2 = 65534 := by decide
  rw [this, land_65534, Nat.shiftRight_eq_div_pow]
  unfold USHRT_MAX at hh
  omega

/-- The midpoint of `search` lies in the window, on the stride. -/
theorem search_mid_spec (step l h : Nat) (hs : step = 1 ∨ step = 2) (hh : h ≤ USHRT_MAX)
    (hlt : l < h) (hdl : step ∣ l) (hdh : step ∣ h) :
    l ≤ ((l + h) >>> 1) &&& search_mask step ∧
    ((l + h) >>> 1) &&& search_mask step < h ∧
    step ∣ ((l + h) >>> 1) &&& search_mask step := by
  rcases hs with rfl | rfl
  · rw [search_mid_one l h hh hlt]
    refine ⟨by omega, by omega, one_dvd _⟩
  · rw [search_mid_two l h hh hlt]
    obtain ⟨a, rfl⟩ := hdl
    obtain ⟨b, rfl⟩ := hdh
    refine ⟨by omega, by omega, Dvd.intro _ rfl⟩

theorem stride_next {step i j : Nat} (hdi : step ∣ i) (hdj : step ∣ j) (hlt : i < j) :
    i + step ≤ j := by
  have h1 : step ∣ j - i := Nat.dvd_sub' hdj hdi
  have h2 := Nat.le_of_dvd (by omega) h1
  omega

theorem search_fwd_some (v : Value) (buf : List Value) (h step : Nat) (hpos : 0 < step)
    (hdh : step ∣ h) :
    ∀ fuel m r, step ∣ m → m < h → search_fwd v buf h step fuel m = some r →
      m < r ∧ r < h ∧ step ∣ r ∧ same_array v (buf.getD r Value.nil) = true := by
  intro fuel
  induction fuel with
  | zero => intro m r _ _ hr; simp [search_fwd] at hr
  | succ fuel ih =>
    intro m r hdm hlt hr
    have hle := stride_next hdm hdh hlt
    have hdm' : step ∣ m + step := Dvd.dvd.add hdm (dvd_refl _)
    simp only [search_fwd] at hr
    split_ifs at hr with h1 h2 h3 h4
    · simp at hr
      subst hr
      exact ⟨by omega, by omega, hdm', h3⟩
    · have := ih (m + step) r hdm' (by omega) hr
      exact ⟨by omega, this.2⟩

theorem search_fwd_none (v : Value) (buf : List Value) (h step : Nat) (hpos : 0 < step) :
    ∀ fuel m, step ∣ m → m < h → h - m ≤ fuel → search_fwd v buf h step fuel m = none →
      ∀ j, m < j → j < h → step ∣ j →
        (∀ i, m < i → i ≤ j → step ∣ i →
          T_INDEXED (buf.getD i Value.nil).type = true ∧ (buf.getD i Value.nil).atag = v.atag) →
        same_array v (buf.getD j Value.nil) = false := by
  intro fuel
  induction fuel with
  | zero => intro m _ hlt hf; omega
  | succ fuel ih =>
    intro m hdm hlt hf hr j hmj hjh hdj hmate
    have hle := stride_next hdm hdj hmj
    have hdm' : step ∣ m + step := Dvd.dvd.add hdm (dvd_refl _)
    have hm := hmate (m + step) (by omega) hle hdm'
    simp only [search_fwd] at hr
    split_ifs at hr with h1 h2 h3 h4
    · omega
    · rw [hm.1] at h2
      exact absurd h2 (by decide)
    · exact absurd hm.2.symm h4
    · by_cases hj : j = m + step
      · subst hj
        simpa using h3
      · exact ih (m + step) hdm' (by omega) (by omega) hr j (by omega) hjh hdj
          (fun i hi1 hi2 hi3 => hmate i (by omega) hi2 hi3)

theorem search_bwd_some (v : Value) (buf : List Value) (l step : Nat) (hpos : 0 < step)
    (hdl : step ∣ l) :
    ∀ fuel m r, step ∣ m → l ≤ m → search_bwd v buf l step fuel m = some r →
      l ≤ r ∧ r < m ∧ step ∣ r ∧ same_array v (buf.getD r Value.nil) = true := by
  intro fuel
  induction fuel with
  | zero => intro m r _ _ hr; simp [search_bwd] at hr
  | succ fuel ih =>
    intro m r hdm hlm hr
    simp only [search_bwd] at hr
    split_ifs at hr with h1 h2 h3 h4
    · have hle := stride_next hdl hdm (by omega)
      have hdm' : step ∣ m - step := Nat.dvd_sub' hdm (dvd_refl _)
      simp at hr
      subst hr
      exact ⟨by omega, by omega, hdm', h3⟩
    · have hle := stride_next hdl hdm (by omega)
      have hdm' : step ∣ m - step := Nat.dvd_sub' hdm (dvd_refl _)
      have := ih (m - step) r hdm' (by omega) hr
      exact ⟨this.1, by omega, this.2.2⟩

theorem search_bwd_none (v : Value) (buf : List Value) (l step : Nat) (hpos : 0 < step) :
    ∀ fuel m, step ∣ m → l ≤ m → m - l ≤ fuel → search_bwd v buf l step fuel m = none →
      ∀ j, l ≤ j → j < m → step ∣ j →
        (∀ i, j ≤ i → i < m → step ∣ i →
          T_INDEXED (buf.getD i Value.nil).type = true ∧ (buf.getD i Value.nil).atag = v.atag) →
        same_array v (buf.getD j Value.nil) = false := by
  intro fuel
  induction fuel with
  | zero => intro m _ hlm hf _ j hlj hjm; omega
  | succ fuel ih =>
    intro m hdm hlm hf hr j hlj hjm hdj hmate
    have hle := stride_next hdj hdm hjm
    have hdm' : step ∣ m - step := Nat.dvd_sub' hdm (dvd_refl _)
    have hm := hmate (m - step) (by omega) (by omega) hdm'
    simp only [search_bwd] at hr
    split_ifs at hr with h1 h2 h3 h4
    · omega
    · rw [hm.1] at h2
      exact absurd h2 (by decide)
    · exact absurd hm.2.symm h4
    · by_cases hj : j = m - step
      · subst hj
        simpa using h3
      · exact ih (m - step) hdm' (by omega) (by omega) hr j hlj (by omega) hdj
          (fun i hi1 hi2 hi3 => hmate i hi1 (by omega) hi3)

theorem veq_false_of_cmp_ne (env : Env) {a b : Value} (h : cmp env a b ≠ 0) :
    veq env a b = false := by
  simp [veq, h]

theorem search_loop_spec (env : Env) (hl : env.CmpLawful) (v : Value) (buf : List Value)
    (n step : Nat) (hs : step = 1 ∨ step = 2) (hn : n ≤ USHRT_MAX)
    (hsorted : SortedAt env buf n step) :
    ∀ fuel l h, h - l < fuel → l ≤ h → h ≤ n → step ∣ l → step ∣ h →
      (∀ i, i < l → step ∣ i → 0 < cmp env v (buf.getD i Value.nil)) →
      (∀ i, h ≤ i → i < n → step ∣ i → cmp env v (buf.getD i Value.nil) < 0) →
      SearchPost env v buf n step (search_loop env v buf step fuel l h) := by
  have hpos : 0 < step := by rcases hs with rfl | rfl <;> decide
  intro fuel
  induction fuel with
  | zero => intro l h hf; omega
  | succ fuel ih =>
    intro l h hf hlh hhn hdl hdh hlo hhi
    have houter : ∀ i, i < n → step ∣ i → (i < l ∨ h ≤ i) →
        veq env v (buf.getD i Value.nil) = false := by
      intro i hi hdi hor
      apply veq_false_of_cmp_ne
      rcases hor with h1 | h1
      · have := hlo i h1 hdi; omega
      · have := hhi i h1 hi hdi; omega
    simp only [search_loop]
    by_cases hlt : l < h
    · rw [if_pos hlt]
      obtain ⟨hm1, hm2, hm3⟩ := search_mid_spec step l h hs (le_trans hhn hn) hlt hdl hdh
      generalize ((l + h) >>> 1) &&& search_mask step = m at hm1 hm2 hm3 ⊢
      by_cases hc : cmp env v (buf.getD m Value.nil) = 0
      · rw [if_pos hc]
        by_cases hprobe : (T_INDEXED v.type && !same_array v (buf.getD m Value.nil)) = true
        · rw [if_pos hprobe]
          simp only [Bool.and_eq_true, Bool.not_eq_true', ] at hprobe
          obtain ⟨hvi, hnsame⟩ := hprobe
          -- every entry of the window that equals `v` is a tag mate
          have hmate : ∀ i, i < n → step ∣ i → cmp env v (buf.getD i Value.nil) = 0 →
              T_INDEXED (buf.getD i Value.nil).type = true ∧
                (buf.getD i Value.nil).atag = v.atag := by
            intro i _ _ hci
            have := cmp_zero_mate env hci hvi
            exact ⟨this.1, this.2.symm⟩
          -- entries between the midpoint and an entry equal to `v` compare equal to `v`
          have hbetween_up : ∀ j, m < j → j < n → step ∣ j →
              cmp env v (buf.getD j Value.nil) = 0 →
              ∀ i, m < i → i ≤ j → step ∣ i → cmp env v (buf.getD i Value.nil) = 0 := by
            intro j hmj hjn hdj hcj i hmi hij hdi
            have a1 : cmp env (buf.getD m Value.nil) (buf.getD i Value.nil) ≤ 0 :=
              hsorted m i hmi (by omega) hm3 hdi
            have a2 : cmp env v (buf.getD i Value.nil) ≤ 0 :=
              cmp_trans env hl (le_of_eq hc) a1
            have a3 : cmp env (buf.getD i Value.nil) (buf.getD j Value.nil) ≤ 0 := by
              by_cases hij' : i = j
              · subst hij'; exact le_of_eq (cmp_refl env hl _)
              · exact hsorted i j (by omega) hjn hdi hdj
            have a4 : cmp env (buf.getD i Value.nil) v ≤ 0 :=
              cmp_trans env hl a3 (le_of_eq (cmp_zero_symm env hl hcj))
            have a5 := (cmp_ge_iff env hl v (buf.getD i Value.nil)).2 a4
            omega
          have hbetween_dn : ∀ j, j < m → step ∣ j →
              cmp env v (buf.getD j Value.nil) = 0 →
              ∀ i, j ≤ i → i < m → step ∣ i → cmp env v (buf.getD i Value.nil) = 0 := by
            intro j hjm hdj hcj i hji him hdi
            have a1 : cmp env (buf.getD i Value.nil) (buf.getD m Value.nil) ≤ 0 :=
              hsorted i m him (by omega) hdi hm3
            have a2 : cmp env (buf.getD i Value.nil) v ≤ 0 :=
              cmp_trans env hl a1 (le_of_eq (cmp_zero_symm env hl hc))
            have a3 : cmp env (buf.getD j Value.nil) (buf.getD i Value.nil) ≤ 0 := by
              by_cases hij' : j = i
              · subst hij'; exact le_of_eq (cmp_refl env hl _)
              · exact hsorted j i (by omega) (by omega) hdj hdi
            have a4 : cmp env v (buf.getD i Value.nil) ≤ 0 :=
              cmp_trans env hl (le_of_eq hcj) a3
            have a5 := (cmp_ge_iff env hl v (buf.getD i Value.nil)).2 a2
            omega
          cases hfw : search_fwd v buf h step h m with
          | some r =>
            obtain ⟨r1, r2, r3, r4⟩ := search_fwd_some v buf h step hpos hdh h m r hm3 hm2 hfw
            exact ⟨by omega, r3, veq_of_same_array env hl r4⟩
          | none =>
            cases hbw : search_bwd v buf l step h m with
            | some r =>
              obtain ⟨r1, r2, r3, r4⟩ := search_bwd_some v buf l step hpos hdl h m r hm3 hm1 hbw
              exact ⟨by omega, r3, veq_of_same_array env hl r4⟩
            | none =>
              refine ⟨by omega, hdl, ?_⟩
              intro i hi hdi
              by_cases hin : i < l ∨ h ≤ i
              · exact houter i hi hdi hin
              · by_contra hveq
                have hveq' : veq env v (buf.getD i Value.nil) = true := by
                  simpa using hveq
                rw [veq_iff] at hveq'
                have hsame := hveq'.2 hvi
                rcases Nat.lt_trichotomy i m with him | him | him
                · have := search_bwd_none v buf l step hpos h m hm3 hm1 (by omega) hbw i
                    (by omega) him hdi
                    (fun k hk1 hk2 hk3 => hmate k (by omega) hk3
                      (hbetween_dn i him hdi hveq'.1 k hk1 hk2 hk3))
                  rw [this] at hsame
                  exact absurd hsame (by decide)
                · subst him
                  rw [hnsame] at hsame
                  exact absurd hsame (by decide)
                · have := search_fwd_none v buf h step hpos h m hm3 hm2 (by omega) hfw i
                    him (by omega) hdi
                    (fun k hk1 hk2 hk3 => hmate k (by omega) hk3
                      (hbetween_up i him hi hdi hveq'.1 k hk1 hk2 hk3))
                  rw [this] at hsame
                  exact absurd hsame (by decide)
        · rw [if_neg hprobe]
          refine ⟨by omega, hm3, ?_⟩
          rw [veq_iff]
          refine ⟨hc, fun hvi => ?_⟩
          simp only [hvi, Bool.true_and, Bool.not_eq_true', Bool.not_eq_false] at hprobe
          exact hprobe
      · rw [if_neg hc]
        by_cases hneg : cmp env v (buf.getD m Value.nil) < 0
        · rw [if_pos hneg]
          apply ih l m (by omega) hm1 (by omega) hdl hm3 hlo
          intro i hmi hi hdi
          by_cases hmi' : i = m
          · subst hmi'; exact hneg
          · exact cmp_lt_of_lt_of_le env hl hneg (hsorted m i (by omega) hi hm3 hdi)
        · rw [if_neg hneg]
          have hle := stride_next hm3 hdh hm2
          apply ih (m + step) h (by omega) hle hhn (Dvd.dvd.add hm3 (dvd_refl _)) hdh _ hhi
          intro i him hdi
          have hgt : 0 < cmp env v (buf.getD m Value.nil) := by omega
          by_cases hmi' : i = m
          · subst hmi'; exact hgt
          · have hlt' : i < m := by
              by_contra hge
              have := stride_next hm3 hdi (by omega)
              omega
            exact cmp_gt_of_le_of_gt env hl (hsorted i m hlt' (by omega) hdi hm3) hgt
    · rw [if_neg hlt]
      refine ⟨by omega, hdl, ?_⟩
      intro i hi hdi
      exact houter i hi hdi (by omega)

theorem search_loop_top (env : Env) (hl : env.CmpLawful) (v : Value) (buf : List Value)
    (n step : Nat) (hs : step = 1 ∨ step = 2) (hn : n ≤ USHRT_MAX) (hdn : step ∣ n)
    (hsorted : SortedAt env buf n step) :
    SearchPost env v buf n step (search_loop env v buf step (n + 1) 0 n) := by
  apply search_loop_spec env hl v buf n step hs hn hsorted (n + 1) 0 n (by omega) (by omega)
    (le_refl _) (dvd_zero _) hdn
  · intro i hi; omega
  · intro i h1 h2; omega

theorem sortedAt_of_pairwise (env : Env) (buf : List Value)
    (h : buf.Pairwise (fun a b => cmp env a b ≤ 0)) : SortedAt env buf buf.length 1 := by
  intro i j hij hj _ _
  have hi : i < buf.length := by omega
  rw [List.getD_eq_getElem _ _ hi, List.getD_eq_getElem _ _ hj]
  exact List.pairwise_iff_getElem.1 h i j hi hj hij

/-- On a sorted buffer `search` fails exactly when no entry equals the key. -/
theorem search_neg_iff (env : Env) (hl : env.CmpLawful) (v : Value) (buf : List Value)
    (hn : buf.length ≤ USHRT_MAX) (h : buf.Pairwise (fun a b => cmp env a b ≤ 0)) :
    search env v buf buf.length 1 false < 0 ↔ buf.any (fun y => veq env v y) = false := by
  have hp := search_loop_top env hl v buf buf.length 1 (Or.inl rfl) hn (one_dvd _)
    (sortedAt_of_pairwise env buf h)
  unfold search
  cases hr : search_loop env v buf 1 (buf.length + 1) 0 buf.length with
  | ok m =>
    rw [hr] at hp
    obtain ⟨h1, _, h3⟩ := hp
    rw [List.getD_eq_getElem _ _ h1] at h3
    have : buf.any (fun y => veq env v y) = true :=
      List.any_eq_true.2 ⟨buf[m], List.getElem_mem _, h3⟩
    simp only [this]
    constructor
    · intro h'; omega
    · intro h'; exact absurd h' (by decide)
  | error l =>
    rw [hr] at hp
    obtain ⟨_, _, h3⟩ := hp
    simp only [Bool.false_eq_true, ↓reduceIte, Int.reduceNeg, Int.reduceLT, true_iff]
    rw [List.any_eq_false]
    intro x hx
    obtain ⟨i, hi, rfl⟩ := List.getElem_of_mem hx
    have := h3 i hi (one_dvd _)
    rw [List.getD_eq_getElem _ _ hi] at this
    simp [this]

theorem any_veq_perm (env : Env) (v : Value) {l1 l2 : List Value} (h : l1.Perm l2) :
    l1.any (fun y => veq env v y) = l2.any (fun y => veq env v y) := by
  rw [Bool.eq_iff_iff, List.any_eq_true, List.any_eq_true]
  constructor
  · rintro ⟨x, hx, hv⟩; exact ⟨x, h.mem_iff.1 hx, hv⟩
  · rintro ⟨x, hx, hv⟩; exact ⟨x, h.mem_iff.2 hx, hv⟩

/-- The binary search in the sorted copy of `B` decides membership in `B`. -/
theorem search_qsort_neg_iff (env : Env) (hl : env.Lawful) (v : Value) (B : List Value)
    (hn : B.length ≤ USHRT_MAX) :
    search env v (env.qsort B) B.length 1 false < 0 ↔ B.any (fun y => veq env v y) = false := by
  have hlen : (env.qsort B).length = B.length := (hl.qsort_perm B).length_eq
  have := search_neg_iff env hl.cmp_laws v (env.qsort B) (by rw [hlen]; exact hn) (hl.qsort_sorted B)
  rw [hlen] at this
  rw [this, any_veq_perm env v (hl.qsort_perm B)]

theorem sub_loop_eq (env : Env) (hl : env.Lawful) (B : List Value)
    (hn : B.length ≤ USHRT_MAX) (A : List Value) :
    sub_loop env (env.qsort B) B.length A = sub_spec env A B := by
  induction A with
  | nil => rfl
  | cons v A ih =>
    simp only [sub_loop, sub_spec, List.filter_cons]
    by_cases h : B.any (fun y => veq env v y) = false
    · rw [if_pos ((search_qsort_neg_iff env hl v B hn).2 h)]
      simp only [h, Bool.not_false, ↓reduceIte]
      rw [ih]; rfl
    · rw [if_neg (mt (search_qsort_neg_iff env hl v B hn).1 h)]
      simp only [Bool.not_eq_false] at h
      simp only [h, Bool.not_true, Bool.false_eq_true, ↓reduceIte]
      rw [ih]; rfl

theorem intersect_loop_eq (env : Env) (hl : env.Lawful) (B : List Value)
    (hn : B.length ≤ USHRT_MAX) (A : List Value) :
    intersect_loop env (env.qsort B) B.length A = intersect_spec env A B := by
  induction A with
  | nil => rfl
  | cons v A ih =>
    simp only [intersect_loop, intersect_spec, List.filter_cons]
    by_cases h : B.any (fun y => veq env v y) = false
    · have := (search_qsort_neg_iff env hl v B hn).2 h
      rw [if_neg (by omega)]
      simp only [h, Bool.false_eq_true, ↓reduceIte]
      rw [ih]; rfl
    · have := mt (search_qsort_neg_iff env hl v B hn).1 h
      rw [if_pos (by omega)]
      simp only [Bool.not_eq_false] at h
      simp only [h, ↓reduceIte]
      rw [ih]; rfl

theorem ref_flt_cmp_total : TotalCmp ref_flt_cmp where
  refl := by intro a; simp [ref_flt_cmp]
  eq_of_zero := by
    intro a b h
    unfold ref_flt_cmp at h
    split_ifs at h <;> first | omega | exact Prod.ext (by omega) (by omega)
  swap := by
    intro a b
    unfold ref_flt_cmp
    split_ifs <;> omega
  trans := by
    intro a b d h1 h2
    unfold ref_flt_cmp at h1 h2 ⊢
    split_ifs at h1 h2 ⊢ <;> omega

theorem ref_str_cmp_refl : ∀ a, ref_str_cmp a a = 0
  | [] => rfl
  | x :: s => by simp [ref_str_cmp, ref_str_cmp_refl s]

theorem ref_str_cmp_eq : ∀ a b, ref_str_cmp a b = 0 → a = b
  | [], [], _ => rfl
  | [], _ :: _, h => by simp [ref_str_cmp] at h
  | _ :: _, [], h => by simp [ref_str_cmp] at h
  | x :: s, y :: t, h => by
    unfold ref_str_cmp at h
    split_ifs at h with h1 h2
    · exact absurd h (by decide)
    · have : x = y := by omega
      rw [this, ref_str_cmp_eq s t h]

theorem ref_str_cmp_swap : ∀ a b, ref_str_cmp a b < 0 ↔ 0 < ref_str_cmp b a
  | [], [] => by simp [ref_str_cmp]
  | [], _ :: _ => by simp [ref_str_cmp]
  | _ :: _, [] => by simp [ref_str_cmp]
  | x :: s, y :: t => by
    have ih := ref_str_cmp_swap s t
    unfold ref_str_cmp
    split_ifs <;> omega

theorem ref_str_cmp_trans : ∀ a b d, ref_str_cmp a b ≤ 0 → ref_str_cmp b d ≤ 0 →
    ref_str_cmp a d ≤ 0
  | [], _, [] => by intros; simp [ref_str_cmp]
  | [], _, _ :: _ => by intros; simp [ref_str_cmp]
  | _ :: _, [], _ => by intro h; simp [ref_str_cmp] at h
  | _ :: _, _ :: _, [] => by intro _ h; simp [ref_str_cmp] at h
  | x :: s, y :: t, z :: u => by
    have ih := ref_str_cmp_trans s t u
    intro h1 h2
    unfold ref_str_cmp at h1 h2 ⊢
    split_ifs at h1 h2 ⊢ <;> omega

theorem ref_str_cmp_total : TotalCmp ref_str_cmp :=
  ⟨ref_str_cmp_refl, ref_str_cmp_eq, ref_str_cmp_swap, ref_str_cmp_trans⟩

theorem ref_env0_cmp_laws (ms od : Nat) : (ref_env0 ms od).CmpLawful :=
  ⟨ref_flt_cmp_total, ref_str_cmp_total⟩

theorem ref_env_cmp (ms od : Nat) : cmp (ref_env ms od) = cmp (ref_env0 ms od) := rfl

/-- The reference environment is lawful for every cap that fits the size
field. -/
theorem ref_env_lawful (ms od : Nat) (h : 2 * ms ≤ USHRT_MAX) : (ref_env ms od).Lawful := by
  have hc := ref_env0_cmp_laws ms od
  have htot : ∀ a b, cmp (ref_env0 ms od) a b ≤ 0 ∨ cmp (ref_env0 ms od) b a ≤ 0 := by
    intro a b
    by_cases h : cmp (ref_env0 ms od) a b ≤ 0
    · exact Or.inl h
    · exact Or.inr ((cmp_ge_iff _ hc a b).1 (by omega))
  haveI : IsTotal Value (fun a b => cmp (ref_env0 ms od) a b ≤ 0) := ⟨htot⟩
  haveI : IsTrans Value (fun a b => cmp (ref_env0 ms od) a b ≤ 0) :=
    ⟨fun a b c h1 h2 => cmp_trans _ hc h1 h2⟩
  haveI : IsTotal (Value × Value) (fun p q => cmp (ref_env0 ms od) p.1 q.1 ≤ 0) :=
    ⟨fun p q => htot p.1 q.1⟩
  haveI : IsTrans (Value × Value) (fun p q => cmp (ref_env0 ms od) p.1 q.1 ≤ 0) :=
    ⟨fun a b c h1 h2 => cmp_trans _ hc h1 h2⟩
  exact {
    cmp_laws := ⟨ref_flt_cmp_total, ref_str_cmp_total⟩
    max_fits := h
    qsort_perm := fun l => List.perm_insertionSort _ l
    qsort_sorted := fun l =>
      List.sorted_insertionSort (fun a b => cmp (ref_env0 ms od) a b ≤ 0) l
    qsort2_perm := fun l => List.perm_insertionSort _ l
    qsort2_sorted := fun l =>
      List.sorted_insertionSort
        (fun (p q : Value × Value) => cmp (ref_env0 ms od) p.1 q.1 ≤ 0) l }

theorem scrub_clean (env : Env) (l : List Value)
    (h : ∀ v ∈ l, is_destructed env v = false) : l.map (scrub_elt env) = l := by
  induction l with
  | nil => rfl
  | cons v l ih =>
    have hv := h v (List.mem_cons_self _ _)
    simp only [List.map_cons, scrub_elt, hv, Bool.false_eq_true, ↓reduceIte]
    rw [ih (fun w hw => h w (List.mem_cons_of_mem _ hw))]

theorem copytmp_fst (env : Env) (a : Array) (h : a.ok env) : (copytmp env a).1 = a.elts := by
  unfold copytmp
  split_ifs
  · rfl
  · exact scrub_clean env a.elts h.2

theorem copytmp_snd_elts (env : Env) (a : Array) (h : a.ok env) :
    (copytmp env a).2.elts = a.elts := by
  unfold copytmp
  split_ifs
  · rfl
  · exact scrub_clean env a.elts h.2

theorem scrub_operand_elts (env : Env) (a : Array) (h : a.ok env) :
    (scrub_operand env a).elts = a.elts := by
  unfold scrub_operand
  split_ifs
  · rfl
  · exact scrub_clean env a.elts h.2

theorem ok_of_elts_eq (env : Env) {a b : Array} (h : a.ok env) (e : b.elts = a.elts) :
    b.ok env := by
  unfold Array.ok Array.size at *
  rw [e]
  exact h

theorem arr_new_ok (env : Env) (hl : env.Lawful) {size : Nat} (h : size ≤ env.max_size) :
    arr_new env size = .ok size := by
  unfold arr_new
  have := hl.max_fits
  unfold USHRT_MAX at this
  rw [if_neg (by omega), Nat.mod_eq_of_lt (by omega)]

theorem size_le_ushrt (env : Env) (hl : env.Lawful) {a : Array} (h : a.ok env) :
    a.elts.length ≤ USHRT_MAX := by
  have := hl.max_fits
  have := h.1
  unfold Array.size at this
  omega

theorem i_copy_all (l : List Value) : i_copy l l.length = l := by
  simp [i_copy]

theorem sub_spec_nil_right (env : Env) (A : List Value) : sub_spec env A [] = A := by
  simp [sub_spec]

theorem sub_spec_nil_left (env : Env) (B : List Value) : sub_spec env [] B = [] := rfl

theorem sub_spec_length_le (env : Env) (A B : List Value) :
    (sub_spec env A B).length ≤ A.length := by
  unfold sub_spec
  exact List.length_filter_le _ _

theorem sub_spec_mem (env : Env) {A B : List Value} {x : Value} (h : x ∈ sub_spec env A B) :
    x ∈ A := by
  unfold sub_spec at h
  exact (List.mem_filter.1 h).1

/-- What `arr_sub` computes on well-formed operands, and how it leaves them. -/
theorem arr_sub_run (env : Env) (hl : env.Lawful) (A B : Array) (hA : A.ok env)
    (hB : B.ok env) :
    ∃ r, arr_sub env A B = .ok r ∧ r.val.elts = sub_spec env A.elts B.elts ∧
      r.val.odcount = env.odcount ∧ r.a1.elts = A.elts ∧ r.a2.elts = B.elts := by
  unfold arr_sub
  rw [arr_new_ok env hl hA.1]
  by_cases hB0 : B.size = 0
  · rw [if_pos hB0]
    have : B.elts = [] := List.length_eq_zero.1 hB0
    refine ⟨_, rfl, ?_, rfl, rfl, rfl⟩
    simp only [Array.size, i_copy_all, List.take_length, this, sub_spec_nil_right]
  · rw [if_neg hB0]
    by_cases hA0 : A.size = 0
    · simp only [hA0, ↓reduceIte]
      have : A.elts = [] := List.length_eq_zero.1 hA0
      exact ⟨_, rfl, by simp [this, sub_spec], rfl, rfl, rfl⟩
    · simp only [hA0, ↓reduceIte]
      refine ⟨_, rfl, ?_, rfl, scrub_operand_elts env A hA, copytmp_snd_elts env B hB⟩
      simp only [scrub_operand_elts env A hA, copytmp_fst env B hB, Array.size]
      exact sub_loop_eq env hl B.elts (size_le_ushrt env hl hB) A.elts

/-- What `arr_intersect` computes on well-formed operands. -/
theorem arr_intersect_run (env : Env) (hl : env.Lawful) (A B : Array) (hA : A.ok env)
    (hB : B.ok env) :
    ∃ r, arr_intersect env A B = .ok r ∧ r.val.elts = intersect_spec env A.elts B.elts := by
  unfold arr_intersect
  by_cases h0 : A.size = 0 ∨ B.size = 0
  · rw [if_pos h0, arr_new_ok env hl (Nat.zero_le _)]
    refine ⟨_, rfl, ?_⟩
    rcases h0 with h | h
    · have : A.elts = [] := List.length_eq_zero.1 h
      simp [this, intersect_spec]
    · have : B.elts = [] := List.length_eq_zero.1 h
      simp [this, intersect_spec]
  · rw [if_neg h0, arr_new_ok env hl hA.1]
    refine ⟨_, rfl, ?_⟩
    simp only [scrub_operand_elts env A hA, copytmp_fst env B hB, Array.size]
    exact intersect_loop_eq env hl B.elts (size_le_ushrt env hl hB) A.elts

theorem any_veq_false_iff (env : Env) (x : Value) (B : List Value) :
    B.any (fun y => veq env x y) = false ↔ ∀ y ∈ B, veq env x y = false := by
  rw [List.any_eq_false]
  constructor
  · intro h y hy; simpa using h y hy
  · intro h y hy; simp [h y hy]

theorem any_veq_true_iff (env : Env) (x : Value) (B : List Value) :
    B.any (fun y => veq env x y) = true ↔ ∃ y ∈ B, veq env x y = true := List.any_eq_true

theorem mem_sub_spec (env : Env) (A B : List Value) (x : Value) :
    x ∈ sub_spec env A B ↔ x ∈ A ∧ ∀ y ∈ B, veq env x y = false := by
  unfold sub_spec
  rw [List.mem_filter, Bool.not_eq_true', any_veq_false_iff]

theorem mem_intersect_spec (env : Env) (A B : List Value) (x : Value) :
    x ∈ intersect_spec env A B ↔ x ∈ A ∧ ∃ y ∈ B, veq env x y = true := by
  unfold intersect_spec
  rw [List.mem_filter, any_veq_true_iff]

/-- The intersection is the difference with the difference. -/
theorem intersect_spec_eq_sub_sub (env : Env) (hc : env.CmpLawful) (A B : List Value) :
    intersect_spec env A B = sub_spec env A (sub_spec env A B) := by
  have key : ∀ x ∈ A, (B.any fun y => veq env x y) =
      !(sub_spec env A B).any (fun y => veq env x y) := by
    intro x hx
    by_cases h : B.any (fun y => veq env x y) = true
    · rw [h]
      symm
      rw [Bool.not_eq_true', any_veq_false_iff]
      intro y hy
      rw [mem_sub_spec] at hy
      obtain ⟨b, hb, hxb⟩ := (any_veq_true_iff env x B).1 h
      by_contra hxy
      have hxy' : veq env x y = true := by simpa using hxy
      have := veq_trans env hc (veq_symm env hc hxy') hxb
      rw [hy.2 b hb] at this
      exact absurd this (by decide)
    · have h' : B.any (fun y => veq env x y) = false := by simpa using h
      rw [h']
      symm
      rw [Bool.not_eq_false', any_veq_true_iff]
      exact ⟨x, (mem_sub_spec env A B x).2 ⟨hx, (any_veq_false_iff env x B).1 h'⟩,
        veq_refl env hc x⟩
  exact List.filter_congr key

theorem sub_intersect_length (env : Env) (A B : List Value) :
    (sub_spec env A B).length + (intersect_spec env A B).length = A.length := by
  unfold sub_spec intersect_spec
  have := List.length_eq_length_filter_add (l := A) (fun x => B.any (fun y => veq env x y))
  omega

theorem sub_spec_ok (env : Env) {A : Array} (hA : A.ok env) (B : List Value) (r : Array)
    (h : r.elts = sub_spec env A.elts B) : r.ok env := by
  constructor
  · unfold Array.size
    rw [h]
    exact le_trans (sub_spec_length_le env _ _) hA.1
  · intro v hv
    rw [h] at hv
    exact hA.2 v (sub_spec_mem env hv)

/-- C1: for well-formed arrays `A` and `B`, `arr_sub` returns a new array whose
elements are exactly the elements of `A` that are equal to no element of `B`,
in the order of `A` (every occurrence of a matched element is removed), and
`sub(A, [])` is a copy of `A`. -/
theorem arr_sub_elements (env : Env) (hl : env.Lawful) (A B : Array) (hA : A.ok env)
    (hB : B.ok env) :
    ∃ r, arr_sub env A B = .ok r ∧ r.val.elts = sub_spec env A.elts B.elts ∧
      (B.elts = [] → r.val.elts = A.elts) := by
  obtain ⟨r, h1, h2, _⟩ := arr_sub_run env hl A B hA hB
  refine ⟨r, h1, h2, fun hb => ?_⟩
  rw [h2, hb, sub_spec_nil_right]

/-- C1 at `A = [1,2,3,2]`, `B = [2]`: the difference is `[1,3]`. -/
theorem arr_sub_elements_witness :
    ∃ r, arr_sub (ref_env 100 0)
        { elts := [.int 1, .int 2, .int 3, .int 2], odcount := 0 }
        { elts := [.int 2], odcount := 0 } = .ok r ∧
      r.val.elts = [.int 1, .int 3] := by
  obtain ⟨r, h1, h2, _⟩ := arr_sub_elements (ref_env 100 0) (ref_env_lawful 100 0 (by decide))
    { elts := [.int 1, .int 2, .int 3, .int 2], odcount := 0 }
    { elts := [.int 2], odcount := 0 } ⟨by decide, by decide⟩ ⟨by decide, by decide⟩
  exact ⟨r, h1, by rw [h2]; decide⟩

/-- C2: for well-formed arrays `A` and `B`, `arr_intersect(A, B)` equals
`arr_sub(A, arr_sub(A, B))` element for element, and it is the list of the
elements of `A` that are equal to some element of `B`, in the order of `A`
(also when `A` or `B` is empty). -/
theorem arr_intersect_eq_sub_sub (env : Env) (hl : env.Lawful) (A B : Array) (hA : A.ok env)
    (hB : B.ok env) :
    ∃ r1 r2 r3, arr_sub env A B = .ok r1 ∧ arr_sub env r1.a1 r1.val = .ok r2 ∧
      arr_intersect env A B = .ok r3 ∧ r3.val.elts = r2.val.elts ∧
      r3.val.elts = intersect_spec env A.elts B.elts := by
  obtain ⟨r1, h1, e1, _, a1, _⟩ := arr_sub_run env hl A B hA hB
  have hA' : r1.a1.ok env := ok_of_elts_eq env hA a1
  have hX : r1.val.ok env := sub_spec_ok env hA B.elts r1.val e1
  obtain ⟨r2, h2, e2, _⟩ := arr_sub_run env hl r1.a1 r1.val hA' hX
  obtain ⟨r3, h3, e3⟩ := arr_intersect_run env hl A B hA hB
  refine ⟨r1, r2, r3, h1, h2, h3, ?_, e3⟩
  rw [e3, e2, a1, e1, intersect_spec_eq_sub_sub env hl.cmp_laws]

/-- C2 at `A = [1,2,3,2]`, `B = [2]`: both sides are `[2,2]`. -/
theorem arr_intersect_eq_sub_sub_witness :
    ∃ r1 r2 r3, arr_sub (ref_env 100 0)
        { elts := [.int 1, .int 2, .int 3, .int 2], odcount := 0 }
        { elts := [.int 2], odcount := 0 } = .ok r1 ∧
      arr_sub (ref_env 100 0) r1.a1 r1.val = .ok r2 ∧
      arr_intersect (ref_env 100 0)
        { elts := [.int 1, .int 2, .int 3, .int 2], odcount := 0 }
        { elts := [.int 2], odcount := 0 } = .ok r3 ∧
      r3.val.elts = r2.val.elts ∧ r3.val.elts = [.int 2, .int 2] := by
  obtain ⟨r1, r2, r3, h1, h2, h3, h4, h5⟩ :=
    arr_intersect_eq_sub_sub (ref_env 100 0) (ref_env_lawful 100 0 (by decide))
      { elts := [.int 1, .int 2, .int 3, .int 2], odcount := 0 }
      { elts := [.int 2], odcount := 0 } ⟨by decide, by decide⟩ ⟨by decide, by decide⟩
  exact ⟨r1, r2, r3, h1, h2, h3, h4, by rw [h5]; decide⟩

/-- C3: for well-formed arrays `A` and `B`, the size of `arr_sub(A, B)` plus
the size of `arr_intersect(A, B)` is the size of `A`. -/
theorem arr_sub_intersect_size (env : Env) (hl : env.Lawful) (A B : Array) (hA : A.ok env)
    (hB : B.ok env) :
    ∃ r1 r2, arr_sub env A B = .ok r1 ∧ arr_intersect env A B = .ok r2 ∧
      r1.val.size + r2.val.size = A.size := by
  obtain ⟨r1, h1, e1, _⟩ := arr_sub_run env hl A B hA hB
  obtain ⟨r2, h2, e2⟩ := arr_intersect_run env hl A B hA hB
  refine ⟨r1, r2, h1, h2, ?_⟩
  unfold Array.size
  rw [e1, e2]
  exact sub_intersect_length env A.elts B.elts

/-- C3 at `A = [1,2,3,2]`, `B = [2]`: the two sizes add up to 4. -/
theorem arr_sub_intersect_size_witness :
    ∃ r1 r2, arr_sub (ref_env 100 0)
        { elts := [.int 1, .int 2, .int 3, .int 2], odcount := 0 }
        { elts := [.int 2], odcount := 0 } = .ok r1 ∧
      arr_intersect (ref_env 100 0)
        { elts := [.int 1, .int 2, .int 3, .int 2], odcount := 0 }
        { elts := [.int 2], odcount := 0 } = .ok r2 ∧
      r1.val.size + r2.val.size = 4 :=
  arr_sub_intersect_size (ref_env 100 0) (ref_env_lawful 100 0 (by decide))
    { elts := [.int 1, .int 2, .int 3, .int 2], odcount := 0 }
    { elts := [.int 2], odcount := 0 } ⟨by decide, by decide⟩ ⟨by decide, by decide⟩

/-- C4, as stated, fails: for `A = [1,2,3,2]` and `B = [2]` the value 2 occurs
twice in `arr_intersect(A, B)` and once in `B`. -/
theorem arr_intersect_not_multiset_in_B :
    ∃ r, arr_intersect (ref_env 100 0)
        { elts := [.int 1, .int 2, .int 3, .int 2], odcount := 0 }
        { elts := [.int 2], odcount := 0 } = .ok r ∧
      ¬ (r.val.elts.count (.int 2) ≤ ([.int 2] : List Value).count (.int 2)) :=
  ⟨_, rfl, by decide⟩

/-- C4, amended: for well-formed arrays `A` and `B`, `arr_intersect(A, B)` is
contained in `B` as a set: every element of the result is an element of `A`
that is equal to some element of `B`; an element of `A` that is equal to an
element of `B` occurs in the result as often as it occurs in `A`. -/
theorem arr_intersect_in_B (env : Env) (hl : env.Lawful) (A B : Array) (hA : A.ok env)
    (hB : B.ok env) :
    ∃ r, arr_intersect env A B = .ok r ∧
      (∀ x ∈ r.val.elts, x ∈ A.elts ∧ ∃ y ∈ B.elts, veq env x y = true) ∧
      (∀ x, (∃ y ∈ B.elts, veq env x y = true) → r.val.elts.count x = A.elts.count x) := by
  obtain ⟨r, h, e⟩ := arr_intersect_run env hl A B hA hB
  refine ⟨r, h, ?_, ?_⟩
  · intro x hx
    rw [e] at hx
    exact (mem_intersect_spec env _ _ x).1 hx
  · intro x hx
    rw [e]
    unfold intersect_spec
    rw [List.count_filter]
    exact (any_veq_true_iff env x B.elts).2 hx

/-- C4 amended, at `A = [1,2,3,2]`, `B = [2]`: 2 is kept twice, as in `A`. -/
theorem arr_intersect_in_B_witness :
    ∃ r, arr_intersect (ref_env 100 0)
        { elts := [.int 1, .int 2, .int 3, .int 2], odcount := 0 }
        { elts := [.int 2], odcount := 0 } = .ok r ∧
      r.val.elts.count (.int 2) = 2 := by
  obtain ⟨r, h1, _, h3⟩ := arr_intersect_in_B (ref_env 100 0) (ref_env_lawful 100 0 (by decide))
    { elts := [.int 1, .int 2, .int 3, .int 2], odcount := 0 }
    { elts := [.int 2], odcount := 0 } ⟨by decide, by decide⟩ ⟨by decide, by decide⟩
  exact ⟨r, h1, by rw [h3 (.int 2) ⟨.int 2, by decide, by decide⟩]; decide⟩

theorem take_append_all (l1 l2 : List Value) :
    (i_copy l1 l1.length ++ i_copy l2 l2.length).take (l1.length + l2.length) = l1 ++ l2 := by
  rw [i_copy_all, i_copy_all, ← List.length_append, List.take_length]

/-- What `arr_setadd` computes on well-formed operands when the result fits. -/
theorem arr_setadd_run (env : Env) (hl : env.Lawful) (A B : Array) (hA : A.ok env)
    (hB : B.ok env)
    (hfit : A.size + (sub_spec env B.elts A.elts).length ≤ env.max_size) :
    ∃ r, arr_setadd env A B = .ok r ∧ r.val.elts = A.elts ++ sub_spec env B.elts A.elts := by
  unfold arr_setadd
  by_cases hA0 : A.size = 0
  · rw [if_pos hA0, arr_new_ok env hl hB.1]
    have : A.elts = [] := List.length_eq_zero.1 hA0
    refine ⟨_, rfl, ?_⟩
    simp only [Array.size, i_copy_all, List.take_length, this, sub_spec_nil_right,
      List.nil_append]
  · rw [if_neg hA0]
    by_cases hB0 : B.size = 0
    · rw [if_pos hB0, arr_new_ok env hl hA.1]
      have : B.elts = [] := List.length_eq_zero.1 hB0
      refine ⟨_, rfl, ?_⟩
      simp only [Array.size, i_copy_all, List.take_length, this, sub_spec_nil_left,
        List.append_nil]
    · rw [if_neg hB0]
      simp only [scrub_operand_elts env B hB, copytmp_fst env A hA, copytmp_snd_elts env A hA,
        Array.size, sub_loop_eq env hl A.elts (size_le_ushrt env hl hA) B.elts]
      unfold Array.size at hfit
      rw [if_neg (by omega), arr_new_ok env hl hfit]
      exact ⟨_, rfl, take_append_all _ _⟩

/-- When the result does not fit, `arr_setadd` signals the error. -/
theorem arr_setadd_err (env : Env) (hl : env.Lawful) (A B : Array) (hA : A.ok env)
    (hB : B.ok env)
    (hfit : ¬ A.size + (sub_spec env B.elts A.elts).length ≤ env.max_size) :
    arr_setadd env A B = .error .array_too_large := by
  unfold arr_setadd
  have hlen := sub_spec_length_le env B.elts A.elts
  have h1 := hA.1
  have h2 := hB.1
  unfold Array.size at hfit h1 h2
  by_cases hA0 : A.size = 0
  · unfold Array.size at hA0
    omega
  · rw [if_neg hA0]
    by_cases hB0 : B.size = 0
    · have : B.elts = [] := List.length_eq_zero.1 hB0
      rw [this, sub_spec_nil_left] at hfit
      simp at hfit
      omega
    · rw [if_neg hB0]
      simp only [scrub_operand_elts env B hB, copytmp_fst env A hA, copytmp_snd_elts env A hA,
        Array.size, sub_loop_eq env hl A.elts (size_le_ushrt env hl hA) B.elts]
      rw [if_pos (by omega)]

theorem setxadd_split_eq (env : Env) (hl : env.Lawful) (B : List Value)
    (hn : B.length ≤ USHRT_MAX) (A : List Value) :
    setxadd_split env (env.qsort B) B.length A =
      (sub_spec env A B, intersect_spec env A B) := by
  induction A with
  | nil => rfl
  | cons v A ih =>
    simp only [setxadd_split, ih, sub_spec, intersect_spec, List.filter_cons]
    by_cases h : B.any (fun y => veq env v y) = false
    · rw [if_pos ((search_qsort_neg_iff env hl v B hn).2 h)]
      simp [h]
    · rw [if_neg (mt (search_qsort_neg_iff env hl v B hn).1 h)]
      simp only [Bool.not_eq_false] at h
      simp [h]

/-- Removing from `B` what `A` shares with `B` removes what `B` shares with `A`. -/
theorem sub_spec_intersect (env : Env) (hc : env.CmpLawful) (A B : List Value) :
    sub_spec env B (intersect_spec env A B) = sub_spec env B A := by
  have key : ∀ b ∈ B, (!(intersect_spec env A B).any (fun y => veq env b y)) =
      !A.any (fun y => veq env b y) := by
    intro b hb
    congr 1
    rw [Bool.eq_iff_iff, any_veq_true_iff, any_veq_true_iff]
    constructor
    · rintro ⟨x, hx, hv⟩
      exact ⟨x, ((mem_intersect_spec env A B x).1 hx).1, hv⟩
    · rintro ⟨x, hx, hv⟩
      exact ⟨x, (mem_intersect_spec env A B x).2 ⟨hx, b, hb, veq_symm env hc hv⟩, hv⟩
  exact List.filter_congr key

theorem intersect_spec_length_le (env : Env) (A B : List Value) :
    (intersect_spec env A B).length ≤ A.length := by
  unfold intersect_spec
  exact List.length_filter_le _ _

/-- What `arr_setxadd` computes on well-formed operands when the result fits. -/
theorem arr_setxadd_run (env : Env) (hl : env.Lawful) (A B : Array) (hA : A.ok env)
    (hB : B.ok env)
    (hfit : (sub_spec env A.elts B.elts).length + (sub_spec env B.elts A.elts).length ≤
      env.max_size) :
    ∃ r, arr_setxadd env A B = .ok r ∧
      r.val.elts = sub_spec env A.elts B.elts ++ sub_spec env B.elts A.elts := by
  unfold arr_setxadd
  by_cases hA0 : A.size = 0
  · rw [if_pos hA0, arr_new_ok env hl hB.1]
    have : A.elts = [] := List.length_eq_zero.1 hA0
    refine ⟨_, rfl, ?_⟩
    simp only [Array.size, i_copy_all, List.take_length, this, sub_spec_nil_right,
      sub_spec_nil_left, List.nil_append]
  · rw [if_neg hA0]
    by_cases hB0 : B.size = 0
    · rw [if_pos hB0, arr_new_ok env hl hA.1]
      have : B.elts = [] := List.length_eq_zero.1 hB0
      refine ⟨_, rfl, ?_⟩
      simp only [Array.size, i_copy_all, List.take_length, this, sub_spec_nil_right,
        sub_spec_nil_left, List.append_nil]
    · rw [if_neg hB0]
      have hI : (intersect_spec env A.elts B.elts).length ≤ USHRT_MAX :=
        le_trans (intersect_spec_length_le env _ _) (size_le_ushrt env hl hA)
      simp only [copytmp_fst env A hA, copytmp_fst env B hB, copytmp_snd_elts env B hB,
        Array.size, setxadd_split_eq env hl B.elts (size_le_ushrt env hl hB) A.elts,
        sub_loop_eq env hl _ hI B.elts, sub_spec_intersect env hl.cmp_laws]
      rw [if_neg (by omega), arr_new_ok env hl hfit]
      exact ⟨_, rfl, take_append_all _ _⟩

/-- When the result does not fit, `arr_setxadd` signals the error. -/
theorem arr_setxadd_err (env : Env) (hl : env.Lawful) (A B : Array) (hA : A.ok env)
    (hB : B.ok env)
    (hfit : ¬ (sub_spec env A.elts B.elts).length + (sub_spec env B.elts A.elts).length ≤
      env.max_size) :
    arr_setxadd env A B = .error .array_too_large := by
  unfold arr_setxadd
  have h1 := hA.1
  have h2 := hB.1
  unfold Array.size at h1 h2
  by_cases hA0 : A.size = 0
  · have : A.elts = [] := List.length_eq_zero.1 hA0
    rw [this, sub_spec_nil_right, sub_spec_nil_left] at hfit
    simp at hfit
    omega
  · rw [if_neg hA0]
    by_cases hB0 : B.size = 0
    · have : B.elts = [] := List.length_eq_zero.1 hB0
      rw [this, sub_spec_nil_right, sub_spec_nil_left] at hfit
      simp at hfit
      omega
    · rw [if_neg hB0]
      have hI : (intersect_spec env A.elts B.elts).length ≤ USHRT_MAX :=
        le_trans (intersect_spec_length_le env _ _) (size_le_ushrt env hl hA)
      simp only [copytmp_fst env A hA, copytmp_fst env B hB, copytmp_snd_elts env B hB,
        Array.size, setxadd_split_eq env hl B.elts (size_le_ushrt env hl hB) A.elts,
        sub_loop_eq env hl _ hI B.elts, sub_spec_intersect env hl.cmp_laws]
      rw [if_pos (by omega)]

/-- The two differences of `A` and `B` share no element. -/
theorem sub_spec_disjoint (env : Env) (A B : List Value) :
    sub_spec env (sub_spec env B A) (sub_spec env A B) = sub_spec env B A := by
  conv_lhs => rw [sub_spec]
  apply List.filter_eq_self.2
  intro y hy
  rw [Bool.not_eq_true', any_veq_false_iff]
  intro x hx
  exact ((mem_sub_spec env B A y).1 hy).2 x (sub_spec_mem env hx)

/-- C5: for well-formed arrays `A` and `B` whose result fits the configured
maximum, `arr_setadd(A, B)` returns `A` (all elements, in order) followed by
the elements of `B` that are equal to no element of `A`, in the order of `B`;
when `A` is empty the result is a copy of `B` and when `B` is empty a copy of
`A`. -/
theorem arr_setadd_elements (env : Env) (hl : env.Lawful) (A B : Array) (hA : A.ok env)
    (hB : B.ok env)
    (hfit : A.size + (sub_spec env B.elts A.elts).length ≤ env.max_size) :
    ∃ r, arr_setadd env A B = .ok r ∧
      r.val.elts = A.elts ++ sub_spec env B.elts A.elts ∧
      (A.elts = [] → r.val.elts = B.elts) ∧ (B.elts = [] → r.val.elts = A.elts) := by
  obtain ⟨r, h1, h2⟩ := arr_setadd_run env hl A B hA hB hfit
  refine ⟨r, h1, h2, fun ha => ?_, fun hb => ?_⟩
  · rw [h2, ha, sub_spec_nil_right, List.nil_append]
  · rw [h2, hb, sub_spec_nil_left, List.append_nil]

/-- C5 at `A = [1,2,3,2]`, `B = [2,5]`: the result is `[1,2,3,2,5]`. -/
theorem arr_setadd_elements_witness :
    ∃ r, arr_setadd (ref_env 100 0)
        { elts := [.int 1, .int 2, .int 3, .int 2], odcount := 0 }
        { elts := [.int 2, .int 5], odcount := 0 } = .ok r ∧
      r.val.elts = [.int 1, .int 2, .int 3, .int 2, .int 5] := by
  obtain ⟨r, h1, h2, _⟩ := arr_setadd_elements (ref_env 100 0)
    (ref_env_lawful 100 0 (by decide))
    { elts := [.int 1, .int 2, .int 3, .int 2], odcount := 0 }
    { elts := [.int 2, .int 5], odcount := 0 } ⟨by decide, by decide⟩ ⟨by decide, by decide⟩
    (by decide)
  exact ⟨r, h1, by rw [h2]; decide⟩

/-- C6: for well-formed arrays `A` and `B` whose result fits the configured
maximum, `arr_setxadd(A, B)` returns the elements of `A` that are equal to no
element of `B` (in the order of `A`) followed by the elements of `B` that are
equal to no element of `A` (in the order of `B`), which is `arr_sub(A, B)`
followed by `arr_sub(B, A)`. -/
theorem arr_setxadd_elements (env : Env) (hl : env.Lawful) (A B : Array) (hA : A.ok env)
    (hB : B.ok env)
    (hfit : (sub_spec env A.elts B.elts).length + (sub_spec env B.elts A.elts).length ≤
      env.max_size) :
    ∃ r s1 s2, arr_setxadd env A B = .ok r ∧ arr_sub env A B = .ok s1 ∧
      arr_sub env B A = .ok s2 ∧
      r.val.elts = sub_spec env A.elts B.elts ++ sub_spec env B.elts A.elts ∧
      r.val.elts = s1.val.elts ++ s2.val.elts := by
  obtain ⟨r, h1, h2⟩ := arr_setxadd_run env hl A B hA hB hfit
  obtain ⟨s1, k1, e1, _⟩ := arr_sub_run env hl A B hA hB
  obtain ⟨s2, k2, e2, _⟩ := arr_sub_run env hl B A hB hA
  exact ⟨r, s1, s2, h1, k1, k2, h2, by rw [h2, e1, e2]⟩

/-- C6 at `A = [1,2,3,2]`, `B = [2,5]`: the result is `[1,3,5]`. -/
theorem arr_setxadd_elements_witness :
    ∃ r s1 s2, arr_setxadd (ref_env 100 0)
        { elts := [.int 1, .int 2, .int 3, .int 2], odcount := 0 }
        { elts := [.int 2, .int 5], odcount := 0 } = .ok r ∧
      arr_sub (ref_env 100 0)
        { elts := [.int 1, .int 2, .int 3, .int 2], odcount := 0 }
        { elts := [.int 2, .int 5], odcount := 0 } = .ok s1 ∧
      arr_sub (ref_env 100 0)
        { elts := [.int 2, .int 5], odcount := 0 }
        { elts := [.int 1, .int 2, .int 3, .int 2], odcount := 0 } = .ok s2 ∧
      r.val.elts = [.int 1, .int 3, .int 5] ∧ r.val.elts = s1.val.elts ++ s2.val.elts := by
  obtain ⟨r, s1, s2, h1, h2, h3, h4, h5⟩ := arr_setxadd_elements (ref_env 100 0)
    (ref_env_lawful 100 0 (by decide))
    { elts := [.int 1, .int 2, .int 3, .int 2], odcount := 0 }
    { elts := [.int 2, .int 5], odcount := 0 } ⟨by decide, by decide⟩ ⟨by decide, by decide⟩
    (by decide)
  exact ⟨r, s1, s2, h1, h2, h3, by rw [h4]; decide, h5⟩

/-- C7: for well-formed arrays `A` and `B`, `arr_setxadd(A, B)` and
`arr_setadd(arr_sub(A, B), arr_sub(B, A))` contain the same elements with the
same multiplicities; they signal array-too-large on the same inputs. -/
theorem arr_setxadd_perm_setadd (env : Env) (hl : env.Lawful) (A B : Array) (hA : A.ok env)
    (hB : B.ok env) :
    ∃ s1 s2, arr_sub env A B = .ok s1 ∧ arr_sub env B A = .ok s2 ∧
      ((∃ x y, arr_setxadd env A B = .ok x ∧ arr_setadd env s1.val s2.val = .ok y ∧
          x.val.elts.Perm y.val.elts) ∨
        (arr_setxadd env A B = .error .array_too_large ∧
          arr_setadd env s1.val s2.val = .error .array_too_large)) := by
  obtain ⟨s1, k1, e1, _⟩ := arr_sub_run env hl A B hA hB
  obtain ⟨s2, k2, e2, _⟩ := arr_sub_run env hl B A hB hA
  have o1 : s1.val.ok env := sub_spec_ok env hA B.elts s1.val e1
  have o2 : s2.val.ok env := sub_spec_ok env hB A.elts s2.val e2
  have hd : sub_spec env s2.val.elts s1.val.elts = sub_spec env B.elts A.elts := by
    rw [e1, e2, sub_spec_disjoint]
  refine ⟨s1, s2, k1, k2, ?_⟩
  by_cases hfit : (sub_spec env A.elts B.elts).length + (sub_spec env B.elts A.elts).length ≤
      env.max_size
  · left
    obtain ⟨x, hx, ex⟩ := arr_setxadd_run env hl A B hA hB hfit
    obtain ⟨y, hy, ey⟩ := arr_setadd_run env hl s1.val s2.val o1 o2
      (by unfold Array.size; rw [hd, e1]; exact hfit)
    refine ⟨x, y, hx, hy, ?_⟩
    rw [ex, ey, hd, e1]
  · right
    refine ⟨arr_setxadd_err env hl A B hA hB hfit, ?_⟩
    apply arr_setadd_err env hl s1.val s2.val o1 o2
    unfold Array.size
    rw [hd, e1]
    exact hfit

/-- C7 at `A = [1,2,3,2]`, `B = [2,5]`: both sides return, with the same
elements. -/
theorem arr_setxadd_perm_setadd_witness :
    ∃ s1 s2, arr_sub (ref_env 100 0)
        { elts := [.int 1, .int 2, .int 3, .int 2], odcount := 0 }
        { elts := [.int 2, .int 5], odcount := 0 } = .ok s1 ∧
      arr_sub (ref_env 100 0)
        { elts := [.int 2, .int 5], odcount := 0 }
        { elts := [.int 1, .int 2, .int 3, .int 2], odcount := 0 } = .ok s2 ∧
      ((∃ x y, arr_setxadd (ref_env 100 0)
            { elts := [.int 1, .int 2, .int 3, .int 2], odcount := 0 }
            { elts := [.int 2, .int 5], odcount := 0 } = .ok x ∧
          arr_setadd (ref_env 100 0) s1.val s2.val = .ok y ∧
          x.val.elts.Perm y.val.elts) ∨
        (arr_setxadd (ref_env 100 0)
            { elts := [.int 1, .int 2, .int 3, .int 2], odcount := 0 }
            { elts := [.int 2, .int 5], odcount := 0 } = .error .array_too_large ∧
          arr_setadd (ref_env 100 0) s1.val s2.val = .error .array_too_large)) :=
  arr_setxadd_perm_setadd (ref_env 100 0) (ref_env_lawful 100 0 (by decide))
    { elts := [.int 1, .int 2, .int 3, .int 2], odcount := 0 }
    { elts := [.int 2, .int 5], odcount := 0 } ⟨by decide, by decide⟩ ⟨by decide, by decide⟩

/-- C8: when the configured maximum fits the size field, `arr_add(A, B)`
signals array-too-large if and only if `size(A) + size(B)` exceeds `max_size`,
and otherwise returns the concatenation of `A` and `B`: `size(A) + size(B)`
elements, those of `A` in order followed by those of `B` in order. -/
theorem arr_add_concat (env : Env) (hfits : env.max_size ≤ USHRT_MAX) (A B : Array) :
    (arr_add env A B = .error .array_too_large ↔ A.size + B.size > env.max_size) ∧
    (A.size + B.size ≤ env.max_size →
      ∃ r, arr_add env A B = .ok r ∧ r.val.size = A.size + B.size ∧
        r.val.elts = A.elts ++ B.elts) := by
  unfold arr_add arr_new
  unfold USHRT_MAX at hfits
  constructor
  · by_cases h : A.size + B.size > env.max_size
    · simp [h]
    · simp [h]
  · intro h
    rw [if_neg (by omega), Nat.mod_eq_of_lt (by omega)]
    refine ⟨_, rfl, ?_, ?_⟩
    · simp only [Array.size, take_append_all, List.length_append]
    · simp only [Array.size, take_append_all]

/-- C8 at `A = [1,2]`, `B = [2]` with cap 100: the concatenation `[1,2,2]`. -/
theorem arr_add_concat_witness :
    ∃ r, arr_add (ref_env 100 0)
        { elts := [.int 1, .int 2], odcount := 0 } { elts := [.int 2], odcount := 0 } = .ok r ∧
      r.val.size = 3 ∧ r.val.elts = [.int 1, .int 2, .int 2] :=
  (arr_add_concat (ref_env 100 0) (by decide)
    { elts := [.int 1, .int 2], odcount := 0 } { elts := [.int 2], odcount := 0 }).2 (by decide)

theorem flat_length (ps : List (Value × Value)) : (flat ps).length = 2 * ps.length := by
  induction ps with
  | nil => rfl
  | cons p ps ih => obtain ⟨k, v⟩ := p; simp [flat, ih]; omega

theorem merge_elts_length (env : Env) :
    ∀ fuel v1 v2, (merge_elts env fuel v1 v2).length = v1.length + 2 * v2.length := by
  intro fuel
  induction fuel with
  | zero => intro v1 v2; simp [merge_elts, flat_length]
  | succ fuel ih =>
    intro v1 v2
    match v1, v2 with
    | [], v2 => simp [merge_elts, flat_length]
    | [x], v2 => simp [merge_elts, flat_length]; omega
    | k1 :: x1 :: v1, [] => simp [merge_elts, flat]
    | k1 :: x1 :: v1, (k2, x2) :: v2 =>
      simp only [merge_elts]
      split_ifs
      · simp [ih]; omega
      · simp [ih]; omega

theorem dehash_clean_elts_even (env : Env) :
    ∀ l, (dehash_clean_elts env l).length % 2 = 0
  | [] => by simp [dehash_clean_elts]
  | [x] => by simp [dehash_clean_elts]
  | k :: v :: rest => by
    have ih := dehash_clean_elts_even env rest
    simp only [dehash_clean_elts]
    split_ifs
    · exact ih
    · simp; omega

theorem dehash_clean_elts_length_le (env : Env) :
    ∀ l, (dehash_clean_elts env l).length ≤ l.length
  | [] => by simp [dehash_clean_elts]
  | [x] => by simp [dehash_clean_elts]
  | k :: v :: rest => by
    have ih := dehash_clean_elts_length_le env rest
    simp only [dehash_clean_elts]
    split_ifs
    · simp; omega
    · simp; omega

theorem dehash_table_length : ∀ (t : List (List mapelt)) (i : Nat),
    (dehash_table i t).1.length = t.length
  | [], i => by simp [dehash_table]
  | c :: t, i => by
    simp only [dehash_table]
    split_ifs
    · simp [dehash_table_length t]
    · rfl

theorem dehash_clean_table_length (env : Env) : ∀ (t : List (List mapelt)) (i : Nat),
    (dehash_clean_table env i t).1.length = t.length
  | [], i => by simp [dehash_clean_table]
  | c :: t, i => by
    simp only [dehash_clean_table]
    split_ifs
    · simp [dehash_clean_table_length env t]
    · rfl

theorem map_dehash_array_wf (env : Env) (m : Array) (clean : Bool) (h : m.wf) :
    (map_dehash_array env m clean).wf := by
  unfold map_dehash_array
  split_ifs
  · exact ⟨dehash_clean_elts_even env _, h.2⟩
  · exact h

theorem map_dehash_merge_wf (env : Env) (m : Array) (h : maphash) (clean : Bool) (hw : m.wf)
    (hh : m.hashed = some h) : (map_dehash_merge env m h clean).wf := by
  have ht := hw.2 h hh
  unfold map_dehash_merge
  split_ifs
  all_goals
    refine ⟨?_, ?_⟩
    · have h1 := hw.1
      first
        | exact h1
        | (simp only [merge_elts_length]; omega)
        | (dsimp only; split_ifs <;> first | exact h1 | (simp only [merge_elts_length]; omega))
    · intro h' hh'
      simp only [Option.some.injEq] at hh'
      subst hh'
      simp only [dehash_clean_table_length, dehash_table_length]
      exact ht

theorem map_dehash_wf (env : Env) (m : Array) (clean : Bool) (h : m.wf) :
    (map_dehash env m clean).wf := by
  have h1 := map_dehash_array_wf env m clean h
  unfold map_dehash
  simp only []
  cases hh : (map_dehash_array env m clean).hashed with
  | none => exact h1
  | some h0 =>
    simp only []
    split_ifs
    · exact map_dehash_merge_wf env _ h0 clean h1 hh
    · exact h1

theorem map_compact_wf (env : Env) (f : Bool) (m : Array) (h : m.wf) :
    (map_compact env f m).wf := by
  unfold map_compact
  split_ifs
  · exact map_dehash_wf env _ true (map_dehash_wf env m false h)
  · exact map_dehash_wf env _ true h
  · exact h

theorem table_push_length (ts : Nat) (t : List (List mapelt)) (e : mapelt) :
    (table_push ts t e).length = t.length := by
  simp [table_push]

theorem rehash_chain_length (ts : Nat) : ∀ (c : List mapelt) (t : List (List mapelt)),
    (rehash_chain ts t c).length = t.length
  | [], t => rfl
  | e :: es, t => by
    simp only [rehash_chain]
    rw [rehash_chain_length ts es, table_push_length]

theorem rehash_table_length (ts : Nat) : ∀ (old : List (List mapelt)) (j : Nat)
    (t : List (List mapelt)), (rehash_table ts j t old).length = t.length
  | [], j, t => rfl
  | c :: old, j, t => by
    simp only [rehash_table]
    split_ifs
    · rw [rehash_table_length ts old, rehash_chain_length]
    · rfl

/-- The table `map_grow` works on has the shape of a table. -/
theorem map_grow_table_shape (o : Option maphash)
    (h : ∀ h0, o = some h0 → h0.table.length = h0.tablesize ∧ 0 < h0.tablesize) :
    (map_grow_table o).table.length = (map_grow_table o).tablesize ∧
      0 < (map_grow_table o).tablesize := by
  cases o with
  | none => simp [map_grow_table, MTABLE_SIZE]
  | some h0 =>
    have := h h0 rfl
    simp only [map_grow_table]
    split_ifs
    · simp only [rehash_table_length, List.length_replicate, Nat.shiftLeft_eq, pow_one]
      have t2 := this.2
      exact ⟨trivial, by omega⟩
    · exact this

theorem map_grow_entry_shape (h : maphash) (hv : Nat)
    (hs : h.table.length = h.tablesize ∧ 0 < h.tablesize) :
    (map_grow_entry h hv).table.length = (map_grow_entry h hv).tablesize ∧
      0 < (map_grow_entry h hv).tablesize := by
  simp only [map_grow_entry, table_push_length]
  exact hs

/-- A call of `map_grow` that returns has added its entry to the table of `m`,
compacted first when it was full. -/
theorem map_grow_ok (env : Env) (f : Bool) (m m' : Array) (hv : Nat) (add : Bool)
    (hg : map_grow env f m hv add = .ok m') :
    ∃ m1, (m1 = m ∨ (map_grow_full env m add = true ∧ m1 = map_compact env f m ∧
        m1.size >>> 1 < env.max_size)) ∧
      m' = { m1 with hashed := some (map_grow_entry (map_grow_table m1.hashed) hv) } := by
  unfold map_grow at hg
  dsimp only at hg
  split_ifs at hg with h1 h2
  · simp only [Except.ok.injEq] at hg
    exact ⟨map_compact env f m, Or.inr ⟨h1, rfl, by omega⟩, hg.symm⟩
  · simp only [Except.ok.injEq] at hg
    exact ⟨m, Or.inl rfl, hg.symm⟩

theorem map_grow_wf (env : Env) (f : Bool) (m m' : Array) (hv : Nat) (add : Bool)
    (h : m.wf) (hg : map_grow env f m hv add = .ok m') :
    m'.wf ∧ ∃ h', m'.hashed = some h' := by
  obtain ⟨m1, hm1, rfl⟩ := map_grow_ok env f m m' hv add hg
  have hw1 : m1.wf := by
    rcases hm1 with rfl | ⟨_, rfl, _⟩
    · exact h
    · exact map_compact_wf env f m h
  refine ⟨⟨hw1.1, ?_⟩, _, rfl⟩
  intro h' hh'
  simp only [Option.some.injEq] at hh'
  subst hh'
  exact map_grow_entry_shape _ hv (map_grow_table_shape _ hw1.2)

theorem map_index_extend_wf (env : Env) (f : Bool) (m m' : Array) (i : Nat) (add : Bool)
    (idx x : Value) (h : m.wf) (hg : map_index_extend env f m i add idx x = .ok m') :
    m'.wf := by
  unfold map_index_extend at hg
  cases hgr : map_grow env f m i add with
  | error e => rw [hgr] at hg; simp at hg
  | ok m1 =>
    rw [hgr] at hg
    obtain ⟨hw, h1, hh1⟩ := map_grow_wf env f m m1 i add h hgr
    simp only [hh1] at hg
    have := hw.2 h1 hh1
    split_ifs at hg
    all_goals
      simp only [Except.ok.injEq] at hg
      subst hg
      refine ⟨hw.1, ?_⟩
      intro h' hh'
      simp only [Option.some.injEq] at hh'
      subst hh'
      simpa [table_set_head] using this

theorem map_index_hashed_wf (m : Array) (h : maphash) (b pos : Nat) (e : mapelt) (val : Value)
    (elt : Option Value) (del : Bool) (verify : Option Value) (hw : m.wf)
    (hh : m.hashed = some h) :
    (map_index_hashed m h b pos e val elt del verify).1.wf := by
  have := hw.2 h hh
  unfold map_index_hashed
  simp only []
  split_ifs
  all_goals
    first
      | exact hw
      | (refine ⟨hw.1, ?_⟩
         intro h' hh'
         simp only [Option.some.injEq] at hh'
         subst hh'
         simpa using this)

theorem map_index_lookup_wf (env : Env) (m m' : Array) (val : Value) (elt : Option Value)
    (del : Bool) (verify : Option Value) (r : Option Value) (hw : m.wf)
    (hl : map_index_lookup env m val elt del verify = some (m', r)) : m'.wf := by
  unfold map_index_lookup at hl
  cases hh : m.hashed with
  | none => rw [hh] at hl; simp at hl
  | some h =>
    rw [hh] at hl
    simp only [] at hl
    cases hc : chain_find env val (h.table.getD (map_hash env val % h.tablesize) []) with
    | none => rw [hc] at hl; simp at hl
    | some pos =>
      rw [hc] at hl
      simp only [Option.some.injEq] at hl
      have := map_index_hashed_wf m h (map_hash env val % h.tablesize) pos
        ((h.table.getD (map_hash env val % h.tablesize) []).getD pos
          { hashval := 0, add := false, idx := Value.nil, val := Value.nil })
        val elt del verify hw hh
      rw [hl] at this
      exact this

theorem veq_self_indexed (env : Env) {a : Value} (h : T_INDEXED a.type = true) :
    veq env a a = true := by
  cases a <;> simp [T_INDEXED, Value.type] at h <;> simp [veq, cmp, same_array]

theorem veq_of_same_array_any (env : Env) {a b : Value} (h : same_array a b = true) :
    veq env a b = true := by
  have hi := same_array_indexed h
  have := same_array_eq h
  subst this
  exact veq_self_indexed env hi

theorem search_bwd_some_le (v : Value) (buf : List Value) (l step : Nat) :
    ∀ fuel m r, step ∣ m → search_bwd v buf l step fuel m = some r →
      r ≤ m ∧ step ∣ r ∧ same_array v (buf.getD r Value.nil) = true := by
  intro fuel
  induction fuel with
  | zero => intro m r _ hr; simp [search_bwd] at hr
  | succ fuel ih =>
    intro m r hdm hr
    have hdm' : step ∣ m - step := Nat.dvd_sub' hdm (dvd_refl _)
    simp only [search_bwd] at hr
    split_ifs at hr with h1 h2 h3 h4
    · simp at hr
      subst hr
      exact ⟨by omega, hdm', h3⟩
    · have := ih (m - step) r hdm' hr
      exact ⟨by omega, this.2⟩

theorem search_mid_two_lt (l h : Nat) (hlt : l < h) :
    ((l + h) >>> 1) &&& search_mask 2 < h ∧ 2 ∣ ((l + h) >>> 1) &&& search_mask 2 := by
  have : search_mask 2 = 65534 := by decide
  rw [this, land_65534, Nat.shiftRight_eq_div_pow]
  refine ⟨by omega, Dvd.intro _ rfl⟩

/-- Whatever the buffer holds, an index that the loop of `search` returns at
stride 2 is the index of a pair, in range, whose index equals the key. -/
theorem search_loop_sound (env : Env) (v : Value) (buf : List Value) :
    ∀ fuel l h m, 2 ∣ l → 2 ∣ h → search_loop env v buf 2 fuel l h = .ok m →
      m < h ∧ 2 ∣ m ∧ veq env v (buf.getD m Value.nil) = true := by
  intro fuel
  induction fuel with
  | zero => intro l h m _ _ hr; simp [search_loop] at hr
  | succ fuel ih =>
    intro l h m hdl hdh hr
    simp only [search_loop] at hr
    by_cases hlt : l < h
    · rw [if_pos hlt] at hr
      obtain ⟨hm2, hm3⟩ := search_mid_two_lt l h hlt
      generalize ((l + h) >>> 1) &&& search_mask 2 = mid at hm2 hm3 hr
      by_cases hc : cmp env v (buf.getD mid Value.nil) = 0
      · rw [if_pos hc] at hr
        by_cases hprobe : (T_INDEXED v.type && !same_array v (buf.getD mid Value.nil)) = true
        · rw [if_pos hprobe] at hr
          cases hfw : search_fwd v buf h 2 h mid with
          | some r =>
            rw [hfw] at hr
            simp only [Except.ok.injEq] at hr
            subst hr
            obtain ⟨_, r2, r3, r4⟩ :=
              search_fwd_some v buf h 2 (by decide) hdh h mid r hm3 hm2 hfw
            exact ⟨r2, r3, veq_of_same_array_any env r4⟩
          | none =>
            rw [hfw] at hr
            cases hbw : search_bwd v buf l 2 h mid with
            | some r =>
              rw [hbw] at hr
              simp only [Except.ok.injEq] at hr
              subst hr
              obtain ⟨r1, r3, r4⟩ := search_bwd_some_le v buf l 2 h mid r hm3 hbw
              exact ⟨by omega, r3, veq_of_same_array_any env r4⟩
            | none => rw [hbw] at hr; simp at hr
        · rw [if_neg hprobe] at hr
          simp only [Except.ok.injEq] at hr
          subst hr
          refine ⟨hm2, hm3, ?_⟩
          rw [veq_iff]
          refine ⟨hc, fun hvi => ?_⟩
          simp only [hvi, Bool.true_and, Bool.not_eq_true', Bool.not_eq_false] at hprobe
          exact hprobe
      · rw [if_neg hc] at hr
        split_ifs at hr
        · have := ih l mid m hdl hm3 hr
          exact ⟨by omega, this.2⟩
        · exact ih (mid + 2) h m (Dvd.dvd.add hm3 (dvd_refl _)) hdh hr
    · rw [if_neg hlt] at hr
      simp at hr

/-- An index that `search` returns at stride 2 is the index of a pair, in range,
whose index equals the key. -/
theorem search_sound (env : Env) (v : Value) (buf : List Value) (h : Nat) (hdh : 2 ∣ h)
    (hn : 0 ≤ search env v buf h 2 false) :
    (search env v buf h 2 false).toNat < h ∧ 2 ∣ (search env v buf h 2 false).toNat ∧
      veq env v (buf.getD (search env v buf h 2 false).toNat Value.nil) = true := by
  unfold search at hn ⊢
  cases hr : search_loop env v buf 2 (h + 1) 0 h with
  | ok m =>
    simp only [Int.toNat_ofNat]
    exact search_loop_sound env v buf (h + 1) 0 h m (dvd_zero _) hdh hr
  | error l =>
    rw [hr] at hn
    simp at hn

theorem wf_of_elts_length {m m' : Array} (hw : m.wf) (hh : m'.hashed = m.hashed)
    (hl : m'.elts.length % 2 = 0) : m'.wf :=
  ⟨hl, fun h e => hw.2 h (by rw [← hh]; exact e)⟩

theorem eraseIdx_twice_length (l : List Value) (n : Nat) (h : n + 1 < l.length) :
    ((l.eraseIdx n).eraseIdx n).length = l.length - 2 := by
  rw [List.length_eraseIdx, List.length_eraseIdx]
  simp only [show n < l.length from by omega, ↓reduceIte]
  rw [if_pos (by omega)]
  omega

theorem map_index_array_wf (env : Env) (f : Bool) (m m' : Array) (val : Value)
    (elt : Option Value) (del : Bool) (verify : Option Value) (hash : Bool) (r : Value)
    (hw : m.wf) (hr : map_index_array env f m val elt del verify hash = .ok (m', r)) :
    m'.wf := by
  unfold map_index_array at hr
  dsimp only at hr
  by_cases hn : (if m.size > 0 then search env val m.elts m.size 2 false else -1) ≥ 0
  · rw [if_pos hn] at hr
    have hpos : m.size > 0 := by
      by_contra h0
      rw [if_neg h0] at hn
      omega
    rw [if_pos hpos] at hn hr
    have hd : 2 ∣ m.size := Nat.dvd_of_mod_eq_zero hw.1
    obtain ⟨s1, s2, _⟩ := search_sound env val m.elts m.size hd hn
    generalize (search env val m.elts m.size 2 false).toNat = n at s1 s2 hr
    have hn1 : n + 1 < m.elts.length := by
      unfold Array.size at s1 hd
      obtain ⟨a, ha⟩ := hd
      obtain ⟨b, hb⟩ := s2
      omega
    split_ifs at hr
    · -- change, then extend
      split at hr
      · simp at hr
      · rename_i m1 he
        simp only [Except.ok.injEq, Prod.mk.injEq] at hr
        rw [← hr.1]
        refine map_index_extend_wf env f _ m1 _ false _ _ ?_ he
        exact wf_of_elts_length hw rfl (by simpa using hw.1)
    · simp only [Except.ok.injEq, Prod.mk.injEq] at hr
      rw [← hr.1]
      exact wf_of_elts_length hw rfl (by simpa using hw.1)
    · simp only [Except.ok.injEq, Prod.mk.injEq] at hr
      rw [← hr.1]
      refine wf_of_elts_length hw rfl ?_
      have := hw.1
      simp only [eraseIdx_twice_length m.elts n hn1]
      omega
    · split at hr
      · simp at hr
      · rename_i m1 he
        simp only [Except.ok.injEq, Prod.mk.injEq] at hr
        rw [← hr.1]
        exact map_index_extend_wf env f _ m1 _ false _ _ hw he
    · simp only [Except.ok.injEq, Prod.mk.injEq] at hr
      rw [← hr.1]
      exact hw
  · rw [if_neg hn] at hr
    cases elt with
    | none =>
      simp only [Except.ok.injEq, Prod.mk.injEq] at hr
      rw [← hr.1]
      exact hw
    | some x =>
      simp only at hr
      split_ifs at hr
      · split at hr
        · simp at hr
        · rename_i m1 he
          simp only [Except.ok.injEq, Prod.mk.injEq] at hr
          rw [← hr.1]
          exact map_index_extend_wf env f _ m1 _ true _ _ hw he
      · simp only [Except.ok.injEq, Prod.mk.injEq] at hr
        rw [← hr.1]
        exact hw

theorem map_index_plane_wf (env : Env) (f : Bool) (m : Array) (hw : m.wf) :
    (map_index_plane env f m).wf := by
  unfold map_index_plane
  split_ifs
  · exact map_dehash_wf env m false hw
  · exact hw

theorem map_index_body_wf (env : Env) (f : Bool) (m m' : Array) (val : Value)
    (elt : Option Value) (del : Bool) (verify : Option Value) (r : Value) (hw : m.wf)
    (hr : map_index_body env f m val elt del verify = .ok (m', r)) : m'.wf := by
  unfold map_index_body at hr
  cases hl : map_index_lookup env m val elt del verify with
  | none =>
    rw [hl] at hr
    exact map_index_array_wf env f m m' val elt del verify false r hw hr
  | some p =>
    obtain ⟨m1, o⟩ := p
    have hw1 := map_index_lookup_wf env m m1 val elt del verify o hw hl
    rw [hl] at hr
    cases o with
    | none => exact map_index_array_wf env f m1 m' val elt del verify true r hw1 hr
    | some x =>
      simp only [Except.ok.injEq, Prod.mk.injEq] at hr
      rw [← hr.1]
      exact hw1

theorem map_index_wf (env : Env) (f : Bool) (m m' : Array) (val : Value)
    (elt verify : Option Value) (r : Value) (hw : m.wf)
    (hr : map_index env f m val elt verify = .ok (m', r)) : m'.wf :=
  map_index_body_wf env f _ m' val _ _ verify r (map_index_plane_wf env f m hw) hr

/-- Every reachable mapping has the shape of a mapping. -/
theorem reachable_wf {m : Array} (h : Reachable m) : m.wf := by
  induction h with
  | empty od => exact ⟨rfl, fun h e => by cases e⟩
  | index env f m val elt verify m' r _ hr ih => exact map_index_wf env f m m' val elt verify r ih hr

theorem chain_find_none (env : Env) (k : Value) :
    ∀ c, chain_find env k c = none → chain_lookup env k c = none
  | [], _ => rfl
  | e :: es, h => by
    simp only [chain_find] at h
    split_ifs at h with hv
    cases hc : chain_find env k es with
    | some n => rw [hc] at h; simp at h
    | none =>
      have := chain_find_none env k es hc
      unfold chain_lookup at this ⊢
      simp only [List.find?_cons, hv]
      exact this

theorem chain_find_some (env : Env) (k : Value) (d : mapelt) :
    ∀ c pos, chain_find env k c = some pos →
      pos < c.length ∧ veq env k (c.getD pos d).idx = true ∧
      chain_lookup env k c = some ((c.getD pos d).idx, (c.getD pos d).val) ∧
      ∀ e1, veq env k e1.idx = true →
        chain_lookup env k (c.set pos e1) = some (e1.idx, e1.val)
  | [], pos, h => by simp [chain_find] at h
  | e :: es, pos, h => by
    simp only [chain_find] at h
    split_ifs at h with hv
    · simp only [Option.some.injEq] at h
      subst h
      refine ⟨by simp, by simpa using hv, by simp [chain_lookup, hv], ?_⟩
      intro e1 h1
      simp [chain_lookup, h1]
    · cases hc : chain_find env k es with
      | none => rw [hc] at h; simp at h
      | some n =>
        rw [hc] at h
        simp only [Option.some.injEq] at h
        subst h
        obtain ⟨a1, a2, a3, a4⟩ := chain_find_some env k d es n hc
        refine ⟨by simp; omega, by simpa using a2, ?_, ?_⟩
        · unfold chain_lookup at a3 ⊢
          simp only [List.find?_cons, hv]
          simpa using a3
        · intro e1 h1
          have := a4 e1 h1
          unfold chain_lookup at this ⊢
          simp only [List.set_cons_succ, List.find?_cons, hv]
          exact this

theorem table_getD_set (t : List (List mapelt)) (b : Nat) (c : List mapelt)
    (hb : b < t.length) : (t.set b c).getD b [] = c := by
  simp [List.getD_eq_getElem?_getD, List.getElem?_set, hb]

theorem mod_lt_table {h : maphash} (hs : h.table.length = h.tablesize ∧ 0 < h.tablesize)
    (i : Nat) : i % h.tablesize < h.table.length := by
  rw [hs.1]
  exact Nat.mod_lt _ hs.2

theorem stale_refresh (env : Env) {k idx : Value} (h : veq env k idx = true) :
    stale_object k (refresh_objcnt k idx) = false := by
  have ht := cmp_type_eq env ((veq_iff env k idx).1 h).1
  cases k <;> cases idx <;> simp [Value.type] at ht <;>
    simp [stale_object, refresh_objcnt]

theorem veq_refresh (env : Env) {k idx : Value} (h : veq env k idx = true) :
    veq env k (refresh_objcnt k idx) = true := by
  have ht := cmp_type_eq env ((veq_iff env k idx).1 h).1
  cases k <;> cases idx <;> simp [Value.type] at ht <;>
    simp only [refresh_objcnt] <;> exact h

/-- An index equal to `k`, with the update counter of `k`, is destructed when
`k` is. -/
theorem destructed_refresh (env env' : Env) {k idx : Value} (h : veq env k idx = true) :
    is_destructed env' (refresh_objcnt k idx) = is_destructed env' k := by
  have hc := ((veq_iff env k idx).1 h)
  have ht := cmp_type_eq env hc.1
  cases k <;> cases idx <;> simp [Value.type] at ht <;>
    simp only [refresh_objcnt, is_destructed]
  · -- objects: the same index
    rename_i i c i' c'
    have : i = i' := by
      have h0 := hc.1
      simp only [cmp, Value.type] at h0
      simp at h0
      split_ifs at h0 <;> omega
    rw [this]
  · -- light-weight objects: the same header
    have := same_array_eq (hc.2 (by simp [T_INDEXED, Value.type]))
    simp only [Value.lwo.injEq] at this
    rw [this.1, this.2]

theorem chain_lookup_congr (env : Env) (k : Value) :
    ∀ c1 c2 : List mapelt, c1.map mapelt.pair = c2.map mapelt.pair →
      chain_lookup env k c1 = chain_lookup env k c2
  | [], [], _ => rfl
  | [], _ :: _, h => by simp at h
  | _ :: _, [], h => by simp at h
  | e1 :: c1, e2 :: c2, h => by
    simp only [List.map_cons, List.cons.injEq] at h
    have ih := chain_lookup_congr env k c1 c2 h.2
    have hp := h.1
    simp only [mapelt.pair, Prod.mk.injEq] at hp
    unfold chain_lookup at ih ⊢
    simp only [List.find?_cons, hp.1]
    cases veq env k e2.idx
    · simpa using ih
    · simp [hp.1, hp.2]

theorem dehash_chain_pairs : ∀ (c : List mapelt) (i : Nat),
    (dehash_chain i c).2.1.map mapelt.pair = c.map mapelt.pair
  | [], i => rfl
  | e :: es, i => by
    simp only [dehash_chain]
    split_ifs
    · simp [mapelt.pair]
    · simp [mapelt.pair, dehash_chain_pairs es]
    · simp [dehash_chain_pairs es]

theorem dehash_table_pairs : ∀ (t : List (List mapelt)) (i b : Nat),
    ((dehash_table i t).1.getD b []).map mapelt.pair = (t.getD b []).map mapelt.pair
  | [], i, b => by simp [dehash_table]
  | c :: t, i, b => by
    simp only [dehash_table]
    split_ifs
    · cases b with
      | zero => simp [dehash_chain_pairs]
      | succ b => simpa using dehash_table_pairs t _ b
    · rfl

theorem dehash_clean_chain_lookup (env env' : Env) (k idx v : Value)
    (hi : is_destructed env' idx = false) (hv : is_destructed env' v = false) :
    ∀ c : List mapelt, chain_lookup env k c = some (idx, v) →
      chain_lookup env k (dehash_clean_chain env' c).1 = some (idx, v)
  | [], h => by simp [chain_lookup] at h
  | e :: es, h => by
    unfold chain_lookup at h
    simp only [List.find?_cons] at h
    cases hk : veq env k e.idx with
    | true =>
      rw [hk] at h
      simp only [Option.map_some', Option.some.injEq, Prod.mk.injEq] at h
      simp only [dehash_clean_chain, h.1, h.2, hi, hv, Bool.or_self, Bool.false_eq_true,
        ↓reduceIte]
      have hk' : veq env k idx = true := by rw [← h.1]; exact hk
      split_ifs
      · simp only [chain_lookup, List.find?_cons, h.1, hk', Option.map_some']
      · simp only [chain_lookup, List.find?_cons, hk, Option.map_some', h.1, h.2, hk']
    | false =>
      rw [hk] at h
      have ih := dehash_clean_chain_lookup env env' k idx v hi hv es
        (by unfold chain_lookup; simpa using h)
      simp only [dehash_clean_chain]
      split_ifs
      · exact ih
      · unfold chain_lookup at ih ⊢
        simp only [List.find?_cons, hk]
        exact ih
      · unfold chain_lookup at ih ⊢
        simp only [List.find?_cons, hk]
        exact ih

theorem dehash_clean_table_lookup (env env' : Env) (k idx v : Value)
    (hi : is_destructed env' idx = false) (hv : is_destructed env' v = false) :
    ∀ (t : List (List mapelt)) (i b : Nat),
      chain_lookup env k (t.getD b []) = some (idx, v) →
      chain_lookup env k ((dehash_clean_table env' i t).1.getD b []) = some (idx, v)
  | [], i, b, h => by simpa [dehash_clean_table] using h
  | c :: t, i, b, h => by
    simp only [dehash_clean_table]
    split_ifs
    · cases b with
      | zero =>
        simp only [List.getD_cons_zero] at h ⊢
        exact dehash_clean_chain_lookup env env' k idx v hi hv c h
      | succ b =>
        simp only [List.getD_cons_succ] at h ⊢
        exact dehash_clean_table_lookup env env' k idx v hi hv t _ b h
    · exact h

theorem map_dehash_array_hashed (env : Env) (m : Array) (clean : Bool) :
    (map_dehash_array env m clean).hashed = m.hashed ∧
      (map_dehash_array env m clean).hashmod = m.hashmod ∧
      (map_dehash_array env m clean).odcount = m.odcount := by
  unfold map_dehash_array
  split_ifs <;> exact ⟨rfl, rfl, rfl⟩

/-- Folding the hash table keeps the entry `map_index` finds for `k`, in clean
mode when neither its index nor its value is a destructed object. -/
theorem map_dehash_lookup (env env' : Env) (k idx v : Value) (m : Array) (clean : Bool)
    (h : hash_lookup env k m = some (idx, v))
    (hlive : clean = true → is_destructed env' idx = false ∧ is_destructed env' v = false) :
    hash_lookup env k (map_dehash env' m clean) = some (idx, v) := by
  have ha := (map_dehash_array_hashed env' m clean).1
  have h1 : hash_lookup env k (map_dehash_array env' m clean) = some (idx, v) := by
    unfold hash_lookup at h ⊢
    rw [ha]
    exact h
  unfold map_dehash
  dsimp only
  generalize map_dehash_array env' m clean = m1 at h1
  cases hh : m1.hashed with
  | none => exact h1
  | some h0 =>
    dsimp only
    split_ifs
    · unfold hash_lookup at h1 ⊢
      rw [hh] at h1
      dsimp only at h1
      unfold map_dehash_merge
      cases clean with
      | true =>
        obtain ⟨l1, l2⟩ := hlive rfl
        simp only [↓reduceIte]
        exact dehash_clean_table_lookup env env' k idx v l1 l2 _ _ _ h1
      | false =>
        simp only [Bool.false_eq_true, ↓reduceIte]
        rw [← h1]
        exact chain_lookup_congr env k _ _ (dehash_table_pairs _ _ _)
    · exact h1

theorem map_compact_lookup (env env' : Env) (k idx v : Value) (m : Array) (f : Bool)
    (h : hash_lookup env k m = some (idx, v))
    (hi : is_destructed env' idx = false) (hv : is_destructed env' v = false) :
    hash_lookup env k (map_compact env' f m) = some (idx, v) := by
  unfold map_compact
  split_ifs
  · have h1 := map_dehash_lookup env env' k idx v m false h (by simp)
    have h2 := map_dehash_lookup env env' k idx v _ true h1 (fun _ => ⟨hi, hv⟩)
    unfold hash_lookup at h2 ⊢
    exact h2
  · have h2 := map_dehash_lookup env env' k idx v _ true h (fun _ => ⟨hi, hv⟩)
    unfold hash_lookup at h2 ⊢
    exact h2
  · exact h

theorem map_index_plane_lookup (env : Env) (k idx v : Value) (m : Array) (f : Bool)
    (h : hash_lookup env k m = some (idx, v)) :
    hash_lookup env k (map_index_plane env f m) = some (idx, v) := by
  unfold map_index_plane
  split_ifs
  · exact map_dehash_lookup env env k idx v m false h (by simp)
  · exact h

/-- A read of `k` returns the value of the entry the hash table holds for `k`,
when the index of the entry is not a stale object handle. -/
theorem map_index_body_read (env : Env) (f : Bool) (m : Array) (k idx v : Value)
    (h : hash_lookup env k m = some (idx, v)) (hs : stale_object k idx = false) :
    map_index_body env f m k none false none = .ok (m, v) := by
  unfold hash_lookup at h
  unfold map_index_body map_index_lookup
  cases hh : m.hashed with
  | none => rw [hh] at h; simp at h
  | some h0 =>
    rw [hh] at h
    dsimp only at h ⊢
    cases hc : chain_find env k (h0.table.getD (map_hash env k % h0.tablesize) []) with
    | none =>
      rw [chain_find_none env k _ hc] at h
      simp at h
    | some pos =>
      obtain ⟨_, _, a3, _⟩ := chain_find_some env k
        { hashval := 0, add := false, idx := Value.nil, val := Value.nil } _ pos hc
      rw [a3] at h
      simp only [Option.some.injEq, Prod.mk.injEq] at h
      simp only [map_index_hashed, Option.isSome_none, Bool.false_and, Bool.false_eq_true,
        ↓reduceIte, h.1, hs, Bool.or_self, h.2]

theorem map_index_read (env : Env) (f : Bool) (m : Array) (k idx v : Value)
    (h : hash_lookup env k m = some (idx, v)) (hs : stale_object k idx = false) :
    ∃ m', map_index env f m k none none = .ok (m', v) := by
  unfold map_index
  simp only [map_index_elt, map_index_del, Bool.false_eq_true, ↓reduceIte]
  exact ⟨_, map_index_body_read env f _ k idx v (map_index_plane_lookup env k idx v m f h) hs⟩

theorem stale_self (k : Value) : stale_object k k = false := by
  cases k <;> simp [stale_object]

theorem table_set_head_getD (t : List (List mapelt)) (b : Nat) (e : mapelt)
    (hb : b < t.length) : (table_set_head t b e).getD b [] = e :: (t.getD b []).tail := by
  unfold table_set_head
  exact table_getD_set t b _ hb

/-- After the end of `map_index` has extended the hash table with an entry for
an index equal to `k`, that entry is the one found for `k`. -/
theorem map_index_extend_lookup (env : Env) (f : Bool) (m m' : Array) (k : Value)
    (add : Bool) (idx x : Value) (hw : m.wf)
    (he : map_index_extend env f m (map_hash env k) add idx x = .ok m')
    (hk : veq env k idx = true) : hash_lookup env k m' = some (idx, x) := by
  unfold map_index_extend at he
  cases hgr : map_grow env f m (map_hash env k) add with
  | error e => rw [hgr] at he; simp at he
  | ok m1 =>
    rw [hgr] at he
    obtain ⟨hw1, h1, hh1⟩ := map_grow_wf env f m m1 _ add hw hgr
    simp only [hh1] at he
    have hs := hw1.2 h1 hh1
    have hb := mod_lt_table hs (map_hash env k)
    split_ifs at he
    all_goals
      simp only [Except.ok.injEq] at he
      subst he
      simp only [hash_lookup, table_set_head_getD _ _ _ hb, chain_lookup, List.find?_cons, hk,
        Option.map_some']

/-- With the index found in the hash table, the array part of an assignment
leaves the hash table as it is and returns the value assigned. -/
theorem map_index_array_hashed (env : Env) (f : Bool) (m m1 : Array) (k v r : Value)
    (hr : map_index_array env f m k (some v) false none true = .ok (m1, r)) :
    m1.hashed = m.hashed ∧ r = v := by
  unfold map_index_array at hr
  dsimp only at hr
  simp only [verify_ok, Option.isSome_some, Bool.and_self, ↓reduceIte, Bool.not_true,
    Bool.false_eq_true, Option.getD_some] at hr
  split_ifs at hr
  all_goals
    simp only [Except.ok.injEq, Prod.mk.injEq] at hr
    rw [← hr.1, ← hr.2]
    exact ⟨rfl, rfl⟩

theorem map_index_array_write (env : Env) (hc : env.CmpLawful) (f : Bool) (m m1 : Array)
    (k v r : Value) (hw : m.wf)
    (hr : map_index_array env f m k (some v) false none false = .ok (m1, r)) :
    r = v ∧ ∃ idx, hash_lookup env k m1 = some (idx, v) ∧ stale_object k idx = false ∧
      ∀ env', is_destructed env' idx = is_destructed env' k := by
  unfold map_index_array at hr
  dsimp only at hr
  simp only [verify_ok, Option.isSome_some, Bool.and_self, ↓reduceIte, Bool.not_false,
    Option.getD_some] at hr
  by_cases hn : (if m.size > 0 then search env k m.elts m.size 2 false else -1) ≥ 0
  · rw [if_pos hn] at hr
    have hpos : m.size > 0 := by
      by_contra h0
      rw [if_neg h0] at hn
      omega
    rw [if_pos hpos] at hn hr
    have hd : 2 ∣ m.size := Nat.dvd_of_mod_eq_zero hw.1
    obtain ⟨_, _, s3⟩ := search_sound env k m.elts m.size hd hn
    generalize (search env k m.elts m.size 2 false).toNat = n at s3 hr
    split at hr
    · simp at hr
    · rename_i m2 he
      simp only [Except.ok.injEq, Prod.mk.injEq] at hr
      rw [← hr.1, ← hr.2]
      refine ⟨rfl, _, map_index_extend_lookup env f _ m2 k false _ v ?_ he (veq_refresh env s3),
        stale_refresh env s3, fun env' => destructed_refresh env env' s3⟩
      exact wf_of_elts_length hw rfl (by simpa using hw.1)
  · rw [if_neg hn] at hr
    split at hr
    · simp at hr
    · rename_i m2 he
      simp only [Except.ok.injEq, Prod.mk.injEq] at hr
      rw [← hr.1, ← hr.2]
      exact ⟨rfl, k, map_index_extend_lookup env f m m2 k true k v hw he (veq_refl env hc k),
        stale_self k, fun _ => rfl⟩

/-- After an assignment of `v` to the index `k`, the hash table of the mapping
holds an entry for `k` with value `v`, and `v` is returned. -/
theorem map_index_body_write (env : Env) (hc : env.CmpLawful) (f : Bool) (m m1 : Array)
    (k v r : Value) (hw : m.wf)
    (hr : map_index_body env f m k (some v) false none = .ok (m1, r)) :
    r = v ∧ ∃ idx, hash_lookup env k m1 = some (idx, v) ∧ stale_object k idx = false ∧
      ∀ env', is_destructed env' idx = is_destructed env' k := by
  unfold map_index_body at hr
  cases hl : map_index_lookup env m k (some v) false none with
  | none =>
    rw [hl] at hr
    exact map_index_array_write env hc f m m1 k v r hw hr
  | some p =>
    obtain ⟨m', o⟩ := p
    rw [hl] at hr
    -- the entry found, with the new value
    have key : ∃ idx, hash_lookup env k m' = some (idx, v) ∧ stale_object k idx = false ∧
        (∀ env', is_destructed env' idx = is_destructed env' k) ∧ (o = some v ∨ o = none) := by
      unfold map_index_lookup at hl
      cases hh : m.hashed with
      | none => rw [hh] at hl; simp at hl
      | some h =>
        rw [hh] at hl
        dsimp only at hl
        cases hcf : chain_find env k (h.table.getD (map_hash env k % h.tablesize) []) with
        | none => rw [hcf] at hl; simp at hl
        | some pos =>
          rw [hcf] at hl
          obtain ⟨_, a2, _, a4⟩ := chain_find_some env k
            { hashval := 0, add := false, idx := Value.nil, val := Value.nil } _ pos hcf
          have hb := mod_lt_table (hw.2 h hh) (map_hash env k)
          simp only [map_index_hashed, verify_ok, Option.isSome_some, Bool.and_self, ↓reduceIte,
            Option.getD_some, Option.some.injEq] at hl
          refine ⟨_, ?_, stale_refresh env a2, fun env' => destructed_refresh env env' a2, ?_⟩
          · split_ifs at hl
            all_goals
              simp only [Prod.mk.injEq] at hl
              rw [← hl.1]
              simp only [hash_lookup, table_getD_set _ _ _ hb]
              exact a4 _ (veq_refresh env a2)
          · split_ifs at hl
            all_goals
              simp only [Prod.mk.injEq] at hl
              simp [← hl.2]
    obtain ⟨idx, k1, k2, k3, k4⟩ := key
    rcases k4 with rfl | rfl
    · simp only [Except.ok.injEq, Prod.mk.injEq] at hr
      rw [← hr.1, ← hr.2]
      exact ⟨rfl, idx, k1, k2, k3⟩
    · obtain ⟨e1, e2⟩ := map_index_array_hashed env f m' m1 k v r hr
      refine ⟨e2, idx, ?_, k2, k3⟩
      unfold hash_lookup at k1 ⊢
      rw [e1]
      exact k1

theorem dehash_chain_count : ∀ (c : List mapelt) (i : Nat), 1 ≤ i →
    (dehash_chain i c).2.2.length + (dehash_chain i c).1 ≤ i
  | [], i, _ => by simp [dehash_chain]
  | e :: es, i, hi => by
    simp only [dehash_chain]
    split_ifs with h1 h2
    · simp; omega
    · have := dehash_chain_count es (i - 1) (by omega)
      simp only [List.length_cons]
      omega
    · exact dehash_chain_count es i hi

theorem dehash_table_count : ∀ (t : List (List mapelt)) (i : Nat),
    (dehash_table i t).2.length ≤ i
  | [], i => by simp [dehash_table]
  | c :: t, i => by
    simp only [dehash_table]
    split_ifs with h
    · have h1 := dehash_chain_count c i h
      have h2 := dehash_table_count t (dehash_chain i c).1
      simp only [List.length_append]
      omega
    · simp

/-- Folding the pending additions into the array does not take a mapping over
the cap it was under. -/
theorem map_dehash_false_cap (env : Env) (hl : env.Lawful) (m : Array) :
    ((map_dehash env m false).size >>> 1) + (map_dehash env m false).pending ≤
      (m.size >>> 1) + m.pending := by
  unfold map_dehash
  have e : map_dehash_array env m false = m := by simp [map_dehash_array]
  rw [e]
  dsimp only
  cases hh : m.hashed with
  | none => exact le_refl _
  | some h =>
    dsimp only
    split_ifs
    · simp only [map_dehash_merge, Bool.false_eq_true, ↓reduceIte, Array.size, Array.pending, hh,
        Nat.shiftRight_eq_div_pow, pow_one]
      have := dehash_table_count h.table h.sizemod
      split_ifs
      · simp only [merge_elts_length, (hl.qsort2_perm _).length_eq]
        omega
      · omega
    · exact le_refl _

theorem map_index_plane_cap (env : Env) (hl : env.Lawful) (f : Bool) (m : Array) :
    ((map_index_plane env f m).size >>> 1) + (map_index_plane env f m).pending ≤
      (m.size >>> 1) + m.pending := by
  unfold map_index_plane
  split_ifs
  · exact map_dehash_false_cap env hl m
  · exact le_refl _

theorem map_grow_below_cap (env : Env) (f : Bool) (m : Array) (i : Nat) (add : Bool)
    (hcap : add = true → (m.size >>> 1) + m.pending < env.max_size) :
    ∃ m', map_grow env f m i add = .ok m' := by
  unfold map_grow
  have : map_grow_full env m add = false := by
    unfold map_grow_full
    cases add with
    | false => rfl
    | true =>
      have := hcap rfl
      simp only [Bool.true_and, decide_eq_false_iff_not]
      omega
  rw [this]
  exact ⟨_, rfl⟩

theorem map_index_extend_below_cap (env : Env) (f : Bool) (m : Array) (i : Nat) (add : Bool)
    (idx x : Value) (hcap : add = true → (m.size >>> 1) + m.pending < env.max_size) :
    ∃ m', map_index_extend env f m i add idx x = .ok m' := by
  unfold map_index_extend
  obtain ⟨m1, h1⟩ := map_grow_below_cap env f m i add hcap
  rw [h1]
  dsimp only
  split
  · exact ⟨_, rfl⟩
  · split_ifs
    · exact ⟨_, rfl⟩
    · exact ⟨_, rfl⟩

theorem map_index_extend_no_error (env : Env) (f : Bool) (m : Array) (i : Nat) (add : Bool)
    (idx x : Value) (hcap : add = true → (m.size >>> 1) + m.pending < env.max_size)
    (e : Error) : map_index_extend env f m i add idx x ≠ .error e := by
  obtain ⟨m', h⟩ := map_index_extend_below_cap env f m i add idx x hcap
  rw [h]
  simp

/-- Below the size cap, an assignment to a mapping returns. -/
theorem map_index_body_write_ok (env : Env) (f : Bool) (m : Array) (k v : Value)
    (hcap : (m.size >>> 1) + m.pending < env.max_size) :
    ∃ m1 r, map_index_body env f m k (some v) false none = .ok (m1, r) := by
  have harr : ∀ (m0 : Array) (hash : Bool),
      (hash = false → (m0.size >>> 1) + m0.pending < env.max_size) →
      ∃ m1 r, map_index_array env f m0 k (some v) false none hash = .ok (m1, r) := by
    intro m0 hash h0
    unfold map_index_array
    dsimp only
    simp only [verify_ok, Option.isSome_some, Bool.and_self, ↓reduceIte, Option.getD_some]
    cases hash with
    | true =>
      simp only [Bool.not_true, Bool.false_eq_true, ↓reduceIte]
      split_ifs <;> exact ⟨_, _, rfl⟩
    | false =>
      simp only [Bool.not_false, ↓reduceIte]
      split_ifs
      all_goals
        split
        · rename_i e he
          first
            | exact absurd he (map_index_extend_no_error env f _ _ _ _ _ (fun _ => h0 rfl) _)
            | exact absurd he (map_index_extend_no_error env f _ _ _ _ _
                (fun h => Bool.noConfusion h) _)
        · exact ⟨_, _, rfl⟩
  unfold map_index_body
  cases hl : map_index_lookup env m k (some v) false none with
  | none => exact harr m false (fun _ => hcap)
  | some p =>
    obtain ⟨m', o⟩ := p
    cases o with
    | none => exact harr m' true (by simp)
    | some x => exact ⟨_, _, rfl⟩

/-- C9, as stated, fails: the object value `v` is assigned to the index 1 of an
empty mapping; the object is destructed and the mapping compacted, which
removes the pair; the read of index 1 then returns nil, not `v`. -/
theorem map_index_read_after_destruct :
    ∃ m1 m3, Reachable { elts := [], odcount := 0 } ∧ VAL_NIL (.obj 7 0) = false ∧
      map_index (ref_env 100 0) false { elts := [], odcount := 0 } (.int 1)
        (some (.obj 7 0)) none = .ok (m1, .obj 7 0) ∧
      map_index (ref_env 100 0) false (map_compact (ref_env_after 100 0 7) false m1) (.int 1)
        none none = .ok (m3, .nil) :=
  ⟨_, _, Reachable.empty 0, rfl, rfl, rfl⟩

/-- C9, amended: for every mapping `m` reachable from an empty mapping by
`map_index` operations and below the size cap, every key `k` and every non-nil
value `v` (no verify argument): `map_index(m, k, v)` returns `v`, and a read
`map_index(m, k)` afterwards returns `v`, whether `k` was absent, in the sorted
array or in the hash table before; so does a read after a compaction between
the write and the read, provided neither `k` nor `v` is a destructed object when
the compaction runs. -/
theorem map_index_read_your_write (env : Env) (hl : env.Lawful) (m : Array)
    (hm : Reachable m) (k v : Value) (hv : VAL_NIL v = false) (f1 : Bool)
    (hcap : (m.size >>> 1) + m.pending < env.max_size) :
    ∃ m1, map_index env f1 m k (some v) none = .ok (m1, v) ∧
      (∀ f2, ∃ m2, map_index env f2 m1 k none none = .ok (m2, v)) ∧
      (∀ env' f' f2, is_destructed env' k = false → is_destructed env' v = false →
        ∃ m3, map_index env f2 (map_compact env' f' m1) k none none = .ok (m3, v)) := by
  have hw := map_index_plane_wf env f1 m (reachable_wf hm)
  have hcap' := lt_of_le_of_lt (map_index_plane_cap env hl f1 m) hcap
  have he : map_index env f1 m k (some v) none =
      map_index_body env f1 (map_index_plane env f1 m) k (some v) false none := by
    simp only [map_index, map_index_elt, map_index_del, hv, Bool.false_eq_true, ↓reduceIte]
  obtain ⟨m1, r, hr⟩ := map_index_body_write_ok env f1 _ k v hcap'
  obtain ⟨hrv, idx, h1, h2, h3⟩ := map_index_body_write env hl.cmp_laws f1 _ m1 k v r hw hr
  subst hrv
  refine ⟨m1, by rw [he, hr], ?_, ?_⟩
  · intro f2
    exact map_index_read env f2 m1 k idx r h1 h2
  · intro env' f' f2 hk hv'
    exact map_index_read env f2 _ k idx r
      (map_compact_lookup env env' k idx r m1 f' h1 (by rw [h3 env']; exact hk) hv') h2

/-- C9 amended, on the empty mapping with `k = 1`, `v = 5`. -/
theorem map_index_read_your_write_witness :
    ∃ m1, map_index (ref_env 100 0) false { elts := [], odcount := 0 } (.int 1) (some (.int 5))
        none = .ok (m1, .int 5) ∧
      (∀ f2, ∃ m2, map_index (ref_env 100 0) f2 m1 (.int 1) none none = .ok (m2, .int 5)) ∧
      (∀ env' f' f2, is_destructed env' (.int 1) = false → is_destructed env' (.int 5) = false →
        ∃ m3, map_index (ref_env 100 0) f2 (map_compact env' f' m1) (.int 1) none none =
          .ok (m3, .int 5)) :=
  map_index_read_your_write (ref_env 100 0) (ref_env_lawful 100 0 (by decide))
    { elts := [], odcount := 0 } (Reachable.empty 0) (.int 1) (.int 5) rfl false (by decide)

/-! ### Buffers of pairs -/

theorem elts_indices_length : ∀ l : List Value, l.length % 2 = 0 →
    2 * (elts_indices l).length = l.length
  | [], _ => rfl
  | [x], h => by simp at h
  | k :: v :: rest, h => by
    have := elts_indices_length rest (by simp only [List.length_cons] at h; omega)
    simp only [elts_indices, List.length_cons]
    omega

theorem elts_indices_getD : ∀ (l : List Value) (i : Nat), l.length % 2 = 0 →
    (elts_indices l).getD i Value.nil = l.getD (2 * i) Value.nil
  | [], i, _ => by simp [elts_indices]
  | [x], i, h => by simp at h
  | k :: v :: rest, i, h => by
    cases i with
    | zero => simp [elts_indices]
    | succ i =>
      have := elts_indices_getD rest i (by simp only [List.length_cons] at h; omega)
      simp only [elts_indices, List.getD_cons_succ, this]
      have e : 2 * (i + 1) = (2 * i + 1) + 1 := by omega
      rw [e, List.getD_cons_succ, List.getD_cons_succ]

theorem elts_indices_flat (ps : List (Value × Value)) :
    elts_indices (flat ps) = ps.map Prod.fst := by
  induction ps with
  | nil => rfl
  | cons p ps ih => obtain ⟨k, v⟩ := p; simp [flat, elts_indices, ih]

theorem elts_indices_append_flat : ∀ (l : List Value) (ps : List (Value × Value)),
    l.length % 2 = 0 → elts_indices (l ++ flat ps) = elts_indices l ++ ps.map Prod.fst
  | [], ps, _ => by simp [elts_indices, elts_indices_flat]
  | [x], ps, h => by simp at h
  | k :: v :: rest, ps, h => by
    have := elts_indices_append_flat rest ps (by simp only [List.length_cons] at h; omega)
    show k :: elts_indices (rest ++ flat ps) = _
    rw [this]
    rfl

/-- The indices of the array part are sorted at stride 2, as `search` needs
them. -/
theorem sortedAt_of_indices (env : Env) (l : List Value) (he : l.length % 2 = 0)
    (hs : (elts_indices l).Pairwise (fun a b => cmp env a b ≤ 0)) :
    SortedAt env l l.length 2 := by
  intro i j hij hj hdi hdj
  obtain ⟨a, rfl⟩ := hdi
  obtain ⟨b, rfl⟩ := hdj
  rw [← elts_indices_getD l a he, ← elts_indices_getD l b he]
  have hlen := elts_indices_length l he
  have hb : b < (elts_indices l).length := by omega
  have ha : a < (elts_indices l).length := by omega
  rw [List.getD_eq_getElem _ _ ha, List.getD_eq_getElem _ _ hb]
  exact List.pairwise_iff_getElem.1 hs a b ha hb (by omega)

/-! ### Chains and tables -/

theorem table_getD_set_ne (t : List (List mapelt)) (b b' : Nat) (c : List mapelt)
    (h : b ≠ b') : (t.set b c).getD b' [] = t.getD b' [] := by
  simp [List.getD_eq_getElem?_getD, List.getElem?_set, h]

theorem mem_flatten_getD (t : List (List mapelt)) (e : mapelt) :
    e ∈ t.flatten ↔ ∃ b, b < t.length ∧ e ∈ t.getD b [] := by
  rw [List.mem_flatten]
  constructor
  · rintro ⟨c, hc, he⟩
    obtain ⟨b, hb, rfl⟩ := List.getElem_of_mem hc
    exact ⟨b, hb, by rw [List.getD_eq_getElem _ _ hb]; exact he⟩
  · rintro ⟨b, hb, he⟩
    rw [List.getD_eq_getElem _ _ hb] at he
    exact ⟨t[b], List.getElem_mem _, he⟩

theorem flatten_set_perm : ∀ (t : List (List mapelt)) (b : Nat) (c : List mapelt),
    b < t.length → ((t.set b c).flatten ++ t.getD b []).Perm (c ++ t.flatten)
  | [], b, c, h => by simp at h
  | c0 :: t, 0, c, _ => by
    simp only [List.set_cons_zero, List.flatten_cons, List.getD_cons_zero, List.append_assoc]
    exact List.Perm.append_left c List.perm_append_comm
  | c0 :: t, b + 1, c, h => by
    have ih := flatten_set_perm t b c (by simpa using h)
    simp only [List.set_cons_succ, List.flatten_cons, List.getD_cons_succ, List.append_assoc]
    refine (List.Perm.append_left c0 ih).trans ?_
    rw [← List.append_assoc, ← List.append_assoc]
    exact List.Perm.append_right _ List.perm_append_comm

/-- Putting an entry at the head of a chain adds it to the entries of the
table. -/
theorem flatten_push_perm (t : List (List mapelt)) (b : Nat) (e : mapelt) (hb : b < t.length) :
    (t.set b (e :: t.getD b [])).flatten.Perm (e :: t.flatten) := by
  have := flatten_set_perm t b (e :: t.getD b []) hb
  have h2 : (e :: t.flatten ++ t.getD b []).Perm (e :: t.getD b [] ++ t.flatten) := by
    simp only [List.cons_append]
    exact List.Perm.cons e List.perm_append_comm
  exact (List.perm_append_right_iff _).1 (this.trans h2.symm)

theorem chain_set_perm : ∀ (c : List mapelt) (pos : Nat) (e1 : mapelt) (d : mapelt),
    pos < c.length → (c.getD pos d :: c.set pos e1).Perm (e1 :: c)
  | [], pos, e1, d, h => by simp at h
  | e :: es, 0, e1, d, _ => by
    simp only [List.getD_cons_zero, List.set_cons_zero]
    exact List.Perm.swap _ _ _
  | e :: es, pos + 1, e1, d, h => by
    have ih := chain_set_perm es pos e1 d (by simpa using h)
    simp only [List.getD_cons_succ, List.set_cons_succ]
    exact (List.Perm.swap _ _ _).trans ((List.Perm.cons e ih).trans (List.Perm.swap _ _ _))

theorem chain_erase_perm : ∀ (c : List mapelt) (pos : Nat) (d : mapelt),
    pos < c.length → (c.getD pos d :: c.eraseIdx pos).Perm c
  | [], pos, d, h => by simp at h
  | e :: es, 0, d, _ => by simp
  | e :: es, pos + 1, d, h => by
    have ih := chain_erase_perm es pos d (by simpa using h)
    simp only [List.getD_cons_succ, List.eraseIdx_cons_succ]
    exact (List.Perm.swap _ _ _).trans (List.Perm.cons e ih)

theorem clear_of_not_add {e : mapelt} (h : e.add = false) : e.clear = e := by
  cases e
  simp only [mapelt.clear] at h ⊢
  simp [h]

theorem map_clear_of_no_add : ∀ c : List mapelt, c.filter (fun e => e.add) = [] →
    c.map mapelt.clear = c
  | [], _ => rfl
  | e :: es, h => by
    rw [List.filter_cons] at h
    split_ifs at h with ha
    have ha' : e.add = false := by simpa using ha
    simp only [List.map_cons, clear_of_not_add ha', map_clear_of_no_add es h]

/-- With a counter that covers the pending additions of a chain, the plain scan
of `map_dehash` clears every `add` flag of the chain and copies out every
pending addition. -/
theorem dehash_chain_exact : ∀ (c : List mapelt) (i : Nat),
    (c.filter (fun e => e.add)).length ≤ i →
    (dehash_chain i c).2.1 = c.map mapelt.clear ∧
    (dehash_chain i c).2.2 = (c.filter (fun e => e.add)).map mapelt.pair ∧
    (dehash_chain i c).1 = i - (c.filter (fun e => e.add)).length
  | [], i, _ => by simp [dehash_chain]
  | e :: es, i, h => by
    rw [List.filter_cons] at h ⊢
    by_cases ha : e.add = true
    · simp only [ha, ↓reduceIte, List.length_cons] at h ⊢
      simp only [dehash_chain, ha, ↓reduceIte]
      by_cases h1 : i - 1 = 0
      · have hz : (es.filter (fun e => e.add)).length = 0 := by omega
        have hnil := List.length_eq_zero.1 hz
        simp only [h1, ↓reduceIte, List.map_cons, map_clear_of_no_add es hnil, hnil, List.map_nil,
          List.length_nil]
        exact ⟨rfl, rfl, trivial⟩
      · obtain ⟨a1, a2, a3⟩ := dehash_chain_exact es (i - 1) (by omega)
        simp only [h1, ↓reduceIte, a1, a2, a3, List.map_cons]
        refine ⟨rfl, rfl, ?_⟩
        first | trivial | omega
    · have ha' : e.add = false := by simpa using ha
      simp only [ha', Bool.false_eq_true, ↓reduceIte] at h ⊢
      obtain ⟨a1, a2, a3⟩ := dehash_chain_exact es i h
      refine ⟨?_, ?_, ?_⟩
      · simp only [dehash_chain, ha', Bool.false_eq_true, ↓reduceIte, a1, List.map_cons,
          clear_of_not_add ha']
      · simp only [dehash_chain, ha', Bool.false_eq_true, ↓reduceIte, a2]
      · simp only [dehash_chain, ha', Bool.false_eq_true, ↓reduceIte, a3]

theorem filter_flatten_nil_of_length : ∀ (t : List (List mapelt)),
    (t.flatten.filter (fun e => e.add)).length = 0 →
    t.map (fun c => c.map mapelt.clear) = t
  | [], _ => rfl
  | c :: t, h => by
    simp only [List.flatten_cons, List.filter_append, List.length_append] at h
    have h1 : c.filter (fun e => e.add) = [] := List.length_eq_zero.1 (by omega)
    simp only [List.map_cons, map_clear_of_no_add c h1,
      filter_flatten_nil_of_length t (by omega)]

/-- With `sizemod` the number of pending additions, the plain mode of
`map_dehash` clears every `add` flag of the table and copies out every pending
addition. -/
theorem dehash_table_exact : ∀ (t : List (List mapelt)) (i : Nat),
    i = (t.flatten.filter (fun e => e.add)).length →
    dehash_table i t = (t.map (fun c => c.map mapelt.clear),
      (t.flatten.filter (fun e => e.add)).map mapelt.pair)
  | [], i, _ => by simp [dehash_table]
  | c :: t, i, h => by
    simp only [List.flatten_cons, List.filter_append, List.length_append] at h
    simp only [dehash_table]
    by_cases hi : i > 0
    · obtain ⟨a1, a2, a3⟩ := dehash_chain_exact c i (by omega)
      have ih := dehash_table_exact t (dehash_chain i c).1 (by rw [a3]; omega)
      simp only [hi, ↓reduceIte, a1, a2, ih, List.map_cons, List.flatten_cons,
        List.filter_append, List.map_append]
    · have h0 : i = 0 := by omega
      subst h0
      have h1 : c.filter (fun e => e.add) = [] := List.length_eq_zero.1 (by omega)
      have h2 : (t.flatten.filter (fun e => e.add)) = [] := List.length_eq_zero.1 (by omega)
      simp only [lt_self_iff_false, ↓reduceIte, List.map_cons, map_clear_of_no_add c h1,
        filter_flatten_nil_of_length t (by rw [h2]; rfl), List.flatten_cons, List.filter_append,
        h1, h2, List.append_nil, List.map_nil, gt_iff_lt]

theorem dehash_clean_chain_exact (env : Env) : ∀ c : List mapelt,
    dehash_clean_chain env c = ((c.filter (mapelt.live env)).map mapelt.clear,
      ((c.filter (mapelt.live env)).filter (fun e => e.add)).map mapelt.pair)
  | [] => rfl
  | e :: es => by
    simp only [dehash_clean_chain, dehash_clean_chain_exact env es, List.filter_cons,
      mapelt.live]
    by_cases hd : (is_destructed env e.idx || is_destructed env e.val) = true
    · simp [hd]
    · simp only [hd, Bool.false_eq_true, ↓reduceIte, Bool.not_eq_true] at *
      simp only [hd, Bool.not_false, ↓reduceIte]
      by_cases ha : e.add = true
      · simp [ha, mapelt.clear, mapelt.pair]
      · have ha' : e.add = false := by simpa using ha
        simp [ha', clear_of_not_add ha']

theorem flatten_nil_map {α : Type} (f : List mapelt → List α) (hf : f [] = []) :
    ∀ t : List (List mapelt), t.flatten.length = 0 → t.map f = t.map (fun _ => [])
  | [], _ => rfl
  | c :: t, h => by
    simp only [List.flatten_cons, List.length_append] at h
    have hc : c = [] := List.length_eq_zero.1 (by omega)
    simp only [List.map_cons, hc, hf, flatten_nil_map f hf t (by omega)]

theorem flatten_nil_self : ∀ t : List (List mapelt), t.flatten.length = 0 →
    t = t.map (fun _ => [])
  | [], _ => rfl
  | c :: t, h => by
    simp only [List.flatten_cons, List.length_append] at h
    have hc : c = [] := List.length_eq_zero.1 (by omega)
    have := flatten_nil_self t (by omega)
    simp only [List.map_cons, hc]
    rw [← this]

/-- With `size` the number of entries, the clean mode of `map_dehash` removes
from the table every entry that holds a destructed object, clears every `add`
flag, copies out the pending additions that remain and counts what it keeps. -/
theorem dehash_clean_table_exact (env : Env) : ∀ (t : List (List mapelt)) (i : Nat),
    i = t.flatten.length →
    dehash_clean_table env i t =
      (t.map (fun c => (c.filter (mapelt.live env)).map mapelt.clear),
       ((t.flatten.filter (mapelt.live env)).filter (fun e => e.add)).map mapelt.pair,
       (t.flatten.filter (mapelt.live env)).length)
  | [], i, _ => by simp [dehash_clean_table]
  | c :: t, i, h => by
    simp only [List.flatten_cons, List.length_append] at h
    simp only [dehash_clean_table]
    by_cases hi : i > 0
    · have ih := dehash_clean_table_exact env t (i - c.length) (by omega)
      simp only [hi, ↓reduceIte, dehash_clean_chain_exact, ih, List.map_cons, List.flatten_cons,
        List.filter_append, List.map_append, List.length_map, List.length_append]
    · have h0 : i = 0 := by omega
      subst h0
      have hc : c = [] := List.length_eq_zero.1 (by omega)
      have ht : t.flatten = [] := List.length_eq_zero.1 (by omega)
      have h1 := flatten_nil_map (fun c => (c.filter (mapelt.live env)).map mapelt.clear) rfl t
        (by omega)
      have h2 := flatten_nil_self t (by omega)
      simp only [lt_self_iff_false, ↓reduceIte, hc, List.flatten_cons, ht, List.append_nil,
        List.filter_nil, List.map_nil, List.length_nil, List.map_cons, h1, gt_iff_lt]
      rw [← h2]

theorem cmp_total (env : Env) (hc : env.CmpLawful) (a b : Value) :
    cmp env a b ≤ 0 ∨ cmp env b a ≤ 0 := by
  by_cases h : cmp env a b ≤ 0
  · exact Or.inl h
  · exact Or.inr ((cmp_ge_iff env hc a b).1 (by omega))

/-- The indices of the merged buffer are those of the array part and those of
the pairs merged in. -/
theorem merge_elts_indices_perm (env : Env) : ∀ (fuel : Nat) (v1 : List Value)
    (v2 : List (Value × Value)), v1.length % 2 = 0 →
    (elts_indices (merge_elts env fuel v1 v2)).Perm (elts_indices v1 ++ v2.map Prod.fst) := by
  intro fuel
  induction fuel with
  | zero =>
    intro v1 v2 h
    simp only [merge_elts, elts_indices_append_flat v1 v2 h]
    exact List.Perm.refl _
  | succ fuel ih =>
    intro v1 v2 h
    match v1, v2, h with
    | [], v2, _ =>
      simp only [merge_elts, elts_indices_append_flat [] v2 rfl]
      exact List.Perm.refl _
    | [x], v2, h => simp at h
    | k1 :: x1 :: v1, [], _ =>
      simp only [merge_elts, flat, List.append_nil, List.map_nil]
      exact List.Perm.refl _
    | k1 :: x1 :: v1, (k2, x2) :: v2, h =>
      have hv1 : v1.length % 2 = 0 := by simp only [List.length_cons] at h; omega
      simp only [merge_elts]
      split_ifs
      · simp only [elts_indices, List.cons_append]
        exact List.Perm.cons k1 (ih v1 ((k2, x2) :: v2) hv1)
      · have := ih (k1 :: x1 :: v1) v2 h
        simp only [elts_indices, List.map_cons] at this ⊢
        exact (List.Perm.cons k2 this).trans List.perm_middle.symm

/-- Merging two buffers sorted by `cmp` gives a buffer sorted by `cmp`. -/
theorem merge_elts_sorted (env : Env) (hc : env.CmpLawful) : ∀ (fuel : Nat) (v1 : List Value)
    (v2 : List (Value × Value)), v1.length % 2 = 0 →
    (elts_indices v1).Pairwise (fun a b => cmp env a b ≤ 0) →
    (v2.map Prod.fst).Pairwise (fun a b => cmp env a b ≤ 0) →
    v1.length + v2.length ≤ fuel →
    (elts_indices (merge_elts env fuel v1 v2)).Pairwise (fun a b => cmp env a b ≤ 0) := by
  intro fuel
  induction fuel with
  | zero =>
    intro v1 v2 h s1 s2 hf
    have e1 : v1 = [] := List.length_eq_zero.1 (by omega)
    have e2 : v2 = [] := List.length_eq_zero.1 (by omega)
    subst e1 e2
    simp [merge_elts, flat, elts_indices]
  | succ fuel ih =>
    intro v1 v2 h s1 s2 hf
    match v1, v2, h, s1, s2, hf with
    | [], v2, _, _, s2, _ =>
      simp only [merge_elts, List.nil_append, elts_indices_flat]
      exact s2
    | [x], v2, h, _, _, _ => simp at h
    | k1 :: x1 :: v1, [], _, s1, _, _ =>
      simp only [merge_elts, flat, List.append_nil]
      exact s1
    | k1 :: x1 :: v1, (k2, x2) :: v2, h, s1, s2, hf =>
      have hv1 : v1.length % 2 = 0 := by simp only [List.length_cons] at h; omega
      simp only [elts_indices, List.pairwise_cons] at s1
      simp only [List.map_cons, List.pairwise_cons] at s2
      simp only [merge_elts]
      split_ifs with hle
      · simp only [elts_indices, List.pairwise_cons]
        refine ⟨?_, ih v1 ((k2, x2) :: v2) hv1 s1.2
          (by simp only [List.map_cons, List.pairwise_cons]; exact s2)
          (by simp only [List.length_cons] at hf ⊢; omega)⟩
        intro y hy
        have := (merge_elts_indices_perm env fuel v1 ((k2, x2) :: v2) hv1).mem_iff.1 hy
        simp only [List.map_cons, List.mem_append, List.mem_cons] at this
        rcases this with h1 | rfl | h3
        · exact s1.1 y h1
        · exact hle
        · exact cmp_trans env hc hle (s2.1 y h3)
      · have hle' : cmp env k2 k1 ≤ 0 := by
          rcases cmp_total env hc k1 k2 with h1 | h1
          · exact absurd h1 hle
          · exact h1
        simp only [elts_indices, List.pairwise_cons]
        refine ⟨?_, ih (k1 :: x1 :: v1) v2 h
          (by simp only [elts_indices, List.pairwise_cons]; exact s1) s2.2
          (by simp only [List.length_cons] at hf ⊢; omega)⟩
        intro y hy
        have := (merge_elts_indices_perm env fuel (k1 :: x1 :: v1) v2 h).mem_iff.1 hy
        simp only [elts_indices, List.mem_append, List.mem_cons] at this
        rcases this with (rfl | h1) | h3
        · exact hle'
        · exact cmp_trans env hc hle' (s1.1 y h1)
        · exact s2.1 y h3

theorem dehash_clean_elts_sublist (env : Env) : ∀ l : List Value,
    (elts_indices (dehash_clean_elts env l)).Sublist (elts_indices l)
  | [] => by simp [dehash_clean_elts, elts_indices]
  | [x] => by simp [dehash_clean_elts, elts_indices]
  | k :: v :: rest => by
    have ih := dehash_clean_elts_sublist env rest
    simp only [dehash_clean_elts]
    split_ifs
    · simp only [elts_indices]
      exact List.Sublist.cons k ih
    · simp only [elts_indices]
      exact List.Sublist.cons₂ k ih

theorem veq_false_symm (env : Env) (hc : env.CmpLawful) {a b : Value}
    (h : veq env a b = false) : veq env b a = false := by
  by_contra h'
  have := veq_symm env hc (by simpa using h' : veq env b a = true)
  rw [h] at this
  exact absurd this (by decide)

theorem flatten_map_filter_clear (p : mapelt → Bool) : ∀ t : List (List mapelt),
    (t.map (fun c => (c.filter p).map mapelt.clear)).flatten =
      (t.flatten.filter p).map mapelt.clear
  | [] => rfl
  | c :: t => by
    simp only [List.map_cons, List.flatten_cons, List.filter_append, List.map_append,
      flatten_map_filter_clear p t]

theorem getD_map_filter_clear (p : mapelt → Bool) : ∀ (t : List (List mapelt)) (b : Nat),
    (t.map (fun c => (c.filter p).map mapelt.clear)).getD b [] =
      ((t.getD b []).filter p).map mapelt.clear
  | [], b => by simp
  | c :: t, 0 => by simp
  | c :: t, b + 1 => by simpa using getD_map_filter_clear p t b

theorem clear_add (e : mapelt) : e.clear.add = false := rfl
theorem clear_idx (e : mapelt) : e.clear.idx = e.idx := rfl
theorem clear_hashval (e : mapelt) : e.clear.hashval = e.hashval := rfl

theorem filter_add_map_clear (l : List mapelt) :
    (l.map mapelt.clear).filter (fun e => e.add) = [] := by
  induction l with
  | nil => rfl
  | cons e l ih => simp [List.filter_cons, clear_add, ih]

/-- The hash table after `map_dehash` has scanned it, keeping the entries that
satisfy `p` and clearing their `add` flags, is consistent with the array part it
was merged into. -/
theorem tableOK_fold (env : Env) (keys keys' : List Value) (hm : Bool) (h : maphash)
    (p : mapelt → Bool) (s' : Nat) (hok : TableOK env keys hm h)
    (hs : s' = (h.table.flatten.filter p).length)
    (hk : keys'.length ≤ keys.length + h.sizemod) :
    TableOK env keys' false
      { h with table := h.table.map (fun c => (c.filter p).map mapelt.clear),
               size := s', sizemod := 0 } where
  len := by simpa using hok.len
  pos := hok.pos
  size_eq := by
    show s' = (List.flatten (List.map _ h.table)).length
    rw [flatten_map_filter_clear, List.length_map, hs]
  sizemod_eq := by
    show 0 = (List.filter _ (List.flatten (List.map _ h.table))).length
    rw [flatten_map_filter_clear, filter_add_map_clear]
    rfl
  hashmod_eq := by simp
  bucket := by
    intro b e he
    simp only [getD_map_filter_clear, List.mem_map, List.mem_filter] at he
    obtain ⟨e0, ⟨h0, _⟩, rfl⟩ := he
    exact hok.bucket b e0 h0
  hashval := by
    intro e he
    simp only [flatten_map_filter_clear, List.mem_map, List.mem_filter] at he
    obtain ⟨e0, ⟨h0, _⟩, rfl⟩ := he
    exact hok.hashval e0 h0
  distinct := by
    simp only [flatten_map_filter_clear, List.map_map]
    have : (mapelt.idx ∘ mapelt.clear) = mapelt.idx := rfl
    have hsub : ((h.table.flatten.filter p).map (fun e => e.idx)).Sublist
        (h.table.flatten.map (fun e => e.idx)) :=
      List.Sublist.map _ (List.filter_sublist _)
    exact List.Pairwise.sublist hsub hok.distinct
  fresh := by
    intro e he ha
    simp only [flatten_map_filter_clear, List.mem_map] at he
    obtain ⟨e0, _, rfl⟩ := he
    simp [clear_add] at ha
  cap := by
    have := hok.cap
    simp only [Nat.add_zero]
    omega

theorem TableOK.mono_keys {env : Env} {keys keys' : List Value} {hm : Bool} {h : maphash}
    (hok : TableOK env keys hm h) (hsub : ∀ x ∈ keys', x ∈ keys)
    (hlen : keys'.length ≤ keys.length) : TableOK env keys' hm h where
  len := hok.len
  pos := hok.pos
  size_eq := hok.size_eq
  sizemod_eq := hok.sizemod_eq
  hashmod_eq := hok.hashmod_eq
  bucket := hok.bucket
  hashval := hok.hashval
  distinct := hok.distinct
  fresh := fun e he ha x hx => hok.fresh e he ha x (hsub x hx)
  cap := by have := hok.cap; omega

theorem map_dehash_array_inv (env env' : Env) (m : Array) (clean : Bool) (hi : Inv env m) :
    Inv env (map_dehash_array env' m clean) := by
  unfold map_dehash_array
  split_ifs
  · have hsub := dehash_clean_elts_sublist env' m.elts
    exact {
      even := dehash_clean_elts_even env' _
      sorted := List.Pairwise.sublist hsub hi.sorted
      distinct := List.Pairwise.sublist hsub hi.distinct
      nohash := fun hh => ⟨(hi.nohash hh).1, le_trans hsub.length_le (hi.nohash hh).2⟩
      table := fun h hh => (hi.table h hh).mono_keys (fun x hx => hsub.subset hx) hsub.length_le }
  · exact hi

theorem pairwise_veq_perm (env : Env) (hc : env.CmpLawful) {l1 l2 : List Value}
    (hp : l1.Perm l2) (h : l1.Pairwise (fun a b => veq env a b = false)) :
    l2.Pairwise (fun a b => veq env a b = false) :=
  (hp.pairwise_iff (fun {_ _} hab => veq_false_symm env hc hab)).1 h

/-- The merge step of `map_dehash`: the array part with the pairs `v2` merged in
holds whole pairs, sorted, with distinct indices: those it had and those of
`v2`. -/
theorem merge_step (env : Env) (hl : env.Lawful) (elts : List Value)
    (v2 : List (Value × Value)) (c : Prop) [Decidable c] (hnc : ¬ c → v2 = [])
    (heven : elts.length % 2 = 0)
    (hs : (elts_indices elts).Pairwise (fun a b => cmp env a b ≤ 0))
    (hd : (elts_indices elts).Pairwise (fun a b => veq env a b = false))
    (hd2 : (v2.map Prod.fst).Pairwise (fun a b => veq env a b = false))
    (hx : ∀ x ∈ elts_indices elts, ∀ y ∈ v2.map Prod.fst, veq env x y = false) :
    (if c then merge_elts env (elts.length + v2.length) elts (env.qsort2 v2) else elts).length
        % 2 = 0 ∧
    (elts_indices (if c then merge_elts env (elts.length + v2.length) elts (env.qsort2 v2)
      else elts)).Pairwise (fun a b => cmp env a b ≤ 0) ∧
    (elts_indices (if c then merge_elts env (elts.length + v2.length) elts (env.qsort2 v2)
      else elts)).Pairwise (fun a b => veq env a b = false) ∧
    (elts_indices (if c then merge_elts env (elts.length + v2.length) elts (env.qsort2 v2)
      else elts)).Perm (elts_indices elts ++ v2.map Prod.fst) := by
  by_cases hcc : c
  · simp only [hcc, ↓reduceIte]
    have hq := hl.qsort2_perm v2
    have hperm : (elts_indices (merge_elts env (elts.length + v2.length) elts
        (env.qsort2 v2))).Perm (elts_indices elts ++ v2.map Prod.fst) :=
      (merge_elts_indices_perm env _ elts (env.qsort2 v2) heven).trans
        (List.Perm.append_left _ (hq.map Prod.fst))
    refine ⟨?_, ?_, ?_, hperm⟩
    · rw [merge_elts_length]; omega
    · refine merge_elts_sorted env hl.cmp_laws _ elts (env.qsort2 v2) heven hs ?_
        (by rw [hq.length_eq])
      exact List.pairwise_map.2 (hl.qsort2_sorted v2)
    · refine pairwise_veq_perm env hl.cmp_laws hperm.symm ?_
      exact List.pairwise_append.2 ⟨hd, hd2, hx⟩
  · simp only [hcc, ↓reduceIte, hnc hcc, List.map_nil, List.append_nil]
    exact ⟨heven, hs, hd, List.Perm.refl _⟩

theorem map_pair_fst (l : List mapelt) :
    (l.map mapelt.pair).map Prod.fst = l.map (fun e => e.idx) := by
  simp [List.map_map, Function.comp_def, mapelt.pair]

/-- The pending additions of a consistent hash table, those among them that
satisfy `p`, have distinct indices, none equal to an index of the array part. -/
theorem adds_fresh (env : Env) (hc : env.CmpLawful) (keys : List Value) (hm : Bool)
    (h : maphash) (p : mapelt → Bool) (hok : TableOK env keys hm h) :
    ((((h.table.flatten.filter p).filter (fun e => e.add)).map mapelt.pair).map
        Prod.fst).Pairwise (fun a b => veq env a b = false) ∧
    (∀ x ∈ keys, ∀ y ∈ (((h.table.flatten.filter p).filter (fun e => e.add)).map
        mapelt.pair).map Prod.fst, veq env x y = false) ∧
    (((h.table.flatten.filter p).filter (fun e => e.add)).map mapelt.pair).length ≤
      h.sizemod := by
  rw [map_pair_fst]
  refine ⟨?_, ?_, ?_⟩
  · have hsub : (((h.table.flatten.filter p).filter (fun e => e.add)).map
        (fun e => e.idx)).Sublist (h.table.flatten.map (fun e => e.idx)) :=
      List.Sublist.map _ ((List.filter_sublist _).trans (List.filter_sublist _))
    exact List.Pairwise.sublist hsub hok.distinct
  · intro x hx y hy
    simp only [List.mem_map, List.mem_filter] at hy
    obtain ⟨e, ⟨⟨he, _⟩, ha⟩, rfl⟩ := hy
    exact veq_false_symm env hc (hok.fresh e he ha x hx)
  · rw [List.length_map, hok.sizemod_eq, List.filter_comm]
    exact (List.filter_sublist _).length_le

theorem map_dehash_merge_inv (env : Env) (hl : env.Lawful) (m : Array) (h : maphash)
    (clean : Bool) (hi : Inv env m) (hh : m.hashed = some h) :
    Inv env (map_dehash_merge env m h clean) := by
  have tok := hi.table h hh
  unfold map_dehash_merge
  cases clean with
  | true =>
    simp only [↓reduceIte, dehash_clean_table_exact env h.table h.size tok.size_eq]
    obtain ⟨f1, f2, f3⟩ := adds_fresh env hl.cmp_laws _ _ h (mapelt.live env) tok
    obtain ⟨m1, m2, m3, m4⟩ := merge_step env hl m.elts
      (((h.table.flatten.filter (mapelt.live env)).filter (fun e => e.add)).map mapelt.pair)
      ((((h.table.flatten.filter (mapelt.live env)).filter (fun e => e.add)).map
        mapelt.pair).length ≠ 0)
      (fun hn => List.length_eq_zero.1 (by simpa using hn)) hi.even hi.sorted hi.distinct f1 f2
    exact {
      even := m1
      sorted := m2
      distinct := m3
      nohash := fun hn => by simp at hn
      table := fun h' hh' => by
        simp only [Option.some.injEq] at hh'
        subst hh'
        refine tableOK_fold env _ _ _ h (mapelt.live env) _ tok rfl ?_
        rw [m4.length_eq, List.length_append, List.length_map]
        omega }
  | false =>
    have hex := dehash_table_exact h.table h.sizemod tok.sizemod_eq
    simp only [Bool.false_eq_true, ↓reduceIte, hex]
    obtain ⟨f1, f2, f3⟩ := adds_fresh env hl.cmp_laws _ _ h (fun _ => true) tok
    simp only [List.filter_true] at f1 f2 f3
    have hlen : ((h.table.flatten.filter (fun e => e.add)).map mapelt.pair).length =
        h.sizemod := by rw [List.length_map, tok.sizemod_eq]
    obtain ⟨m1, m2, m3, m4⟩ := merge_step env hl m.elts
      ((h.table.flatten.filter (fun e => e.add)).map mapelt.pair) (h.sizemod ≠ 0)
      (fun hn => List.length_eq_zero.1 (by rw [hlen]; simpa using hn))
      hi.even hi.sorted hi.distinct f1 f2
    exact {
      even := m1
      sorted := m2
      distinct := m3
      nohash := fun hn => by simp at hn
      table := fun h' hh' => by
        simp only [Option.some.injEq] at hh'
        subst hh'
        have := tableOK_fold env _
          (elts_indices (if h.sizemod ≠ 0 then merge_elts env (m.elts.length +
            ((h.table.flatten.filter (fun e => e.add)).map mapelt.pair).length) m.elts
            (env.qsort2 ((h.table.flatten.filter (fun e => e.add)).map mapelt.pair))
            else m.elts))
          _ h (fun _ => true) h.size tok (by rw [List.filter_true]; exact tok.size_eq)
          (by rw [m4.length_eq, List.length_append, List.length_map]; omega)
        simpa only [List.filter_true] using this }

theorem map_dehash_inv (env : Env) (hl : env.Lawful) (m : Array) (clean : Bool)
    (hi : Inv env m) : Inv env (map_dehash env m clean) := by
  have h1 := map_dehash_array_inv env env m clean hi
  unfold map_dehash
  dsimp only
  cases hh : (map_dehash_array env m clean).hashed with
  | none => exact h1
  | some h0 =>
    dsimp only
    split_ifs
    · exact map_dehash_merge_inv env hl _ h0 clean h1 hh
    · exact h1

theorem inv_odcount (env : Env) (m : Array) (od : Nat) (hi : Inv env m) :
    Inv env { m with odcount := od } :=
  ⟨hi.even, hi.sorted, hi.distinct, hi.nohash, hi.table⟩

theorem map_compact_inv (env : Env) (hl : env.Lawful) (f : Bool) (m : Array) (hi : Inv env m) :
    Inv env (map_compact env f m) := by
  unfold map_compact
  split_ifs
  · exact inv_odcount env _ _ (map_dehash_inv env hl _ true (map_dehash_inv env hl m false hi))
  · exact inv_odcount env _ _ (map_dehash_inv env hl _ true hi)
  · exact hi

/-- Equal indices have the same hash value. -/
theorem map_hash_veq (env : Env) (hc : env.CmpLawful) {a b : Value} (h : veq env a b = true) :
    map_hash env a = map_hash env b := by
  have hv := (veq_iff env a b).1 h
  have ht := cmp_type_eq env hv.1
  cases a <;> cases b <;> simp [Value.type] at ht
  · rfl
  · have h0 := hv.1
    simp only [cmp, Value.type] at h0
    simp at h0
    rename_i i i'
    have : i = i' := by split_ifs at h0 <;> omega
    simp [map_hash, this]
  · have h0 := hv.1
    simp only [cmp, Value.type] at h0
    simp at h0
    have := hc.flt.eq_of_zero _ _ h0
    simp only [Prod.mk.injEq] at this
    simp [map_hash, this.1, this.2]
  · have h0 := hv.1
    simp only [cmp, Value.type] at h0
    simp at h0
    have := hc.str.eq_of_zero _ _ h0
    simp [map_hash, this]
  · have h0 := hv.1
    simp only [cmp, Value.type] at h0
    simp at h0
    rename_i i c i' c'
    have : i = i' := by split_ifs at h0 <;> omega
    simp [map_hash, this]
  all_goals
    have := same_array_eq (hv.2 (by simp [T_INDEXED, Value.type]))
    rw [this]

theorem cmp_refresh_left (env : Env) (k idx y : Value) :
    cmp env (refresh_objcnt k idx) y = cmp env idx y := by
  cases k <;> cases idx <;> simp only [refresh_objcnt]
  cases y <;> simp [cmp, Value.type]

theorem cmp_refresh_right (env : Env) (k idx y : Value) :
    cmp env y (refresh_objcnt k idx) = cmp env y idx := by
  cases k <;> cases idx <;> simp only [refresh_objcnt]
  cases y <;> simp [cmp, Value.type]

theorem refresh_type (k idx : Value) : (refresh_objcnt k idx).type = idx.type := by
  cases k <;> cases idx <;> simp only [refresh_objcnt, Value.type]

theorem same_array_refresh_left (k idx y : Value) :
    same_array (refresh_objcnt k idx) y = same_array idx y := by
  cases k <;> cases idx <;> simp only [refresh_objcnt]
  cases y <;> simp [same_array]

theorem same_array_refresh_right (k idx y : Value) :
    same_array y (refresh_objcnt k idx) = same_array y idx := by
  cases k <;> cases idx <;> simp only [refresh_objcnt]
  cases y <;> simp [same_array]

theorem veq_refresh_left (env : Env) (k idx y : Value) :
    veq env (refresh_objcnt k idx) y = veq env idx y := by
  unfold veq
  rw [cmp_refresh_left, refresh_type, same_array_refresh_left]

theorem veq_refresh_right (env : Env) (k idx y : Value) :
    veq env y (refresh_objcnt k idx) = veq env y idx := by
  unfold veq
  rw [cmp_refresh_right, same_array_refresh_right]

theorem map_hash_refresh (env : Env) (k idx : Value) :
    map_hash env (refresh_objcnt k idx) = map_hash env idx := by
  cases k <;> cases idx <;> simp only [refresh_objcnt, map_hash]

theorem table_set_chain_perm (t : List (List mapelt)) (b pos : Nat) (e1 d : mapelt)
    (hb : b < t.length) (hp : pos < (t.getD b []).length) :
    ((t.getD b []).getD pos d :: (t.set b ((t.getD b []).set pos e1)).flatten).Perm
      (e1 :: t.flatten) := by
  have h1 := flatten_set_perm t b ((t.getD b []).set pos e1) hb
  have h2 := chain_set_perm (t.getD b []) pos e1 d hp
  refine (List.perm_append_right_iff (t.getD b [])).1 ?_
  have h3 : (((t.getD b []).getD pos d :: (t.set b ((t.getD b []).set pos e1)).flatten) ++
      t.getD b []).Perm ((t.getD b []).getD pos d :: ((t.getD b []).set pos e1 ++ t.flatten)) :=
    List.Perm.cons _ h1
  refine h3.trans ?_
  have h4 : ((t.getD b []).getD pos d :: ((t.getD b []).set pos e1 ++ t.flatten)).Perm
      ((e1 :: t.getD b []) ++ t.flatten) := List.Perm.append_right t.flatten h2
  refine h4.trans ?_
  simp only [List.cons_append]
  exact List.Perm.cons _ List.perm_append_comm

theorem table_erase_perm (t : List (List mapelt)) (b pos : Nat) (d : mapelt)
    (hb : b < t.length) (hp : pos < (t.getD b []).length) :
    ((t.getD b []).getD pos d :: (t.set b ((t.getD b []).eraseIdx pos)).flatten).Perm
      t.flatten := by
  have h1 := flatten_set_perm t b ((t.getD b []).eraseIdx pos) hb
  have h2 := chain_erase_perm (t.getD b []) pos d hp
  refine (List.perm_append_right_iff (t.getD b [])).1 ?_
  have h3 : (((t.getD b []).getD pos d :: (t.set b ((t.getD b []).eraseIdx pos)).flatten) ++
      t.getD b []).Perm
      ((t.getD b []).getD pos d :: ((t.getD b []).eraseIdx pos ++ t.flatten)) :=
    List.Perm.cons _ h1
  refine h3.trans ?_
  have h4 : ((t.getD b []).getD pos d :: ((t.getD b []).eraseIdx pos ++ t.flatten)).Perm
      (t.getD b [] ++ t.flatten) := List.Perm.append_right t.flatten h2
  exact h4.trans List.perm_append_comm

theorem bucket_set (t : List (List mapelt)) (b0 : Nat) (c : List mapelt) (ts : Nat)
    (hb0 : b0 < t.length)
    (hb : ∀ b e, e ∈ t.getD b [] → e.hashval % ts = b)
    (hc : ∀ e ∈ c, e.hashval % ts = b0) :
    ∀ b e, e ∈ (t.set b0 c).getD b [] → e.hashval % ts = b := by
  intro b e he
  by_cases h : b0 = b
  · subst h
    rw [table_getD_set t b0 c hb0] at he
    exact hc e he
  · rw [table_getD_set_ne t b0 b c h] at he
    exact hb b e he

theorem filter_add_length_perm {l1 l2 : List mapelt} (h : l1.Perm l2) :
    (l1.filter (fun e => e.add)).length = (l2.filter (fun e => e.add)).length :=
  (h.filter _).length_eq

/-- The table invariant after an entry is replaced by one with an equal index. -/
theorem TableOK.replace {env : Env} (hc : env.CmpLawful) {keys : List Value} {hm : Bool}
    {h : maphash} (tok : TableOK env keys hm h) (t : List (List mapelt)) (e e1 : mapelt)
    (R : List mapelt) (hF : h.table.flatten.Perm (e :: R)) (hG : t.flatten.Perm (e1 :: R))
    (hlen : t.length = h.tablesize)
    (hb : ∀ b x, x ∈ t.getD b [] → x.hashval % h.tablesize = b)
    (hhv : e1.hashval = map_hash env e1.idx) (hadd : e1.add = e.add)
    (hl : ∀ y, veq env e1.idx y = veq env e.idx y) :
    TableOK env keys hm { h with table := t } where
  len := hlen
  pos := tok.pos
  size_eq := by
    show h.size = t.flatten.length
    rw [tok.size_eq, hF.length_eq, hG.length_eq]
    rfl
  sizemod_eq := by
    show h.sizemod = _
    rw [tok.sizemod_eq, filter_add_length_perm hF, filter_add_length_perm hG]
    simp only [List.filter_cons, hadd]
    split_ifs <;> rfl
  hashmod_eq := tok.hashmod_eq
  bucket := hb
  hashval := by
    intro x hx
    rcases List.mem_cons.1 (hG.subset hx) with h1 | h1
    · rw [h1]; exact hhv
    · exact tok.hashval x (hF.symm.subset (List.mem_cons_of_mem _ h1))
  distinct := by
    have h1 := pairwise_veq_perm env hc (hF.map (fun e => e.idx)) tok.distinct
    refine pairwise_veq_perm env hc (hG.map (fun e => e.idx)).symm ?_
    simp only [List.map_cons, List.pairwise_cons] at h1 ⊢
    exact ⟨fun y hy => by rw [hl]; exact h1.1 y hy, h1.2⟩
  fresh := by
    intro x hx ha y hy
    rcases List.mem_cons.1 (hG.subset hx) with h1 | h1
    · rw [h1, hl]
      exact tok.fresh e (hF.symm.subset (List.mem_cons_self _ _)) (by rw [← hadd, ← h1]; exact ha)
        y hy
    · exact tok.fresh x (hF.symm.subset (List.mem_cons_of_mem _ h1)) ha y hy
  cap := tok.cap

/-- The table invariant after an entry is removed. -/
theorem TableOK.erase {env : Env} (hc : env.CmpLawful) {keys : List Value} {hm : Bool}
    {h : maphash} (tok : TableOK env keys hm h) (t : List (List mapelt)) (e : mapelt)
    (hF : h.table.flatten.Perm (e :: t.flatten))
    (hlen : t.length = h.tablesize)
    (hb : ∀ b x, x ∈ t.getD b [] → x.hashval % h.tablesize = b) :
    TableOK env keys
      (if e.add && decide ((if e.add then h.sizemod - 1 else h.sizemod) = 0) then false else hm)
      { h with table := t, size := h.size - 1,
               sizemod := if e.add then h.sizemod - 1 else h.sizemod } where
  len := hlen
  pos := tok.pos
  size_eq := by
    show h.size - 1 = t.flatten.length
    rw [tok.size_eq, hF.length_eq]
    rfl
  sizemod_eq := by
    show (if e.add then h.sizemod - 1 else h.sizemod) = _
    rw [tok.sizemod_eq, filter_add_length_perm hF]
    cases ha : e.add <;> simp [List.filter_cons, ha]
  hashmod_eq := by
    show _ = decide (0 < (if e.add then h.sizemod - 1 else h.sizemod))
    have := tok.hashmod_eq
    cases ha : e.add
    · simpa using this
    · by_cases h0 : h.sizemod - 1 = 0
      · simp [h0]
      · have h1 : 0 < h.sizemod := by omega
        have h2 : 0 < h.sizemod - 1 := by omega
        simp [h0, this, h1, h2]
  bucket := hb
  hashval := fun x hx => tok.hashval x (hF.symm.subset (List.mem_cons_of_mem _ hx))
  distinct := by
    have h1 := pairwise_veq_perm env hc (hF.map (fun e => e.idx)) tok.distinct
    simp only [List.map_cons, List.pairwise_cons] at h1
    exact h1.2
  fresh := fun x hx ha y hy =>
    tok.fresh x (hF.symm.subset (List.mem_cons_of_mem _ hx)) ha y hy
  cap := by
    show keys.length + (if e.add then h.sizemod - 1 else h.sizemod) ≤ env.max_size
    have := tok.cap
    split_ifs <;> omega

/-- The table invariant after an entry with a new index is added. -/
theorem TableOK.push {env : Env} (hc : env.CmpLawful) {keys : List Value} {hm : Bool}
    {h : maphash} (tok : TableOK env keys hm h) (t : List (List mapelt)) (e : mapelt)
    (hF : t.flatten.Perm (e :: h.table.flatten))
    (hlen : t.length = h.tablesize)
    (hb : ∀ b x, x ∈ t.getD b [] → x.hashval % h.tablesize = b)
    (hhv : e.hashval = map_hash env e.idx)
    (hfree : ∀ x ∈ h.table.flatten, veq env e.idx x.idx = false)
    (hfresh : e.add = true → ∀ x ∈ keys, veq env e.idx x = false)
    (hcap : e.add = true → keys.length + h.sizemod + 1 ≤ env.max_size) :
    TableOK env keys (if e.add then true else hm)
      { h with table := t, size := h.size + 1,
               sizemod := if e.add then h.sizemod + 1 else h.sizemod } where
  len := hlen
  pos := tok.pos
  size_eq := by
    show h.size + 1 = t.flatten.length
    rw [tok.size_eq, hF.length_eq]
    rfl
  sizemod_eq := by
    show (if e.add then h.sizemod + 1 else h.sizemod) = _
    rw [tok.sizemod_eq, filter_add_length_perm hF]
    cases ha : e.add <;> simp [List.filter_cons, ha]
  hashmod_eq := by
    show _ = decide (0 < (if e.add then h.sizemod + 1 else h.sizemod))
    have := tok.hashmod_eq
    cases ha : e.add
    · simpa using this
    · simp
  bucket := hb
  hashval := by
    intro x hx
    rcases List.mem_cons.1 (hF.subset hx) with h1 | h1
    · rw [h1]; exact hhv
    · exact tok.hashval x h1
  distinct := by
    refine pairwise_veq_perm env hc (hF.map (fun e => e.idx)).symm ?_
    simp only [List.map_cons, List.pairwise_cons]
    refine ⟨?_, tok.distinct⟩
    intro y hy
    obtain ⟨x, hx, rfl⟩ := List.mem_map.1 hy
    exact hfree x hx
  fresh := by
    intro x hx ha y hy
    rcases List.mem_cons.1 (hF.subset hx) with h1 | h1
    · rw [h1] at ha ⊢; exact hfresh ha y hy
    · exact tok.fresh x h1 ha y hy
  cap := by
    show keys.length + (if e.add then h.sizemod + 1 else h.sizemod) ≤ env.max_size
    have := tok.cap
    split_ifs with ha
    · exact hcap ha
    · exact this

/-- The table invariant when the indices of the array part are replaced by
equal ones, or removed. -/
theorem TableOK.keys_equiv {env : Env} {keys ks : List Value} {hm : Bool} {h : maphash}
    (tok : TableOK env keys hm h)
    (hsub : ∀ x ∈ ks, ∃ y ∈ keys, ∀ z, veq env z x = veq env z y)
    (hlen : ks.length ≤ keys.length) : TableOK env ks hm h where
  len := tok.len
  pos := tok.pos
  size_eq := tok.size_eq
  sizemod_eq := tok.sizemod_eq
  hashmod_eq := tok.hashmod_eq
  bucket := tok.bucket
  hashval := tok.hashval
  distinct := tok.distinct
  fresh := by
    intro e he ha x hx
    obtain ⟨y, hy, hz⟩ := hsub x hx
    rw [hz]
    exact tok.fresh e he ha y hy
  cap := by
    have := tok.cap
    omega

theorem keyFree_iff (env : Env) (k : Value) (m : Array) :
    KeyFree env k m ↔ ∀ x ∈ m.keys, veq env k x = false := by
  unfold KeyFree Array.keys
  constructor
  · rintro ⟨h1, h2⟩ x hx
    rcases List.mem_append.1 hx with hx | hx
    · exact h1 x hx
    · cases hh : m.hashed with
      | none => rw [hh] at hx; simp at hx
      | some h =>
        rw [hh] at hx
        obtain ⟨e, he, rfl⟩ := List.mem_map.1 hx
        exact h2 h hh e he
  · intro h
    refine ⟨fun x hx => h x (List.mem_append_left _ hx), fun h0 hh e he => ?_⟩
    refine h _ (List.mem_append_right _ ?_)
    rw [hh]
    exact List.mem_map_of_mem _ he

theorem map_dehash_array_keys (env : Env) (m : Array) (clean : Bool) :
    ∀ x ∈ (map_dehash_array env m clean).keys, x ∈ m.keys := by
  unfold map_dehash_array
  split_ifs
  · intro x hx
    unfold Array.keys at hx ⊢
    rcases List.mem_append.1 hx with hx | hx
    · exact List.mem_append_left _ ((dehash_clean_elts_sublist env m.elts).subset hx)
    · exact List.mem_append_right _ hx
  · exact fun x hx => hx

theorem mem_keys_merge (env : Env) (hl : env.Lawful) (elts : List Value)
    (p : mapelt → Bool) (F : List mapelt) (c : Prop) [Decidable c]
    (heven : elts.length % 2 = 0) (x : Value)
    (hx : x ∈ elts_indices (if c then merge_elts env
      (elts.length + (((F.filter p).filter (fun e => e.add)).map mapelt.pair).length) elts
      (env.qsort2 (((F.filter p).filter (fun e => e.add)).map mapelt.pair)) else elts)) :
    x ∈ elts_indices elts ∨ x ∈ F.map (fun e => e.idx) := by
  split_ifs at hx
  · have hperm := (merge_elts_indices_perm env
      (elts.length + (((F.filter p).filter (fun e => e.add)).map mapelt.pair).length) elts
      (env.qsort2 (((F.filter p).filter (fun e => e.add)).map mapelt.pair)) heven).trans
        (List.Perm.append_left _ ((hl.qsort2_perm _).map Prod.fst))
    rcases List.mem_append.1 (hperm.subset hx) with h1 | h1
    · exact Or.inl h1
    · rw [map_pair_fst] at h1
      obtain ⟨e, he, rfl⟩ := List.mem_map.1 h1
      exact Or.inr (List.mem_map_of_mem _ (List.mem_of_mem_filter (List.mem_of_mem_filter he)))
  · exact Or.inl hx

theorem mem_idx_filter_clear (p : mapelt → Bool) (t : List (List mapelt)) (x : Value)
    (hx : x ∈ (t.map (fun c => (c.filter p).map mapelt.clear)).flatten.map (fun e => e.idx)) :
    x ∈ t.flatten.map (fun e => e.idx) := by
  rw [flatten_map_filter_clear] at hx
  obtain ⟨e, he, rfl⟩ := List.mem_map.1 hx
  obtain ⟨e0, he0, rfl⟩ := List.mem_map.1 he
  rw [clear_idx]
  exact List.mem_map_of_mem _ (List.mem_of_mem_filter he0)

theorem map_dehash_merge_keys (env : Env) (hl : env.Lawful) (m : Array) (h : maphash)
    (clean : Bool) (hi : Inv env m) (hh : m.hashed = some h) :
    ∀ x ∈ (map_dehash_merge env m h clean).keys, x ∈ m.keys := by
  have tok := hi.table h hh
  intro x hx
  unfold map_dehash_merge at hx
  unfold Array.keys at hx ⊢
  rw [hh]
  cases clean with
  | true =>
    simp only [↓reduceIte, dehash_clean_table_exact env h.table h.size tok.size_eq] at hx
    rcases List.mem_append.1 hx with h1 | h1
    · exact List.mem_append.2 (mem_keys_merge env hl m.elts _ _ _ hi.even x h1)
    · exact List.mem_append_right _ (mem_idx_filter_clear _ _ x h1)
  | false =>
    have hex := dehash_table_exact h.table h.sizemod tok.sizemod_eq
    simp only [Bool.false_eq_true, ↓reduceIte, hex] at hx
    rcases List.mem_append.1 hx with h1 | h1
    · have := mem_keys_merge env hl m.elts (fun _ => true) h.table.flatten (h.sizemod ≠ 0)
        hi.even x (by simpa only [List.filter_true] using h1)
      exact List.mem_append.2 this
    · refine List.mem_append_right _ ?_
      have h2 : (h.table.map (fun c => c.map mapelt.clear)) =
          h.table.map (fun c => (c.filter (fun _ => true)).map mapelt.clear) := by
        simp only [List.filter_true]
      rw [h2] at h1
      exact mem_idx_filter_clear _ _ x h1

theorem map_dehash_keys (env : Env) (hl : env.Lawful) (m : Array) (clean : Bool)
    (hi : Inv env m) : ∀ x ∈ (map_dehash env m clean).keys, x ∈ m.keys := by
  have h1 := map_dehash_array_inv env env m clean hi
  have h2 := map_dehash_array_keys env m clean
  unfold map_dehash
  dsimp only
  cases hh : (map_dehash_array env m clean).hashed with
  | none => exact h2
  | some h0 =>
    dsimp only
    split_ifs
    · exact fun x hx => h2 x (map_dehash_merge_keys env hl _ h0 clean h1 hh x hx)
    · exact h2

theorem keys_odcount (m : Array) (od : Nat) : ({ m with odcount := od } : Array).keys = m.keys :=
  rfl

theorem map_compact_keys (env : Env) (hl : env.Lawful) (f : Bool) (m : Array)
    (hi : Inv env m) : ∀ x ∈ (map_compact env f m).keys, x ∈ m.keys := by
  unfold map_compact
  split_ifs
  · intro x hx
    rw [keys_odcount] at hx
    exact map_dehash_keys env hl m false hi x
      (map_dehash_keys env hl _ true (map_dehash_inv env hl m false hi) x hx)
  · intro x hx
    rw [keys_odcount] at hx
    exact map_dehash_keys env hl m true hi x hx
  · exact fun x hx => hx

theorem keyFree_of_keys (env : Env) (k : Value) (m m' : Array)
    (hsub : ∀ x ∈ m'.keys, x ∈ m.keys) (h : KeyFree env k m) : KeyFree env k m' :=
  (keyFree_iff env k m').2 fun x hx => (keyFree_iff env k m).1 h x (hsub x hx)

theorem map_dehash_hashmod (env : Env) (m : Array) (hi : Inv env m) :
    (map_dehash env m true).hashmod = false := by
  have h1 := map_dehash_array_hashed env m true
  unfold map_dehash
  dsimp only
  cases hh : (map_dehash_array env m true).hashed with
  | none =>
    dsimp only
    rw [h1.2.1]
    exact (hi.nohash (by rw [← h1.1]; exact hh)).1
  | some h0 =>
    dsimp only
    split_ifs with hc
    · simp [map_dehash_merge]
    · simp only [Bool.or_eq_true, not_or] at hc
      simpa using hc.1

theorem inv_pending (env : Env) (m : Array) (hi : Inv env m) (hm : m.hashmod = false) :
    m.pending = 0 := by
  unfold Array.pending
  cases hh : m.hashed with
  | none => rfl
  | some h =>
    have := (hi.table h hh).hashmod_eq
    rw [hm] at this
    simpa using this.symm

theorem map_compact_pending (env : Env) (hl : env.Lawful) (f : Bool) (m : Array)
    (hi : Inv env m) : (map_compact env f m).pending = 0 := by
  refine inv_pending env _ (map_compact_inv env hl f m hi) ?_
  unfold map_compact
  split_ifs with h1 h2
  · exact map_dehash_hashmod env _ (map_dehash_inv env hl m false hi)
  · exact map_dehash_hashmod env _ hi
  · simp only [Bool.or_eq_true, not_or] at h1
    simpa using h1.1

theorem rehash_chain_exact (ts : Nat) (hts : 0 < ts) : ∀ (c : List mapelt)
    (t : List (List mapelt)), t.length = ts →
    (∀ b e, e ∈ t.getD b [] → e.hashval % ts = b) →
    (rehash_chain ts t c).flatten.Perm (c ++ t.flatten) ∧
      ∀ b e, e ∈ (rehash_chain ts t c).getD b [] → e.hashval % ts = b
  | [], t, _, hb => ⟨List.Perm.refl _, hb⟩
  | e :: es, t, hlen, hb => by
    have hlt : e.hashval % ts < t.length := by rw [hlen]; exact Nat.mod_lt _ hts
    have ih := rehash_chain_exact ts hts es (table_push ts t e)
      (by rw [table_push_length, hlen])
      (bucket_set t _ _ ts hlt hb (by
        intro x hx
        rcases List.mem_cons.1 hx with h1 | h1
        · rw [h1]
        · exact hb _ x h1))
    simp only [rehash_chain]
    refine ⟨ih.1.trans ?_, ih.2⟩
    have hp := flatten_push_perm t (e.hashval % ts) e hlt
    unfold table_push
    refine (List.Perm.append_left es hp).trans ?_
    simp only [List.cons_append]
    exact List.perm_middle

theorem rehash_table_exact (ts : Nat) (hts : 0 < ts) : ∀ (old : List (List mapelt)) (j : Nat)
    (t : List (List mapelt)), j = old.flatten.length → t.length = ts →
    (∀ b e, e ∈ t.getD b [] → e.hashval % ts = b) →
    (rehash_table ts j t old).flatten.Perm (old.flatten ++ t.flatten) ∧
      ∀ b e, e ∈ (rehash_table ts j t old).getD b [] → e.hashval % ts = b
  | [], j, t, _, _, hb => ⟨List.Perm.refl _, hb⟩
  | c :: old, j, t, hj, hlen, hb => by
    simp only [List.flatten_cons, List.length_append] at hj
    simp only [rehash_table]
    split_ifs with h0
    · have h1 := rehash_chain_exact ts hts c t hlen hb
      have ih := rehash_table_exact ts hts old (j - c.length) (rehash_chain ts t c)
        (by omega) (by rw [rehash_chain_length, hlen]) h1.2
      refine ⟨ih.1.trans ?_, ih.2⟩
      simp only [List.flatten_cons, List.append_assoc]
      exact (List.Perm.append_left _ h1.1).trans (by
        rw [← List.append_assoc, ← List.append_assoc]
        exact List.Perm.append_right _ List.perm_append_comm)
    · have h1 : c.length = 0 := by omega
      have h2 : old.flatten.length = 0 := by omega
      rw [List.length_eq_zero] at h1 h2
      simp only [List.flatten_cons, h1, h2, List.nil_append]
      exact ⟨List.Perm.refl _, hb⟩

/-- The table invariant under a rearrangement of the entries over the chains. -/
theorem TableOK.rearrange {env : Env} (hc : env.CmpLawful) {keys : List Value} {hm : Bool}
    {h : maphash} (tok : TableOK env keys hm h) (t : List (List mapelt)) (ts : Nat)
    (hF : t.flatten.Perm h.table.flatten) (hlen : t.length = ts) (hts : 0 < ts)
    (hb : ∀ b x, x ∈ t.getD b [] → x.hashval % ts = b) :
    TableOK env keys hm { size := h.size, sizemod := h.sizemod, tablesize := ts, table := t } where
  len := hlen
  pos := hts
  size_eq := by
    show h.size = t.flatten.length
    rw [tok.size_eq, hF.length_eq]
  sizemod_eq := by
    show h.sizemod = _
    rw [tok.sizemod_eq, filter_add_length_perm hF]
  hashmod_eq := tok.hashmod_eq
  bucket := hb
  hashval := fun x hx => tok.hashval x (hF.subset hx)
  distinct := pairwise_veq_perm env hc (hF.map (fun e => e.idx)).symm tok.distinct
  fresh := fun x hx ha y hy => tok.fresh x (hF.subset hx) ha y hy
  cap := tok.cap

theorem flatten_replicate_nil : ∀ n : Nat, (List.replicate n ([] : List mapelt)).flatten = []
  | 0 => rfl
  | n + 1 => by simp [List.replicate_succ, flatten_replicate_nil n]

theorem getD_replicate_nil (n b : Nat) :
    (List.replicate n ([] : List mapelt)).getD b [] = [] := by
  rw [List.getD_eq_getElem?_getD]
  by_cases h : b < n
  · simp [List.getElem?_replicate, h]
  · simp [List.getElem?_replicate, h]

/-- The table `map_grow` adds its entry to is consistent and holds the entries
of the table there was. -/
theorem map_grow_table_ok (env : Env) (hc : env.CmpLawful) (keys : List Value) (hm : Bool)
    (o : Option maphash)
    (hn : o = none → hm = false ∧ keys.length ≤ env.max_size)
    (hs : ∀ h, o = some h → TableOK env keys hm h) :
    TableOK env keys hm (map_grow_table o) ∧
      (map_grow_table o).table.flatten.Perm (o.elim [] (fun h => h.table.flatten)) ∧
      (map_grow_table o).sizemod = o.elim 0 (fun h => h.sizemod) := by
  cases o with
  | none =>
    obtain ⟨h1, h2⟩ := hn rfl
    refine ⟨?_, ?_, rfl⟩
    · exact {
        len := by simp [map_grow_table]
        pos := by simp [map_grow_table, MTABLE_SIZE]
        size_eq := by simp [map_grow_table, flatten_replicate_nil]
        sizemod_eq := by simp [map_grow_table, flatten_replicate_nil]
        hashmod_eq := by simp [map_grow_table, h1]
        bucket := by
          intro b e he
          simp only [map_grow_table, getD_replicate_nil] at he
          simp at he
        hashval := by simp [map_grow_table, flatten_replicate_nil]
        distinct := by simp [map_grow_table, flatten_replicate_nil]
        fresh := by simp [map_grow_table, flatten_replicate_nil]
        cap := by simpa [map_grow_table] using h2 }
    · simp [map_grow_table, flatten_replicate_nil]
  | some h =>
    have tok := hs h rfl
    simp only [map_grow_table]
    split_ifs with hfull
    · have hts : 0 < h.tablesize <<< 1 := by
        have := tok.pos
        simp only [Nat.shiftLeft_eq, pow_one]
        omega
      have hex := rehash_table_exact (h.tablesize <<< 1) hts h.table h.size
        (List.replicate (h.tablesize <<< 1) []) tok.size_eq (by simp)
        (by
          intro b e he
          rw [getD_replicate_nil] at he
          simp at he)
      rw [flatten_replicate_nil, List.append_nil] at hex
      exact ⟨tok.rearrange hc _ _ hex.1 (by rw [rehash_table_length]; simp) hts hex.2,
        hex.1, rfl⟩
    · exact ⟨tok, List.Perm.refl _, rfl⟩

theorem table_fill_eq (ts : Nat) (t : List (List mapelt)) (e0 e : mapelt)
    (hb : e0.hashval % ts < t.length) :
    table_set_head (table_push ts t e0) (e0.hashval % ts) e =
      t.set (e0.hashval % ts) (e :: t.getD (e0.hashval % ts) []) := by
  unfold table_set_head table_push
  rw [table_getD_set t _ _ hb, List.set_set]
  rfl

theorem size_shift (m : Array) (he : m.elts.length % 2 = 0) :
    m.size >>> 1 = (elts_indices m.elts).length := by
  have := elts_indices_length m.elts he
  simp only [Array.size, Nat.shiftRight_eq_div_pow, pow_one]
  omega

theorem pending_eq (m : Array) : m.pending = m.hashed.elim 0 (fun h => h.sizemod) := by
  unfold Array.pending
  cases m.hashed <;> rfl

/-- The table after `map_grow` has added an entry and the caller has filled it
in is consistent. -/
theorem grow_push_ok (env : Env) (hc : env.CmpLawful) (keys : List Value) (hm : Bool)
    (o : Option maphash) (i : Nat) (add : Bool) (idx x : Value)
    (hn : o = none → hm = false ∧ keys.length ≤ env.max_size)
    (hs : ∀ h, o = some h → TableOK env keys hm h)
    (hhash : i = map_hash env idx)
    (hft : ∀ h, o = some h → ∀ e ∈ h.table.flatten, veq env idx e.idx = false)
    (hfa : add = true → ∀ y ∈ keys, veq env idx y = false)
    (hcap : add = true → keys.length + o.elim 0 (fun h => h.sizemod) < env.max_size) :
    TableOK env keys (if add then true else hm)
        { size := (map_grow_table o).size + 1
          sizemod := if add then (map_grow_table o).sizemod + 1 else (map_grow_table o).sizemod
          tablesize := (map_grow_table o).tablesize
          table := (map_grow_table o).table.set (i % (map_grow_table o).tablesize)
            ({ hashval := i, add := add, idx := idx, val := x } ::
              (map_grow_table o).table.getD (i % (map_grow_table o).tablesize) []) } := by
  obtain ⟨tok, hperm, hsm⟩ := map_grow_table_ok env hc keys hm o hn hs
  have hlt : i % (map_grow_table o).tablesize < (map_grow_table o).table.length := by
    rw [tok.len]; exact Nat.mod_lt _ tok.pos
  refine tok.push hc _ { hashval := i, add := add, idx := idx, val := x }
    (flatten_push_perm _ (i % (map_grow_table o).tablesize) _ hlt)
    (by rw [List.length_set]; exact tok.len)
    (bucket_set _ _ _ _ hlt tok.bucket (by
      intro y hy
      rcases List.mem_cons.1 hy with h1 | h1
      · rw [h1]
      · exact tok.bucket _ y h1))
    hhash ?_ hfa ?_
  · intro y hy
    have hy1 := hperm.subset hy
    cases o with
    | none => simp at hy1
    | some h => exact hft h rfl y hy1
  · intro ha
    have := hcap ha
    rw [hsm]
    omega

/-- The end of `map_grow` and the filling in of the new entry, on a mapping
that is not compacted first. -/
theorem extend_table_inv (env : Env) (hl : env.Lawful) (m : Array) (i : Nat) (add : Bool)
    (idx x : Value) (hi : Inv env m) (hhash : i = map_hash env idx)
    (hft : ∀ h, m.hashed = some h → ∀ e ∈ h.table.flatten, veq env idx e.idx = false)
    (hfa : add = true → ∀ y ∈ elts_indices m.elts, veq env idx y = false)
    (hcap : add = true → (elts_indices m.elts).length + m.pending < env.max_size) :
    Inv env { m with
      hashed := some
        { size := (map_grow_table m.hashed).size + 1
          sizemod := if add then (map_grow_table m.hashed).sizemod + 1
            else (map_grow_table m.hashed).sizemod
          tablesize := (map_grow_table m.hashed).tablesize
          table := (map_grow_table m.hashed).table.set (i % (map_grow_table m.hashed).tablesize)
            ({ hashval := i, add := add, idx := idx, val := x } ::
              (map_grow_table m.hashed).table.getD
                (i % (map_grow_table m.hashed).tablesize) []) }
      hashmod := if add then true else m.hashmod } where
  even := hi.even
  sorted := hi.sorted
  distinct := hi.distinct
  nohash := fun hn => by simp at hn
  table := fun h' hh' => by
    simp only [Option.some.injEq] at hh'
    subst hh'
    exact grow_push_ok env hl.cmp_laws _ _ _ i add idx x hi.nohash hi.table hhash hft hfa
      (by rw [← pending_eq]; exact hcap)

/-- What `map_index_extend` returns, spelled out. -/
theorem map_index_extend_eq (env : Env) (f : Bool) (m m' : Array) (i : Nat) (add : Bool)
    (idx x : Value) (hi : Inv env m) (hl : env.Lawful)
    (hr : map_index_extend env f m i add idx x = .ok m') :
    ∃ m1, (m1 = m ∧ map_grow_full env m add = false ∨
        (map_grow_full env m add = true ∧ m1 = map_compact env f m ∧
          m1.size >>> 1 < env.max_size)) ∧
      m' = { m1 with
        hashed := some
          { size := (map_grow_table m1.hashed).size + 1
            sizemod := if add then (map_grow_table m1.hashed).sizemod + 1
              else (map_grow_table m1.hashed).sizemod
            tablesize := (map_grow_table m1.hashed).tablesize
            table := (map_grow_table m1.hashed).table.set
              (i % (map_grow_table m1.hashed).tablesize)
              ({ hashval := i, add := add, idx := idx, val := x } ::
                (map_grow_table m1.hashed).table.getD
                  (i % (map_grow_table m1.hashed).tablesize) []) }
        hashmod := if add then true else m1.hashmod } := by
  have key : ∀ m1 : Array, Inv env m1 →
      (match ({ m1 with hashed := some (map_grow_entry (map_grow_table m1.hashed) i) } :
          Array).hashed with
      | none => Except.ok
          { m1 with hashed := some (map_grow_entry (map_grow_table m1.hashed) i) }
      | some h =>
        if add then
          (Except.ok { m1 with
            hashed := some { h with
              table := table_set_head h.table (i % h.tablesize)
                { hashval := i, add := add, idx := idx, val := x },
              sizemod := h.sizemod + 1 },
            hashmod := true } : Except Error Array)
        else .ok { m1 with hashed := some { h with
              table := table_set_head h.table (i % h.tablesize)
                { hashval := i, add := add, idx := idx, val := x } } }) = .ok m' →
      m' = { m1 with
        hashed := some
          { size := (map_grow_table m1.hashed).size + 1
            sizemod := if add then (map_grow_table m1.hashed).sizemod + 1
              else (map_grow_table m1.hashed).sizemod
            tablesize := (map_grow_table m1.hashed).tablesize
            table := (map_grow_table m1.hashed).table.set
              (i % (map_grow_table m1.hashed).tablesize)
              ({ hashval := i, add := add, idx := idx, val := x } ::
                (map_grow_table m1.hashed).table.getD
                  (i % (map_grow_table m1.hashed).tablesize) []) }
        hashmod := if add then true else m1.hashmod } := by
    intro m1 hi1 h
    obtain ⟨tok, -, -⟩ := map_grow_table_ok env hl.cmp_laws (elts_indices m1.elts) m1.hashmod
      m1.hashed hi1.nohash hi1.table
    have hlt : i % (map_grow_table m1.hashed).tablesize <
        (map_grow_table m1.hashed).table.length := by
      rw [tok.len]; exact Nat.mod_lt _ tok.pos
    have hfill := table_fill_eq (map_grow_table m1.hashed).tablesize
      (map_grow_table m1.hashed).table
      { hashval := i, add := false, idx := Value.nil, val := Value.nil }
      { hashval := i, add := add, idx := idx, val := x } hlt
    dsimp only [map_grow_entry] at h hfill
    rw [hfill] at h
    cases add with
    | true =>
      simp only [↓reduceIte, Except.ok.injEq] at h
      rw [← h]
      rfl
    | false =>
      simp only [Bool.false_eq_true, ↓reduceIte, Except.ok.injEq] at h
      rw [← h]
      rfl
  unfold map_index_extend map_grow at hr
  by_cases hfull : map_grow_full env m add = true
  · simp only [hfull, ↓reduceIte] at hr
    by_cases hbig : (map_compact env f m).size >>> 1 ≥ env.max_size
    · simp [hbig] at hr
    · simp only [hbig, ↓reduceIte] at hr
      exact ⟨map_compact env f m, Or.inr ⟨hfull, rfl, by omega⟩,
        key _ (map_compact_inv env hl f m hi) hr⟩
  · simp only [hfull, Bool.false_eq_true, ↓reduceIte] at hr
    exact ⟨m, Or.inl ⟨rfl, by simpa using hfull⟩, key _ hi hr⟩

/-- The invariant is kept when `map_index` adds an entry to the hash table: an
addition whose index the mapping does not hold, or a copy of a pair of the
array part whose index the table does not hold. -/
theorem map_index_extend_inv (env : Env) (hl : env.Lawful) (f : Bool) (m m' : Array) (i : Nat)
    (add : Bool) (idx x : Value) (hi : Inv env m)
    (hr : map_index_extend env f m i add idx x = .ok m')
    (hhash : i = map_hash env idx)
    (hft : ∀ h, m.hashed = some h → ∀ e ∈ h.table.flatten, veq env idx e.idx = false)
    (hfa : add = true → ∀ y ∈ elts_indices m.elts, veq env idx y = false) :
    Inv env m' := by
  obtain ⟨m1, hm1, rfl⟩ := map_index_extend_eq env f m m' i add idx x hi hl hr
  rcases hm1 with ⟨rfl, hnf⟩ | ⟨hfull, rfl, hsz⟩
  · refine extend_table_inv env hl m1 i add idx x hi hhash hft hfa ?_
    intro ha
    rw [← size_shift m1 hi.even]
    simpa [map_grow_full, ha] using hnf
  · have ha : add = true := by
      simp only [map_grow_full, Bool.and_eq_true] at hfull
      exact hfull.1
    have hi1 := map_compact_inv env hl f m hi
    have hk : KeyFree env idx (map_compact env f m) :=
      keyFree_of_keys env idx m _ (map_compact_keys env hl f m hi) ⟨hfa ha, hft⟩
    refine extend_table_inv env hl _ i add idx x hi1 hhash hk.2 (fun _ => hk.1) ?_
    intro _
    rw [map_compact_pending env hl f m hi, ← size_shift _ hi1.even]
    omega

theorem chain_find_none_mem (env : Env) (k : Value) :
    ∀ c, chain_find env k c = none → ∀ e ∈ c, veq env k e.idx = false
  | [], _ => by simp
  | e :: es, h => by
    simp only [chain_find] at h
    split_ifs at h with hv
    cases hc : chain_find env k es with
    | some n => rw [hc] at h; simp at h
    | none =>
      intro x hx
      rcases List.mem_cons.1 hx with h1 | h1
      · rw [h1]; simpa using hv
      · exact chain_find_none_mem env k es hc x h1

/-- An index the chain of its hash value does not hold is in no chain. -/
theorem lookup_none_free (env : Env) (hc : env.CmpLawful) (keys : List Value) (hm : Bool)
    (h : maphash) (k : Value) (tok : TableOK env keys hm h)
    (hf : chain_find env k (h.table.getD (map_hash env k % h.tablesize) []) = none) :
    ∀ e ∈ h.table.flatten, veq env k e.idx = false := by
  intro e he
  by_contra hne
  have hv : veq env k e.idx = true := by simpa using hne
  obtain ⟨b, _, hb⟩ := (mem_flatten_getD h.table e).1 he
  have h1 := tok.bucket b e hb
  rw [tok.hashval e he, ← map_hash_veq env hc hv] at h1
  rw [h1] at hf
  rw [chain_find_none_mem env k _ hf e hb] at hv
  exact absurd hv (by decide)

theorem getD_mem {α : Type} (l : List α) (i : Nat) (d : α) (h : i < l.length) :
    l.getD i d ∈ l := by
  rw [List.getD_eq_getElem _ _ h]
  exact List.getElem_mem _

theorem elts_indices_set_pair : ∀ (l : List Value) (j : Nat) (v x : Value),
    elts_indices ((l.set (2 * j + 1) x).set (2 * j) v) = (elts_indices l).set j v
  | [], j, v, x => by simp [elts_indices]
  | [a], j, v, x => by
    cases j with
    | zero => simp [elts_indices]
    | succ j => simp [elts_indices, Nat.mul_succ]
  | a :: b :: rest, 0, v, x => by simp [elts_indices]
  | a :: b :: rest, j + 1, v, x => by
    have ih := elts_indices_set_pair rest j v x
    have e1 : 2 * (j + 1) + 1 = (2 * j + 1) + 1 + 1 := by omega
    have e2 : 2 * (j + 1) = (2 * j) + 1 + 1 := by omega
    rw [e1, e2]
    simp only [List.set_cons_succ, elts_indices, ih]

theorem elts_indices_erase_pair : ∀ (l : List Value) (j : Nat), l.length % 2 = 0 →
    elts_indices ((l.eraseIdx (2 * j)).eraseIdx (2 * j)) = (elts_indices l).eraseIdx j
  | [], j, _ => by simp [elts_indices]
  | [a], j, h => by simp at h
  | a :: b :: rest, 0, _ => by simp [elts_indices]
  | a :: b :: rest, j + 1, h => by
    have ih := elts_indices_erase_pair rest j (by simp only [List.length_cons] at h; omega)
    have e2 : 2 * (j + 1) = (2 * j) + 1 + 1 := by omega
    rw [e2]
    simp only [List.eraseIdx_cons_succ, elts_indices, ih]

theorem pairwise_set_equiv {R : Value → Value → Prop} : ∀ (l : List Value) (j : Nat)
    (v : Value), j < l.length →
    (∀ y, R v y ↔ R (l.getD j Value.nil) y) → (∀ y, R y v ↔ R y (l.getD j Value.nil)) →
    l.Pairwise R → (l.set j v).Pairwise R
  | [], j, v, h, _, _, _ => by simp at h
  | a :: l, 0, v, _, h1, _, hp => by
    simp only [List.set_cons_zero, List.pairwise_cons, List.getD_cons_zero] at hp h1 ⊢
    exact ⟨fun y hy => (h1 y).2 (hp.1 y hy), hp.2⟩
  | a :: l, j + 1, v, h, h1, h2, hp => by
    simp only [List.set_cons_succ, List.pairwise_cons, List.getD_cons_succ,
      List.length_cons] at hp h h1 h2 ⊢
    refine ⟨?_, pairwise_set_equiv l j v (by omega) h1 h2 hp.2⟩
    intro y hy
    rcases List.mem_or_eq_of_mem_set hy with h3 | h3
    · exact hp.1 y h3
    · rw [h3]
      exact (h2 a).2 (hp.1 _ (getD_mem l j _ (by omega)))

theorem inv_keys_le (env : Env) (m : Array) (hi : Inv env m) :
    (elts_indices m.elts).length ≤ env.max_size := by
  cases hh : m.hashed with
  | none => exact (hi.nohash hh).2
  | some h =>
    have := (hi.table h hh).cap
    omega

theorem inv_size_le (env : Env) (hl : env.Lawful) (m : Array) (hi : Inv env m) :
    m.elts.length ≤ USHRT_MAX := by
  have h1 := inv_keys_le env m hi
  have h2 := elts_indices_length m.elts hi.even
  have h3 := hl.max_fits
  omega

theorem mem_indices_getD (l : List Value) (he : l.length % 2 = 0) (y : Value)
    (hy : y ∈ elts_indices l) : ∃ j, 2 * j < l.length ∧ y = l.getD (2 * j) Value.nil := by
  obtain ⟨j, hj, rfl⟩ := List.mem_iff_getElem.1 hy
  have h2 := elts_indices_length l he
  refine ⟨j, by omega, ?_⟩
  rw [← elts_indices_getD l j he, List.getD_eq_getElem _ _ hj]

/-- The search of `map_index` in the array part fails only for an index the
array part does not hold. -/
theorem search_absent (env : Env) (hl : env.Lawful) (m : Array) (k : Value) (hi : Inv env m)
    (hn : ¬ (if m.size > 0 then search env k m.elts m.size 2 false else -1) ≥ 0) :
    ∀ y ∈ elts_indices m.elts, veq env k y = false := by
  intro y hy
  obtain ⟨j, hj, rfl⟩ := mem_indices_getD m.elts hi.even y hy
  have hpos : m.size > 0 := by simp only [Array.size]; omega
  simp only [hpos, ↓reduceIte] at hn
  have htop := search_loop_top env hl.cmp_laws k m.elts m.elts.length 2 (Or.inr rfl)
    (inv_size_le env hl m hi) (Nat.dvd_of_mod_eq_zero hi.even)
    (sortedAt_of_indices env m.elts hi.even hi.sorted)
  simp only [search, Array.size] at hn
  cases hs : search_loop env k m.elts 2 (m.elts.length + 1) 0 m.elts.length with
  | ok p =>
    rw [hs] at hn
    simp at hn
  | error l =>
    rw [hs] at htop
    exact htop.2.2 (2 * j) hj (Dvd.intro _ rfl)

/-- The search of `map_index` in the array part, when it succeeds, returns the
position of a pair whose index is equal to the one sought. -/
theorem search_present (env : Env) (m : Array) (k : Value) (hi : Inv env m)
    (hn : (if m.size > 0 then search env k m.elts m.size 2 false else -1) ≥ 0) :
    ∃ j, (if m.size > 0 then search env k m.elts m.size 2 false else -1).toNat = 2 * j ∧
      j < (elts_indices m.elts).length ∧
      (elts_indices m.elts).getD j Value.nil = m.elts.getD (2 * j) Value.nil ∧
      veq env k (m.elts.getD (2 * j) Value.nil) = true := by
  by_cases hpos : m.size > 0
  · simp only [hpos, ↓reduceIte] at hn ⊢
    obtain ⟨h1, ⟨j, h2⟩, h3⟩ := search_sound env k m.elts m.size
      (Nat.dvd_of_mod_eq_zero hi.even) hn
    have h4 := elts_indices_length m.elts hi.even
    simp only [Array.size] at h1 h2
    rw [h2] at h1
    refine ⟨j, h2, by omega, elts_indices_getD m.elts j hi.even, ?_⟩
    rw [← h2]; exact h3
  · simp [hpos] at hn

theorem mem_flatten_of_getD (t : List (List mapelt)) (b pos : Nat) (d : mapelt)
    (hp : pos < (t.getD b []).length) : (t.getD b []).getD pos d ∈ t.flatten := by
  have hb : b < t.length := by
    by_contra hn
    rw [List.getD_eq_default _ _ (by omega)] at hp
    simp at hp
  exact (mem_flatten_getD t _).2 ⟨b, hb, getD_mem _ pos d hp⟩

theorem lt_of_getD_ne_nil (t : List (List mapelt)) (b pos : Nat)
    (hp : pos < (t.getD b []).length) : b < t.length := by
  by_contra hn
  rw [List.getD_eq_default _ _ (by omega)] at hp
  simp at hp

/-- The invariant is kept when `map_index` changes the entry it has found in
the hash table. -/
theorem inv_chain_set (env : Env) (hl : env.Lawful) (m : Array) (h : maphash) (b pos : Nat)
    (d e1 : mapelt) (k : Value) (hi : Inv env m) (hh : m.hashed = some h)
    (hp : pos < (h.table.getD b []).length)
    (hhv : e1.hashval = ((h.table.getD b []).getD pos d).hashval)
    (hadd : e1.add = ((h.table.getD b []).getD pos d).add)
    (hidx : e1.idx = refresh_objcnt k ((h.table.getD b []).getD pos d).idx) :
    Inv env { m with
      hashed := some { h with table := h.table.set b ((h.table.getD b []).set pos e1) } } := by
  have tok := hi.table h hh
  have hb := lt_of_getD_ne_nil h.table b pos hp
  have he := mem_flatten_of_getD h.table b pos d hp
  have hF := List.perm_cons_erase he
  have hG : (h.table.set b ((h.table.getD b []).set pos e1)).flatten.Perm
      (e1 :: h.table.flatten.erase ((h.table.getD b []).getD pos d)) := by
    have h1 := table_set_chain_perm h.table b pos e1 d hb hp
    have h2 := h1.trans ((List.Perm.cons e1 hF).trans (List.Perm.swap _ _ _))
    exact h2.cons_inv
  refine ⟨hi.even, hi.sorted, hi.distinct, fun hn => by simp at hn, fun h' hh' => ?_⟩
  simp only [Option.some.injEq] at hh'
  subst hh'
  refine tok.replace hl.cmp_laws _ _ e1 _ hF hG (by rw [List.length_set]; exact tok.len) ?_ ?_
    hadd ?_
  · refine bucket_set _ _ _ _ hb tok.bucket ?_
    intro y hy
    rcases List.mem_or_eq_of_mem_set hy with h3 | h3
    · exact tok.bucket b y h3
    · rw [h3, hhv]
      exact tok.bucket b _ (getD_mem _ pos d hp)
  · rw [hhv, hidx, map_hash_refresh]
    exact tok.hashval _ he
  · intro y
    rw [hidx, veq_refresh_left]

/-- The invariant is kept when `map_index` removes the entry it has found in
the hash table. -/
theorem inv_chain_erase (env : Env) (hl : env.Lawful) (m : Array) (h : maphash) (b pos : Nat)
    (d : mapelt) (hi : Inv env m) (hh : m.hashed = some h)
    (hp : pos < (h.table.getD b []).length) :
    Inv env { m with
      hashed := some { h with
        table := h.table.set b ((h.table.getD b []).eraseIdx pos)
        size := h.size - 1
        sizemod := if ((h.table.getD b []).getD pos d).add then h.sizemod - 1 else h.sizemod }
      hashmod := if ((h.table.getD b []).getD pos d).add &&
          decide ((if ((h.table.getD b []).getD pos d).add then h.sizemod - 1
            else h.sizemod) = 0)
        then false else m.hashmod } := by
  have tok := hi.table h hh
  have hb := lt_of_getD_ne_nil h.table b pos hp
  have hF := (table_erase_perm h.table b pos d hb hp).symm
  refine ⟨hi.even, hi.sorted, hi.distinct, fun hn => by simp at hn, fun h' hh' => ?_⟩
  simp only [Option.some.injEq] at hh'
  subst hh'
  refine tok.erase hl.cmp_laws _ _ hF (by rw [List.length_set]; exact tok.len) ?_
  refine bucket_set _ _ _ _ hb tok.bucket ?_
  intro y hy
  exact tok.bucket b y ((List.eraseIdx_sublist _ _).subset hy)

/-- Once the entry for an index is removed, the hash table holds no entry for
it. -/
theorem erase_table_free (env : Env) (hc : env.CmpLawful) (keys : List Value) (hm : Bool)
    (h : maphash) (b pos : Nat) (d : mapelt) (k : Value) (tok : TableOK env keys hm h)
    (hp : pos < (h.table.getD b []).length)
    (hv : veq env k ((h.table.getD b []).getD pos d).idx = true) :
    ∀ x ∈ (h.table.set b ((h.table.getD b []).eraseIdx pos)).flatten,
      veq env k x.idx = false := by
  have hb := lt_of_getD_ne_nil h.table b pos hp
  have hF := (table_erase_perm h.table b pos d hb hp).symm
  have h1 := pairwise_veq_perm env hc (hF.map (fun e => e.idx)) tok.distinct
  simp only [List.map_cons, List.pairwise_cons] at h1
  intro x hx
  by_contra hne
  have hx1 : veq env k x.idx = true := by simpa using hne
  have h2 := veq_trans env hc (veq_symm env hc hv) hx1
  rw [h1.1 x.idx (List.mem_map_of_mem _ hx)] at h2
  exact absurd h2 (by decide)

/-- An index held by a pending addition of the hash table is not held by the
array part. -/
theorem add_array_free (env : Env) (hc : env.CmpLawful) (keys : List Value) (hm : Bool)
    (h : maphash) (e : mapelt) (k : Value) (tok : TableOK env keys hm h)
    (he : e ∈ h.table.flatten) (ha : e.add = true) (hv : veq env k e.idx = true) :
    ∀ y ∈ keys, veq env k y = false := by
  intro y hy
  by_contra hne
  have hy1 : veq env k y = true := by simpa using hne
  have h2 := veq_trans env hc (veq_symm env hc hv) hy1
  rw [tok.fresh e he ha y hy] at h2
  exact absurd h2 (by decide)

theorem map_index_hashed_inv (env : Env) (hl : env.Lawful) (m : Array) (h : maphash)
    (b pos : Nat) (d : mapelt) (k : Value) (elt : Option Value) (del : Bool)
    (verify : Option Value) (hi : Inv env m) (hh : m.hashed = some h)
    (hp : pos < (h.table.getD b []).length) :
    Inv env (map_index_hashed m h b pos ((h.table.getD b []).getD pos d) k elt del verify).1 := by
  unfold map_index_hashed
  dsimp only
  by_cases h1 : (elt.isSome && verify_ok verify ((h.table.getD b []).getD pos d).val) = true
  · simp only [h1, ↓reduceIte]
    split_ifs <;> exact inv_chain_set env hl m h b pos d _ k hi hh hp rfl rfl rfl
  · simp only [h1, Bool.false_eq_true, ↓reduceIte]
    by_cases h2 : (del || stale_object k ((h.table.getD b []).getD pos d).idx) = true
    · simp only [h2, ↓reduceIte]
      have := inv_chain_erase env hl m h b pos d hi hh hp
      cases ha : ((h.table.getD b []).getD pos d).add
      · simp only [ha, Bool.false_and, Bool.false_eq_true, ↓reduceIte] at this ⊢
        exact this
      · simp only [ha, Bool.true_and, ↓reduceIte] at this ⊢
        exact this
    · simp only [h2, Bool.false_eq_true, ↓reduceIte]
      exact hi

/-- The invariant is kept when `map_index` changes the pair it has found in the
array part. -/
theorem inv_array_set (env : Env) (m : Array) (j : Nat) (k x : Value) (hi : Inv env m)
    (hj : j < (elts_indices m.elts).length) :
    Inv env { m with elts := ((m.elts.set (2 * j + 1) x).set (2 * j)
      (refresh_objcnt k (m.elts.getD (2 * j) Value.nil))) } := by
  have hg := elts_indices_getD m.elts j hi.even
  have hlen : (elts_indices ((m.elts.set (2 * j + 1) x).set (2 * j)
      (refresh_objcnt k (m.elts.getD (2 * j) Value.nil)))).length =
      (elts_indices m.elts).length := by
    rw [elts_indices_set_pair, List.length_set]
  have hsub : ∀ y ∈ elts_indices ((m.elts.set (2 * j + 1) x).set (2 * j)
      (refresh_objcnt k (m.elts.getD (2 * j) Value.nil))),
      ∃ y0 ∈ elts_indices m.elts, ∀ z, veq env z y = veq env z y0 := by
    intro y hy
    rw [elts_indices_set_pair] at hy
    rcases List.mem_or_eq_of_mem_set hy with h3 | h3
    · exact ⟨y, h3, fun _ => rfl⟩
    · refine ⟨_, getD_mem _ j Value.nil hj, fun z => ?_⟩
      rw [h3, veq_refresh_right, hg]
  exact {
    even := by
      show ((m.elts.set (2 * j + 1) x).set (2 * j) _).length % 2 = 0
      rw [List.length_set, List.length_set]
      exact hi.even
    sorted := by
      show (elts_indices ((m.elts.set (2 * j + 1) x).set (2 * j) _)).Pairwise _
      rw [elts_indices_set_pair]
      refine pairwise_set_equiv _ j _ hj ?_ ?_ hi.sorted
      · intro y; rw [cmp_refresh_left, hg]
      · intro y; rw [cmp_refresh_right, hg]
    distinct := by
      show (elts_indices ((m.elts.set (2 * j + 1) x).set (2 * j) _)).Pairwise _
      rw [elts_indices_set_pair]
      refine pairwise_set_equiv _ j _ hj ?_ ?_ hi.distinct
      · intro y; rw [veq_refresh_left, hg]
      · intro y; rw [veq_refresh_right, hg]
    nohash := fun hn => ⟨(hi.nohash hn).1, by
      show (elts_indices ((m.elts.set (2 * j + 1) x).set (2 * j) _)).length ≤ _
      rw [hlen]; exact (hi.nohash hn).2⟩
    table := fun h hh => (hi.table h hh).keys_equiv hsub (le_of_eq hlen) }

/-- The invariant is kept when `map_index` removes the pair it has found in the
array part. -/
theorem inv_array_erase (env : Env) (m : Array) (j : Nat) (hi : Inv env m)
    (hj : j < (elts_indices m.elts).length) :
    Inv env { m with elts := (m.elts.eraseIdx (2 * j)).eraseIdx (2 * j) } := by
  have h2 := elts_indices_length m.elts hi.even
  have hsub : (elts_indices ((m.elts.eraseIdx (2 * j)).eraseIdx (2 * j))).Sublist
      (elts_indices m.elts) := by
    rw [elts_indices_erase_pair m.elts j hi.even]
    exact List.eraseIdx_sublist _ _
  exact {
    even := by
      show ((m.elts.eraseIdx (2 * j)).eraseIdx (2 * j)).length % 2 = 0
      have := hi.even
      rw [List.length_eraseIdx, List.length_eraseIdx]
      have h3 : 2 * j < m.elts.length := by omega
      simp only [h3, ↓reduceIte]
      have h4 : 2 * j < m.elts.length - 1 := by omega
      simp only [h4, ↓reduceIte]
      omega
    sorted := List.Pairwise.sublist hsub hi.sorted
    distinct := List.Pairwise.sublist hsub hi.distinct
    nohash := fun hn => ⟨(hi.nohash hn).1, le_trans hsub.length_le (hi.nohash hn).2⟩
    table := fun h hh => (hi.table h hh).mono_keys (fun x hx => hsub.subset hx) hsub.length_le }

/-- Once the pair for an index is removed, the array part holds no pair for
it. -/
theorem erase_array_free (env : Env) (hc : env.CmpLawful) (k : Value) :
    ∀ (l : List Value) (j : Nat), l.Pairwise (fun a b => veq env a b = false) →
    j < l.length → veq env k (l.getD j Value.nil) = true →
    ∀ y ∈ l.eraseIdx j, veq env k y = false
  | [], j, _, h, _ => by simp at h
  | a :: l, 0, hp, _, hv => by
    simp only [List.getD_cons_zero, List.eraseIdx_cons_zero, List.pairwise_cons] at hp hv ⊢
    intro y hy
    by_contra hne
    have h1 : veq env k y = true := by simpa using hne
    have h2 := veq_trans env hc (veq_symm env hc hv) h1
    rw [hp.1 y hy] at h2
    exact absurd h2 (by decide)
  | a :: l, j + 1, hp, h, hv => by
    simp only [List.getD_cons_succ, List.eraseIdx_cons_succ, List.pairwise_cons,
      List.length_cons] at hp hv h ⊢
    intro y hy
    rcases List.mem_cons.1 hy with h1 | h1
    · rw [h1]
      by_contra hne
      have h3 : veq env k a = true := by simpa using hne
      have h2 := veq_trans env hc (veq_symm env hc h3) hv
      rw [hp.1 _ (getD_mem l j _ (by omega))] at h2
      exact absurd h2 (by decide)
    · exact erase_array_free env hc k l j hp.2 (by omega) hv y h1

theorem free_of_veq (env : Env) (hc : env.CmpLawful) {k v y : Value}
    (hv : veq env k v = true) (h : veq env k y = false) : veq env v y = false := by
  by_contra hne
  have h1 : veq env v y = true := by simpa using hne
  rw [veq_trans env hc hv h1] at h
  exact absurd h (by decide)

/-- The array part of `map_index` keeps the invariant. -/
theorem map_index_array_inv (env : Env) (hl : env.Lawful) (f : Bool) (m m' : Array)
    (k : Value) (elt : Option Value) (del : Bool) (verify : Option Value) (hash : Bool)
    (r : Value) (hi : Inv env m)
    (hft : hash = false → ∀ h, m.hashed = some h → ∀ e ∈ h.table.flatten,
      veq env k e.idx = false)
    (hr : map_index_array env f m k elt del verify hash = .ok (m', r)) : Inv env m' := by
  unfold map_index_array at hr
  dsimp only at hr
  by_cases hn : (if m.size > 0 then search env k m.elts m.size 2 false else -1) ≥ 0
  · obtain ⟨j, hj, hjl, hg, hv⟩ := search_present env m k hi hn
    simp only [hn, ↓reduceIte, hj] at hr
    by_cases h1 : (elt.isSome && verify_ok verify (m.elts.getD (2 * j + 1) Value.nil)) = true
    · simp only [h1, ↓reduceIte] at hr
      have hi2 := inv_array_set env m j k (elt.getD Value.nil) hi hjl
      cases hash with
      | true =>
        simp only [Bool.not_true, Bool.false_eq_true, ↓reduceIte, Except.ok.injEq,
          Prod.mk.injEq] at hr
        rw [← hr.1]
        exact hi2
      | false =>
        simp only [Bool.not_false, ↓reduceIte] at hr
        split at hr
        · simp at hr
        · rename_i m1 he
          simp only [Except.ok.injEq, Prod.mk.injEq] at hr
          rw [← hr.1]
          refine map_index_extend_inv env hl f _ m1 _ false _ _ hi2 he ?_ ?_
            (fun h => absurd h (by decide))
          · rw [map_hash_refresh]
            exact map_hash_veq env hl.cmp_laws hv
          · intro h hh e he
            rw [veq_refresh_left]
            exact free_of_veq env hl.cmp_laws hv (hft rfl h hh e he)
    · simp only [h1, Bool.false_eq_true, ↓reduceIte] at hr
      by_cases h2 : (del || stale_object k (m.elts.getD (2 * j) Value.nil)) = true
      · simp only [h2, ↓reduceIte, Except.ok.injEq, Prod.mk.injEq] at hr
        rw [← hr.1]
        exact inv_array_erase env m j hi hjl
      · simp only [h2, Bool.false_eq_true, ↓reduceIte] at hr
        cases hash with
        | true =>
          simp only [Bool.not_true, Bool.false_eq_true, ↓reduceIte, Except.ok.injEq,
            Prod.mk.injEq] at hr
          rw [← hr.1]
          exact hi
        | false =>
          simp only [Bool.not_false, ↓reduceIte] at hr
          split at hr
          · simp at hr
          · rename_i m1 he
            simp only [Except.ok.injEq, Prod.mk.injEq] at hr
            rw [← hr.1]
            refine map_index_extend_inv env hl f _ m1 _ false _ _ hi he ?_ ?_
              (fun h => absurd h (by decide))
            · exact map_hash_veq env hl.cmp_laws hv
            · intro h hh e he
              exact free_of_veq env hl.cmp_laws hv (hft rfl h hh e he)
  · have hfa := search_absent env hl m k hi hn
    simp only [hn, ↓reduceIte] at hr
    cases elt with
    | none =>
      simp only [Except.ok.injEq, Prod.mk.injEq] at hr
      rw [← hr.1]
      exact hi
    | some x =>
      cases hash with
      | true =>
        simp only [Bool.not_true, Bool.false_eq_true, ↓reduceIte, Except.ok.injEq,
          Prod.mk.injEq] at hr
        rw [← hr.1]
        exact hi
      | false =>
        simp only [Bool.not_false, ↓reduceIte] at hr
        split at hr
        · simp at hr
        · rename_i m1 he
          simp only [Except.ok.injEq, Prod.mk.injEq] at hr
          rw [← hr.1]
          exact map_index_extend_inv env hl f _ m1 _ true _ _ hi he rfl (hft rfl)
            (fun _ => hfa)

theorem map_index_plane_inv (env : Env) (hl : env.Lawful) (f : Bool) (m : Array)
    (hi : Inv env m) : Inv env (map_index_plane env f m) := by
  unfold map_index_plane
  split_ifs
  · exact map_dehash_inv env hl m false hi
  · exact hi

theorem map_index_plane_keys (env : Env) (hl : env.Lawful) (f : Bool) (m : Array)
    (hi : Inv env m) : ∀ x ∈ (map_index_plane env f m).keys, x ∈ m.keys := by
  unfold map_index_plane
  split_ifs
  · exact map_dehash_keys env hl m false hi
  · exact fun x hx => hx

/-- What the lookup of `map_index` in the hash table tells: no entry for the
index, or the position of one. -/
theorem map_index_lookup_cases (env : Env) (hl : env.Lawful) (m : Array) (k : Value)
    (elt : Option Value) (del : Bool) (verify : Option Value) (d : mapelt) (hi : Inv env m) :
    (map_index_lookup env m k elt del verify = none ∧
      ∀ h, m.hashed = some h → ∀ e ∈ h.table.flatten, veq env k e.idx = false) ∨
    ∃ h b pos, m.hashed = some h ∧ pos < (h.table.getD b []).length ∧
      veq env k ((h.table.getD b []).getD pos d).idx = true ∧
      map_index_lookup env m k elt del verify =
        some (map_index_hashed m h b pos ((h.table.getD b []).getD pos d) k elt del verify) := by
  unfold map_index_lookup
  cases hh : m.hashed with
  | none => exact Or.inl ⟨rfl, fun h hc => by simp at hc⟩
  | some h =>
    dsimp only
    cases hf : chain_find env k (h.table.getD (map_hash env k % h.tablesize) []) with
    | none =>
      refine Or.inl ⟨rfl, fun h' hh' => ?_⟩
      simp only [Option.some.injEq] at hh'
      subst hh'
      exact lookup_none_free env hl.cmp_laws _ _ h k (hi.table h hh) hf
    | some pos =>
      obtain ⟨h1, h2, -, -⟩ := chain_find_some env k d _ pos hf
      refine Or.inr ⟨h, _, pos, rfl, h1, h2, ?_⟩
      dsimp only
      rw [List.getD_eq_getElem _ _ h1, List.getD_eq_getElem _ _ h1]

theorem map_index_body_inv (env : Env) (hl : env.Lawful) (f : Bool) (m m' : Array)
    (k : Value) (elt : Option Value) (del : Bool) (verify : Option Value) (r : Value)
    (hi : Inv env m) (hr : map_index_body env f m k elt del verify = .ok (m', r)) :
    Inv env m' := by
  unfold map_index_body at hr
  rcases map_index_lookup_cases env hl m k elt del verify
    { hashval := 0, add := false, idx := Value.nil, val := Value.nil } hi with
    ⟨h1, h2⟩ | ⟨h, b, pos, hh, hp, -, he⟩
  · rw [h1] at hr
    exact map_index_array_inv env hl f m m' k elt del verify false r hi (fun _ => h2) hr
  · have hi1 := map_index_hashed_inv env hl m h b pos
      { hashval := 0, add := false, idx := Value.nil, val := Value.nil } k elt del verify hi hh hp
    rw [he] at hr
    split at hr
    · rename_i m1 r1 heq
      simp only [Option.some.injEq] at heq
      rw [heq] at hi1
      simp only [Except.ok.injEq, Prod.mk.injEq] at hr
      rw [← hr.1]
      exact hi1
    · rename_i m1 heq
      simp only [Option.some.injEq] at heq
      rw [heq] at hi1
      exact map_index_array_inv env hl f m1 m' k elt del verify true r hi1
        (fun h => absurd h (by decide)) hr
    · rename_i heq
      simp at heq

/-- Every call of `map_index` keeps the representation invariant. -/
theorem map_index_inv (env : Env) (hl : env.Lawful) (f : Bool) (m m' : Array)
    (k : Value) (elt : Option Value) (verify : Option Value) (r : Value)
    (hi : Inv env m) (hr : map_index env f m k elt verify = .ok (m', r)) : Inv env m' :=
  map_index_body_inv env hl f _ m' k _ _ verify r (map_index_plane_inv env hl f m hi) hr

theorem inv_empty (env : Env) (od : Nat) : Inv env { elts := [], odcount := od } where
  even := rfl
  sorted := by simp [elts_indices]
  distinct := by simp [elts_indices]
  nohash := fun _ => ⟨rfl, by simp [elts_indices]⟩
  table := fun h hh => by simp at hh

/-- The array part of a deletion: the result is nil and the array part holds
the index no more. -/
theorem map_index_array_delete (env : Env) (hl : env.Lawful) (f : Bool) (m : Array)
    (k : Value) (verify : Option Value) (hash : Bool) (hi : Inv env m)
    (hft : ∀ h, m.hashed = some h → ∀ e ∈ h.table.flatten, veq env k e.idx = false) :
    ∃ m', map_index_array env f m k none true verify hash = .ok (m', Value.nil) ∧
      KeyFree env k m' := by
  unfold map_index_array
  dsimp only
  by_cases hn : (if m.size > 0 then search env k m.elts m.size 2 false else -1) ≥ 0
  · obtain ⟨j, hj, hjl, hg, hv⟩ := search_present env m k hi hn
    simp only [hn, ↓reduceIte, hj, Option.isSome_none, Bool.false_and, Bool.false_eq_true,
      Bool.true_or]
    refine ⟨_, rfl, ?_, hft⟩
    show ∀ x ∈ elts_indices ((m.elts.eraseIdx (2 * j)).eraseIdx (2 * j)), _
    rw [elts_indices_erase_pair m.elts j hi.even]
    exact erase_array_free env hl.cmp_laws k _ j hi.distinct hjl (by rw [hg]; exact hv)
  · simp only [hn, ↓reduceIte]
    exact ⟨m, rfl, search_absent env hl m k hi hn, hft⟩

/-- The body of a deletion: the result is nil and the mapping holds the index
no more. -/
theorem map_index_body_delete (env : Env) (hl : env.Lawful) (f : Bool) (m : Array)
    (k : Value) (verify : Option Value) (hi : Inv env m) :
    ∃ m', map_index_body env f m k none true verify = .ok (m', Value.nil) ∧
      KeyFree env k m' := by
  unfold map_index_body
  rcases map_index_lookup_cases env hl m k none true verify
    { hashval := 0, add := false, idx := Value.nil, val := Value.nil } hi with
    ⟨h1, h2⟩ | ⟨h, b, pos, hh, hp, hv, he⟩
  · rw [h1]
    exact map_index_array_delete env hl f m k verify false hi h2
  · have hi1 := map_index_hashed_inv env hl m h b pos
      { hashval := 0, add := false, idx := Value.nil, val := Value.nil } k none true verify
      hi hh hp
    have tok := hi.table h hh
    have hfree := erase_table_free env hl.cmp_laws _ _ h b pos
      { hashval := 0, add := false, idx := Value.nil, val := Value.nil } k tok hp hv
    have hmem := mem_flatten_of_getD h.table b pos
      { hashval := 0, add := false, idx := Value.nil, val := Value.nil } hp
    rw [he]
    unfold map_index_hashed at hi1 ⊢
    simp only [Option.isSome_none, Bool.false_and, Bool.false_eq_true, ↓reduceIte,
      Bool.true_or] at hi1 ⊢
    cases ha : ((h.table.getD b []).getD pos
      { hashval := 0, add := false, idx := Value.nil, val := Value.nil }).add
    · simp only [ha, Bool.false_eq_true, ↓reduceIte] at hi1 ⊢
      refine map_index_array_delete env hl f _ k verify true hi1 ?_
      intro h' hh' e he'
      simp only [Option.some.injEq] at hh'
      subst hh'
      exact hfree e he'
    · simp only [ha, ↓reduceIte] at hi1 ⊢
      refine ⟨_, rfl, add_array_free env hl.cmp_laws _ _ h _ k tok hmem ha hv, ?_⟩
      intro h' hh' e he'
      simp only [Option.some.injEq] at hh'
      subst hh'
      exact hfree e he'

/-- A deletion returns nil and leaves a mapping that holds the index no
more. -/
theorem map_index_delete (env : Env) (hl : env.Lawful) (f : Bool) (m : Array)
    (k : Value) (verify : Option Value) (hi : Inv env m) :
    ∃ m', map_index env f m k (some Value.nil) verify = .ok (m', Value.nil) ∧
      KeyFree env k m' :=
  map_index_body_delete env hl f _ k verify (map_index_plane_inv env hl f m hi)

/-- A read of an index the mapping does not hold returns nil. -/
theorem map_index_read_absent (env : Env) (hl : env.Lawful) (f : Bool) (m : Array)
    (k : Value) (verify : Option Value) (hi : Inv env m) (hk : KeyFree env k m) :
    map_index env f m k none verify = .ok (map_index_plane env f m, Value.nil) := by
  have hi0 := map_index_plane_inv env hl f m hi
  have hk0 := keyFree_of_keys env k m _ (map_index_plane_keys env hl f m hi) hk
  show map_index_body env f (map_index_plane env f m) k none false verify = _
  unfold map_index_body
  rcases map_index_lookup_cases env hl (map_index_plane env f m) k none false verify
    { hashval := 0, add := false, idx := Value.nil, val := Value.nil } hi0 with
    ⟨h1, -⟩ | ⟨h, b, pos, hh, hp, hv, -⟩
  · rw [h1]
    unfold map_index_array
    dsimp only
    by_cases hn : (if (map_index_plane env f m).size > 0 then
        search env k (map_index_plane env f m).elts (map_index_plane env f m).size 2 false
        else -1) ≥ 0
    · obtain ⟨j, hj, hjl, hg, hv⟩ := search_present env _ k hi0 hn
      rw [← hg, hk0.1 _ (getD_mem _ j _ hjl)] at hv
      exact absurd hv (by decide)
    · simp only [hn, ↓reduceIte]
  · rw [hk0.2 h hh _ (mem_flatten_of_getD h.table b pos _ hp)] at hv
    exact absurd hv (by decide)

/-- The indices `map_indices` returns are those of the array part after
compaction. -/
theorem map_indices_eq (env : Env) (hl : env.Lawful) (f : Bool) (m : Array) (hi : Inv env m) :
    map_indices env f m = .ok (map_compact env f m,
      { elts := elts_indices (map_compact env f m).elts, odcount := env.odcount }) := by
  have hi1 := map_compact_inv env hl f m hi
  have h1 := inv_keys_le env _ hi1
  have h2 := size_shift _ hi1.even
  have h3 := hl.max_fits
  unfold map_indices arr_new
  dsimp only
  rw [h2]
  have h4 : ¬ (elts_indices (map_compact env f m).elts).length > env.max_size := by omega
  simp only [h4, ↓reduceIte]
  have h5 : (elts_indices (map_compact env f m).elts).length % 65536 =
      (elts_indices (map_compact env f m).elts).length := by
    apply Nat.mod_eq_of_lt
    simp only [USHRT_MAX] at h3
    omega
  rw [h5, List.take_length]

/-- Deletion on the mappings that `map_index` builds (the statement of C10
under the representation invariant): for a mapping `m` that satisfies the
representation invariant (the empty mapping does, and `map_index` keeps it; the
results of `map_add` and `map_sort` for handles with colliding tags do not), a
key `k` and a value `v`: after
`map_index(m, k, v)` has returned, `map_index(m, k, nil)` returns nil; a read of
`k` then returns nil; `map_indices(m)` returns an array that holds no index
equal to `k`, in particular not `k` itself; and a read of `k` after that
returns nil as well.  The plane flags and `verify` arguments of the calls are
arbitrary. -/
theorem map_index_delete_absent (env : Env) (hl : env.Lawful) (m m1 : Array) (k v r : Value)
    (fw fd fr fi : Bool) (vw vd vr : Option Value) (hi : Inv env m)
    (hw : map_index env fw m k (some v) vw = .ok (m1, r)) :
    ∃ m2, map_index env fd m1 k (some Value.nil) vd = .ok (m2, Value.nil) ∧
      (∃ m3, map_index env fr m2 k none vr = .ok (m3, Value.nil)) ∧
      ∃ m3 ks, map_indices env fi m2 = .ok (m3, ks) ∧
        (∀ x ∈ ks.elts, veq env k x = false) ∧ k ∉ ks.elts ∧
        ∃ m4, map_index env fr m3 k none vr = .ok (m4, Value.nil) := by
  have hi1 := map_index_inv env hl fw m m1 k (some v) vw r hi hw
  obtain ⟨m2, hd, hk⟩ := map_index_delete env hl fd m1 k vd hi1
  have hi2 := map_index_inv env hl fd m1 m2 k (some Value.nil) vd Value.nil hi1 hd
  have hi3 := map_compact_inv env hl fi m2 hi2
  have hk3 := keyFree_of_keys env k m2 _ (map_compact_keys env hl fi m2 hi2) hk
  refine ⟨m2, hd, ⟨_, map_index_read_absent env hl fr m2 k vr hi2 hk⟩, _, _,
    map_indices_eq env hl fi m2 hi2, hk3.1, ?_,
    ⟨_, map_index_read_absent env hl fr _ k vr hi3 hk3⟩⟩
  intro hmem
  have h1 := hk3.1 k hmem
  rw [veq_refl env hl.cmp_laws k] at h1
  exact absurd h1 (by decide)

/-- The deletion on the mapping built by `m[1] = 5` on an empty mapping. -/
theorem map_index_delete_absent_witness :
    ∃ m1 r, map_index (ref_env 100 0) false { elts := [], odcount := 0 } (.int 1)
        (some (.int 5)) none = .ok (m1, r) ∧
      ∃ m2, map_index (ref_env 100 0) false m1 (.int 1) (some Value.nil) none =
          .ok (m2, Value.nil) ∧
        (∃ m3, map_index (ref_env 100 0) false m2 (.int 1) none none = .ok (m3, Value.nil)) ∧
        ∃ m3 ks, map_indices (ref_env 100 0) false m2 = .ok (m3, ks) ∧
          (∀ x ∈ ks.elts, veq (ref_env 100 0) (.int 1) x = false) ∧ Value.int 1 ∉ ks.elts ∧
          ∃ m4, map_index (ref_env 100 0) false m3 (.int 1) none none = .ok (m4, Value.nil) :=
  ⟨_, _, rfl, map_index_delete_absent (ref_env 100 0) (ref_env_lawful 100 0 (by decide))
    { elts := [], odcount := 0 } _ (.int 1) (.int 5) _ false false false false none none none
    (inv_empty _ 0) rfl⟩

/-- C20, the claim as stated fails: on the one-element array `[7]` with
`lo = -1` and `hi = 0` neither `lo > hi + 1` nor `hi >= size` holds, and
`arr_range` and `arr_ckrange` both signal invalid-array-range. -/
theorem arr_range_negative_lo :
    arr_range (ref_env 100 0) { elts := [.int 7], odcount := 0 } (-1) 0 =
        .error .invalid_array_range ∧
      arr_ckrange { elts := [.int 7], odcount := 0 } (-1) 0 = .error .invalid_array_range ∧
      ¬ ((-1 : Int) > 0 + 1 ∨
        (0 : Int) ≥ ((({ elts := [.int 7], odcount := 0 } : Array).size : Nat) : Int)) := by
  exact ⟨rfl, rfl, by decide⟩

/-- C20, amended: `arr_range(a, lo, hi)` signals invalid-array-range when, and
only when, `lo < 0` or `lo > hi + 1` or `hi >= size(a)`, and `arr_ckrange`
signals it for exactly the same inputs; otherwise, for an array within the
configured cap, `arr_range` returns an array of exactly `hi - lo + 1` elements,
equal to `a[lo], ..., a[hi]` in order. -/
theorem arr_range_spec (env : Env) (a : Array) (lo hi : Int) :
    (arr_range env a lo hi = .error .invalid_array_range ↔
      lo < 0 ∨ lo > hi + 1 ∨ hi ≥ (a.size : Int)) ∧
    (arr_ckrange a lo hi = .error .invalid_array_range ↔
      lo < 0 ∨ lo > hi + 1 ∨ hi ≥ (a.size : Int)) ∧
    (env.max_size ≤ USHRT_MAX → a.size ≤ env.max_size →
      ¬ (lo < 0 ∨ lo > hi + 1 ∨ hi ≥ (a.size : Int)) →
      ∃ r, arr_range env a lo hi = .ok r ∧ (r.size : Int) = hi - lo + 1 ∧
        r.elts = (a.elts.drop lo.toNat).take (hi - lo + 1).toNat ∧
        ∀ i, i < r.size → r.elts.getD i Value.nil = a.elts.getD (lo.toNat + i) Value.nil) := by
  refine ⟨?_, ?_, ?_⟩
  · unfold arr_range arr_new
    by_cases h : lo < 0 ∨ lo > hi + 1 ∨ hi ≥ (a.size : Int)
    · simp only [h, ↓reduceIte]
    · simp only [h, ↓reduceIte, iff_false]
      split_ifs <;> simp
  · unfold arr_ckrange
    by_cases h : lo < 0 ∨ lo > hi + 1 ∨ hi ≥ (a.size : Int)
    · simp only [h, ↓reduceIte]
    · simp only [h, ↓reduceIte, iff_false]
      simp
  · intro hfits ha h
    unfold USHRT_MAX at hfits
    have h1 : 0 ≤ lo := by omega
    have h2 : lo ≤ hi + 1 := by omega
    have h3 : hi < (a.size : Int) := by omega
    have hn : (hi - lo + 1).toNat ≤ a.size := by omega
    have hd : (hi - lo + 1).toNat ≤ (a.elts.drop lo.toNat).length := by
      rw [List.length_drop]
      simp only [Array.size] at hn h3
      omega
    unfold arr_range arr_new i_copy
    rw [if_neg h, if_neg (by omega), Nat.mod_eq_of_lt (by omega)]
    refine ⟨_, rfl, ?_, ?_, ?_⟩
    · simp only [Array.size, List.take_take, min_self, List.length_take]
      rw [min_eq_left hd]
      omega
    · simp only [List.take_take, min_self]
    · intro i hi'
      simp only [Array.size, List.take_take, min_self, List.length_take] at hi' ⊢
      rw [List.getD_eq_getElem?_getD, List.getD_eq_getElem?_getD, List.getElem?_take,
        if_pos (by omega), List.getElem?_drop]

/-- C20 at `a = [7, 8, 9]`, `lo = 1`, `hi = 2`: the array `[8, 9]`. -/
theorem arr_range_spec_witness :
    ∃ r, arr_range (ref_env 100 0) { elts := [.int 7, .int 8, .int 9], odcount := 0 } 1 2 =
        .ok r ∧ (r.size : Int) = 2 - 1 + 1 ∧
      r.elts = (([.int 7, .int 8, .int 9] : List Value).drop (1 : Int).toNat).take
        ((2 : Int) - 1 + 1).toNat ∧
      ∀ i, i < r.size → r.elts.getD i Value.nil =
        ([.int 7, .int 8, .int 9] : List Value).getD ((1 : Int).toNat + i) Value.nil :=
  (arr_range_spec (ref_env 100 0) { elts := [.int 7, .int 8, .int 9], odcount := 0 } 1 2).2.2
    (by decide) (by decide) (by decide)

theorem put_heap_same (s : Store) (a : Nat) (h : Option Array) : (s.put a h).heap a = h := by
  simp [Store.put]

theorem put_heap_ne (s : Store) (a x : Nat) (h : Option Array) (hx : x ≠ a) :
    (s.put a h).heap x = s.heap x := by
  simp [Store.put, hx]

theorem put_chunks (s : Store) (a : Nat) (h : Option Array) : (s.put a h).chunks = s.chunks :=
  rfl

/-- A hook that leaves the header at `a` alone does so over a whole buffer. -/
theorem foldl_del_frame (hk : Hooks) (a : Nat)
    (hf : ∀ s v, (hk.i_del_value s v).heap a = s.heap a) :
    ∀ (l : List Value) (s : Store), (l.foldl hk.i_del_value s).heap a = s.heap a
  | [], _ => rfl
  | v :: l, s => by
    simp only [List.foldl_cons]
    rw [foldl_del_frame hk a hf l, hf]

theorem arr_del_frame (hk : Hooks) (a b : Nat) (hne : b ≠ a)
    (hf : ∀ s v, (hk.i_del_value s v).heap a = s.heap a) (s : Store) :
    (arr_del hk s b).heap a = s.heap a := by
  unfold arr_del
  cases hb : s.heap b with
  | none => rfl
  | some hdr =>
    dsimp only
    split_ifs
    · rw [put_heap_ne _ _ _ _ (Ne.symm hne)]
      split
      · rw [foldl_del_frame hk a hf, put_heap_ne _ _ _ _ (Ne.symm hne)]
      · rw [foldl_del_frame hk a hf, foldl_del_frame hk a hf,
          put_heap_ne _ _ _ _ (Ne.symm hne)]
    · rw [put_heap_ne _ _ _ _ (Ne.symm hne)]

/-- The function `arr_del` on a header with more than one reference: one
reference less. -/
theorem arr_del_at (hk : Hooks) (s : Store) (a : Nat) (hdr : Array) (hs : s.heap a = some hdr)
    (hr : 2 ≤ hdr.ref) :
    (arr_del hk s a).heap a = some { hdr with ref := hdr.ref - 1 } := by
  have e : ref_dec hdr.ref = hdr.ref - 1 := by
    unfold ref_dec
    rw [if_neg (by omega)]
  unfold arr_del
  rw [hs]
  dsimp only
  rw [e, if_neg (by omega), put_heap_same]

/-- The function `arr_del` on a header with one reference: the header is
deleted. -/
theorem arr_del_last (hk : Hooks) (s : Store) (a : Nat) (hdr : Array)
    (hs : s.heap a = some hdr) (hr : hdr.ref = 1) : (arr_del hk s a).heap a = none := by
  have e : ref_dec hdr.ref = 0 := by
    unfold ref_dec
    rw [if_neg (by omega)]
    omega
  unfold arr_del
  rw [hs]
  dsimp only
  rw [if_pos e, put_heap_same]

/-- The function `arr_del` on a header with no reference: the decrement wraps
and the header is not deleted. -/
theorem arr_del_zero (hk : Hooks) (s : Store) (a : Nat) (hdr : Array)
    (hs : s.heap a = some hdr) (hr : hdr.ref = 0) :
    (arr_del hk s a).heap a = some { hdr with ref := 4294967295 } := by
  have e : ref_dec hdr.ref = 4294967295 := by
    unfold ref_dec
    rw [if_pos hr]
  unfold arr_del
  rw [hs]
  dsimp only
  rw [e, if_neg (by decide), put_heap_same]

theorem backup_heap (s : Store) (ac a : Nat) (elts : Option (List Value)) (size plane : Nat) :
    (abchunk.backup s ac a elts size plane).heap = s.heap := rfl

theorem arr_ref_frame (s : Store) (a b : Nat) (hne : b ≠ a) :
    (arr_ref s b).heap a = s.heap a := by
  unfold arr_ref
  cases s.heap b with
  | none => rfl
  | some hdr => exact put_heap_ne _ _ _ _ (Ne.symm hne)

theorem arr_ref_chunks (s : Store) (b : Nat) : (arr_ref s b).chunks = s.chunks := by
  unfold arr_ref
  cases s.heap b <;> rfl

theorem backup_refs_frame (a : Nat) : ∀ (l : List Value) (s : Store),
    (∀ v ∈ l, v.addr ≠ some a) →
    (backup_refs s l).heap a = s.heap a ∧ (backup_refs s l).chunks = s.chunks
  | [], _, _ => ⟨rfl, rfl⟩
  | v :: l, s, h => by
    have hv := h v (List.mem_cons_self _ _)
    have hl : ∀ w ∈ l, w.addr ≠ some a := fun w hw => h w (List.mem_cons_of_mem _ hw)
    unfold backup_refs
    cases hb : v.addr with
    | none => exact backup_refs_frame a l s hl
    | some b =>
      dsimp only
      have hne : b ≠ a := by
        intro hba
        rw [hb, hba] at hv
        exact hv rfl
      obtain ⟨h1, h2⟩ := backup_refs_frame a l (arr_ref s b) hl
      exact ⟨by rw [h1, arr_ref_frame s a b hne], by rw [h2, arr_ref_chunks]⟩

/-- What `arr_backup` does to a collection that is not its own element: one
reference more, and a record of its buffer at the end of the chunk. -/
theorem arr_backup_at (s : Store) (ac a plane : Nat) (c : Array) (hc : s.heap a = some c)
    (hself : ∀ v ∈ c.elts, v.addr ≠ some a) :
    (arr_backup s ac a plane).heap a = some { c with ref := c.ref + 1 } ∧
    (arr_backup s ac a plane).chunks ac = some ((s.chunks ac).getD [] ++
      [{ arr := a, size := c.size, original := if c.size ≠ 0 then some c.elts else none,
         plane := plane }]) := by
  obtain ⟨h1, h2⟩ := backup_refs_frame a c.elts s hself
  unfold arr_backup
  rw [hc]
  dsimp only
  constructor
  · unfold arr_ref
    rw [backup_heap]
    split_ifs
    · rw [h1, hc]; exact put_heap_same _ _ _
    · rw [hc]; exact put_heap_same _ _ _
  · rw [arr_ref_chunks]
    unfold abchunk.backup
    split_ifs
    · simp [h2]
    · simp

theorem discard_elts_frame (hk : Hooks) (a : Nat)
    (hdel : ∀ s v, (hk.i_del_value s v).heap a = s.heap a) (s : Store) (b : Nat) :
    (discard_elts hk s b).heap a = s.heap a := by
  unfold discard_elts
  split
  · rfl
  · exact foldl_del_frame hk a hdel _ _

theorem discard_unhash_ne (s : Store) (a b : Nat) (hne : b ≠ a) :
    (discard_unhash s b).heap a = s.heap a := by
  unfold discard_unhash
  split
  · rfl
  · exact put_heap_ne _ _ _ _ (Ne.symm hne)

theorem discard_hash_ne (hk : Hooks) (a : Nat)
    (hdel : ∀ s v, (hk.i_del_value s v).heap a = s.heap a) (s : Store) (b : Nat)
    (hne : b ≠ a) : (discard_hash hk s b).heap a = s.heap a := by
  unfold discard_hash
  split
  · rfl
  · rw [discard_unhash_ne _ _ _ hne]
    exact foldl_del_frame hk a hdel _ _

theorem discard_restore_ne (s : Store) (ab : arrbak) (a : Nat) (hne : ab.arr ≠ a) :
    (discard_restore s ab).heap a = s.heap a := by
  unfold discard_restore
  split
  · rfl
  · exact put_heap_ne _ _ _ _ (Ne.symm hne)

/-- The discard of the record of another collection leaves the header at `a`
alone. -/
theorem item_discard_frame (hk : Hooks) (a : Nat)
    (hdel : ∀ s v, (hk.i_del_value s v).heap a = s.heap a)
    (hdis : ∀ s x p, (hk.d_discard_arr s x p).heap a = s.heap a)
    (s : Store) (ab : arrbak) (hne : ab.arr ≠ a) :
    (abchunk.item_discard hk s ab).heap a = s.heap a := by
  unfold abchunk.item_discard
  rw [arr_del_frame hk a ab.arr hne hdel, discard_restore_ne _ _ _ hne,
    discard_hash_ne hk a hdel _ _ hne, discard_elts_frame hk a hdel, hdis]

theorem discard_hash_at (hk : Hooks) (a : Nat)
    (hdel : ∀ s v, (hk.i_del_value s v).heap a = s.heap a) (s : Store) (c : Array)
    (hs : s.heap a = some c) (hov : c.hashed = none → c.hashmod = false) :
    (discard_hash hk s a).heap a = some { c with hashed := none, hashmod := false } := by
  unfold discard_hash
  rw [hs]
  cases hh : c.hashed with
  | none =>
    have e : (some c).bind (fun hdr => hdr.hashed) = none := hh
    rw [e]
    dsimp only
    rw [hs]
    have := hov hh
    cases c
    simp_all
  | some h =>
    have e : (some c).bind (fun hdr => hdr.hashed) = some h := hh
    rw [e]
    dsimp only
    unfold discard_unhash
    rw [foldl_del_frame hk a hdel, hs]
    exact put_heap_same _ _ _

/-- The discard of the record of the collection at `a`: the buffer of the
record is restored, the hash table is gone and one reference is dropped. -/
theorem item_discard_at (hk : Hooks) (a : Nat)
    (hdel : ∀ s v, (hk.i_del_value s v).heap a = s.heap a)
    (hdis : ∀ s x p, (hk.d_discard_arr s x p).heap a = s.heap a)
    (s : Store) (ab : arrbak) (he : ab.arr = a) (c : Array) (hs : s.heap a = some c)
    (hr : 2 ≤ c.ref) (hov : c.hashed = none → c.hashmod = false) :
    (abchunk.item_discard hk s ab).heap a =
      some { c with elts := (ab.original.getD []).take ab.size, hashed := none,
                    hashmod := false, ref := c.ref - 1 } := by
  subst he
  unfold abchunk.item_discard
  have h0 : (discard_elts hk (hk.d_discard_arr s ab.arr ab.plane) ab.arr).heap ab.arr =
      some c := by rw [discard_elts_frame hk _ hdel, hdis, hs]
  have h1 := discard_hash_at hk ab.arr hdel _ c h0 hov
  have h2 : (discard_restore (discard_hash hk (discard_elts hk
      (hk.d_discard_arr s ab.arr ab.plane) ab.arr) ab.arr) ab).heap ab.arr =
      some { c with elts := (ab.original.getD []).take ab.size, hashed := none,
                    hashmod := false } := by
    unfold discard_restore
    rw [h1]
    exact put_heap_same _ _ _
  rw [arr_del_at hk _ _ _ h2 hr]

theorem items_discard_frame (hk : Hooks) (a : Nat)
    (hdel : ∀ s v, (hk.i_del_value s v).heap a = s.heap a)
    (hdis : ∀ s x p, (hk.d_discard_arr s x p).heap a = s.heap a) :
    ∀ (l : List arrbak) (s : Store), (∀ r ∈ l, r.arr ≠ a) →
      (abchunk.items hk none false s l).heap a = s.heap a
  | [], _, _ => rfl
  | r :: l, s, h => by
    unfold abchunk.items
    simp only [List.foldl_cons]
    have ih := items_discard_frame hk a hdel hdis l (abchunk.item hk none false s r)
      (fun x hx => h x (List.mem_cons_of_mem _ hx))
    unfold abchunk.items at ih
    rw [ih]
    exact item_discard_frame hk a hdel hdis s r (h r (List.mem_cons_self _ _))

theorem items_append (hk : Hooks) (plane : Option Nat) (merge : Bool) (s : Store)
    (l1 l2 : List arrbak) :
    abchunk.items hk plane merge s (l1 ++ l2) =
      abchunk.items hk plane merge (abchunk.items hk plane merge s l1) l2 := by
  unfold abchunk.items
  rw [List.foldl_append]

theorem restore_original (c : Array) :
    ((if c.size ≠ 0 then some c.elts else none : Option (List Value)).getD []).take c.size =
      c.elts := by
  by_cases h : c.size = 0
  · have : c.elts = [] := List.length_eq_zero.1 h
    simp [h, this]
  · rw [if_pos h]
    exact List.take_length _

/-- C17: for a referenced collection `c` at address `a` that is not its own
element, `arr_backup` takes one reference on `c` and appends a record of its
buffer to the chunk.  After any mutation that leaves `c` with that reference
count, with a hash table or with `hashmod` false, and the chunk with that one
record for `c` (records of other collections may precede and follow it),
`arr_discard` of the chunk leaves `c` with the element buffer, hence the size,
it had at the time of `arr_backup`, without hash table, with `hashmod` false and
with the reference count it had before `arr_backup`.  The collaborators
`i_del_value` and `d_discard_arr` are taken not to touch the header of `c`. -/
theorem arr_backup_discard (hk : Hooks) (s0 : Store) (ac a plane : Nat) (c : Array)
    (hc : s0.heap a = some c) (href : 0 < c.ref) (hself : ∀ v ∈ c.elts, v.addr ≠ some a)
    (hdel : ∀ s v, (hk.i_del_value s v).heap a = s.heap a)
    (hdis : ∀ s x p, (hk.d_discard_arr s x p).heap a = s.heap a)
    (s2 : Store) (c' : Array) (b : arrbak) (pre post : List arrbak)
    (hm : s2.heap a = some c') (hr : c'.ref = c.ref + 1)
    (hov : c'.hashed = none → c'.hashmod = false)
    (hb : b = { arr := a, size := c.size, original := if c.size ≠ 0 then some c.elts else none,
                plane := plane })
    (hch : s2.chunks ac = some (pre ++ b :: post)) (hother : ∀ r ∈ pre ++ post, r.arr ≠ a) :
    (arr_backup s0 ac a plane).heap a = some { c with ref := c.ref + 1 } ∧
    (arr_backup s0 ac a plane).chunks ac = some ((s0.chunks ac).getD [] ++ [b]) ∧
    (arr_discard hk s2 ac).heap a =
      some { c' with elts := c.elts, hashed := none, hashmod := false, ref := c.ref } ∧
    ∃ c3, (arr_discard hk s2 ac).heap a = some c3 ∧ c3.size = c.size ∧
      (∀ i, c3.elts.getD i Value.nil = c.elts.getD i Value.nil) ∧ c3.hashed = none ∧
      c3.hashmod = false ∧ c3.ref = c.ref := by
  obtain ⟨h1, h2⟩ := arr_backup_at s0 ac a plane c hc hself
  have hfin : (arr_discard hk s2 ac).heap a =
      some { c' with elts := c.elts, hashed := none, hashmod := false, ref := c.ref } := by
    unfold arr_discard
    rw [hch]
    show (abchunk.items hk none false s2 (pre ++ b :: post)).heap a = _
    have e : pre ++ b :: post = pre ++ ([b] ++ post) := rfl
    rw [e, items_append, items_append,
      items_discard_frame hk a hdel hdis post _
        (fun r hr => hother r (List.mem_append_right _ hr))]
    have hpre := items_discard_frame hk a hdel hdis pre s2
      (fun r hr => hother r (List.mem_append_left _ hr))
    show (abchunk.item_discard hk (abchunk.items hk none false s2 pre) b).heap a = _
    rw [item_discard_at hk a hdel hdis _ b (by rw [hb]) c' (by rw [hpre, hm]) (by omega) hov]
    have e2 : (b.original.getD []).take b.size = c.elts := by
      rw [hb]; exact restore_original c
    rw [e2, hr]
    rfl
  refine ⟨h1, by rw [h2, hb], hfin, _, hfin, rfl, fun _ => rfl, rfl, rfl, rfl⟩

/-- C17 at `A = [1, 2, 3]` with one reference, mutated to `[1, 9, 3]` after the
backup: the discard restores `[1, 2, 3]`. -/
theorem arr_backup_discard_witness :
    (arr_backup (ref_store 1 { elts := [.int 1, .int 2, .int 3], odcount := 0, ref := 1 })
        7 1 0).heap 1 = some { elts := [.int 1, .int 2, .int 3], odcount := 0, ref := 2 } ∧
    (arr_discard (ref_hooks none)
        ((arr_backup (ref_store 1 { elts := [.int 1, .int 2, .int 3], odcount := 0, ref := 1 })
          7 1 0).put 1 (some { elts := [.int 1, .int 9, .int 3], odcount := 0, ref := 2 }))
        7).heap 1 = some { elts := [.int 1, .int 2, .int 3], odcount := 0, ref := 1 } := by
  have h := arr_backup_discard (ref_hooks none)
    (ref_store 1 { elts := [.int 1, .int 2, .int 3], odcount := 0, ref := 1 }) 7 1 0
    { elts := [.int 1, .int 2, .int 3], odcount := 0, ref := 1 } rfl (by decide)
    (by decide) (fun _ _ => rfl) (fun _ _ _ => rfl)
    ((arr_backup (ref_store 1 { elts := [.int 1, .int 2, .int 3], odcount := 0, ref := 1 })
      7 1 0).put 1 (some { elts := [.int 1, .int 9, .int 3], odcount := 0, ref := 2 }))
    { elts := [.int 1, .int 9, .int 3], odcount := 0, ref := 2 }
    { arr := 1, size := 3, original := some [.int 1, .int 2, .int 3], plane := 0 } [] []
    rfl rfl (fun _ => rfl) rfl rfl (by simp)
  exact ⟨h.1, h.2.2.1⟩

/-- C18, the claim as stated fails: with `merge = false` (and no forwarding
chunk) the record of the array `[1]` at address 1 is not dropped; the
reference count of the array is still 2 after `arr_commit`, and the chunk
still holds the record. -/
theorem arr_commit_no_merge_keeps :
    (arr_commit (ref_hooks none)
        (arr_backup (ref_store 1 { elts := [.int 1], odcount := 0, ref := 1 }) 7 1 0)
        7 0 false).heap 1 = some { elts := [.int 1], odcount := 0, ref := 2 } ∧
    (arr_commit (ref_hooks none)
        (arr_backup (ref_store 1 { elts := [.int 1], odcount := 0, ref := 1 }) 7 1 0)
        7 0 false).chunks 7 =
      some [{ arr := 1, size := 1, original := some [.int 1], plane := 0 }] ∧
    (arr_commit (ref_hooks none)
        (arr_backup (ref_store 1 { elts := [.int 1], odcount := 0, ref := 1 }) 7 1 0)
        7 0 true).heap 1 = some { elts := [.int 1], odcount := 0, ref := 1 } :=
  ⟨rfl, rfl, rfl⟩

/-- C18, amended: for a backup record `b` processed by the commit branch of
`abchunk::item`, with `r` what `d_commit_arr` returns: if merge is requested
and `r` holds a forwarding chunk, `b` (collection, original buffer, size and
original plane) is appended to that chunk and the headers are left as
`d_commit_arr` left them; if merge is requested and there is no forwarding
chunk, `b` is dropped: the elements of the original buffer are released and
`arr_del` is applied to the collection, which takes one reference off a
collection with more than one, deletes a collection with exactly one, and on a
collection with none wraps the unsigned count without deleting it
(`--(a->ref) == 0` is false there), `i_del_value` being taken not to touch its
header; without merge nothing is done with `b`: it is neither appended nor
dropped. -/
theorem item_commit_cases (hk : Hooks) (s : Store) (plane : Nat) (b : arrbak) :
    (∀ ac, (hk.d_commit_arr s b.arr plane b.plane).2 = some ac →
      (abchunk.item_commit hk s plane true b).heap =
          (hk.d_commit_arr s b.arr plane b.plane).1.heap ∧
        (abchunk.item_commit hk s plane true b).chunks ac =
          some (((hk.d_commit_arr s b.arr plane b.plane).1.chunks ac).getD [] ++ [b]) ∧
        ∀ c, c ≠ ac → (abchunk.item_commit hk s plane true b).chunks c =
          (hk.d_commit_arr s b.arr plane b.plane).1.chunks c) ∧
    ((hk.d_commit_arr s b.arr plane b.plane).2 = none →
      abchunk.item_commit hk s plane true b =
          arr_del hk (((b.original.getD []).take b.size).foldl hk.i_del_value
            (hk.d_commit_arr s b.arr plane b.plane).1) b.arr ∧
        ((∀ s v, (hk.i_del_value s v).heap b.arr = s.heap b.arr) →
          ∀ c, (hk.d_commit_arr s b.arr plane b.plane).1.heap b.arr = some c →
            (2 ≤ c.ref → (abchunk.item_commit hk s plane true b).heap b.arr =
              some { c with ref := c.ref - 1 }) ∧
            (c.ref = 1 → (abchunk.item_commit hk s plane true b).heap b.arr = none) ∧
            (c.ref = 0 → (abchunk.item_commit hk s plane true b).heap b.arr =
              some { c with ref := 4294967295 }))) ∧
    abchunk.item_commit hk s plane false b = (hk.d_commit_arr s b.arr plane b.plane).1 := by
  refine ⟨?_, ?_, ?_⟩
  · intro ac hac
    unfold abchunk.item_commit
    simp only [↓reduceIte, hac]
    refine ⟨rfl, ?_, ?_⟩
    · simp [abchunk.backup]
    · intro c hc
      simp [abchunk.backup, hc]
  · intro hn
    have e : abchunk.item_commit hk s plane true b =
        arr_del hk (((b.original.getD []).take b.size).foldl hk.i_del_value
          (hk.d_commit_arr s b.arr plane b.plane).1) b.arr := by
      unfold abchunk.item_commit
      simp only [↓reduceIte, hn]
      cases b.original <;> simp
    refine ⟨e, ?_⟩
    intro hdel c hc
    rw [e]
    have h1 : (((b.original.getD []).take b.size).foldl hk.i_del_value
        (hk.d_commit_arr s b.arr plane b.plane).1).heap b.arr = some c := by
      rw [foldl_del_frame hk _ hdel, hc]
    exact ⟨fun h2 => arr_del_at hk _ _ _ h1 h2, fun h2 => arr_del_last hk _ _ _ h1 h2,
      fun h2 => arr_del_zero hk _ _ _ h1 h2⟩
  · unfold abchunk.item_commit
    simp

/-- C18 at the record of the array `[1]` (two references, one of them the
backup): forwarded with merge; dropped with merge and no forwarding chunk,
which leaves one reference; and, held by the backup alone, deleted. -/
theorem item_commit_cases_witness :
    (abchunk.item_commit (ref_hooks (some 3))
        (ref_store 1 { elts := [.int 1], odcount := 0, ref := 2 }) 0 true
        { arr := 1, size := 1, original := some [.int 1], plane := 0 }).chunks 3 =
      some [{ arr := 1, size := 1, original := some [.int 1], plane := 0 }] ∧
    (abchunk.item_commit (ref_hooks none)
        (ref_store 1 { elts := [.int 1], odcount := 0, ref := 2 }) 0 true
        { arr := 1, size := 1, original := some [.int 1], plane := 0 }).heap 1 =
      some { elts := [.int 1], odcount := 0, ref := 1 } ∧
    (abchunk.item_commit (ref_hooks none)
        (ref_store 1 { elts := [.int 1], odcount := 0, ref := 1 }) 0 true
        { arr := 1, size := 1, original := some [.int 1], plane := 0 }).heap 1 = none :=
  ⟨((item_commit_cases (ref_hooks (some 3))
      (ref_store 1 { elts := [.int 1], odcount := 0, ref := 2 }) 0
      { arr := 1, size := 1, original := some [.int 1], plane := 0 }).1 3 rfl).2.1,
   (((item_commit_cases (ref_hooks none)
      (ref_store 1 { elts := [.int 1], odcount := 0, ref := 2 }) 0
      { arr := 1, size := 1, original := some [.int 1], plane := 0 }).2.1 rfl).2
      (fun _ _ => rfl) _ rfl).1 (by decide),
   (((item_commit_cases (ref_hooks none)
      (ref_store 1 { elts := [.int 1], odcount := 0, ref := 1 }) 0
      { arr := 1, size := 1, original := some [.int 1], plane := 0 }).2.1 rfl).2
      (fun _ _ => rfl) _ rfl).2.1 rfl⟩

theorem scrub_elt_live (env : Env) (v : Value) : is_destructed env (scrub_elt env v) = false := by
  unfold scrub_elt
  by_cases h : is_destructed env v = true
  · rw [if_pos h]; rfl
  · rw [if_neg h]; simpa using h

theorem copytmp_eq (env : Env) (a : Array) :
    copytmp env a = ((scrub_operand env a).elts, scrub_operand env a) := by
  unfold copytmp scrub_operand
  split_ifs <;> rfl

/-- An operand with a stale `odcount`, once scrubbed: every destructed entry is
replaced by nil, the other entries are kept, and `odcount` is the global
one. -/
theorem scrub_operand_stale (env : Env) (a : Array) (h : a.odcount ≠ env.odcount) :
    scrub_operand env a = { a with elts := a.elts.map (scrub_elt env), odcount := env.odcount } ∧
    (scrub_operand env a).odcount = env.odcount ∧
    (scrub_operand env a).size = a.size ∧
    (∀ i, i < a.size → (scrub_operand env a).elts.getD i Value.nil =
      if is_destructed env (a.elts.getD i Value.nil) then Value.nil
      else a.elts.getD i Value.nil) ∧
    ∀ v ∈ (scrub_operand env a).elts, is_destructed env v = false := by
  have e : scrub_operand env a =
      { a with elts := a.elts.map (scrub_elt env), odcount := env.odcount } := by
    unfold scrub_operand
    rw [if_neg h]
  rw [e]
  refine ⟨rfl, rfl, by simp [Array.size], ?_, ?_⟩
  · intro i hi
    simp only [Array.size] at hi
    simp only [List.getD_eq_getElem?_getD, List.getElem?_map, List.getElem?_eq_getElem hi,
      Option.map_some', Option.getD_some, scrub_elt]
  · intro v hv
    simp only [List.mem_map] at hv
    obtain ⟨w, _, rfl⟩ := hv
    exact scrub_elt_live env w

/-- A scrubbed operand holds no destructed entry, provided an operand with a
current `odcount` holds none. -/
theorem scrub_operand_live (env : Env) (a : Array)
    (h : a.odcount = env.odcount → ∀ v ∈ a.elts, is_destructed env v = false) :
    ∀ v ∈ (scrub_operand env a).elts, is_destructed env v = false := by
  by_cases hc : a.odcount = env.odcount
  · unfold scrub_operand
    rw [if_pos hc]
    exact h hc
  · exact (scrub_operand_stale env a hc).2.2.2.2

theorem sub_loop_sublist (env : Env) (v2 : List Value) (size : Nat) :
    ∀ v1, (sub_loop env v2 size v1).Sublist v1
  | [] => List.Sublist.refl _
  | v :: v1 => by
    simp only [sub_loop]
    split_ifs
    · exact (sub_loop_sublist env v2 size v1).cons₂ v
    · exact (sub_loop_sublist env v2 size v1).cons v

theorem intersect_loop_sublist (env : Env) (v2 : List Value) (size : Nat) :
    ∀ v1, (intersect_loop env v2 size v1).Sublist v1
  | [] => List.Sublist.refl _
  | v :: v1 => by
    simp only [intersect_loop]
    split_ifs
    · exact (intersect_loop_sublist env v2 size v1).cons₂ v
    · exact (intersect_loop_sublist env v2 size v1).cons v

theorem setxadd_split_sublist (env : Env) (v2 : List Value) (size : Nat) :
    ∀ v1, (setxadd_split env v2 size v1).1.Sublist v1 ∧
      (setxadd_split env v2 size v1).2.Sublist v1
  | [] => ⟨List.Sublist.refl _, List.Sublist.refl _⟩
  | v :: v1 => by
    obtain ⟨h1, h2⟩ := setxadd_split_sublist env v2 size v1
    simp only [setxadd_split]
    split_ifs
    · exact ⟨h1.cons₂ v, h2.cons v⟩
    · exact ⟨h1.cons v, h2.cons₂ v⟩

theorem arr_sub_scrub (env : Env) (hfits : env.max_size ≤ USHRT_MAX) (A B : Array)
    (hA : A.size ≠ 0) (hB : B.size ≠ 0) (r : Result) (h : arr_sub env A B = .ok r) :
    r.a1 = scrub_operand env A ∧ r.a2 = scrub_operand env B ∧
      r.val.elts.Sublist (scrub_operand env A).elts := by
  unfold USHRT_MAX at hfits
  unfold arr_sub arr_new at h
  rw [if_neg hB] at h
  by_cases hbig : A.size > env.max_size
  · simp [hbig] at h
  · rw [if_neg hbig] at h
    have hsz : A.size % 65536 ≠ 0 := by rw [Nat.mod_eq_of_lt (by omega)]; exact hA
    simp only [hsz, ↓reduceIte, Except.ok.injEq] at h
    rw [← h, copytmp_eq]
    exact ⟨rfl, rfl, sub_loop_sublist env _ _ _⟩

theorem arr_intersect_scrub (env : Env) (A B : Array)
    (hA : A.size ≠ 0) (hB : B.size ≠ 0) (r : Result) (h : arr_intersect env A B = .ok r) :
    r.a1 = scrub_operand env A ∧ r.a2 = scrub_operand env B ∧
      r.val.elts.Sublist (scrub_operand env A).elts := by
  unfold arr_intersect arr_new at h
  rw [if_neg (by simp [hA, hB])] at h
  by_cases hbig : A.size > env.max_size
  · simp [hbig] at h
  · rw [if_neg hbig] at h
    simp only [Except.ok.injEq] at h
    rw [← h, copytmp_eq]
    exact ⟨rfl, rfl, intersect_loop_sublist env _ _ _⟩

theorem arr_setadd_scrub (env : Env) (A B : Array)
    (hA : A.size ≠ 0) (hB : B.size ≠ 0) (r : Result) (h : arr_setadd env A B = .ok r) :
    r.a1 = scrub_operand env A ∧ r.a2 = scrub_operand env B ∧
      ∀ v ∈ r.val.elts, v ∈ (scrub_operand env A).elts ∨ v ∈ (scrub_operand env B).elts := by
  unfold arr_setadd arr_new i_copy at h
  rw [if_neg hA, if_neg hB] at h
  dsimp only at h
  split_ifs at h with h1
  simp only [Except.ok.injEq] at h
  rw [← h, copytmp_eq]
  refine ⟨rfl, rfl, ?_⟩
  intro v hv
  dsimp only at hv
  rcases List.mem_append.1 (List.mem_of_mem_take hv) with h3 | h3
  · exact Or.inl (List.mem_of_mem_take h3)
  · exact Or.inr ((sub_loop_sublist env _ _ _).subset (List.mem_of_mem_take h3))

theorem arr_setxadd_scrub (env : Env) (A B : Array)
    (hA : A.size ≠ 0) (hB : B.size ≠ 0) (r : Result) (h : arr_setxadd env A B = .ok r) :
    r.a1 = scrub_operand env A ∧ r.a2 = scrub_operand env B ∧
      ∀ v ∈ r.val.elts, v ∈ (scrub_operand env A).elts ∨ v ∈ (scrub_operand env B).elts := by
  unfold arr_setxadd arr_new i_copy at h
  rw [if_neg hA, if_neg hB] at h
  dsimp only at h
  split_ifs at h with h1
  simp only [Except.ok.injEq] at h
  rw [← h]
  simp only [copytmp_eq]
  refine ⟨trivial, trivial, ?_⟩
  intro v hv
  rcases List.mem_append.1 (List.mem_of_mem_take hv) with h3 | h3
  · exact Or.inl ((setxadd_split_sublist env _ _ _).1.subset (List.mem_of_mem_take h3))
  · exact Or.inr ((sub_loop_sublist env _ _ _).subset (List.mem_of_mem_take h3))

theorem dehash_clean_elts_live (env : Env) :
    ∀ l, ∀ v ∈ dehash_clean_elts env l, is_destructed env v = false
  | [], v, h => by simp [dehash_clean_elts] at h
  | [x], v, h => by simp [dehash_clean_elts] at h
  | k :: x :: rest, v, h => by
    simp only [dehash_clean_elts] at h
    split_ifs at h with hd
    · exact dehash_clean_elts_live env rest v h
    · simp only [Bool.or_eq_true, not_or, Bool.not_eq_true] at hd
      rcases List.mem_cons.1 h with h1 | h1
      · rw [h1]; exact hd.1
      · rcases List.mem_cons.1 h1 with h2 | h2
        · rw [h2]; exact hd.2
        · exact dehash_clean_elts_live env rest v h2

theorem dehash_clean_chain_live (env : Env) :
    ∀ c, ∀ p ∈ (dehash_clean_chain env c).2,
      is_destructed env p.1 = false ∧ is_destructed env p.2 = false
  | [], p, h => by simp [dehash_clean_chain] at h
  | e :: es, p, h => by
    simp only [dehash_clean_chain] at h
    split_ifs at h with hd ha
    · exact dehash_clean_chain_live env es p h
    · simp only [Bool.or_eq_true, not_or, Bool.not_eq_true] at hd
      rcases List.mem_cons.1 h with h1 | h1
      · rw [h1]; exact hd
      · exact dehash_clean_chain_live env es p h1
    · exact dehash_clean_chain_live env es p h

theorem dehash_clean_table_live (env : Env) :
    ∀ t i, ∀ p ∈ (dehash_clean_table env i t).2.1,
      is_destructed env p.1 = false ∧ is_destructed env p.2 = false
  | [], i, p, h => by simp [dehash_clean_table] at h
  | c :: t, i, p, h => by
    simp only [dehash_clean_table] at h
    split_ifs at h
    · rcases List.mem_append.1 h with h1 | h1
      · exact dehash_clean_chain_live env c p h1
      · exact dehash_clean_table_live env t _ p h1
    · simp at h

theorem mem_flat : ∀ (ps : List (Value × Value)) (v : Value),
    v ∈ flat ps → ∃ p ∈ ps, v = p.1 ∨ v = p.2
  | [], v, h => by simp [flat] at h
  | (k, x) :: ps, v, h => by
    simp only [flat, List.mem_cons] at h
    rcases h with h | h | h
    · exact ⟨(k, x), List.mem_cons_self _ _, Or.inl h⟩
    · exact ⟨(k, x), List.mem_cons_self _ _, Or.inr h⟩
    · obtain ⟨p, hp, hv⟩ := mem_flat ps v h
      exact ⟨p, List.mem_cons_of_mem _ hp, hv⟩

theorem mem_merge_elts (env : Env) : ∀ (fuel : Nat) (v1 : List Value)
    (v2 : List (Value × Value)) (v : Value),
    v ∈ merge_elts env fuel v1 v2 → v ∈ v1 ∨ v ∈ flat v2 := by
  intro fuel
  induction fuel with
  | zero => intro v1 v2 v h; simpa [merge_elts] using h
  | succ fuel ih =>
    intro v1 v2 v h
    match v1, v2 with
    | [], v2 => simpa [merge_elts] using h
    | [x], v2 => simpa [merge_elts] using h
    | k1 :: x1 :: v1, [] =>
      simp only [merge_elts, flat, List.append_nil] at h
      exact Or.inl h
    | k1 :: x1 :: v1, (k2, x2) :: v2 =>
      simp only [merge_elts] at h
      split_ifs at h
      · simp only [List.mem_cons] at h ⊢
        rcases h with h | h | h
        · exact Or.inl (Or.inl h)
        · exact Or.inl (Or.inr (Or.inl h))
        · rcases ih _ _ _ h with h' | h'
          · exact Or.inl (Or.inr (Or.inr h'))
          · exact Or.inr h'
      · simp only [List.mem_cons, flat] at h ⊢
        rcases h with h | h | h
        · exact Or.inr (Or.inl h)
        · exact Or.inr (Or.inr (Or.inl h))
        · rcases ih _ _ _ h with h' | h'
          · simp only [List.mem_cons] at h'
            exact Or.inl h'
          · exact Or.inr (Or.inr (Or.inr h'))

/-- After `map_dehash` in clean mode no index and no value of the array part
is a destructed object. -/
theorem map_dehash_clean_live (env : Env) (hl : env.Lawful) (m : Array) :
    ∀ v ∈ (map_dehash env m true).elts, is_destructed env v = false := by
  have h1 : ∀ v ∈ (map_dehash_array env m true).elts, is_destructed env v = false := by
    unfold map_dehash_array
    split_ifs with h
    · exact dehash_clean_elts_live env m.elts
    · intro v hv
      have : m.elts = [] := by
        simp only [Bool.true_and, decide_eq_true_eq, ne_eq, Decidable.not_not] at h
        exact List.length_eq_zero.1 h
      rw [this] at hv
      simp at hv
  unfold map_dehash
  dsimp only
  cases hh : (map_dehash_array env m true).hashed with
  | none => exact h1
  | some h0 =>
    dsimp only
    split_ifs
    · intro v hv
      unfold map_dehash_merge at hv
      simp only [↓reduceIte] at hv
      split_ifs at hv
      · rcases mem_merge_elts env _ _ _ v hv with h2 | h2
        · exact h1 v h2
        · obtain ⟨p, hp, hv2⟩ := mem_flat _ v h2
          have := dehash_clean_table_live env h0.table h0.size p
            ((hl.qsort2_perm _).subset hp)
          rcases hv2 with e | e
          · rw [e]; exact this.1
          · rw [e]; exact this.2
      · exact h1 v hv
    · exact h1

/-- A mapping with a stale `odcount`, once compacted: `odcount` is the global
one and no index and no value of the array part is a destructed object. -/
theorem map_compact_live (env : Env) (hl : env.Lawful) (f : Bool) (m : Array)
    (h : m.odcount ≠ env.odcount) :
    (map_compact env f m).odcount = env.odcount ∧
      ∀ v ∈ (map_compact env f m).elts, is_destructed env v = false := by
  unfold map_compact
  rw [if_pos (by simp [h])]
  exact ⟨rfl, map_dehash_clean_live env hl _⟩

theorem ref_env_after_lawful (ms od oi : Nat) (h : 2 * ms ≤ USHRT_MAX) :
    (ref_env_after ms od oi).Lawful :=
  let hl := ref_env_lawful ms (od + 1) h
  { cmp_laws := ⟨hl.cmp_laws.flt, hl.cmp_laws.str⟩
    max_fits := hl.max_fits
    qsort_perm := hl.qsort_perm
    qsort_sorted := hl.qsort_sorted
    qsort2_perm := hl.qsort2_perm
    qsort2_sorted := hl.qsort2_sorted }

theorem live_of_sublist (env : Env) {l l' : List Value} (hs : l.Sublist l')
    (h : ∀ v ∈ l', is_destructed env v = false) : ∀ v ∈ l, is_destructed env v = false :=
  fun v hv => h v (hs.subset hv)

/-- C19, the claim as stated fails: after the object with index 1 has been
destructed, `arr_add` of the array `[obj 1]` (with the `odcount` of before) and
the empty array leaves the operand as it was, with its destructed entry and its
old `odcount`; so does `arr_sub` with the empty array as second operand. -/
theorem arr_add_leaves_destructed :
    is_destructed (ref_env_after 100 0 1) (.obj 1 0) = true ∧
    (ref_env_after 100 0 1).odcount = 1 ∧
    (∃ r, arr_add (ref_env_after 100 0 1) { elts := [.obj 1 0], odcount := 0 }
        { elts := [], odcount := 1 } = .ok r ∧
      r.a1 = { elts := [.obj 1 0], odcount := 0 }) ∧
    (∃ r, arr_sub (ref_env_after 100 0 1) { elts := [.obj 1 0], odcount := 0 }
        { elts := [], odcount := 1 } = .ok r ∧
      r.a1 = { elts := [.obj 1 0], odcount := 0 }) :=
  ⟨rfl, rfl, ⟨_, rfl, rfl⟩, ⟨_, rfl, rfl⟩⟩

/-- C19, amended: for an array `A` with a stale `odcount` and another operand
`B`, both not empty, every call of `arr_sub`, `arr_intersect`, `arr_setadd` or
`arr_setxadd` that returns, with `A` as first or as second operand, leaves `A`
scrubbed: each destructed entry replaced by nil, the other entries kept, and
`odcount` equal to the global one; the result holds no destructed entry (for
the sums, provided `B` holds none when its `odcount` is current).  `map_compact`
of a mapping with a stale `odcount` leaves its `odcount` equal to the global one
and no destructed index or value in its array part (the pairs are removed, not
replaced).  Nothing is said of `arr_add` and of calls with an empty operand. -/
theorem destruct_scrub (env : Env) (hl : env.Lawful) (A B : Array) (hA : A.size ≠ 0)
    (hB : B.size ≠ 0) (hs : A.odcount ≠ env.odcount)
    (hBok : B.odcount = env.odcount → ∀ v ∈ B.elts, is_destructed env v = false) :
    ((scrub_operand env A).odcount = env.odcount ∧ (scrub_operand env A).size = A.size ∧
      (∀ i, i < A.size → (scrub_operand env A).elts.getD i Value.nil =
        if is_destructed env (A.elts.getD i Value.nil) then Value.nil
        else A.elts.getD i Value.nil) ∧
      ∀ v ∈ (scrub_operand env A).elts, is_destructed env v = false) ∧
    (∀ r, arr_sub env A B = .ok r →
      r.a1 = scrub_operand env A ∧ ∀ v ∈ r.val.elts, is_destructed env v = false) ∧
    (∀ r, arr_sub env B A = .ok r →
      r.a2 = scrub_operand env A ∧ ∀ v ∈ r.val.elts, is_destructed env v = false) ∧
    (∀ r, arr_intersect env A B = .ok r →
      r.a1 = scrub_operand env A ∧ ∀ v ∈ r.val.elts, is_destructed env v = false) ∧
    (∀ r, arr_intersect env B A = .ok r →
      r.a2 = scrub_operand env A ∧ ∀ v ∈ r.val.elts, is_destructed env v = false) ∧
    (∀ r, arr_setadd env A B = .ok r →
      r.a1 = scrub_operand env A ∧ ∀ v ∈ r.val.elts, is_destructed env v = false) ∧
    (∀ r, arr_setadd env B A = .ok r →
      r.a2 = scrub_operand env A ∧ ∀ v ∈ r.val.elts, is_destructed env v = false) ∧
    (∀ r, arr_setxadd env A B = .ok r →
      r.a1 = scrub_operand env A ∧ ∀ v ∈ r.val.elts, is_destructed env v = false) ∧
    (∀ r, arr_setxadd env B A = .ok r →
      r.a2 = scrub_operand env A ∧ ∀ v ∈ r.val.elts, is_destructed env v = false) ∧
    ∀ f, (map_compact env f A).odcount = env.odcount ∧
      ∀ v ∈ (map_compact env f A).elts, is_destructed env v = false := by
  have hfits : env.max_size ≤ USHRT_MAX := by
    have := hl.max_fits
    omega
  obtain ⟨-, s1, s2, s3, s4⟩ := scrub_operand_stale env A hs
  have hBl := scrub_operand_live env B hBok
  have hor : ∀ l : List Value,
      (∀ v ∈ l, v ∈ (scrub_operand env A).elts ∨ v ∈ (scrub_operand env B).elts) →
      ∀ v ∈ l, is_destructed env v = false := by
    intro l h v hv
    rcases h v hv with h1 | h1
    · exact s4 v h1
    · exact hBl v h1
  have hor2 : ∀ l : List Value,
      (∀ v ∈ l, v ∈ (scrub_operand env B).elts ∨ v ∈ (scrub_operand env A).elts) →
      ∀ v ∈ l, is_destructed env v = false := fun l h => hor l (fun v hv => (h v hv).symm)
  refine ⟨⟨s1, s2, s3, s4⟩, ?_, ?_, ?_, ?_, ?_, ?_, ?_, ?_, ?_⟩
  · intro r hr
    obtain ⟨h1, -, h3⟩ := arr_sub_scrub env hfits A B hA hB r hr
    exact ⟨h1, live_of_sublist env h3 s4⟩
  · intro r hr
    obtain ⟨-, h2, h3⟩ := arr_sub_scrub env hfits B A hB hA r hr
    exact ⟨h2, live_of_sublist env h3 hBl⟩
  · intro r hr
    obtain ⟨h1, -, h3⟩ := arr_intersect_scrub env A B hA hB r hr
    exact ⟨h1, live_of_sublist env h3 s4⟩
  · intro r hr
    obtain ⟨-, h2, h3⟩ := arr_intersect_scrub env B A hB hA r hr
    exact ⟨h2, live_of_sublist env h3 hBl⟩
  · intro r hr
    obtain ⟨h1, -, h3⟩ := arr_setadd_scrub env A B hA hB r hr
    exact ⟨h1, hor _ h3⟩
  · intro r hr
    obtain ⟨-, h2, h3⟩ := arr_setadd_scrub env B A hB hA r hr
    exact ⟨h2, hor2 _ h3⟩
  · intro r hr
    obtain ⟨h1, -, h3⟩ := arr_setxadd_scrub env A B hA hB r hr
    exact ⟨h1, hor _ h3⟩
  · intro r hr
    obtain ⟨-, h2, h3⟩ := arr_setxadd_scrub env B A hB hA r hr
    exact ⟨h2, hor2 _ h3⟩
  · exact fun f => map_compact_live env hl f A hs

/-- C19 at `A = [obj 1, 5]` with the `odcount` of before the destruction of
object 1 and `B = [5]`: `arr_sub(A, B)` returns `[nil]` and leaves
`A = [nil, 5]` with the global `odcount`. -/
theorem destruct_scrub_witness :
    ∃ r, arr_sub (ref_env_after 100 0 1) { elts := [.obj 1 0, .int 5], odcount := 0 }
        { elts := [.int 5], odcount := 1 } = .ok r ∧
      r.a1.elts = [.nil, .int 5] ∧ r.a1.odcount = 1 ∧ r.val.elts = [.nil] ∧
      (r.a1 = scrub_operand (ref_env_after 100 0 1)
        { elts := [.obj 1 0, .int 5], odcount := 0 } ∧
      ∀ v ∈ r.val.elts, is_destructed (ref_env_after 100 0 1) v = false) :=
  ⟨_, rfl, rfl, rfl, rfl,
    (destruct_scrub (ref_env_after 100 0 1) (ref_env_after_lawful 100 0 1 (by decide))
      { elts := [.obj 1 0, .int 5], odcount := 0 } { elts := [.int 5], odcount := 1 }
      (by decide) (by decide) (by decide) (fun _ v hv => by
        simp only [List.mem_singleton] at hv
        rw [hv]
        rfl)).2.1 _ rfl⟩

theorem map_compact_hashmod (env : Env) (hl : env.Lawful) (f : Bool) (m : Array)
    (hi : Inv env m) : (map_compact env f m).hashmod = false := by
  unfold map_compact
  split_ifs with h1 h2
  · exact map_dehash_hashmod env _ (map_dehash_inv env hl m false hi)
  · exact map_dehash_hashmod env _ hi
  · simp only [Bool.or_eq_true, not_or] at h1
    simpa using h1.1

theorem map_compact_odcount (env : Env) (f : Bool) (m : Array) :
    (map_compact env f m).odcount = env.odcount := by
  unfold map_compact
  split_ifs with h1
  · rfl
  · rfl
  · simp only [Bool.or_eq_true, decide_eq_true_eq, not_or, ne_eq, Decidable.not_not] at h1
    exact h1.2

/-- A consistent hash table of a mapping with `hashmod` false holds no entry
with `add` set. -/
theorem no_add_of_hashmod (env : Env) (m : Array) (hi : Inv env m) (hm : m.hashmod = false) :
    ∀ h, m.hashed = some h → ∀ e ∈ h.table.flatten, e.add = false := by
  intro h hh e he
  have tok := hi.table h hh
  have h0 : h.sizemod = 0 := by
    have := tok.hashmod_eq
    rw [hm] at this
    simpa using this.symm
  have h1 := tok.sizemod_eq
  rw [h0] at h1
  have h2 : h.table.flatten.filter (fun e => e.add) = [] := List.length_eq_zero.1 h1.symm
  by_contra hne
  have : e ∈ h.table.flatten.filter (fun e => e.add) :=
    List.mem_filter.2 ⟨he, by simpa using hne⟩
  rw [h2] at this
  simp at this

/-- Compaction on the mappings that `map_index`, `map_dehash`, `map_compact`
and `map_rmhash` build (the statement of C11 under the representation
invariant): for a mapping that satisfies the representation invariant (the
empty mapping does, and these operations keep it; the results of `map_add` and
`map_sort` for handles with colliding tags do not), after `map_compact`
the array part holds whole index/value pairs sorted by `cmp` on the index, no
two indices are equal, `hashmod` is false, the hash table, if still present,
has no entry with `add` set, and `odcount` equals the global `odcount`. -/
theorem map_compact_canonical (env : Env) (hl : env.Lawful) (f : Bool) (m : Array)
    (hi : Inv env m) :
    (map_compact env f m).elts.length % 2 = 0 ∧
    (elts_indices (map_compact env f m).elts).Pairwise (fun a b => cmp env a b ≤ 0) ∧
    (elts_indices (map_compact env f m).elts).Pairwise (fun a b => veq env a b = false) ∧
    (map_compact env f m).hashmod = false ∧
    (∀ h, (map_compact env f m).hashed = some h → ∀ e ∈ h.table.flatten, e.add = false) ∧
    (map_compact env f m).odcount = env.odcount ∧
    Inv env (map_compact env f m) := by
  have hi1 := map_compact_inv env hl f m hi
  have hm := map_compact_hashmod env hl f m hi
  exact ⟨hi1.even, hi1.sorted, hi1.distinct, hm, no_add_of_hashmod env _ hi1 hm,
    map_compact_odcount env f m, hi1⟩

/-- Compaction of the mapping built by `m[3] = 7; m[1] = 5` on an empty
mapping: after `map_compact` the array part is `[1, 5, 3, 7]`. -/
theorem map_compact_canonical_witness :
    ∃ m1 m2, map_index (ref_env 100 0) false { elts := [], odcount := 0 } (.int 3)
        (some (.int 7)) none = .ok (m1, .int 7) ∧
      map_index (ref_env 100 0) false m1 (.int 1) (some (.int 5)) none = .ok (m2, .int 5) ∧
      (map_compact (ref_env 100 0) false m2).elts = [.int 1, .int 5, .int 3, .int 7] ∧
      (elts_indices (map_compact (ref_env 100 0) false m2).elts).Pairwise
        (fun a b => cmp (ref_env 100 0) a b ≤ 0) ∧
      (map_compact (ref_env 100 0) false m2).hashmod = false :=
  ⟨_, _, rfl, rfl, rfl,
    (map_compact_canonical (ref_env 100 0) (ref_env_lawful 100 0 (by decide)) false _
      (map_index_inv _ (ref_env_lawful 100 0 (by decide)) false _ _ (.int 1) (some (.int 5))
        none (.int 5)
        (map_index_inv _ (ref_env_lawful 100 0 (by decide)) false _ _ (.int 3)
          (some (.int 7)) none (.int 7) (inv_empty _ 0) rfl) rfl)).2.1,
    rfl⟩

/-- The loop of `search` on a sorted buffer without collections: an entry that
compares equal is found when there is one, else the loop ends at the place
where the value belongs. -/
theorem search_loop_place (env : Env) (hl : env.CmpLawful) (v : Value) (buf : List Value)
    (n step : Nat) (hs : step = 1 ∨ step = 2) (hn : n ≤ USHRT_MAX)
    (hsorted : SortedAt env buf n step)
    (hnp : ∀ i, i < n → step ∣ i → T_INDEXED (buf.getD i Value.nil).type = false) :
    ∀ fuel l h, h - l < fuel → l ≤ h → h ≤ n → step ∣ l → step ∣ h →
      (∀ i, i < l → step ∣ i → 0 < cmp env v (buf.getD i Value.nil)) →
      (∀ i, h ≤ i → i < n → step ∣ i → cmp env v (buf.getD i Value.nil) < 0) →
      PlacePost env v buf n step (search_loop env v buf step fuel l h) := by
  intro fuel
  induction fuel with
  | zero => intro l h hf; omega
  | succ fuel ih =>
    intro l h hf hlh hhn hdl hdh hlo hhi
    simp only [search_loop]
    by_cases hlt : l < h
    · rw [if_pos hlt]
      obtain ⟨hm1, hm2, hm3⟩ := search_mid_spec step l h hs (le_trans hhn hn) hlt hdl hdh
      generalize ((l + h) >>> 1) &&& search_mask step = m at hm1 hm2 hm3 ⊢
      by_cases hc : cmp env v (buf.getD m Value.nil) = 0
      · rw [if_pos hc]
        have ht : T_INDEXED v.type = false := by
          rw [cmp_type_eq env hc]
          exact hnp m (by omega) hm3
        simp only [ht, Bool.false_and, Bool.false_eq_true, ↓reduceIte]
        exact ⟨by omega, hm3, hc⟩
      · rw [if_neg hc]
        by_cases hneg : cmp env v (buf.getD m Value.nil) < 0
        · rw [if_pos hneg]
          apply ih l m (by omega) hm1 (by omega) hdl hm3 hlo
          intro i hmi hi hdi
          by_cases hmi' : i = m
          · subst hmi'; exact hneg
          · exact cmp_lt_of_lt_of_le env hl hneg (hsorted m i (by omega) hi hm3 hdi)
        · rw [if_neg hneg]
          have hpos : 0 < step := by rcases hs with rfl | rfl <;> decide
          have hle := stride_next hm3 hdh hm2
          apply ih (m + step) h (by omega) hle hhn (Dvd.dvd.add hm3 (dvd_refl _)) hdh _ hhi
          intro i him hdi
          have hgt : 0 < cmp env v (buf.getD m Value.nil) := by omega
          by_cases hmi' : i = m
          · subst hmi'; exact hgt
          · have hlt' : i < m := by
              by_contra hge
              have := stride_next hm3 hdi (by omega)
              omega
            exact cmp_gt_of_le_of_gt env hl (hsorted i m hlt' (by omega) hdi hm3) hgt
    · rw [if_neg hlt]
      have : l = h := by omega
      subst this
      exact ⟨hhn, hdl, hlo, hhi⟩

theorem search_loop_place_top (env : Env) (hl : env.CmpLawful) (v : Value) (buf : List Value)
    (n step : Nat) (hs : step = 1 ∨ step = 2) (hn : n ≤ USHRT_MAX) (hdn : step ∣ n)
    (hsorted : SortedAt env buf n step)
    (hnp : ∀ i, i < n → step ∣ i → T_INDEXED (buf.getD i Value.nil).type = false) :
    PlacePost env v buf n step (search_loop env v buf step (n + 1) 0 n) := by
  apply search_loop_place env hl v buf n step hs hn hsorted hnp (n + 1) 0 n (by omega)
    (by omega) (le_refl _) (dvd_zero _) hdn
  · intro i hi; omega
  · intro i h1 h2; omega

theorem filter_eq_drop_take {α : Type} (p : α → Bool) : ∀ (L : List α) (a b : Nat),
    (∀ j (hj : j < L.length), p (L.get ⟨j, hj⟩) = true ↔ a ≤ j ∧ j < b) →
    L.filter p = (L.drop a).take (b - a)
  | [], a, b, _ => by simp
  | x :: L, a, b, h => by
    have hx := h 0 (by simp)
    simp only [List.get_eq_getElem, List.getElem_cons_zero] at hx
    have hrest : ∀ a' b', (∀ j, a' ≤ j ∧ j < b' ↔ a ≤ j + 1 ∧ j + 1 < b) →
        ∀ j (hj : j < L.length), p (L.get ⟨j, hj⟩) = true ↔ a' ≤ j ∧ j < b' := by
      intro a' b' hab j hj
      have := h (j + 1) (by simp; omega)
      simp only [List.get_eq_getElem, List.getElem_cons_succ] at this
      rw [List.get_eq_getElem, this]
      exact (hab j).symm
    by_cases ha : a = 0
    · subst ha
      by_cases hb : 0 < b
      · have hpx : p x = true := hx.2 ⟨le_refl _, hb⟩
        have ih := filter_eq_drop_take p L 0 (b - 1) (hrest 0 (b - 1) (fun j => by omega))
        rw [List.filter_cons_of_pos hpx, ih]
        simp only [List.drop_zero, Nat.sub_zero]
        obtain ⟨c, rfl⟩ : ∃ c, b = c + 1 := ⟨b - 1, by omega⟩
        simp
      · have hpx : ¬ p x = true := fun hp => by have := hx.1 hp; omega
        have ih := filter_eq_drop_take p L 0 0 (hrest 0 0 (fun j => by omega))
        rw [List.filter_cons_of_neg hpx, ih]
        have : b = 0 := by omega
        subst this
        simp
    · have hpx : ¬ p x = true := fun hp => by have := hx.1 hp; omega
      have ih := filter_eq_drop_take p L (a - 1) (b - 1)
        (hrest (a - 1) (b - 1) (fun j => by omega))
      rw [List.filter_cons_of_neg hpx, ih]
      obtain ⟨c, rfl⟩ : ∃ c, a = c + 1 := ⟨a - 1, by omega⟩
      simp only [List.drop_succ_cons, Nat.add_sub_cancel]
      congr 1
      omega

theorem flat_pairs : ∀ l : List Value, l.length % 2 = 0 → flat (elts_pairs l) = l
  | [], _ => rfl
  | [x], h => by simp at h
  | k :: v :: rest, h => by
    simp only [elts_pairs, flat]
    rw [flat_pairs rest (by simp only [List.length_cons] at h; omega)]

theorem pairs_flat : ∀ ps : List (Value × Value), elts_pairs (flat ps) = ps
  | [] => rfl
  | (k, v) :: ps => by simp only [flat, elts_pairs, pairs_flat ps]

theorem indices_eq_pairs : ∀ l : List Value, elts_indices l = (elts_pairs l).map Prod.fst
  | [] => rfl
  | [x] => rfl
  | k :: v :: rest => by
    simp only [elts_indices, elts_pairs, List.map_cons, indices_eq_pairs rest]

theorem values_eq_pairs : ∀ l : List Value, elts_values l = (elts_pairs l).map Prod.snd
  | [] => rfl
  | [x] => rfl
  | k :: v :: rest => by
    simp only [elts_values, elts_pairs, List.map_cons, values_eq_pairs rest]

theorem flat_drop : ∀ (ps : List (Value × Value)) (a : Nat),
    (flat ps).drop (2 * a) = flat (ps.drop a)
  | ps, 0 => rfl
  | [], a + 1 => by simp [flat]
  | (k, v) :: ps, a + 1 => by
    have e : 2 * (a + 1) = 2 * a + 1 + 1 := by omega
    rw [e]
    simp only [flat, List.drop_succ_cons]
    exact flat_drop ps a

theorem flat_take : ∀ (ps : List (Value × Value)) (a : Nat),
    (flat ps).take (2 * a) = flat (ps.take a)
  | ps, 0 => by simp [flat]
  | [], a + 1 => by simp [flat]
  | (k, v) :: ps, a + 1 => by
    have e : 2 * (a + 1) = 2 * a + 1 + 1 := by omega
    rw [e]
    simp only [flat, List.take_succ_cons]
    rw [flat_take ps a]

theorem pairs_length (l : List Value) (h : l.length % 2 = 0) :
    2 * (elts_pairs l).length = l.length := by
  have := elts_indices_length l h
  rw [indices_eq_pairs, List.length_map] at this
  exact this

theorem indices_getD_mem (l : List Value) (j : Nat) (hj : j < (elts_indices l).length) :
    (elts_indices l).getD j Value.nil ∈ elts_indices l := getD_mem _ j _ hj

/-- The indices of a mapping without collection indices are strictly
increasing. -/
theorem keys_strict (env : Env) (m : Array) (hi : Inv env m)
    (hk : ∀ k ∈ elts_indices m.elts, T_INDEXED k.type = false) :
    ∀ i j, i < j → j < (elts_indices m.elts).length →
      cmp env ((elts_indices m.elts).getD i Value.nil)
        ((elts_indices m.elts).getD j Value.nil) < 0 := by
  intro i j hij hj
  have hi' : i < (elts_indices m.elts).length := by omega
  have h1 := (List.pairwise_iff_getElem.1 hi.sorted) i j hi' hj hij
  have h2 := (List.pairwise_iff_getElem.1 hi.distinct) i j hi' hj hij
  rw [List.getD_eq_getElem _ _ hi', List.getD_eq_getElem _ _ hj]
  have h3 := hk _ (List.getElem_mem hi')
  simp only [veq, h3, Bool.not_false, Bool.true_or, Bool.and_true, decide_eq_false_iff_not] at h2
  omega

theorem keys_le (env : Env) (hc : env.CmpLawful) (m : Array) (hi : Inv env m) :
    ∀ i j, i ≤ j → j < (elts_indices m.elts).length →
      cmp env ((elts_indices m.elts).getD i Value.nil)
        ((elts_indices m.elts).getD j Value.nil) ≤ 0 := by
  intro i j hij hj
  by_cases h : i = j
  · subst h
    exact le_of_eq (cmp_refl env hc _)
  · have hi' : i < (elts_indices m.elts).length := by omega
    have h1 := (List.pairwise_iff_getElem.1 hi.sorted) i j hi' hj (by omega)
    rw [List.getD_eq_getElem _ _ hi', List.getD_eq_getElem _ _ hj]
    exact h1

/-- What `search` with `place` returns on the array part of a mapping without
collection indices. -/
theorem search_place_inv (env : Env) (hl : env.Lawful) (m : Array) (hi : Inv env m)
    (hk : ∀ k ∈ elts_indices m.elts, T_INDEXED k.type = false) (v : Value) :
    (∃ t, search env v m.elts m.size 2 true = ((2 * t : Nat) : Int) ∧
        t < (elts_indices m.elts).length ∧
        cmp env v ((elts_indices m.elts).getD t Value.nil) = 0) ∨
    (∃ t, search env v m.elts m.size 2 true = ((2 * t : Nat) : Int) ∧
        t ≤ (elts_indices m.elts).length ∧
        (∀ j, j < t → 0 < cmp env v ((elts_indices m.elts).getD j Value.nil)) ∧
        ∀ j, t ≤ j → j < (elts_indices m.elts).length →
          cmp env v ((elts_indices m.elts).getD j Value.nil) < 0) := by
  have hlen := elts_indices_length m.elts hi.even
  have hg := fun j => elts_indices_getD m.elts j hi.even
  have htop := search_loop_place_top env hl.cmp_laws v m.elts m.elts.length 2 (Or.inr rfl)
    (inv_size_le env hl m hi) (Nat.dvd_of_mod_eq_zero hi.even)
    (sortedAt_of_indices env m.elts hi.even hi.sorted)
    (by
      rintro i hi' ⟨j, rfl⟩
      rw [← hg j]
      exact hk _ (indices_getD_mem _ j (by omega)))
  simp only [search, Array.size]
  cases hs : search_loop env v m.elts 2 (m.elts.length + 1) 0 m.elts.length with
  | ok p =>
    rw [hs] at htop
    obtain ⟨h1, ⟨t, rfl⟩, h3⟩ := htop
    exact Or.inl ⟨t, rfl, by omega, by rw [hg]; exact h3⟩
  | error l =>
    rw [hs] at htop
    obtain ⟨h1, ⟨t, rfl⟩, h3, h4⟩ := htop
    refine Or.inr ⟨t, by simp, by omega, ?_, ?_⟩
    · intro j hj
      rw [hg]
      exact h3 (2 * j) (by omega) (Dvd.intro _ rfl)
    · intro j hj1 hj2
      rw [hg]
      exact h4 (2 * j) (by omega) (by omega) (Dvd.intro _ rfl)

theorem in_range_split (env : Env) (lo hi : Option Value) (k : Value) :
    in_range env lo hi k = (in_range env lo none k && in_range env none hi k) := by
  cases lo <;> cases hi <;> simp [in_range]

/-- The start of the subrange: the pairs from there on are those whose index
is not below the lower bound. -/
theorem map_range_from_spec (env : Env) (hl : env.Lawful) (m : Array) (hi : Inv env m)
    (hk : ∀ k ∈ elts_indices m.elts, T_INDEXED k.type = false) (lo : Option Value) :
    ∃ a, map_range_from env m lo = 2 * a ∧ a ≤ (elts_indices m.elts).length ∧
      ∀ j, j < (elts_indices m.elts).length →
        (in_range env lo none ((elts_indices m.elts).getD j Value.nil) = true ↔ a ≤ j) := by
  have hsz := inv_size_le env hl m hi
  have hlen := elts_indices_length m.elts hi.even
  unfold USHRT_MAX at hsz
  cases lo with
  | none => exact ⟨0, rfl, Nat.zero_le _, fun j _ => by simp [in_range]⟩
  | some v =>
    simp only [map_range_from, in_range, Bool.and_true, decide_eq_true_eq]
    rcases search_place_inv env hl m hi hk v with ⟨t, h1, h2, h3⟩ | ⟨t, h1, h2, h3, h4⟩
    · refine ⟨t, by rw [h1]; simp; omega, by omega, ?_⟩
      intro j hj
      constructor
      · intro hle
        by_contra hlt
        have s1 := keys_strict env m hi hk j t (by omega) h2
        have s2 := cmp_lt_of_lt_of_le env hl.cmp_laws s1
          (le_of_eq (cmp_zero_symm env hl.cmp_laws h3))
        have s3 := (cmp_swap env hl.cmp_laws _ _).1 s2
        omega
      · intro hle
        exact cmp_trans env hl.cmp_laws (le_of_eq h3) (keys_le env hl.cmp_laws m hi t j hle hj)
    · refine ⟨t, by rw [h1]; simp; omega, h2, ?_⟩
      intro j hj
      constructor
      · intro hle
        by_contra hlt
        have := h3 j (by omega)
        omega
      · intro hle
        exact le_of_lt (h4 j hle hj)

/-- The end of the subrange: the pairs before it are those whose index is not
above the upper bound. -/
theorem map_range_to_spec (env : Env) (hl : env.Lawful) (m : Array) (hi : Inv env m)
    (hk : ∀ k ∈ elts_indices m.elts, T_INDEXED k.type = false) (up : Option Value) :
    ∃ b, map_range_to env m up = 2 * b ∧ b ≤ (elts_indices m.elts).length ∧
      ∀ j, j < (elts_indices m.elts).length →
        (in_range env none up ((elts_indices m.elts).getD j Value.nil) = true ↔ j < b) := by
  have hsz := inv_size_le env hl m hi
  have hlen := elts_indices_length m.elts hi.even
  have hg := fun j => elts_indices_getD m.elts j hi.even
  unfold USHRT_MAX at hsz
  cases up with
  | none =>
    refine ⟨(elts_indices m.elts).length, ?_, le_refl _, fun j hj => by simp [in_range, hj]⟩
    simp only [map_range_to, Array.size]
    omega
  | some v =>
    simp only [map_range_to, in_range, Bool.true_and, decide_eq_true_eq]
    rcases search_place_inv env hl m hi hk v with ⟨t, h1, h2, h3⟩ | ⟨t, h1, h2, h3, h4⟩
    · have e1 : (search env v m.elts m.size 2 true).toNat % 65536 = 2 * t := by
        rw [h1]; simp; omega
      have ht : T_INDEXED v.type = false := by
        rw [cmp_type_eq env h3]
        exact hk _ (indices_getD_mem _ t h2)
      rw [e1, if_pos ⟨by simp only [Array.size]; omega, by rw [← hg]; exact h3, by simp [ht]⟩]
      refine ⟨t + 1, by omega, by omega, ?_⟩
      intro j hj
      constructor
      · intro hle
        by_contra hlt
        have s1 := keys_strict env m hi hk t j (by omega) hj
        have s2 : cmp env v ((elts_indices m.elts).getD j Value.nil) < 0 := by
          by_contra hge
          have a1 := (cmp_ge_iff env hl.cmp_laws _ _).1 (not_lt.1 hge)
          have a2 := cmp_trans env hl.cmp_laws a1 (le_of_eq h3)
          have a3 := (cmp_swap env hl.cmp_laws _ _).1 s1
          omega
        have s3 := (cmp_swap env hl.cmp_laws _ _).1 s2
        omega
      · intro hlt
        exact cmp_trans env hl.cmp_laws (keys_le env hl.cmp_laws m hi j t (by omega) h2)
          (le_of_eq (cmp_zero_symm env hl.cmp_laws h3))
    · have e1 : (search env v m.elts m.size 2 true).toNat % 65536 = 2 * t := by
        rw [h1]; simp; omega
      rw [e1, if_neg (by
        rintro ⟨c1, c2, -⟩
        simp only [Array.size] at c1
        have := h4 t (le_refl _) (by omega)
        rw [hg] at this
        omega)]
      refine ⟨t, rfl, h2, ?_⟩
      intro j hj
      constructor
      · intro hle
        by_contra hlt
        have := (cmp_swap env hl.cmp_laws _ _).1 (h4 j (by omega) hj)
        omega
      · intro hlt
        have := (cmp_swap env hl.cmp_laws _ _).2 (h3 j hlt)
        omega

theorem pairs_get_fst (l : List Value) (j : Nat) (hj : j < (elts_pairs l).length) :
    ((elts_pairs l).get ⟨j, hj⟩).1 = (elts_indices l).getD j Value.nil := by
  have hj' : j < (elts_indices l).length := by rw [indices_eq_pairs, List.length_map]; exact hj
  rw [List.getD_eq_getElem _ _ hj']
  simp only [indices_eq_pairs, List.getElem_map, List.get_eq_getElem]

/-- A buffer of pairs taken, in order, from the array part of a mapping that
satisfies the invariant is the array part of a mapping that does. -/
theorem inv_of_sublist (env : Env) (m : Array) (hi : Inv env m) (ps : List (Value × Value))
    (hs : ps.Sublist (elts_pairs m.elts)) (od : Nat) :
    Inv env { elts := flat ps, odcount := od } := by
  have hsub : (elts_indices (flat ps)).Sublist (elts_indices m.elts) := by
    rw [elts_indices_flat, indices_eq_pairs]
    exact hs.map _
  exact {
    even := by
      show (flat ps).length % 2 = 0
      rw [flat_length]; omega
    sorted := List.Pairwise.sublist hsub hi.sorted
    distinct := List.Pairwise.sublist hsub hi.distinct
    nohash := fun _ => ⟨rfl, le_trans hsub.length_le (inv_keys_le env m hi)⟩
    table := fun h hh => by simp at hh }

/-- C13: for a mapping `m` that satisfies the representation invariant and
has no collection among its indices, and optional bounds `lo` and `hi`,
`map_range(m, lo, hi)` compacts `m` and returns a new mapping, without hash
table, that holds exactly the pairs of `m` whose index `k` satisfies
`lo <= k <= hi` under `cmp` (both bounds inclusive, an absent bound unbounded),
in the order of `m`, hence sorted; it is empty when no index lies in the
interval. -/
theorem map_range_spec (env : Env) (hl : env.Lawful) (f : Bool) (m : Array)
    (lo hi : Option Value) (hinv : Inv env m)
    (hk : ∀ k ∈ m.keys, T_INDEXED k.type = false) :
    ∃ r, map_range env f m lo hi = .ok (map_compact env f m, r) ∧
      r.elts = flat ((elts_pairs (map_compact env f m).elts).filter
        (fun p => in_range env lo hi p.1)) ∧
      elts_pairs r.elts = (elts_pairs (map_compact env f m).elts).filter
        (fun p => in_range env lo hi p.1) ∧
      r.hashed = none ∧ r.hashmod = false ∧ Inv env r := by
  have hi1 := map_compact_inv env hl f m hinv
  have hk1 : ∀ k ∈ elts_indices (map_compact env f m).elts, T_INDEXED k.type = false := by
    intro k hk'
    refine hk k (map_compact_keys env hl f m hinv k ?_)
    unfold Array.keys
    exact List.mem_append_left _ hk'
  obtain ⟨a, ha1, ha2, ha3⟩ := map_range_from_spec env hl _ hi1 hk1 lo
  obtain ⟨b, hb1, hb2, hb3⟩ := map_range_to_spec env hl _ hi1 hk1 hi
  have hlen := elts_indices_length (map_compact env f m).elts hi1.even
  have hplen := pairs_length (map_compact env f m).elts hi1.even
  have hcap := inv_keys_le env _ hi1
  have hfit := hl.max_fits
  unfold USHRT_MAX at hfit
  have hfilter : (elts_pairs (map_compact env f m).elts).filter
      (fun p => in_range env lo hi p.1) =
      ((elts_pairs (map_compact env f m).elts).drop a).take (b - a) := by
    apply filter_eq_drop_take
    intro j hj
    have hj' : j < (elts_indices (map_compact env f m).elts).length := by omega
    rw [pairs_get_fst, in_range_split, Bool.and_eq_true, ha3 j hj', hb3 j hj']
  have hres : ∃ r, map_range_copy env (map_compact env f m) (2 * a) (2 * b) = .ok r ∧
      r = { elts := flat (((elts_pairs (map_compact env f m).elts).drop a).take (b - a)),
            odcount := env.odcount } := by
    unfold map_range_copy map_new i_copy
    by_cases hab : 2 * a ≥ 2 * b
    · rw [if_pos hab, if_neg (by omega)]
      refine ⟨_, rfl, ?_⟩
      have : b - a = 0 := by omega
      rw [this]
      simp [flat]
    · rw [if_neg hab, if_neg (by
        simp only [Nat.shiftLeft_eq, pow_one]
        omega)]
      refine ⟨_, rfl, ?_⟩
      have e1 : (2 * b - 2 * a) % 65536 = 2 * (b - a) := by
        rw [Nat.mod_eq_of_lt (by omega)]
        omega
      have e2 : 2 * b - 2 * a = 2 * (b - a) := by omega
      rw [e1, e2, List.take_take, min_self]
      congr 1
      conv_lhs => rw [← flat_pairs (map_compact env f m).elts hi1.even]
      rw [flat_drop, flat_take]
  obtain ⟨r, hr1, hr2⟩ := hres
  refine ⟨r, ?_, ?_, ?_, ?_, ?_, ?_⟩
  · unfold map_range
    dsimp only
    rw [ha1, hb1, hr1]
  · rw [hr2, hfilter]
  · rw [hr2, hfilter, pairs_flat]
  · rw [hr2]
  · rw [hr2]
  · rw [hr2]
    exact inv_of_sublist env _ hi1 _
      ((List.take_sublist _ _).trans (List.drop_sublist _ _)) _

/-- C13 at the mapping `{"a":1, "b":2, "c":3}` of the spec with the bounds
`"a"` and `"b"`: the range `{"a":1, "b":2}`. -/
theorem map_range_spec_witness :
    ∃ r, map_range (ref_env 100 0) false
        { elts := [.str 97 [97], .int 1, .str 98 [98], .int 2, .str 99 [99], .int 3], odcount := 0 }
        (some (.str 97 [97])) (some (.str 98 [98])) =
        .ok (map_compact (ref_env 100 0) false
          { elts := [.str 97 [97], .int 1, .str 98 [98], .int 2, .str 99 [99], .int 3], odcount := 0 },
          r) ∧
      r.elts = [.str 97 [97], .int 1, .str 98 [98], .int 2] := by
  obtain ⟨r, h1, h2, -⟩ := map_range_spec (ref_env 100 0) (ref_env_lawful 100 0 (by decide))
    false { elts := [.str 97 [97], .int 1, .str 98 [98], .int 2, .str 99 [99], .int 3], odcount := 0 }
    (some (.str 97 [97])) (some (.str 98 [98]))
    { even := rfl
      sorted := by decide
      distinct := by decide
      nohash := fun _ => ⟨rfl, by decide⟩
      table := fun h hh => by simp at hh }
    (by decide)
  exact ⟨r, h1, by rw [h2]; rfl⟩

theorem same_array_symm (a b : Value) : same_array a b = same_array b a := by
  cases a <;> cases b <;> simp [same_array, eq_comm]

/-- The look-ahead over a sorted buffer whose entries are not below `k` finds
the array of `k` exactly when some entry is equal to `k`. -/
theorem arr_ahead_iff (env : Env) (hc : env.CmpLawful) (k : Value)
    (hk : T_INDEXED k.type = true) :
    ∀ l : List Value, l.Pairwise (fun a b => cmp env a b ≤ 0) →
      (∀ y ∈ l, cmp env k y ≤ 0) →
      (arr_ahead k l = true ↔ ∃ y ∈ l, veq env k y = true)
  | [], _, _ => by simp [arr_ahead]
  | y :: l, hs, hge => by
    have hs' := List.pairwise_cons.1 hs
    have ih := arr_ahead_iff env hc k hk l hs'.2
      (fun z hz => hge z (List.mem_cons_of_mem _ hz))
    simp only [arr_ahead]
    by_cases h1 : (!T_INDEXED y.type || decide (y.atag ≠ k.atag)) = true
    · rw [if_pos h1]
      simp only [Bool.false_eq_true, false_iff, not_exists, not_and, Bool.not_eq_true]
      intro z hz
      by_contra hv
      have hv' : veq env k z = true := by simpa using hv
      have hkz := ((veq_iff env k z).1 hv').1
      have hyz : cmp env y z ≤ 0 := by
        rcases List.mem_cons.1 hz with e | e
        · rw [e]; exact le_of_eq (cmp_refl env hc _)
        · exact hs'.1 z e
      have hyk : cmp env y k ≤ 0 :=
        cmp_trans env hc hyz (le_of_eq (cmp_zero_symm env hc hkz))
      have hky := hge y (List.mem_cons_self _ _)
      have h0 : cmp env k y = 0 := by
        have := (cmp_ge_iff env hc k y).2 hyk
        omega
      have hm := cmp_zero_mate env h0 hk
      simp only [hm.1, Bool.not_true, Bool.false_or, decide_eq_true_eq, ne_eq] at h1
      exact h1 hm.2.symm
    · rw [if_neg h1]
      by_cases h2 : same_array y k = true
      · rw [if_pos h2]
        simp only [true_iff]
        refine ⟨y, List.mem_cons_self _ _, veq_of_same_array env hc ?_⟩
        rw [same_array_symm]; exact h2
      · rw [if_neg h2, ih]
        constructor
        · rintro ⟨z, hz, hv⟩
          exact ⟨z, List.mem_cons_of_mem _ hz, hv⟩
        · rintro ⟨z, hz, hv⟩
          rcases List.mem_cons.1 hz with e | e
          · subst e
            have := ((veq_iff env k z).1 hv).2 hk
            rw [same_array_symm] at this
            exact absurd this h2
          · exact ⟨z, e, hv⟩

theorem any_false_of_forall (env : Env) (k : Value) (l : List Value)
    (h : ∀ y ∈ l, veq env k y = false) : l.any (fun y => veq env k y) = false := by
  rw [List.any_eq_false]
  intro y hy
  rw [h y hy]
  decide

theorem indices_cons_pair (k x : Value) (rest : List Value) :
    elts_indices (k :: x :: rest) = k :: elts_indices rest := rfl

/-- The merge loop of `map_sub` returns the pairs whose index is equal to no
entry of the sorted array. -/
theorem map_sub_loop_spec (env : Env) (hc : env.CmpLawful) :
    ∀ (fuel : Nat) (v1 v2 : List Value), v1.length + v2.length ≤ fuel →
      v1.length % 2 = 0 → (elts_indices v1).Pairwise (fun a b => cmp env a b ≤ 0) →
      v2.Pairwise (fun a b => cmp env a b ≤ 0) →
      map_sub_loop env fuel v1 v2 = flat (map_sub_spec env (elts_pairs v1) v2) := by
  intro fuel
  induction fuel with
  | zero =>
    intro v1 v2 hf _ _ _
    have : v1 = [] := List.length_eq_zero.1 (by omega)
    subst this
    rfl
  | succ fuel ih =>
    intro v1 v2 hf he hs1 hs2
    match v1, v2 with
    | [], v2 => cases v2 <;> rfl
    | [x], v2 => simp at he
    | k1 :: x1 :: v1, [] =>
      simp only [map_sub_loop, map_sub_spec, List.any_nil, Bool.not_false, List.filter_true]
      exact (flat_pairs _ he).symm
    | k1 :: x1 :: v1, w :: v2 =>
      have he' : v1.length % 2 = 0 := by simp only [List.length_cons] at he; omega
      rw [indices_cons_pair] at hs1
      have hs1' := List.pairwise_cons.1 hs1
      have hs2' := List.pairwise_cons.1 hs2
      have hlen : v1.length + (w :: v2).length ≤ fuel := by
        simp only [List.length_cons] at hf ⊢; omega
      have hlen2 : (k1 :: x1 :: v1).length + v2.length ≤ fuel := by
        simp only [List.length_cons] at hf ⊢; omega
      simp only [map_sub_loop]
      by_cases hlt : cmp env k1 w < 0
      · rw [if_pos hlt, ih v1 (w :: v2) hlen he' hs1'.2 hs2]
        have hany : (w :: v2).any (fun y => veq env k1 y) = false := by
          apply any_false_of_forall
          intro y hy
          apply veq_false_of_cmp_ne
          have : cmp env k1 y < 0 := by
            rcases List.mem_cons.1 hy with e | e
            · rw [e]; exact hlt
            · exact cmp_lt_of_lt_of_le env hc hlt (hs2'.1 y e)
          omega
        simp only [map_sub_spec, elts_pairs, List.filter_cons, hany, Bool.not_false,
          ↓reduceIte, flat]
      · rw [if_neg hlt]
        by_cases hgt : cmp env k1 w > 0
        · rw [if_pos hgt, ih (k1 :: x1 :: v1) v2 hlen2 he (by rw [indices_cons_pair]; exact hs1)
            hs2'.2]
          unfold map_sub_spec
          congr 1
          apply List.filter_congr
          intro p hp
          have hpk : cmp env k1 p.1 ≤ 0 := by
            have hmem : p.1 ∈ elts_indices (k1 :: x1 :: v1) := by
              rw [indices_eq_pairs]; exact List.mem_map_of_mem _ hp
            rw [indices_cons_pair] at hmem
            rcases List.mem_cons.1 hmem with e | e
            · rw [e]; exact le_of_eq (cmp_refl env hc _)
            · exact hs1'.1 _ e
          have hpw : veq env p.1 w = false := by
            apply veq_false_of_cmp_ne
            intro h0
            have := cmp_trans env hc hpk (le_of_eq h0)
            omega
          simp only [List.any_cons, hpw, Bool.false_or]
        · rw [if_neg hgt]
          have h0 : cmp env k1 w = 0 := by omega
          by_cases hprobe : (T_INDEXED k1.type && !same_array k1 w) = true
          · rw [if_pos hprobe]
            simp only [Bool.and_eq_true, Bool.not_eq_true'] at hprobe
            have hkw : veq env k1 w = false := by
              simp [veq, hprobe.1, hprobe.2]
            have hah := arr_ahead_iff env hc k1 hprobe.1 v2 hs2'.2
              (fun y hy => cmp_trans env hc (le_of_eq h0) (hs2'.1 y hy))
            by_cases ha : arr_ahead k1 v2 = true
            · rw [if_pos ha, ih v1 (w :: v2) hlen he' hs1'.2 hs2]
              have hany : (w :: v2).any (fun y => veq env k1 y) = true := by
                obtain ⟨y, hy, hv⟩ := hah.1 ha
                exact List.any_eq_true.2 ⟨y, List.mem_cons_of_mem _ hy, hv⟩
              simp only [map_sub_spec, elts_pairs, List.filter_cons, hany, Bool.not_true,
                Bool.false_eq_true, ↓reduceIte]
            · rw [if_neg ha, ih v1 (w :: v2) hlen he' hs1'.2 hs2]
              have hany : (w :: v2).any (fun y => veq env k1 y) = false := by
                apply any_false_of_forall
                intro y hy
                rcases List.mem_cons.1 hy with e | e
                · rw [e]; exact hkw
                · by_contra hv
                  exact ha (hah.2 ⟨y, e, by simpa using hv⟩)
              simp only [map_sub_spec, elts_pairs, List.filter_cons, hany, Bool.not_false,
                ↓reduceIte, flat]
          · rw [if_neg hprobe, ih v1 (w :: v2) hlen he' hs1'.2 hs2]
            have hkw : veq env k1 w = true := by
              rw [veq_iff]
              refine ⟨h0, fun hT => ?_⟩
              simpa [hT] using hprobe
            have hany : (w :: v2).any (fun y => veq env k1 y) = true :=
              List.any_eq_true.2 ⟨w, List.mem_cons_self _ _, hkw⟩
            simp only [map_sub_spec, elts_pairs, List.filter_cons, hany, Bool.not_true,
              Bool.false_eq_true, ↓reduceIte]

theorem scrub_operand_length (env : Env) (a : Array) :
    (scrub_operand env a).elts.length = a.elts.length := by
  unfold scrub_operand
  split_ifs
  · rfl
  · simp

theorem scrub_operand_clean (env : Env) (a : Array)
    (h : ∀ v ∈ a.elts, is_destructed env v = false) : (scrub_operand env a).elts = a.elts := by
  unfold scrub_operand
  split_ifs
  · rfl
  · exact scrub_clean env a.elts h

theorem map_new_ok (env : Env) (hl : env.Lawful) (m : Array) (hi : Inv env m) :
    map_new env m.size = .ok m.size := by
  have h1 := inv_keys_le env m hi
  have h2 := elts_indices_length m.elts hi.even
  have h3 := hl.max_fits
  unfold USHRT_MAX at h3
  unfold map_new
  rw [if_neg (by simp only [Array.size, Nat.shiftLeft_eq, pow_one]; omega),
    Nat.mod_eq_of_lt (by simp only [Array.size]; omega)]

theorem map_sub_spec_sublist (env : Env) (ps : List (Value × Value)) (a : List Value) :
    (map_sub_spec env ps a).Sublist ps := List.filter_sublist _

theorem map_sub_spec_congr (env : Env) (ps : List (Value × Value)) {a b : List Value}
    (h : a.Perm b) : map_sub_spec env ps a = map_sub_spec env ps b := by
  unfold map_sub_spec
  apply List.filter_congr
  intro p _
  rw [any_veq_perm env p.1 h]

/-- C15: for a mapping `m` that satisfies the representation invariant and
every array `a` (duplicates and collection handles with colliding tags
allowed), `map_sub(m, a)` compacts `m` and returns a mapping whose pairs are
exactly the pairs of `m` whose index is equal (by `cmp`, and the same header
for collection handles) to no entry of `a`, in the order of `m`; the entries of
`a` are taken as the destruct scrub leaves them, which is `a` itself when it
holds no destructed object. -/
theorem map_sub_elements (env : Env) (hl : env.Lawful) (f : Bool) (m a : Array)
    (hinv : Inv env m) :
    ∃ r, map_sub env f m a = .ok r ∧ r.m1 = map_compact env f m ∧
      r.val.elts = flat (map_sub_spec env (elts_pairs (map_compact env f m).elts)
        (scrub_operand env a).elts) ∧
      elts_pairs r.val.elts = map_sub_spec env (elts_pairs (map_compact env f m).elts)
        (scrub_operand env a).elts ∧
      ((∀ v ∈ a.elts, is_destructed env v = false) →
        elts_pairs r.val.elts =
          map_sub_spec env (elts_pairs (map_compact env f m).elts) a.elts) ∧
      Inv env r.val := by
  have hi1 := map_compact_inv env hl f m hinv
  have key : ∃ r, map_sub env f m a = .ok r ∧ r.m1 = map_compact env f m ∧
      r.val = { elts := flat (map_sub_spec env (elts_pairs (map_compact env f m).elts)
        (scrub_operand env a).elts), odcount := env.odcount } := by
    unfold map_sub
    dsimp only
    rw [map_new_ok env hl _ hi1]
    dsimp only
    by_cases h0 : (map_compact env f m).size = 0
    · rw [if_pos h0]
      refine ⟨_, rfl, rfl, ?_⟩
      have : (map_compact env f m).elts = [] := List.length_eq_zero.1 h0
      rw [this]
      rfl
    · rw [if_neg h0]
      by_cases ha : a.size = 0
      · rw [if_pos ha]
        refine ⟨_, rfl, rfl, ?_⟩
        have e1 : (scrub_operand env a).elts = [] :=
          List.length_eq_zero.1 (by rw [scrub_operand_length]; exact ha)
        simp only [i_copy, Array.size, List.take_length, e1, map_sub_spec, List.any_nil,
          Bool.not_false, List.filter_true, flat_pairs _ hi1.even]
      · rw [if_neg ha]
        refine ⟨_, rfl, rfl, ?_⟩
        have hq := hl.qsort_perm (copytmp env a).1
        rw [map_sub_loop_spec env hl.cmp_laws _ _ _ (by
            rw [hq.length_eq, copytmp_eq]
            simp only [Array.size, scrub_operand_length]
            exact le_refl _) hi1.even hi1.sorted (hl.qsort_sorted _),
          map_sub_spec_congr env _ hq, copytmp_eq]
  obtain ⟨r, h1, h2, h3⟩ := key
  refine ⟨r, h1, h2, by rw [h3], by rw [h3, pairs_flat], ?_, ?_⟩
  · intro hclean
    rw [h3, pairs_flat, scrub_operand_clean env a hclean]
  · rw [h3]
    exact inv_of_sublist env _ hi1 _ (map_sub_spec_sublist env _ _) _

/-- C15 at the mapping `{A1: 1, A2: 2}`, whose indices are two arrays with the
same tag, and the array `[A2]`: the pair of `A1` remains. -/
theorem map_sub_elements_witness :
    ∃ r, map_sub (ref_env 100 0) false
        { elts := [.arr 1 7, .int 1, .arr 2 7, .int 2], odcount := 0 }
        { elts := [.arr 2 7], odcount := 0 } = .ok r ∧
      r.val.elts = [.arr 1 7, .int 1] := by
  obtain ⟨r, h1, -, h2, -⟩ := map_sub_elements (ref_env 100 0)
    (ref_env_lawful 100 0 (by decide)) false
    { elts := [.arr 1 7, .int 1, .arr 2 7, .int 2], odcount := 0 }
    { elts := [.arr 2 7], odcount := 0 }
    { even := rfl
      sorted := by decide
      distinct := by decide
      nohash := fun _ => ⟨rfl, by decide⟩
      table := fun h hh => by simp at hh }
  exact ⟨r, h1, by rw [h2]; rfl⟩

/-- C16, the code at a failing input: the mapping `{A1: 1, A2: 2}`, whose
indices are two arrays with the same tag, satisfies the invariant; both
indices are entries of the array `[A2, A1]`, so that the pairs whose index is
equal to some entry of the array are both pairs; `map_intersect` returns the
pair of `A1` only. -/
theorem map_intersect_misses_identical :
    Inv (ref_env 100 0) { elts := [.arr 1 7, .int 1, .arr 2 7, .int 2], odcount := 0 } ∧
    map_intersect_spec (ref_env 100 0)
        (elts_pairs [.arr 1 7, .int 1, .arr 2 7, .int 2]) [.arr 2 7, .arr 1 7] =
      [(.arr 1 7, .int 1), (.arr 2 7, .int 2)] ∧
    ∃ r, map_intersect (ref_env 100 0) false
        { elts := [.arr 1 7, .int 1, .arr 2 7, .int 2], odcount := 0 }
        { elts := [.arr 2 7, .arr 1 7], odcount := 0 } = .ok r ∧
      r.val.elts = [.arr 1 7, .int 1] :=
  ⟨{ even := rfl
     sorted := by decide
     distinct := by decide
     nohash := fun _ => ⟨rfl, by decide⟩
     table := fun h hh => by simp at hh },
   by decide, _, rfl, rfl⟩

theorem pairs_cons_pair (k x : Value) (rest : List Value) :
    elts_pairs (k :: x :: rest) = (k, x) :: elts_pairs rest := rfl

theorem mem_indices_of_pair {l : List Value} {p : Value × Value} (h : p ∈ elts_pairs l) :
    p.1 ∈ elts_indices l := by
  rw [indices_eq_pairs]
  exact List.mem_map_of_mem _ h

/-- The merge loop of `map_add` on two array parts with strictly increasing
indices that are no collections: the pairs of `m2`, and the pairs of `m1` whose
index compares equal to no index of `m2`, with strictly increasing indices. -/
theorem map_add_loop_spec (env : Env) (hc : env.CmpLawful) :
    ∀ (fuel : Nat) (v1 v2 : List Value), v1.length + v2.length ≤ fuel →
      v1.length % 2 = 0 → v2.length % 2 = 0 →
      (elts_indices v1).Pairwise (fun a b => cmp env a b < 0) →
      (elts_indices v2).Pairwise (fun a b => cmp env a b < 0) →
      (∀ k ∈ elts_indices v1, T_INDEXED k.type = false) →
      (map_add_loop env fuel v1 v2).length % 2 = 0 ∧
      (∀ p, p ∈ elts_pairs (map_add_loop env fuel v1 v2) ↔
        p ∈ elts_pairs v2 ∨ (p ∈ elts_pairs v1 ∧ ∀ q ∈ elts_pairs v2, cmp env p.1 q.1 ≠ 0)) ∧
      (elts_indices (map_add_loop env fuel v1 v2)).Pairwise (fun a b => cmp env a b < 0) := by
  intro fuel
  induction fuel with
  | zero =>
    intro v1 v2 hf _ _ _ _ _
    have e1 : v1 = [] := List.length_eq_zero.1 (by omega)
    have e2 : v2 = [] := List.length_eq_zero.1 (by omega)
    subst e1 e2
    simp [map_add_loop, elts_pairs, elts_indices]
  | succ fuel ih =>
    intro v1 v2 hf he1 he2 hs1 hs2 hk
    match v1, v2 with
    | [], v2 =>
      have e : map_add_loop env (fuel + 1) [] v2 = v2 := by cases v2 <;> rfl
      rw [e]
      exact ⟨he2, fun p => by simp [elts_pairs], hs2⟩
    | [x], v2 => simp at he1
    | k1 :: x1 :: v1, [] =>
      have e : map_add_loop env (fuel + 1) (k1 :: x1 :: v1) [] = k1 :: x1 :: v1 := by
        simp [map_add_loop]
      rw [e]
      exact ⟨he1, fun p => by simp [elts_pairs], hs1⟩
    | k1 :: x1 :: v1, [y] => simp at he2
    | k1 :: x1 :: v1, k2 :: x2 :: v2 =>
      have he1' : v1.length % 2 = 0 := by simp only [List.length_cons] at he1; omega
      have he2' : v2.length % 2 = 0 := by simp only [List.length_cons] at he2; omega
      rw [indices_cons_pair] at hs1 hs2 hk
      have hs1' := List.pairwise_cons.1 hs1
      have hs2' := List.pairwise_cons.1 hs2
      have hk1 : T_INDEXED k1.type = false := hk k1 (List.mem_cons_self _ _)
      have hk' : ∀ k ∈ elts_indices v1, T_INDEXED k.type = false :=
        fun k h => hk k (List.mem_cons_of_mem _ h)
      simp only [map_add_loop, hk1, Bool.false_and, Bool.false_eq_true, ↓reduceIte]
      by_cases hlt : cmp env k1 k2 < 0
      · rw [if_pos hlt]
        obtain ⟨i1, i2, i3⟩ := ih v1 (k2 :: x2 :: v2)
          (by simp only [List.length_cons] at hf ⊢; omega) he1' he2 hs1'.2
          (by rw [indices_cons_pair]; exact hs2) hk'
        have hk1lt : ∀ q ∈ elts_pairs (k2 :: x2 :: v2), cmp env k1 q.1 < 0 := by
          intro q hq
          have := mem_indices_of_pair hq
          rw [indices_cons_pair] at this
          rcases List.mem_cons.1 this with e | e
          · rw [e]; exact hlt
          · exact cmp_lt_of_lt_of_le env hc hlt (le_of_lt (hs2'.1 _ e))
        refine ⟨by simp only [List.length_cons]; omega, ?_, ?_⟩
        · intro p
          rw [pairs_cons_pair, List.mem_cons, i2, pairs_cons_pair (k1) x1 v1, List.mem_cons]
          constructor
          · rintro (h | h | h)
            · refine Or.inr ⟨Or.inl h, fun q hq => ?_⟩
              have := hk1lt q hq
              rw [h]
              exact ne_of_lt this
            · exact Or.inl h
            · exact Or.inr ⟨Or.inr h.1, h.2⟩
          · rintro (h | ⟨h | h, h'⟩)
            · exact Or.inr (Or.inl h)
            · exact Or.inl h
            · exact Or.inr (Or.inr ⟨h, h'⟩)
        · rw [indices_cons_pair]
          refine List.pairwise_cons.2 ⟨?_, i3⟩
          intro k' hk''
          rw [indices_eq_pairs] at hk''
          obtain ⟨p, hp, rfl⟩ := List.mem_map.1 hk''
          rcases (i2 p).1 hp with h | h
          · exact hk1lt p h
          · exact hs1'.1 _ (mem_indices_of_pair h.1)
      · rw [if_neg hlt]
        by_cases h0 : cmp env k1 k2 = 0
        · rw [if_pos h0]
          obtain ⟨i1, i2, i3⟩ := ih v1 v2
            (by simp only [List.length_cons] at hf ⊢; omega) he1' he2' hs1'.2 hs2'.2 hk'
          have hgt : ∀ p ∈ elts_pairs v1, cmp env k2 p.1 < 0 := by
            intro p hp
            have h1 := hs1'.1 _ (mem_indices_of_pair hp)
            have h2 := cmp_zero_symm env hc h0
            by_contra hn
            have h3 := (cmp_ge_iff env hc _ _).1 (not_lt.1 hn)
            have h4 := cmp_trans env hc h3 (le_of_eq h2)
            have h5 := (cmp_swap env hc k1 p.1).1 h1
            omega
          refine ⟨by simp only [List.length_cons]; omega, ?_, ?_⟩
          · intro p
            rw [pairs_cons_pair, List.mem_cons, i2, pairs_cons_pair k1 x1 v1,
              pairs_cons_pair k2 x2 v2, List.mem_cons, List.mem_cons]
            constructor
            · rintro (h | h | h)
              · exact Or.inl (Or.inl h)
              · exact Or.inl (Or.inr h)
              · refine Or.inr ⟨Or.inr h.1, fun q hq => ?_⟩
                rcases List.mem_cons.1 hq with e | e
                · rw [e]
                  have := (cmp_swap env hc k2 p.1).1 (hgt p h.1)
                  exact ne_of_gt this
                · exact h.2 q e
            · rintro ((h | h) | ⟨h | h, h'⟩)
              · exact Or.inl h
              · exact Or.inr (Or.inl h)
              · exfalso
                have := h' (k2, x2) (List.mem_cons_self _ _)
                rw [h] at this
                exact this h0
              · exact Or.inr (Or.inr ⟨h, fun q hq => h' q (List.mem_cons_of_mem _ hq)⟩)
          · rw [indices_cons_pair]
            refine List.pairwise_cons.2 ⟨?_, i3⟩
            intro k' hk''
            rw [indices_eq_pairs] at hk''
            obtain ⟨p, hp, rfl⟩ := List.mem_map.1 hk''
            rcases (i2 p).1 hp with h | h
            · exact hs2'.1 _ (mem_indices_of_pair h)
            · exact hgt p h.1
        · rw [if_neg h0]
          have hgt0 : cmp env k2 k1 < 0 := by
            have := cmp_swap env hc k2 k1
            have : 0 < cmp env k1 k2 := by omega
            exact (cmp_swap env hc k2 k1).2 this
          obtain ⟨i1, i2, i3⟩ := ih (k1 :: x1 :: v1) v2
            (by simp only [List.length_cons] at hf ⊢; omega) he1 he2'
            (by rw [indices_cons_pair]; exact hs1) hs2'.2
            (by rw [indices_cons_pair]; exact hk)
          have hgt : ∀ p ∈ elts_pairs (k1 :: x1 :: v1), cmp env k2 p.1 < 0 := by
            intro p hp
            have := mem_indices_of_pair hp
            rw [indices_cons_pair] at this
            rcases List.mem_cons.1 this with e | e
            · rw [e]; exact hgt0
            · exact cmp_lt_of_lt_of_le env hc hgt0 (le_of_lt (hs1'.1 _ e))
          refine ⟨by simp only [List.length_cons]; omega, ?_, ?_⟩
          · intro p
            rw [pairs_cons_pair, List.mem_cons, i2, pairs_cons_pair k2 x2 v2, List.mem_cons]
            constructor
            · rintro (h | h | h)
              · exact Or.inl (Or.inl h)
              · exact Or.inl (Or.inr h)
              · refine Or.inr ⟨h.1, fun q hq => ?_⟩
                rcases List.mem_cons.1 hq with e | e
                · rw [e]
                  have := (cmp_swap env hc k2 p.1).1 (hgt p h.1)
                  exact ne_of_gt this
                · exact h.2 q e
            · rintro ((h | h) | h)
              · exact Or.inl h
              · exact Or.inr (Or.inl h)
              · exact Or.inr (Or.inr ⟨h.1, fun q hq => h.2 q (List.mem_cons_of_mem _ hq)⟩)
          · rw [indices_cons_pair]
            refine List.pairwise_cons.2 ⟨?_, i3⟩
            intro k' hk''
            rw [indices_eq_pairs] at hk''
            obtain ⟨p, hp, rfl⟩ := List.mem_map.1 hk''
            rcases (i2 p).1 hp with h | h
            · exact hs2'.1 _ (mem_indices_of_pair h)
            · exact hgt p h.1

theorem veq_non_indexed (env : Env) {a : Value} (b : Value) (ha : T_INDEXED a.type = false) :
    veq env a b = decide (cmp env a b = 0) := by
  simp [veq, ha]

/-- The indices of a mapping without collection indices, as a strictly
increasing list. -/
theorem keys_strict_pairwise (env : Env) (m : Array) (hi : Inv env m)
    (hk : ∀ k ∈ elts_indices m.elts, T_INDEXED k.type = false) :
    (elts_indices m.elts).Pairwise (fun a b => cmp env a b < 0) := by
  refine List.Pairwise.imp_of_mem ?_ (hi.sorted.and hi.distinct)
  intro a b ha _ hab
  have h2 := hab.2
  rw [veq_non_indexed env b (hk a ha)] at h2
  have : cmp env a b ≠ 0 := by simpa using h2
  have := hab.1
  omega

theorem compact_keys_plain (env : Env) (hl : env.Lawful) (f : Bool) (m : Array)
    (hi : Inv env m) (hk : ∀ k ∈ m.keys, T_INDEXED k.type = false) :
    ∀ k ∈ elts_indices (map_compact env f m).elts, T_INDEXED k.type = false := by
  intro k hk'
  refine hk k (map_compact_keys env hl f m hi k ?_)
  unfold Array.keys
  exact List.mem_append_left _ hk'

/-- The merge loop of `map_add` copies every entry of its operands at most
once. -/
theorem map_add_loop_length_le (env : Env) : ∀ (fuel : Nat) (v1 v2 : List Value),
    (map_add_loop env fuel v1 v2).length ≤ v1.length + v2.length := by
  intro fuel
  induction fuel with
  | zero => intro v1 v2; simp [map_add_loop]
  | succ fuel ih =>
    intro v1 v2
    match v1, v2 with
    | [], v2 => cases v2 <;> simp [map_add_loop]
    | [x], [] => simp [map_add_loop]
    | [x], y :: v2 => simp [map_add_loop]; omega
    | k1 :: x1 :: v1, [] => simp [map_add_loop]
    | k1 :: x1 :: v1, [y] => simp [map_add_loop]
    | k1 :: x1 :: v1, k2 :: x2 :: v2 =>
      simp only [map_add_loop]
      have a1 := ih v1 (k2 :: x2 :: v2)
      have a2 := ih v1 v2
      have a3 := ih (k1 :: x1 :: v1) v2
      simp only [List.length_cons] at a1 a2 a3 ⊢
      split_ifs <;> simp only [List.length_cons] <;> omega

/-- C14, the claim as stated fails: with the cap `max_size = 1`, the sum of
`{1: 10}` and `{1: 20}` would be the one pair `{1: 20}`, within the cap, and
`map_add` signals mapping-too-large (with a larger cap it returns that
pair). -/
theorem map_add_too_large_within_cap :
    map_add (ref_env 1 0) false false { elts := [.int 1, .int 10], odcount := 0 }
        { elts := [.int 1, .int 20], odcount := 0 } = .error .mapping_too_large ∧
    ∃ r, map_add (ref_env 100 0) false false { elts := [.int 1, .int 10], odcount := 0 }
        { elts := [.int 1, .int 20], odcount := 0 } = .ok r ∧
      r.val.elts = [.int 1, .int 20] ∧ r.val.size >>> 1 ≤ (ref_env 1 0).max_size :=
  ⟨rfl, _, rfl, rfl, by decide⟩

/-- C14, amended: for mappings `m1` and `m2` that satisfy the representation
invariant and have no collection among their indices, when the sizes of the
two array parts after compaction add up to at most `2 * max_size` entries,
`map_add(m1, m2)` returns a mapping whose pairs are sorted by index with
distinct indices and are exactly the pairs of `m2` and the pairs of `m1` whose
index is equal to no index of `m2`: the index set is the union, every index of
`m2` carries the value of `m2`, every other index the value of `m1`. -/
theorem map_add_union (env : Env) (hl : env.Lawful) (f1 f2 : Bool) (m1 m2 : Array)
    (hi1 : Inv env m1) (hi2 : Inv env m2)
    (hk1 : ∀ k ∈ m1.keys, T_INDEXED k.type = false)
    (hk2 : ∀ k ∈ m2.keys, T_INDEXED k.type = false)
    (hcap : (map_compact env f1 m1).size + (map_compact env f2 m2).size ≤
      2 * env.max_size) :
    ∃ r, map_add env f1 f2 m1 m2 = .ok r ∧ r.m1 = map_compact env f1 m1 ∧
      r.a2 = map_compact env f2 m2 ∧
      (elts_indices r.val.elts).Pairwise (fun a b => cmp env a b < 0) ∧
      (∀ p, p ∈ elts_pairs r.val.elts ↔
        p ∈ elts_pairs (map_compact env f2 m2).elts ∨
          (p ∈ elts_pairs (map_compact env f1 m1).elts ∧
            ∀ q ∈ elts_pairs (map_compact env f2 m2).elts, veq env p.1 q.1 = false)) ∧
      (∀ k ∈ elts_indices r.val.elts, k ∈ elts_indices (map_compact env f1 m1).elts ∨
        k ∈ elts_indices (map_compact env f2 m2).elts) ∧
      (∀ k, k ∈ elts_indices (map_compact env f1 m1).elts ∨
          k ∈ elts_indices (map_compact env f2 m2).elts →
        ∃ k' ∈ elts_indices r.val.elts, veq env k k' = true) ∧
      Inv env r.val := by
  have c1 := map_compact_inv env hl f1 m1 hi1
  have c2 := map_compact_inv env hl f2 m2 hi2
  have p1 := compact_keys_plain env hl f1 m1 hi1 hk1
  have p2 := compact_keys_plain env hl f2 m2 hi2 hk2
  have hfit := hl.max_fits
  unfold USHRT_MAX at hfit
  obtain ⟨l1, l2, l3⟩ := map_add_loop_spec env hl.cmp_laws
    ((map_compact env f1 m1).size + (map_compact env f2 m2).size)
    (map_compact env f1 m1).elts (map_compact env f2 m2).elts (le_refl _) c1.even c2.even
    (keys_strict_pairwise env _ c1 p1) (keys_strict_pairwise env _ c2 p2) p1
  have key : ∃ r, map_add env f1 f2 m1 m2 = .ok r ∧ r.m1 = map_compact env f1 m1 ∧
      r.a2 = map_compact env f2 m2 ∧
      r.val = { elts := (map_add_loop env
        ((map_compact env f1 m1).size + (map_compact env f2 m2).size)
        (map_compact env f1 m1).elts (map_compact env f2 m2).elts), odcount := env.odcount } := by
    unfold map_add map_new
    dsimp only
    rw [if_neg (by simp only [Nat.shiftLeft_eq, pow_one]; omega), Nat.mod_eq_of_lt (by omega)]
    dsimp only
    by_cases h0 : (map_compact env f1 m1).size + (map_compact env f2 m2).size = 0
    · rw [if_pos h0]
      refine ⟨_, rfl, rfl, rfl, ?_⟩
      have e1 : (map_compact env f1 m1).elts = [] :=
        List.length_eq_zero.1 (by simp only [Array.size] at h0; omega)
      have e2 : (map_compact env f2 m2).elts = [] :=
        List.length_eq_zero.1 (by simp only [Array.size] at h0; omega)
      simp only [Array.size, e1, e2, List.length_nil, map_add_loop, List.append_nil]
    · rw [if_neg h0]
      exact ⟨_, rfl, rfl, rfl, rfl⟩
  obtain ⟨r, h1, h2, h3, h4⟩ := key
  have hpairs : ∀ p, p ∈ elts_pairs r.val.elts ↔
      p ∈ elts_pairs (map_compact env f2 m2).elts ∨
        (p ∈ elts_pairs (map_compact env f1 m1).elts ∧
          ∀ q ∈ elts_pairs (map_compact env f2 m2).elts, veq env p.1 q.1 = false) := by
    intro p
    rw [h4]
    show p ∈ elts_pairs (map_add_loop env _ _ _) ↔ _
    rw [l2 p]
    constructor
    · rintro (h | ⟨h, h'⟩)
      · exact Or.inl h
      · refine Or.inr ⟨h, fun q hq => ?_⟩
        rw [veq_non_indexed env q.1 (p1 _ (mem_indices_of_pair h))]
        simpa using h' q hq
    · rintro (h | ⟨h, h'⟩)
      · exact Or.inl h
      · refine Or.inr ⟨h, fun q hq => ?_⟩
        have := h' q hq
        rw [veq_non_indexed env q.1 (p1 _ (mem_indices_of_pair h))] at this
        simpa using this
  have hstrict : (elts_indices r.val.elts).Pairwise (fun a b => cmp env a b < 0) := by
    rw [h4]; exact l3
  refine ⟨r, h1, h2, h3, hstrict, hpairs, ?_, ?_, ?_⟩
  · intro k hk
    rw [indices_eq_pairs] at hk
    obtain ⟨p, hp, rfl⟩ := List.mem_map.1 hk
    rcases (hpairs p).1 hp with h | h
    · exact Or.inr (mem_indices_of_pair h)
    · exact Or.inl (mem_indices_of_pair h.1)
  · intro k hk
    have hfrom2 : ∀ q ∈ elts_pairs (map_compact env f2 m2).elts,
        q.1 ∈ elts_indices r.val.elts :=
      fun q hq => mem_indices_of_pair ((hpairs q).2 (Or.inl hq))
    rcases hk with hk | hk
    · rw [indices_eq_pairs] at hk
      obtain ⟨p, hp, rfl⟩ := List.mem_map.1 hk
      by_cases hex : ∃ q ∈ elts_pairs (map_compact env f2 m2).elts, veq env p.1 q.1 = true
      · obtain ⟨q, hq, hv⟩ := hex
        exact ⟨q.1, hfrom2 q hq, hv⟩
      · refine ⟨p.1, mem_indices_of_pair ((hpairs p).2 (Or.inr ⟨hp, fun q hq => ?_⟩)),
          veq_refl env hl.cmp_laws _⟩
        by_contra hv
        exact hex ⟨q, hq, by simpa using hv⟩
    · rw [indices_eq_pairs] at hk
      obtain ⟨q, hq, rfl⟩ := List.mem_map.1 hk
      exact ⟨q.1, hfrom2 q hq, veq_refl env hl.cmp_laws _⟩
  · have hlen : r.val.elts.length % 2 = 0 := by rw [h4]; exact l1
    have hcount : r.val.elts.length ≤
        (map_compact env f1 m1).size + (map_compact env f2 m2).size := by
      rw [h4]
      exact map_add_loop_length_le env _ _ _
    have hle := elts_indices_length r.val.elts hlen
    exact {
      even := hlen
      sorted := hstrict.imp (fun h => le_of_lt h)
      distinct := hstrict.imp (fun h => veq_false_of_cmp_ne env (ne_of_lt h))
      nohash := fun _ => ⟨by rw [h4], by omega⟩
      table := fun h hh => by rw [h4] at hh; simp at hh }

/-- C14 at `{1: 10, 3: 30}` and `{2: 20, 3: 33}`: the sum
`{1: 10, 2: 20, 3: 33}`. -/
theorem map_add_union_witness :
    ∃ r, map_add (ref_env 100 0) false false
        { elts := [.int 1, .int 10, .int 3, .int 30], odcount := 0 }
        { elts := [.int 2, .int 20, .int 3, .int 33], odcount := 0 } = .ok r ∧
      r.val.elts = [.int 1, .int 10, .int 2, .int 20, .int 3, .int 33] ∧
      (elts_indices r.val.elts).Pairwise (fun a b => cmp (ref_env 100 0) a b < 0) := by
  obtain ⟨r, h1, -, -, h2, -⟩ := map_add_union (ref_env 100 0)
    (ref_env_lawful 100 0 (by decide)) false false
    { elts := [.int 1, .int 10, .int 3, .int 30], odcount := 0 }
    { elts := [.int 2, .int 20, .int 3, .int 33], odcount := 0 }
    { even := rfl
      sorted := by decide
      distinct := by decide
      nohash := fun _ => ⟨rfl, by decide⟩
      table := fun h hh => by simp at hh }
    { even := rfl
      sorted := by decide
      distinct := by decide
      nohash := fun _ => ⟨rfl, by decide⟩
      table := fun h hh => by simp at hh }
    (by decide) (by decide) (by decide)
  have h3 : map_add (ref_env 100 0) false false
      { elts := [.int 1, .int 10, .int 3, .int 30], odcount := 0 }
      { elts := [.int 2, .int 20, .int 3, .int 33], odcount := 0 } =
      .ok { val := { elts := [.int 1, .int 10, .int 2, .int 20, .int 3, .int 33],
                     odcount := 0 },
            m1 := { elts := [.int 1, .int 10, .int 3, .int 30], odcount := 0 },
            a2 := { elts := [.int 2, .int 20, .int 3, .int 33], odcount := 0 } } := rfl
  rw [h3] at h1
  simp only [Except.ok.injEq] at h1
  exact ⟨r, by rw [h3, h1], by rw [← h1], h2⟩

theorem pairs_append_flat : ∀ (l : List Value) (ps : List (Value × Value)),
    l.length % 2 = 0 → elts_pairs (l ++ flat ps) = elts_pairs l ++ ps
  | [], ps, _ => by simp [elts_pairs, pairs_flat]
  | [x], ps, h => by simp at h
  | k :: v :: rest, ps, h => by
    have := pairs_append_flat rest ps (by simp only [List.length_cons] at h; omega)
    show (k, v) :: elts_pairs (rest ++ flat ps) = _
    rw [this]
    rfl

theorem merge_elts_pairs_perm (env : Env) : ∀ (fuel : Nat) (v1 : List Value)
    (v2 : List (Value × Value)), v1.length % 2 = 0 →
    (elts_pairs (merge_elts env fuel v1 v2)).Perm (elts_pairs v1 ++ v2) := by
  intro fuel
  induction fuel with
  | zero =>
    intro v1 v2 h
    simp only [merge_elts, pairs_append_flat v1 v2 h]
    exact List.Perm.refl _
  | succ fuel ih =>
    intro v1 v2 h
    match v1, v2, h with
    | [], v2, _ =>
      simp only [merge_elts, pairs_append_flat [] v2 rfl]
      exact List.Perm.refl _
    | [x], v2, h => simp at h
    | k1 :: x1 :: v1, [], _ =>
      simp only [merge_elts, flat, List.append_nil]
      exact List.Perm.refl _
    | k1 :: x1 :: v1, (k2, x2) :: v2, h =>
      have hv1 : v1.length % 2 = 0 := by simp only [List.length_cons] at h; omega
      simp only [merge_elts]
      split_ifs
      · simp only [elts_pairs, List.cons_append]
        exact List.Perm.cons _ (ih v1 ((k2, x2) :: v2) hv1)
      · have := ih (k1 :: x1 :: v1) v2 h
        simp only [elts_pairs] at this ⊢
        exact (List.Perm.cons _ this).trans List.perm_middle.symm

theorem pairs_dehash_clean (env : Env) : ∀ l : List Value,
    elts_pairs (dehash_clean_elts env l) =
      (elts_pairs l).filter (fun p => !(is_destructed env p.1 || is_destructed env p.2))
  | [] => rfl
  | [x] => rfl
  | k :: v :: rest => by
    simp only [dehash_clean_elts, elts_pairs, List.filter_cons]
    by_cases h : (is_destructed env k || is_destructed env v) = true
    · simp only [h, ↓reduceIte, Bool.not_true, Bool.false_eq_true]
      exact pairs_dehash_clean env rest
    · simp only [h, Bool.false_eq_true, ↓reduceIte, elts_pairs, Bool.not_eq_true] at h ⊢
      simp only [h, Bool.not_false, ↓reduceIte, pairs_dehash_clean env rest]

/-- The pairs of the array part after the merge step of `map_dehash`. -/
theorem merge_step_pairs (env : Env) (hl : env.Lawful) (elts : List Value)
    (v2 : List (Value × Value)) (c : Prop) [Decidable c] (hnc : ¬ c → v2 = [])
    (heven : elts.length % 2 = 0) :
    (elts_pairs (if c then merge_elts env (elts.length + v2.length) elts (env.qsort2 v2)
      else elts)).Perm (elts_pairs elts ++ v2) := by
  by_cases hcc : c
  · simp only [hcc, ↓reduceIte]
    exact (merge_elts_pairs_perm env _ elts (env.qsort2 v2) heven).trans
      (List.Perm.append_left _ (hl.qsort2_perm v2))
  · simp only [hcc, ↓reduceIte, hnc hcc, List.append_nil]
    exact List.Perm.refl _

theorem coherent_odcount (m : Array) (od : Nat) (h : Coherent m) :
    Coherent { m with odcount := od } := h

theorem map_dehash_array_false (env : Env) (m : Array) : map_dehash_array env m false = m := by
  simp [map_dehash_array]

theorem pairs_dehash_array_live (env : Env) (m : Array) (p : Value × Value)
    (hp : p ∈ elts_pairs m.elts)
    (hlive : (!(is_destructed env p.1 || is_destructed env p.2)) = true) :
    p ∈ elts_pairs (map_dehash_array env m true).elts := by
  unfold map_dehash_array
  split_ifs
  · show p ∈ elts_pairs (dehash_clean_elts env m.elts)
    rw [pairs_dehash_clean]
    exact List.mem_filter.2 ⟨hp, hlive⟩
  · exact hp

theorem map_dehash_merge_coherent (env : Env) (hl : env.Lawful) (m : Array) (h : maphash)
    (clean : Bool) (hi : Inv env m) (hco : Coherent m) (hh : m.hashed = some h) :
    Coherent (map_dehash_merge env (map_dehash_array env m clean) h clean) := by
  have hi1 := map_dehash_array_inv env env m clean hi
  have hh1 : (map_dehash_array env m clean).hashed = some h := by
    rw [(map_dehash_array_hashed env m clean).1]; exact hh
  have tok := hi1.table h hh1
  intro h' hh' e' he' _
  unfold map_dehash_merge at hh' ⊢
  cases clean with
  | true =>
    simp only [↓reduceIte, dehash_clean_table_exact env h.table h.size tok.size_eq,
      Option.some.injEq] at hh' ⊢
    subst hh'
    simp only [flatten_map_filter_clear, List.mem_map] at he'
    obtain ⟨e, he, rfl⟩ := he'
    have he2 := List.mem_filter.1 he
    refine (merge_step_pairs env hl (map_dehash_array env m true).elts
      (((h.table.flatten.filter (mapelt.live env)).filter (fun e => e.add)).map mapelt.pair)
      ((((h.table.flatten.filter (mapelt.live env)).filter (fun e => e.add)).map
        mapelt.pair).length ≠ 0)
      (fun hn => List.length_eq_zero.1 (by simpa using hn)) hi1.even).symm.subset ?_
    by_cases ha : e.add = true
    · exact List.mem_append_right _
        (List.mem_map.2 ⟨e, List.mem_filter.2 ⟨he, ha⟩, rfl⟩)
    · refine List.mem_append_left _ (pairs_dehash_array_live env m _
        (hco h hh e he2.1 (by simpa using ha)) ?_)
      exact he2.2
  | false =>
    have hex := dehash_table_exact h.table h.sizemod tok.sizemod_eq
    simp only [Bool.false_eq_true, ↓reduceIte, hex, Option.some.injEq] at hh' ⊢
    subst hh'
    have e2 : (h.table.map (fun c => c.map mapelt.clear)) =
        h.table.map (fun c => (c.filter (fun _ => true)).map mapelt.clear) := by
      simp only [List.filter_true]
    simp only [e2, flatten_map_filter_clear, List.filter_true, List.mem_map] at he'
    obtain ⟨e, he, rfl⟩ := he'
    have hlen : ((h.table.flatten.filter (fun e => e.add)).map mapelt.pair).length =
        h.sizemod := by rw [List.length_map, tok.sizemod_eq]
    refine (merge_step_pairs env hl (map_dehash_array env m false).elts
      ((h.table.flatten.filter (fun e => e.add)).map mapelt.pair) (h.sizemod ≠ 0)
      (fun hn => List.length_eq_zero.1 (by rw [hlen]; simpa using hn)) hi1.even).symm.subset ?_
    by_cases ha : e.add = true
    · exact List.mem_append_right _
        (List.mem_map.2 ⟨e, List.mem_filter.2 ⟨he, ha⟩, rfl⟩)
    · rw [map_dehash_array_false]
      exact List.mem_append_left _ (hco h hh e he (by simpa using ha))

/-- Folding the hash table into the array part keeps the table coherent. -/
theorem map_dehash_coherent (env : Env) (hl : env.Lawful) (m : Array) (clean : Bool)
    (hi : Inv env m) (hco : Coherent m) : Coherent (map_dehash env m clean) := by
  have hi1 := map_dehash_array_inv env env m clean hi
  have ha := map_dehash_array_hashed env m clean
  unfold map_dehash
  dsimp only
  cases hh : (map_dehash_array env m clean).hashed with
  | none =>
    intro h' hh'
    rw [hh] at hh'
    simp at hh'
  | some h0 =>
    dsimp only
    have hh0 : m.hashed = some h0 := by rw [← ha.1]; exact hh
    split_ifs with hc
    · exact map_dehash_merge_coherent env hl m h0 clean hi hco hh0
    · cases clean with
      | true =>
        have tok := hi1.table h0 hh
        simp only [Bool.true_and, Bool.or_eq_true, decide_eq_true_eq, not_or, ne_eq,
          Decidable.not_not] at hc
        intro h' hh' e he _
        rw [hh] at hh'
        simp only [Option.some.injEq] at hh'
        subst hh'
        have := tok.size_eq
        rw [hc.2] at this
        rw [List.length_eq_zero.1 this.symm] at he
        simp at he
      | false =>
        rw [map_dehash_array_false]
        exact hco

theorem map_compact_coherent (env : Env) (hl : env.Lawful) (f : Bool) (m : Array)
    (hi : Inv env m) (hco : Coherent m) : Coherent (map_compact env f m) := by
  unfold map_compact
  split_ifs
  · exact coherent_odcount _ _ (map_dehash_coherent env hl _ true
      (map_dehash_inv env hl m false hi) (map_dehash_coherent env hl m false hi hco))
  · exact coherent_odcount _ _ (map_dehash_coherent env hl m true hi hco)
  · exact hco

theorem map_index_plane_coherent (env : Env) (hl : env.Lawful) (f : Bool) (m : Array)
    (hi : Inv env m) (hco : Coherent m) : Coherent (map_index_plane env f m) := by
  unfold map_index_plane
  split_ifs
  · exact map_dehash_coherent env hl m false hi hco
  · exact hco

/-- The table stays coherent when `map_index` adds an entry to it: a pending
addition, or a copy of a pair of the array part. -/
theorem map_index_extend_coherent (env : Env) (hl : env.Lawful) (f : Bool) (m m' : Array)
    (i : Nat) (add : Bool) (idx x : Value) (hi : Inv env m) (hco : Coherent m)
    (hr : map_index_extend env f m i add idx x = .ok m')
    (hpair : add = false → (idx, x) ∈ elts_pairs m.elts) : Coherent m' := by
  obtain ⟨m1, hm1, rfl⟩ := map_index_extend_eq env f m m' i add idx x hi hl hr
  have key : Inv env m1 ∧ Coherent m1 ∧ (add = false → (idx, x) ∈ elts_pairs m1.elts) := by
    rcases hm1 with ⟨rfl, -⟩ | ⟨hfull, rfl, -⟩
    · exact ⟨hi, hco, hpair⟩
    · have ha : add = true := by
        simp only [map_grow_full, Bool.and_eq_true] at hfull
        exact hfull.1
      exact ⟨map_compact_inv env hl f m hi, map_compact_coherent env hl f m hi hco,
        fun h => by rw [ha] at h; exact absurd h (by decide)⟩
  obtain ⟨hi1, hco1, hp1⟩ := key
  obtain ⟨tok, hperm, -⟩ := map_grow_table_ok env hl.cmp_laws (elts_indices m1.elts)
    m1.hashmod m1.hashed hi1.nohash hi1.table
  have hlt : i % (map_grow_table m1.hashed).tablesize <
      (map_grow_table m1.hashed).table.length := by
    rw [tok.len]; exact Nat.mod_lt _ tok.pos
  intro h' hh' e' he' ha'
  simp only [Option.some.injEq] at hh'
  subst hh'
  have he2 := (flatten_push_perm _ (i % (map_grow_table m1.hashed).tablesize)
    { hashval := i, add := add, idx := idx, val := x } hlt).subset he'
  rcases List.mem_cons.1 he2 with e | e
  · rw [e] at ha' ⊢
    exact hp1 ha'
  · have he3 := hperm.subset e
    cases hh : m1.hashed with
    | none => rw [hh] at he3; simp at he3
    | some h0 =>
      rw [hh] at he3
      exact hco1 h0 hh e' he3 ha'

theorem pairs_set_pair : ∀ (l : List Value) (j : Nat) (v x : Value),
    elts_pairs ((l.set (2 * j + 1) x).set (2 * j) v) =
      if 2 * j + 1 < l.length then (elts_pairs l).set j (v, x) else elts_pairs l
  | [], j, v, x => by simp [elts_pairs]
  | [a], j, v, x => by
    cases j with
    | zero => simp [elts_pairs]
    | succ j => simp [elts_pairs, Nat.mul_succ]
  | a :: b :: rest, 0, v, x => by simp [elts_pairs]
  | a :: b :: rest, j + 1, v, x => by
    have ih := pairs_set_pair rest j v x
    have e1 : 2 * (j + 1) + 1 = (2 * j + 1) + 1 + 1 := by omega
    have e2 : 2 * (j + 1) = (2 * j) + 1 + 1 := by omega
    rw [e1, e2]
    simp only [List.set_cons_succ, elts_pairs, ih, List.length_cons]
    split_ifs with h1 h2 h2
    · rfl
    · omega
    · omega
    · rfl

theorem pairs_erase_pair : ∀ (l : List Value) (j : Nat), l.length % 2 = 0 →
    elts_pairs ((l.eraseIdx (2 * j)).eraseIdx (2 * j)) = (elts_pairs l).eraseIdx j
  | [], j, _ => by simp [elts_pairs]
  | [a], j, h => by simp at h
  | a :: b :: rest, 0, _ => by simp [elts_pairs]
  | a :: b :: rest, j + 1, h => by
    have ih := pairs_erase_pair rest j (by simp only [List.length_cons] at h; omega)
    have e2 : 2 * (j + 1) = (2 * j) + 1 + 1 := by omega
    rw [e2]
    simp only [List.eraseIdx_cons_succ, elts_pairs, ih]

theorem mem_set_of_ne {α : Type} : ∀ (L : List α) (j : Nat) (q p : α) (d : α),
    p ∈ L → p ≠ L.getD j d → p ∈ L.set j q
  | [], j, q, p, d, h, _ => by simp at h
  | a :: L, 0, q, p, d, h, hne => by
    simp only [List.getD_cons_zero] at hne
    rcases List.mem_cons.1 h with e | e
    · exact absurd e hne
    · simp only [List.set_cons_zero]
      exact List.mem_cons_of_mem _ e
  | a :: L, j + 1, q, p, d, h, hne => by
    simp only [List.getD_cons_succ] at hne
    simp only [List.set_cons_succ]
    rcases List.mem_cons.1 h with e | e
    · rw [e]; exact List.mem_cons_self _ _
    · exact List.mem_cons_of_mem _ (mem_set_of_ne L j q p d e hne)

theorem mem_eraseIdx_of_ne {α : Type} : ∀ (L : List α) (j : Nat) (p : α) (d : α),
    p ∈ L → p ≠ L.getD j d → p ∈ L.eraseIdx j
  | [], j, p, d, h, _ => by simp at h
  | a :: L, 0, p, d, h, hne => by
    simp only [List.getD_cons_zero] at hne
    rcases List.mem_cons.1 h with e | e
    · exact absurd e hne
    · simpa using e
  | a :: L, j + 1, p, d, h, hne => by
    simp only [List.getD_cons_succ] at hne
    simp only [List.eraseIdx_cons_succ]
    rcases List.mem_cons.1 h with e | e
    · rw [e]; exact List.mem_cons_self _ _
    · exact List.mem_cons_of_mem _ (mem_eraseIdx_of_ne L j p d e hne)

theorem pairs_getD (l : List Value) (j : Nat) (he : l.length % 2 = 0) :
    (elts_pairs l).getD j (Value.nil, Value.nil) =
      (l.getD (2 * j) Value.nil, l.getD (2 * j + 1) Value.nil) := by
  induction l using elts_pairs.induct generalizing j with
  | case1 k v rest ih =>
    cases j with
    | zero => simp [elts_pairs]
    | succ j =>
      have e1 : 2 * (j + 1) + 1 = (2 * j + 1) + 1 + 1 := by omega
      have e2 : 2 * (j + 1) = (2 * j) + 1 + 1 := by omega
      rw [e1, e2]
      simp only [elts_pairs, List.getD_cons_succ]
      exact ih j (by simp only [List.length_cons] at he; omega)
  | case2 l hl =>
    match l, hl with
    | [], _ => simp [elts_pairs]
    | [x], _ => simp at he
    | k :: v :: rest, hl => exact absurd rfl (hl k v rest)

/-- Two pairs of a buffer whose indices are equal are the same pair, when no
two indices of the buffer are equal. -/
theorem pairs_unique (env : Env) (hc : env.CmpLawful) : ∀ (L : List (Value × Value)),
    (L.map Prod.fst).Pairwise (fun a b => veq env a b = false) →
    ∀ p ∈ L, ∀ q ∈ L, veq env p.1 q.1 = true → p = q
  | [], _, p, hp, _, _, _ => by simp at hp
  | a :: L, hd, p, hp, q, hq, hv => by
    simp only [List.map_cons, List.pairwise_cons] at hd
    rcases List.mem_cons.1 hp with e1 | e1 <;> rcases List.mem_cons.1 hq with e2 | e2
    · rw [e1, e2]
    · rw [e1] at hv
      rw [hd.1 q.1 (List.mem_map_of_mem _ e2)] at hv
      exact absurd hv (by decide)
    · rw [e2] at hv
      have := veq_symm env hc hv
      rw [hd.1 p.1 (List.mem_map_of_mem _ e1)] at this
      exact absurd this (by decide)
    · exact pairs_unique env hc L hd.2 p e1 q e2 hv

/-- The values `map_values` returns are those of the array part after
compaction. -/
theorem map_values_eq (env : Env) (hl : env.Lawful) (f : Bool) (m : Array) (hi : Inv env m) :
    map_values env f m = .ok (map_compact env f m,
      { elts := elts_values (map_compact env f m).elts, odcount := env.odcount }) := by
  have hi1 := map_compact_inv env hl f m hi
  have h1 := inv_keys_le env _ hi1
  have h2 := size_shift _ hi1.even
  have h3 := hl.max_fits
  have h6 : (elts_values (map_compact env f m).elts).length =
      (elts_indices (map_compact env f m).elts).length := by
    rw [values_eq_pairs, indices_eq_pairs, List.length_map, List.length_map]
  unfold map_values arr_new
  dsimp only
  rw [h2]
  have h4 : ¬ (elts_indices (map_compact env f m).elts).length > env.max_size := by omega
  simp only [h4, ↓reduceIte]
  have h5 : (elts_indices (map_compact env f m).elts).length % 65536 =
      (elts_indices (map_compact env f m).elts).length := by
    apply Nat.mod_eq_of_lt
    simp only [USHRT_MAX] at h3
    omega
  rw [h5, ← h6, List.take_length]

/-- A mapping that needs no compaction is left as it is. -/
theorem map_compact_idem (env : Env) (f : Bool) (m : Array) (hm : m.hashmod = false)
    (ho : m.odcount = env.odcount) : map_compact env f m = m := by
  unfold map_compact
  simp [hm, ho]

/-- A read of an index of a pair of the array part returns the value of the
pair. -/
theorem map_index_body_read_pair (env : Env) (hl : env.Lawful) (f : Bool) (m : Array)
    (k v : Value) (verify : Option Value) (hi : Inv env m) (hco : Coherent m)
    (hp : (k, v) ∈ elts_pairs m.elts) :
    ∃ m', map_index_body env f m k none false verify = .ok (m', v) := by
  have hc := hl.cmp_laws
  have hd : ((elts_pairs m.elts).map Prod.fst).Pairwise (fun a b => veq env a b = false) := by
    rw [← indices_eq_pairs]; exact hi.distinct
  have hk : k ∈ elts_indices m.elts := mem_indices_of_pair hp
  unfold map_index_body
  rcases map_index_lookup_cases env hl m k none false verify
    { hashval := 0, add := false, idx := Value.nil, val := Value.nil } hi with
    ⟨h1, h2⟩ | ⟨h, b, pos, hh, hpos, hv, he⟩
  · rw [h1]
    unfold map_index_array
    dsimp only
    by_cases hn : (if m.size > 0 then search env k m.elts m.size 2 false else -1) ≥ 0
    · obtain ⟨j, hj, hjl, hg, hv⟩ := search_present env m k hi hn
      have hjp : j < (elts_pairs m.elts).length := by
        rw [indices_eq_pairs, List.length_map] at hjl; exact hjl
      have hq := getD_mem (elts_pairs m.elts) j (Value.nil, Value.nil) hjp
      rw [pairs_getD m.elts j hi.even] at hq
      have := pairs_unique env hc _ hd _ hp _ hq hv
      simp only [Prod.mk.injEq] at this
      simp only [hn, ↓reduceIte, hj, Option.isSome_none, Bool.false_and, Bool.false_eq_true,
        Bool.false_or, ← this.1, ← this.2, stale_self, Bool.not_false]
      unfold map_index_extend map_grow
      simp only [map_grow_full, Bool.false_and, Bool.false_eq_true, ↓reduceIte]
      exact ⟨_, rfl⟩
    · have := search_absent env hl m k hi hn k hk
      rw [veq_refl env hc k] at this
      exact absurd this (by decide)
  · have tok := hi.table h hh
    have hmem := mem_flatten_of_getD h.table b pos
      { hashval := 0, add := false, idx := Value.nil, val := Value.nil } hpos
    rw [he]
    generalize (h.table.getD b []).getD pos
      { hashval := 0, add := false, idx := Value.nil, val := Value.nil } = e at hv hmem ⊢
    cases ha : e.add with
    | true =>
      have := tok.fresh e hmem ha k hk
      rw [veq_symm env hc hv] at this
      exact absurd this (by decide)
    | false =>
      have hq := hco h hh e hmem ha
      have := pairs_unique env hc _ hd _ hp _ hq hv
      simp only [Prod.mk.injEq] at this
      unfold map_index_hashed
      simp only [Option.isSome_none, Bool.false_and, Bool.false_eq_true, ↓reduceIte,
        Bool.false_or, ← this.1, ← this.2, stale_self]
      exact ⟨_, rfl⟩

theorem map_index_plane_idem (env : Env) (f : Bool) (m : Array) (hm : m.hashmod = false) :
    map_index_plane env f m = m := by
  unfold map_index_plane
  simp [hm]

theorem mem_set_self {α : Type} : ∀ (L : List α) (j : Nat) (q : α), j < L.length →
    q ∈ L.set j q
  | [], j, q, h => by simp at h
  | a :: L, 0, q, _ => by simp
  | a :: L, j + 1, q, h => by
    simp only [List.set_cons_succ]
    exact List.mem_cons_of_mem _ (mem_set_self L j q (by simpa using h))

theorem pairs_mem_set (l : List Value) (j : Nat) (v x : Value) (p : Value × Value)
    (hp : p ∈ elts_pairs l) (hne : p ≠ (elts_pairs l).getD j (Value.nil, Value.nil)) :
    p ∈ elts_pairs ((l.set (2 * j + 1) x).set (2 * j) v) := by
  rw [pairs_set_pair]
  split_ifs
  · exact mem_set_of_ne _ j _ p _ hp hne
  · exact hp

theorem pairs_mem_set_self (l : List Value) (j : Nat) (v x : Value)
    (he : l.length % 2 = 0) (hj : j < (elts_pairs l).length) :
    (v, x) ∈ elts_pairs ((l.set (2 * j + 1) x).set (2 * j) v) := by
  have := pairs_length l he
  rw [pairs_set_pair, if_pos (by omega)]
  exact mem_set_self _ j _ hj

theorem pairs_mem_erase (l : List Value) (j : Nat) (p : Value × Value)
    (he : l.length % 2 = 0)
    (hp : p ∈ elts_pairs l) (hne : p ≠ (elts_pairs l).getD j (Value.nil, Value.nil)) :
    p ∈ elts_pairs ((l.eraseIdx (2 * j)).eraseIdx (2 * j)) := by
  rw [pairs_erase_pair l j he]
  exact mem_eraseIdx_of_ne _ j p _ hp hne

/-- The array part of `map_index` for an index that the hash table holds as a
copy of the pair `(idx0, val0)` of the array part: the search finds that pair,
and the assignment, the removal or the read applies to it. -/
theorem map_index_array_hit (env : Env) (hl : env.Lawful) (f : Bool) (m : Array)
    (k idx0 val0 : Value) (elt : Option Value) (del : Bool) (verify : Option Value)
    (hi : Inv env m) (hp : (idx0, val0) ∈ elts_pairs m.elts) (hv : veq env k idx0 = true) :
    ∃ j, j < (elts_pairs m.elts).length ∧
      (elts_pairs m.elts).getD j (Value.nil, Value.nil) = (idx0, val0) ∧
      map_index_array env f m k elt del verify true =
        if elt.isSome && verify_ok verify val0 then
          .ok ({ m with elts := ((m.elts.set (2 * j + 1) (elt.getD Value.nil)).set (2 * j)
            (refresh_objcnt k idx0)) }, elt.getD Value.nil)
        else if del || stale_object k idx0 then
          .ok ({ m with elts := (m.elts.eraseIdx (2 * j)).eraseIdx (2 * j) }, Value.nil)
        else .ok (m, val0) := by
  have hc := hl.cmp_laws
  have hd : ((elts_pairs m.elts).map Prod.fst).Pairwise (fun a b => veq env a b = false) := by
    rw [← indices_eq_pairs]; exact hi.distinct
  have hk : idx0 ∈ elts_indices m.elts := mem_indices_of_pair hp
  by_cases hn : (if m.size > 0 then search env k m.elts m.size 2 false else -1) ≥ 0
  · obtain ⟨j, hj, hjl, hg, hv2⟩ := search_present env m k hi hn
    have hjp : j < (elts_pairs m.elts).length := by
      rw [indices_eq_pairs, List.length_map] at hjl; exact hjl
    have hq := getD_mem (elts_pairs m.elts) j (Value.nil, Value.nil) hjp
    have hpg := pairs_getD m.elts j hi.even
    rw [hpg] at hq
    have hu := pairs_unique env hc _ hd _ hp _ hq
      (veq_trans env hc (veq_symm env hc hv) hv2)
    simp only [Prod.mk.injEq] at hu
    refine ⟨j, hjp, by rw [hpg, ← hu.1, ← hu.2], ?_⟩
    unfold map_index_array
    simp only [hn, ↓reduceIte, hj, ← hu.1, ← hu.2, Bool.not_true, Bool.false_eq_true]
  · have := search_absent env hl m k hi hn idx0 hk
    rw [hv] at this
    exact absurd this (by decide)

theorem coherent_empty (od : Nat) : Coherent { elts := [], odcount := od } := by
  intro h hh
  simp at hh

/-- An assignment to a pair of the array part keeps the table coherent when no
entry of the table is a copy of that pair. -/
theorem coherent_array_set (m : Array) (j : Nat) (v x : Value) (hco : Coherent m)
    (hfree : ∀ h, m.hashed = some h → ∀ e ∈ h.table.flatten, e.add = false →
      (e.idx, e.val) ≠ (elts_pairs m.elts).getD j (Value.nil, Value.nil)) :
    Coherent { m with elts := ((m.elts.set (2 * j + 1) x).set (2 * j) v) } := by
  intro h hh e he ha
  exact pairs_mem_set m.elts j v x _ (hco h hh e he ha) (hfree h hh e he ha)

/-- The removal of a pair of the array part keeps the table coherent when no
entry of the table is a copy of that pair. -/
theorem coherent_array_erase (m : Array) (j : Nat) (heven : m.elts.length % 2 = 0)
    (hco : Coherent m)
    (hfree : ∀ h, m.hashed = some h → ∀ e ∈ h.table.flatten, e.add = false →
      (e.idx, e.val) ≠ (elts_pairs m.elts).getD j (Value.nil, Value.nil)) :
    Coherent { m with elts := (m.elts.eraseIdx (2 * j)).eraseIdx (2 * j) } := by
  intro h hh e he ha
  exact pairs_mem_erase m.elts j _ heven (hco h hh e he ha) (hfree h hh e he ha)

theorem pair_ne_of_free (env : Env) (m : Array) (k : Value) (j : Nat)
    (heven : m.elts.length % 2 = 0)
    (hv : veq env k (m.elts.getD (2 * j) Value.nil) = true)
    (hft : ∀ h, m.hashed = some h → ∀ e ∈ h.table.flatten, veq env k e.idx = false) :
    ∀ h, m.hashed = some h → ∀ e ∈ h.table.flatten, e.add = false →
      (e.idx, e.val) ≠ (elts_pairs m.elts).getD j (Value.nil, Value.nil) := by
  intro h hh e he _ heq
  rw [pairs_getD m.elts j heven] at heq
  simp only [Prod.mk.injEq] at heq
  have := hft h hh e he
  rw [heq.1, hv] at this
  exact absurd this (by decide)

/-- The array part of `map_index`, for an index the hash table does not hold,
keeps the table coherent. -/
theorem map_index_array_coherent (env : Env) (hl : env.Lawful) (f : Bool) (m m' : Array)
    (k : Value) (elt : Option Value) (del : Bool) (verify : Option Value)
    (r : Value) (hi : Inv env m) (hco : Coherent m)
    (hft : ∀ h, m.hashed = some h → ∀ e ∈ h.table.flatten, veq env k e.idx = false)
    (hr : map_index_array env f m k elt del verify false = .ok (m', r)) : Coherent m' := by
  unfold map_index_array at hr
  dsimp only at hr
  by_cases hn : (if m.size > 0 then search env k m.elts m.size 2 false else -1) ≥ 0
  · obtain ⟨j, hj, hjl, hg, hv⟩ := search_present env m k hi hn
    have hjp : j < (elts_pairs m.elts).length := by
      rw [indices_eq_pairs, List.length_map] at hjl; exact hjl
    have hne := pair_ne_of_free env m k j hi.even hv hft
    simp only [hn, ↓reduceIte, hj] at hr
    by_cases h1 : (elt.isSome && verify_ok verify (m.elts.getD (2 * j + 1) Value.nil)) = true
    · simp only [h1, ↓reduceIte] at hr
      have hi2 := inv_array_set env m j k (elt.getD Value.nil) hi hjl
      have hco2 := coherent_array_set m j (refresh_objcnt k (m.elts.getD (2 * j) Value.nil))
        (elt.getD Value.nil) hco hne
      simp only [Bool.not_false, ↓reduceIte] at hr
      split at hr
      · simp at hr
      · rename_i m1 he
        simp only [Except.ok.injEq, Prod.mk.injEq] at hr
        rw [← hr.1]
        exact map_index_extend_coherent env hl f _ m1 _ false _ _ hi2 hco2 he
          (fun _ => pairs_mem_set_self m.elts j _ _ hi.even hjp)
    · simp only [h1, Bool.false_eq_true, ↓reduceIte] at hr
      by_cases h2 : (del || stale_object k (m.elts.getD (2 * j) Value.nil)) = true
      · simp only [h2, ↓reduceIte, Except.ok.injEq, Prod.mk.injEq] at hr
        rw [← hr.1]
        exact coherent_array_erase m j hi.even hco hne
      · simp only [h2, Bool.false_eq_true, ↓reduceIte] at hr
        simp only [Bool.not_false, ↓reduceIte] at hr
        split at hr
        · simp at hr
        · rename_i m1 he
          simp only [Except.ok.injEq, Prod.mk.injEq] at hr
          rw [← hr.1]
          refine map_index_extend_coherent env hl f _ m1 _ false _ _ hi hco he (fun _ => ?_)
          rw [← pairs_getD m.elts j hi.even]
          exact getD_mem _ j _ hjp
  · simp only [hn, ↓reduceIte] at hr
    cases elt with
    | none =>
      simp only [Except.ok.injEq, Prod.mk.injEq] at hr
      rw [← hr.1]
      exact hco
    | some x =>
      simp only [Bool.not_false, ↓reduceIte] at hr
      split at hr
      · simp at hr
      · rename_i m1 he
        simp only [Except.ok.injEq, Prod.mk.injEq] at hr
        rw [← hr.1]
        exact map_index_extend_coherent env hl f _ m1 _ true _ _ hi hco he
          (fun h => absurd h (by decide))

theorem mem_erase_chain (t : List (List mapelt)) (b pos : Nat) (d : mapelt)
    (hp : pos < (t.getD b []).length) :
    ∀ e ∈ (t.set b ((t.getD b []).eraseIdx pos)).flatten, e ∈ t.flatten := by
  intro e he
  have hb := lt_of_getD_ne_nil t b pos hp
  exact (table_erase_perm t b pos d hb hp).subset (List.mem_cons_of_mem _ he)

theorem mem_set_chain (t : List (List mapelt)) (b pos : Nat) (e1 d : mapelt)
    (hp : pos < (t.getD b []).length) :
    ∀ e ∈ (t.set b ((t.getD b []).set pos e1)).flatten,
      e = e1 ∨ e ∈ (t.set b ((t.getD b []).eraseIdx pos)).flatten := by
  intro e he
  have hb := lt_of_getD_ne_nil t b pos hp
  have h1 := table_set_chain_perm t b pos e1 d hb hp
  have h2 := table_erase_perm t b pos d hb hp
  have h3 : ((t.getD b []).getD pos d ::
      (t.set b ((t.getD b []).set pos e1)).flatten).Perm
      ((t.getD b []).getD pos d :: e1 :: (t.set b ((t.getD b []).eraseIdx pos)).flatten) :=
    h1.trans ((List.Perm.cons e1 h2.symm).trans (List.Perm.swap _ _ _))
  have h4 := (List.perm_cons _).1 h3
  exact List.mem_cons.1 (h4.subset he)

/-- The body of `map_index` keeps the table coherent. -/
theorem map_index_body_coherent (env : Env) (hl : env.Lawful) (f : Bool) (m m' : Array)
    (k : Value) (elt : Option Value) (del : Bool) (verify : Option Value) (r : Value)
    (hi : Inv env m) (hco : Coherent m)
    (hr : map_index_body env f m k elt del verify = .ok (m', r)) : Coherent m' := by
  unfold map_index_body at hr
  rcases map_index_lookup_cases env hl m k elt del verify
    { hashval := 0, add := false, idx := Value.nil, val := Value.nil } hi with
    ⟨h1, h2⟩ | ⟨h, b, pos, hh, hp, hv, he⟩
  · rw [h1] at hr
    exact map_index_array_coherent env hl f m m' k elt del verify r hi hco h2 hr
  · have tok := hi.table h hh
    have hmem := mem_flatten_of_getD h.table b pos
      { hashval := 0, add := false, idx := Value.nil, val := Value.nil } hp
    have hfree := erase_table_free env hl.cmp_laws _ _ h b pos
      { hashval := 0, add := false, idx := Value.nil, val := Value.nil } k tok hp hv
    have hsubE := mem_erase_chain h.table b pos
      { hashval := 0, add := false, idx := Value.nil, val := Value.nil } hp
    have hi1 := map_index_hashed_inv env hl m h b pos
      { hashval := 0, add := false, idx := Value.nil, val := Value.nil } k elt del verify hi hh hp
    rw [he] at hr
    generalize (h.table.getD b []).getD pos
      { hashval := 0, add := false, idx := Value.nil, val := Value.nil } = e at *
    have hne : ∀ e' ∈ (h.table.set b ((h.table.getD b []).eraseIdx pos)).flatten,
        e'.add = false → ∀ j, (elts_pairs m.elts).getD j (Value.nil, Value.nil) = (e.idx, e.val) →
        (e'.idx, e'.val) ∈ elts_pairs m.elts ∧
        (e'.idx, e'.val) ≠ (elts_pairs m.elts).getD j (Value.nil, Value.nil) := by
      intro e' he' ha' j hj
      refine ⟨hco h hh e' (hsubE e' he') ha', fun heq => ?_⟩
      rw [hj] at heq
      simp only [Prod.mk.injEq] at heq
      have := hfree e' he'
      rw [heq.1, hv] at this
      exact absurd this (by decide)
    unfold map_index_hashed at hr hi1
    dsimp only at hr hi1
    by_cases c1 : (elt.isSome && verify_ok verify e.val) = true
    · simp only [c1, ↓reduceIte] at hr hi1
      have hsubS := mem_set_chain h.table b pos
        { e with idx := refresh_objcnt k e.idx, val := elt.getD Value.nil }
        { hashval := 0, add := false, idx := Value.nil, val := Value.nil } hp
      cases ha : e.add
      · simp only [ha, Bool.false_eq_true, ↓reduceIte] at hr hi1 hsubS
        obtain ⟨j, hjp, hjg, harr⟩ := map_index_array_hit env hl f _ k e.idx e.val elt del
          verify hi1 (hco h hh e hmem ha) hv
        rw [harr, if_pos c1] at hr
        simp only [Except.ok.injEq, Prod.mk.injEq] at hr
        rw [← hr.1]
        intro h' hh' e' he' ha'
        simp only [Option.some.injEq] at hh'
        subst hh'
        rcases hsubS e' he' with e0 | e0
        · rw [e0]
          exact pairs_mem_set_self m.elts j _ _ hi.even hjp
        · obtain ⟨q1, q2⟩ := hne e' e0 ha' j hjg
          exact pairs_mem_set m.elts j _ _ _ q1 q2
      · simp only [ha, ↓reduceIte, Except.ok.injEq, Prod.mk.injEq] at hr hsubS
        rw [← hr.1]
        intro h' hh' e' he' ha'
        simp only [Option.some.injEq] at hh'
        subst hh'
        rcases hsubS e' he' with e0 | e0
        · rw [e0] at ha'
          exact absurd ha' (by simp)
        · exact hco h hh e' (hsubE e' e0) ha'
    · simp only [c1, Bool.false_eq_true, ↓reduceIte] at hr hi1
      by_cases c2 : (del || stale_object k e.idx) = true
      · simp only [c2, ↓reduceIte] at hr hi1
        cases ha : e.add
        · simp only [ha, Bool.false_and, Bool.false_eq_true, ↓reduceIte] at hr hi1
          obtain ⟨j, hjp, hjg, harr⟩ := map_index_array_hit env hl f _ k e.idx e.val elt del
            verify hi1 (hco h hh e hmem ha) hv
          rw [harr, if_neg c1, if_pos c2] at hr
          simp only [Except.ok.injEq, Prod.mk.injEq] at hr
          rw [← hr.1]
          intro h' hh' e' he' ha'
          simp only [Option.some.injEq] at hh'
          subst hh'
          obtain ⟨q1, q2⟩ := hne e' he' ha' j hjg
          exact pairs_mem_erase m.elts j _ hi.even q1 q2
        · simp only [ha, Bool.true_and, ↓reduceIte, Except.ok.injEq, Prod.mk.injEq] at hr
          rw [← hr.1]
          intro h' hh' e' he' ha'
          simp only [Option.some.injEq] at hh'
          subst hh'
          exact hco h hh e' (hsubE e' he') ha'
      · simp only [c2, Bool.false_eq_true, ↓reduceIte, Except.ok.injEq, Prod.mk.injEq] at hr
        rw [← hr.1]
        exact hco

/-- Every call of `map_index` keeps the table coherent: an entry of the hash
table that is no pending addition is a copy of a pair of the array part. -/
theorem map_index_coherent (env : Env) (hl : env.Lawful) (f : Bool) (m m' : Array)
    (k : Value) (elt : Option Value) (verify : Option Value) (r : Value)
    (hi : Inv env m) (hco : Coherent m)
    (hr : map_index env f m k elt verify = .ok (m', r)) : Coherent m' :=
  map_index_body_coherent env hl f _ m' k _ _ verify r (map_index_plane_inv env hl f m hi)
    (map_index_plane_coherent env hl f m hi hco) hr

theorem zip_indices_values : ∀ l : List Value,
    (elts_indices l).zip (elts_values l) = elts_pairs l
  | [] => rfl
  | [_] => rfl
  | k :: v :: rest => by
    simp only [elts_indices, elts_values, elts_pairs, List.zip_cons_cons,
      zip_indices_values rest]

/-- Indices and values of the mappings that `map_index` builds (the statement
of C12 under the representation invariant): for a mapping `m` that satisfies
the representation invariant and whose hash table is coherent with the array
part (the empty mapping is such a mapping, and `map_index` keeps both
properties; the results of `map_add` and `map_sort` for handles with colliding
tags do not satisfy the invariant): `map_indices(m)` and
`map_values(m)` return, each leaving the compacted mapping; both arrays have
exactly `map_size(m)` elements, also when `map_values` and `map_size` are
called after `map_indices` has compacted the mapping; the entries at the same
position of the two arrays are the index and the value of the same pair of the
mapping; and a read of the mapping with the index at position `i` of
`map_indices(m)` returns the value at position `i` of `map_values(m)`. -/
theorem map_indices_values_aligned (env : Env) (hl : env.Lawful) (f : Bool) (m : Array)
    (hi : Inv env m) (hco : Coherent m) :
    ∃ ks vs : Array,
      map_indices env f m = .ok (map_compact env f m, ks) ∧
      map_values env f m = .ok (map_compact env f m, vs) ∧
      ks.size = (map_size env f m).2 ∧ vs.size = (map_size env f m).2 ∧
      (∀ g, map_values env g (map_compact env f m) = .ok (map_compact env f m, vs) ∧
        map_size env g (map_compact env f m) = (map_compact env f m, (map_size env f m).2)) ∧
      ks.elts.zip vs.elts = elts_pairs (map_compact env f m).elts ∧
      ∀ i, i < (map_size env f m).2 → ∀ (g : Bool) (verify : Option Value),
        ∃ m', map_index env g (map_compact env f m) (ks.elts.getD i Value.nil) none verify =
          .ok (m', vs.elts.getD i Value.nil) := by
  have hi1 := map_compact_inv env hl f m hi
  have hco1 := map_compact_coherent env hl f m hi hco
  have hm1 := map_compact_hashmod env hl f m hi
  have ho1 := map_compact_odcount env f m
  have hs := size_shift _ hi1.even
  have hlen : (elts_values (map_compact env f m).elts).length =
      (elts_indices (map_compact env f m).elts).length := by
    rw [values_eq_pairs, indices_eq_pairs, List.length_map, List.length_map]
  have hidem : ∀ g, map_compact env g (map_compact env f m) = map_compact env f m :=
    fun g => map_compact_idem env g _ hm1 ho1
  refine ⟨{ elts := elts_indices (map_compact env f m).elts, odcount := env.odcount },
    { elts := elts_values (map_compact env f m).elts, odcount := env.odcount },
    map_indices_eq env hl f m hi, map_values_eq env hl f m hi, ?_, ?_, ?_,
    zip_indices_values _, ?_⟩
  · show (elts_indices (map_compact env f m).elts).length = (map_compact env f m).size >>> 1
    rw [hs]
  · show (elts_values (map_compact env f m).elts).length = (map_compact env f m).size >>> 1
    rw [hs, hlen]
  · intro g
    refine ⟨?_, ?_⟩
    · have := map_values_eq env hl g _ hi1
      rw [hidem g] at this
      exact this
    · show (map_compact env g (map_compact env f m),
        (map_compact env g (map_compact env f m)).size >>> 1) = _
      rw [hidem g]
      rfl
  · intro i hlt g verify
    have hlt1 : i < (map_compact env f m).size >>> 1 := hlt
    rw [hs] at hlt1
    have hlp : i < (elts_pairs (map_compact env f m).elts).length := by
      rw [indices_eq_pairs, List.length_map] at hlt1; exact hlt1
    have hmem := getD_mem (elts_pairs (map_compact env f m).elts) i (Value.nil, Value.nil) hlp
    have hk : (elts_indices (map_compact env f m).elts).getD i Value.nil =
        ((elts_pairs (map_compact env f m).elts).getD i (Value.nil, Value.nil)).1 := by
      rw [List.getD_eq_getElem _ _ hlt1, List.getD_eq_getElem _ _ hlp]
      simp only [indices_eq_pairs, List.getElem_map]
    have hv : (elts_values (map_compact env f m).elts).getD i Value.nil =
        ((elts_pairs (map_compact env f m).elts).getD i (Value.nil, Value.nil)).2 := by
      rw [List.getD_eq_getElem _ _ (by rw [hlen]; exact hlt1), List.getD_eq_getElem _ _ hlp]
      simp only [values_eq_pairs, List.getElem_map]
    show ∃ m', map_index_body env g (map_index_plane env g (map_compact env f m))
      ((elts_indices (map_compact env f m).elts).getD i Value.nil) (map_index_elt none)
      (map_index_del none) verify =
        .ok (m', (elts_values (map_compact env f m).elts).getD i Value.nil)
    rw [map_index_plane_idem env g _ hm1, hk, hv]
    exact map_index_body_read_pair env hl g _ _ _ verify hi1 hco1 hmem

/-- Indices and values of the mapping built by `m["k"] = 1` on an empty
mapping: the size is 1, the indices are `["k"]` and the values are `[1]`. -/
theorem map_indices_values_aligned_witness :
    ∃ m1, map_index (ref_env 100 0) false { elts := [], odcount := 0 } (.str 107 [107])
        (some (.int 1)) none = .ok (m1, .int 1) ∧
      (map_size (ref_env 100 0) false m1).2 = 1 ∧
      (map_indices (ref_env 100 0) false m1).map (fun r => r.2.elts) = .ok [.str 107 [107]] ∧
      (map_values (ref_env 100 0) false m1).map (fun r => r.2.elts) = .ok [.int 1] ∧
      ∃ ks vs : Array,
        map_indices (ref_env 100 0) false m1 = .ok (map_compact (ref_env 100 0) false m1, ks) ∧
        map_values (ref_env 100 0) false m1 = .ok (map_compact (ref_env 100 0) false m1, vs) ∧
        ks.size = (map_size (ref_env 100 0) false m1).2 ∧
        vs.size = (map_size (ref_env 100 0) false m1).2 ∧
        (∀ g, map_values (ref_env 100 0) g (map_compact (ref_env 100 0) false m1) =
            .ok (map_compact (ref_env 100 0) false m1, vs) ∧
          map_size (ref_env 100 0) g (map_compact (ref_env 100 0) false m1) =
            (map_compact (ref_env 100 0) false m1, (map_size (ref_env 100 0) false m1).2)) ∧
        ks.elts.zip vs.elts = elts_pairs (map_compact (ref_env 100 0) false m1).elts ∧
        ∀ i, i < (map_size (ref_env 100 0) false m1).2 → ∀ (g : Bool) (verify : Option Value),
          ∃ m', map_index (ref_env 100 0) g (map_compact (ref_env 100 0) false m1)
            (ks.elts.getD i Value.nil) none verify = .ok (m', vs.elts.getD i Value.nil) :=
  ⟨_, rfl, rfl, rfl, rfl,
    map_indices_values_aligned (ref_env 100 0) (ref_env_lawful 100 0 (by decide)) false _
      (map_index_inv _ (ref_env_lawful 100 0 (by decide)) false _ _ (.str 107 [107])
        (some (.int 1)) none (.int 1) (inv_empty _ 0) rfl)
      (map_index_coherent _ (ref_env_lawful 100 0 (by decide)) false _ _ (.str 107 [107])
        (some (.int 1)) none (.int 1) (inv_empty _ 0) (coherent_empty 0) rfl)⟩

theorem cmp_sign_swap (env : Env) (hl : env.CmpLawful) (a b : Value) :
    Int.sign (cmp env a b) = - Int.sign (cmp env b a) := by
  rcases lt_trichotomy (cmp env a b) 0 with h | h | h
  · have h2 := (cmp_swap env hl a b).1 h
    rw [Int.sign_eq_neg_one_of_neg h, Int.sign_eq_one_of_pos h2]
  · have h2 := cmp_zero_symm env hl h
    rw [h, h2]
    rfl
  · have h2 := (cmp_swap env hl b a).2 h
    rw [Int.sign_eq_one_of_pos h, Int.sign_eq_neg_one_of_neg h2]
    rfl

/-- C28: with the float and string comparators total orders, `cmp` is a total
preorder on values: the sign of `cmp(a, b)` is the opposite of the sign of
`cmp(b, a)`, `cmp(a, a)` is zero, `cmp(a, b) <= 0` and `cmp(b, c) <= 0` give
`cmp(a, c) <= 0`, and any two values are comparable; values of different type
compare by the difference of their type ordinals, integers by numeric value,
objects by index whatever their update counters, and collection handles of one
type by generation tag whatever their headers. -/
theorem cmp_total_preorder (env : Env) (hl : env.CmpLawful) (a b c : Value) :
    Int.sign (cmp env a b) = - Int.sign (cmp env b a) ∧
    cmp env a a = 0 ∧
    (cmp env a b ≤ 0 → cmp env b c ≤ 0 → cmp env a c ≤ 0) ∧
    (cmp env a b ≤ 0 ∨ cmp env b a ≤ 0) ∧
    (a.type ≠ b.type → cmp env a b = (a.type : Int) - (b.type : Int) ∧
      (cmp env a b < 0 ↔ a.type < b.type)) ∧
    (∀ x y : Int, (cmp env (.int x) (.int y) < 0 ↔ x < y) ∧
      (cmp env (.int x) (.int y) = 0 ↔ x = y)) ∧
    (∀ i j ci cj : Nat, (cmp env (.obj i ci) (.obj j cj) < 0 ↔ i < j) ∧
      (cmp env (.obj i ci) (.obj j cj) = 0 ↔ i = j)) ∧
    (∀ p q t u : Nat,
      ((cmp env (.arr p t) (.arr q u) < 0 ↔ t < u) ∧ (cmp env (.arr p t) (.arr q u) = 0 ↔ t = u)) ∧
      ((cmp env (.map p t) (.map q u) < 0 ↔ t < u) ∧ (cmp env (.map p t) (.map q u) = 0 ↔ t = u)) ∧
      ((cmp env (.lwo p t) (.lwo q u) < 0 ↔ t < u) ∧
        (cmp env (.lwo p t) (.lwo q u) = 0 ↔ t = u))) := by
  have key : ∀ x y : Nat, ((if x ≤ y then (if x < y then (-1 : Int) else 0) else 1) < 0 ↔ x < y) ∧
      ((if x ≤ y then (if x < y then (-1 : Int) else 0) else 1) = 0 ↔ x = y) := by
    intro x y
    by_cases h1 : x ≤ y <;> by_cases h2 : x < y <;> simp [h1, h2] <;> omega
  refine ⟨cmp_sign_swap env hl a b, cmp_refl env hl a, cmp_trans env hl, ?_, ?_, ?_, ?_, ?_⟩
  · rcases lt_trichotomy (cmp env a b) 0 with h | h | h
    · exact Or.inl (le_of_lt h)
    · exact Or.inl (le_of_eq h)
    · exact Or.inr (le_of_lt ((cmp_swap env hl b a).2 h))
  · intro hne
    have h1 : cmp env a b = (a.type : Int) - (b.type : Int) := by
      unfold cmp
      have : (a.type : Int) - (b.type : Int) ≠ 0 := by omega
      simp only [this, ne_eq, not_false_eq_true, ↓reduceIte]
    refine ⟨h1, ?_⟩
    rw [h1]
    omega
  · intro x y
    simp only [cmp, Value.type, sub_self, ne_eq, not_true_eq_false, ↓reduceIte]
    by_cases h1 : x ≤ y <;> by_cases h2 : x < y <;> simp [h1, h2] <;> omega
  · intro i j ci cj
    simp only [cmp, Value.type, sub_self, ne_eq, not_true_eq_false, ↓reduceIte]
    exact key i j
  · intro p q t u
    simp only [cmp, Value.type, sub_self, ne_eq, not_true_eq_false, ↓reduceIte]
    exact ⟨key t u, key t u, key t u⟩

/-- C28 in the reference environment, at the values `1`, `"a"` and an array
with tag 7. -/
theorem cmp_total_preorder_witness :
    Int.sign (cmp (ref_env 100 0) (.int 1) (.str 97 [97])) =
      - Int.sign (cmp (ref_env 100 0) (.str 97 [97]) (.int 1)) ∧
    cmp (ref_env 100 0) (.int 1) (.str 97 [97]) = -2 ∧
    cmp (ref_env 100 0) (.arr 8 7) (.arr 16 7) = 0 :=
  ⟨(cmp_total_preorder (ref_env 100 0) (ref_env_lawful 100 0 (by decide)).cmp_laws
      (.int 1) (.str 97 [97]) (.arr 8 7)).1, by decide, by decide⟩

/-- C26: on a buffer of `n` entries (`n` fits the `unsigned short` argument) at
stride `step`, 1 or 2, with `n` a multiple of `step`, sorted by `cmp` on the
entries at multiples of `step`, `search(key, buf, n, step, FALSE)` returns
either -1 or an index `m < n`, a multiple of `step`, whose entry equals the key
(`cmp` is zero and, when the key is a collection, the header is the same); it
returns such an index whenever an entry equal to the key exists, also among
several collections that share the tag of the key, and it returns -1 exactly
when no entry equals the key. -/
theorem search_finds (env : Env) (hl : env.CmpLawful) (key : Value) (buf : List Value)
    (n step : Nat) (hs : step = 1 ∨ step = 2) (hn : n ≤ USHRT_MAX) (hdn : step ∣ n)
    (hsorted : SortedAt env buf n step) :
    (search env key buf n step false = -1 ∨
      ∃ m : Nat, search env key buf n step false = (m : Int) ∧ m < n ∧ step ∣ m ∧
        veq env key (buf.getD m Value.nil) = true) ∧
    ((∃ i, i < n ∧ step ∣ i ∧ veq env key (buf.getD i Value.nil) = true) →
      ∃ m : Nat, search env key buf n step false = (m : Int) ∧ m < n ∧ step ∣ m ∧
        veq env key (buf.getD m Value.nil) = true) ∧
    (search env key buf n step false = -1 ↔
      ∀ i, i < n → step ∣ i → veq env key (buf.getD i Value.nil) = false) := by
  have hp := search_loop_top env hl key buf n step hs hn hdn hsorted
  unfold search
  cases hr : search_loop env key buf step (n + 1) 0 n with
  | ok m =>
    rw [hr] at hp
    obtain ⟨h1, h2, h3⟩ := hp
    refine ⟨Or.inr ⟨m, rfl, h1, h2, h3⟩, fun _ => ⟨m, rfl, h1, h2, h3⟩, ?_⟩
    constructor
    · intro h
      simp only at h
      omega
    · intro h
      rw [h m h1 h2] at h3
      exact absurd h3 (by decide)
  | error l =>
    rw [hr] at hp
    obtain ⟨-, -, h3⟩ := hp
    simp only [Bool.false_eq_true, ↓reduceIte]
    refine ⟨Or.inl trivial, ?_, ⟨fun _ => h3, fun _ => trivial⟩⟩
    rintro ⟨i, hi, hdi, hv⟩
    rw [h3 i hi hdi] at hv
    exact absurd hv (by decide)

/-- C26 on a buffer of three arrays that share the tag 7, at stride 1: the
search for the third, which the binary search does not hit first, returns its
index 2, and the search for a fourth array with the same tag returns -1. -/
theorem search_finds_witness :
    search (ref_env 100 0) (.arr 24 7) [.arr 8 7, .arr 16 7, .arr 24 7] 3 1 false = 2 ∧
    search (ref_env 100 0) (.arr 32 7) [.arr 8 7, .arr 16 7, .arr 24 7] 3 1 false = -1 ∧
    (search (ref_env 100 0) (.arr 32 7) [.arr 8 7, .arr 16 7, .arr 24 7] 3 1 false = -1 ↔
      ∀ i, i < 3 → 1 ∣ i →
        veq (ref_env 100 0) (.arr 32 7)
          (([.arr 8 7, .arr 16 7, .arr 24 7] : List Value).getD i Value.nil) = false) :=
  ⟨by decide, by decide,
    (search_finds (ref_env 100 0) (ref_env_lawful 100 0 (by decide)).cmp_laws (.arr 32 7)
      [.arr 8 7, .arr 16 7, .arr 24 7] 3 1 (Or.inl rfl) (by decide) (one_dvd _)
      (by
        intro i j hij hj _ _
        have hj' : j = 1 ∨ j = 2 := by omega
        rcases hj' with rfl | rfl
        · have : i = 0 := by omega
          subst this; decide
        · have : i = 0 ∨ i = 1 := by omega
          rcases this with rfl | rfl <;> decide)).2.2⟩

/-- C27 fails for a key whose tag collides: in the sorted buffer of five arrays
with the tags 1 to 5, the search with `place` for another array with tag 3
hits the entry with tag 3 first, probes its neighbours in vain and leaves the
loop with `l` still 0; it returns 0, though the entries at 0 and 1 are smaller
than the key.  The same search without `place` returns -1: the key is not in
the buffer.  In `map_range` the lower bound then selects the whole mapping. -/
theorem search_place_collision :
    search (ref_env 100 0) (.arr 48 3)
      [.arr 8 1, .arr 16 2, .arr 24 3, .arr 32 4, .arr 40 5] 5 1 true = 0 ∧
    search (ref_env 100 0) (.arr 48 3)
      [.arr 8 1, .arr 16 2, .arr 24 3, .arr 32 4, .arr 40 5] 5 1 false = -1 ∧
    cmp (ref_env 100 0) (.arr 8 1) (.arr 48 3) < 0 ∧
    cmp (ref_env 100 0) (.arr 16 2) (.arr 48 3) < 0 ∧
    (map_range (ref_env 100 0) false
      { elts := [.arr 8 1, .int 1, .arr 16 2, .int 2, .arr 24 3, .int 3, .arr 32 4, .int 4,
          .arr 40 5, .int 5], odcount := 0 }
      (some (.arr 48 3)) none).map (fun r => r.2.elts) =
      .ok [.arr 8 1, .int 1, .arr 16 2, .int 2, .arr 24 3, .int 3, .arr 32 4, .int 4,
          .arr 40 5, .int 5] :=
  ⟨by decide, by decide, by decide, by decide, rfl⟩

/-- C22, the claim as stated fails: with the cap `max_size = 2`, the sum of
`{1: 10, 2: 20}` and `{2: 21}` would be the two pairs `{1: 10, 2: 21}`, within
the cap, and `map_add` signals mapping-too-large, because the two operands hold
three pairs together. -/
theorem map_add_cap_on_operands :
    map_add (ref_env 2 0) false false
        { elts := [.int 1, .int 10, .int 2, .int 20], odcount := 0 }
        { elts := [.int 2, .int 21], odcount := 0 } = .error .mapping_too_large ∧
    ∃ r, map_add (ref_env 3 0) false false
        { elts := [.int 1, .int 10, .int 2, .int 20], odcount := 0 }
        { elts := [.int 2, .int 21], odcount := 0 } = .ok r ∧
      r.val.elts = [.int 1, .int 10, .int 2, .int 21] ∧
      r.val.size >>> 1 ≤ (ref_env 2 0).max_size :=
  ⟨rfl, _, rfl, rfl, by decide⟩

/-- C22, amended: the maximum-size check of `map_add` applies to the operands.
For mappings `m1` and `m2` that satisfy the representation invariant,
`map_add(m1, m2)` signals mapping-too-large exactly when the pairs of `m1` and
the pairs of `m2`, after compaction, are more than `max_size` together; it
signals no other error, and otherwise it returns a mapping that holds at most
as many pairs as the two operands together, so at most `max_size`. -/
theorem map_add_cap_iff (env : Env) (hl : env.Lawful) (f1 f2 : Bool) (m1 m2 : Array)
    (hi1 : Inv env m1) (hi2 : Inv env m2) :
    (map_add env f1 f2 m1 m2 = .error .mapping_too_large ↔
      ((map_compact env f1 m1).size >>> 1) + ((map_compact env f2 m2).size >>> 1) >
        env.max_size) ∧
    (∀ e, map_add env f1 f2 m1 m2 = .error e → e = .mapping_too_large) ∧
    (((map_compact env f1 m1).size >>> 1) + ((map_compact env f2 m2).size >>> 1) ≤
        env.max_size →
      ∃ r, map_add env f1 f2 m1 m2 = .ok r ∧
        r.val.size >>> 1 ≤
          ((map_compact env f1 m1).size >>> 1) + ((map_compact env f2 m2).size >>> 1) ∧
        r.val.size >>> 1 ≤ env.max_size) := by
  have c1 := map_compact_inv env hl f1 m1 hi1
  have c2 := map_compact_inv env hl f2 m2 hi2
  have s1 := size_shift _ c1.even
  have s2 := size_shift _ c2.even
  have l1 := elts_indices_length _ c1.even
  have l2 := elts_indices_length _ c2.even
  have hlen := map_add_loop_length_le env
    ((map_compact env f1 m1).size + (map_compact env f2 m2).size)
    (map_compact env f1 m1).elts (map_compact env f2 m2).elts
  rw [s1, s2]
  unfold map_add map_new
  simp only [Array.size, Nat.shiftLeft_eq, pow_one, Nat.shiftRight_eq_div_pow] at hlen ⊢
  by_cases hbig : (map_compact env f1 m1).elts.length + (map_compact env f2 m2).elts.length >
      env.max_size * 2
  · simp only [hbig, ↓reduceIte, true_iff, Except.error.injEq]
    refine ⟨by omega, fun e h => h.symm, fun h => by omega⟩
  · simp only [hbig, ↓reduceIte]
    refine ⟨⟨fun h => ?_, fun h => by omega⟩, fun e h => ?_, fun _ => ?_⟩
    · split_ifs at h
    · split_ifs at h
    · split_ifs
      · exact ⟨_, rfl, by simp, by simp⟩
      · refine ⟨_, rfl, ?_, ?_⟩
        · simp only
          omega
        · simp only
          omega

/-- C22, amended, at `{1: 10, 2: 20}` and `{2: 21}`: with the cap 3 the sum is
returned, with the cap 2 mapping-too-large is signalled. -/
theorem map_add_cap_iff_witness :
    (map_add (ref_env 2 0) false false
        { elts := [.int 1, .int 10, .int 2, .int 20], odcount := 0 }
        { elts := [.int 2, .int 21], odcount := 0 } = .error .mapping_too_large ↔
      ((map_compact (ref_env 2 0) false
          { elts := [.int 1, .int 10, .int 2, .int 20], odcount := 0 }).size >>> 1) +
        ((map_compact (ref_env 2 0) false
          { elts := [.int 2, .int 21], odcount := 0 }).size >>> 1) > (ref_env 2 0).max_size) ∧
    (2 : Nat) + 1 > (ref_env 2 0).max_size :=
  ⟨(map_add_cap_iff (ref_env 2 0) (ref_env_lawful 2 0 (by decide)) false false
      { elts := [.int 1, .int 10, .int 2, .int 20], odcount := 0 }
      { elts := [.int 2, .int 21], odcount := 0 }
      { even := rfl
        sorted := by simp [elts_indices]; decide
        distinct := by simp [elts_indices]; decide
        nohash := fun _ => ⟨rfl, by simp [elts_indices]; decide⟩
        table := fun h hh => by simp at hh }
      { even := rfl
        sorted := by simp [elts_indices]
        distinct := by simp [elts_indices]
        nohash := fun _ => ⟨rfl, by simp [elts_indices]; decide⟩
        table := fun h hh => by simp at hh }).1, by decide⟩

/-- C30, the claim as stated fails: `map_dehash` has no test for equal indices.
On a mapping whose array part holds `1: 10` and whose hash table holds the
pending addition `1: 20`, the merge puts the two pairs with the equal index 1
next to each other and `map_dehash` returns, in plain and in clean mode. -/
theorem map_dehash_keeps_duplicates :
    (map_dehash (ref_env 100 0)
      { elts := [.int 1, .int 10], odcount := 0, hashmod := true,
        hashed := (some ⟨1, 1, 16, (List.replicate 16 []).set 1 [⟨1, true, .int 1, .int 20⟩]⟩) }
      false).elts =
      [.int 1, .int 10, .int 1, .int 20] ∧
    (map_dehash (ref_env 100 0)
      { elts := [.int 1, .int 10], odcount := 0, hashmod := true,
        hashed := (some ⟨1, 1, 16, (List.replicate 16 []).set 1 [⟨1, true, .int 1, .int 20⟩]⟩) }
      true).elts =
      [.int 1, .int 10, .int 1, .int 20] ∧
    veq (ref_env 100 0) (.int 1) (.int 1) = true :=
  ⟨rfl, rfl, rfl⟩

theorem map_dehash_hashmod_any (env : Env) (m : Array) (clean : Bool) (hi : Inv env m) :
    (map_dehash env m clean).hashmod = false := by
  cases clean with
  | true => exact map_dehash_hashmod env m hi
  | false =>
    unfold map_dehash
    rw [map_dehash_array_false]
    dsimp only
    cases hh : m.hashed with
    | none => exact (hi.nohash hh).1
    | some h =>
      dsimp only
      by_cases hm : m.hashmod = true
      · simp only [hm, Bool.true_or, ↓reduceIte, map_dehash_merge, Bool.false_eq_true]
      · simp only [hm, Bool.false_and, Bool.or_self, Bool.false_eq_true, ↓reduceIte]

/-- C30, amended: `map_dehash` signals nothing.  For a mapping that satisfies
the representation invariant, no pending addition of the hash table has an
index equal to an index of the array part or to the index of another entry of
the table, and after `map_dehash`, in either mode, the array part holds whole
pairs sorted by `cmp` on the index, no two indices are equal, and `hashmod` is
false. -/
theorem map_dehash_merge_distinct (env : Env) (hl : env.Lawful) (m : Array) (clean : Bool)
    (hi : Inv env m) :
    (∀ h, m.hashed = some h →
      (∀ e ∈ h.table.flatten, e.add = true →
        ∀ x ∈ elts_indices m.elts, veq env e.idx x = false) ∧
      (h.table.flatten.map (fun e => e.idx)).Pairwise (fun a b => veq env a b = false)) ∧
    (map_dehash env m clean).elts.length % 2 = 0 ∧
    (elts_indices (map_dehash env m clean).elts).Pairwise (fun a b => cmp env a b ≤ 0) ∧
    (elts_indices (map_dehash env m clean).elts).Pairwise (fun a b => veq env a b = false) ∧
    (map_dehash env m clean).hashmod = false := by
  have hi1 := map_dehash_inv env hl m clean hi
  exact ⟨fun h hh => ⟨(hi.table h hh).fresh, (hi.table h hh).distinct⟩, hi1.even, hi1.sorted,
    hi1.distinct, map_dehash_hashmod_any env m clean hi⟩

/-- C30, amended, at the mapping built by `m[3] = 7; m[1] = 5` on an empty
mapping: `map_dehash` merges the two pending additions into `[1, 5, 3, 7]`,
with distinct indices. -/
theorem map_dehash_merge_distinct_witness :
    ∃ m1 m2, map_index (ref_env 100 0) false { elts := [], odcount := 0 } (.int 3)
        (some (.int 7)) none = .ok (m1, .int 7) ∧
      map_index (ref_env 100 0) false m1 (.int 1) (some (.int 5)) none = .ok (m2, .int 5) ∧
      (map_dehash (ref_env 100 0) m2 false).elts = [.int 1, .int 5, .int 3, .int 7] ∧
      (elts_indices (map_dehash (ref_env 100 0) m2 false).elts).Pairwise
        (fun a b => veq (ref_env 100 0) a b = false) :=
  ⟨_, _, rfl, rfl, rfl,
    (map_dehash_merge_distinct (ref_env 100 0) (ref_env_lawful 100 0 (by decide)) _ false
      (map_index_inv _ (ref_env_lawful 100 0 (by decide)) false _ _ (.int 1) (some (.int 5))
        none (.int 5)
        (map_index_inv _ (ref_env_lawful 100 0 (by decide)) false _ _ (.int 3)
          (some (.int 7)) none (.int 7) (inv_empty _ 0) rfl) rfl)).2.2.2.1⟩

theorem mem_set_same (s : Mem) (a : Nat) (c : Cell) : (s.set a c).cells a = some c := by
  simp [Mem.set]

theorem mem_set_ne (s : Mem) (a x : Nat) (c : Cell) (h : x ≠ a) :
    (s.set a c).cells x = s.cells x := by
  simp [Mem.set, h]

/-- The links `arr_link` makes for a header at an unused address `a`, in a
dataspace whose list head and first header exist. -/
theorem arr_link_spec (env : Env) (s : Mem) (alist alocal a : Nat) (hdr : Array) (c old : Cell)
    (hs : s.cells alist = some c) (ho : s.cells c.next = some old) (hfresh : s.cells a = none) :
    ∃ cell c1 old1, (arr_link env s alist alocal a hdr).cells a = some cell ∧
      (arr_link env s alist alocal a hdr).cells alist = some c1 ∧
      (arr_link env s alist alocal a hdr).cells c.next = some old1 ∧
      cell.hdr = { hdr with odcount := env.odcount } ∧ cell.tag = s.tag ∧
      cell.primary = alocal ∧ c1.next = a ∧ cell.prev = alist ∧ cell.next = c.next ∧
      old1.prev = a ∧
      (arr_link env s alist alocal a hdr).tag = (s.tag + 1) % 4294967296 := by
  have hne : alist ≠ a := by
    intro h
    rw [h, hfresh] at hs
    simp at hs
  have hhead : c.next ≠ a := by
    intro h
    rw [h, hfresh] at ho
    simp at ho
  have hne' : a ≠ alist := hne.symm
  have hhead' : a ≠ c.next := Ne.symm hhead
  by_cases hself : c.next = alist
  · have hoc : old = c := by
      rw [hself, hs] at ho
      simpa using ho.symm
    subst hoc
    simp [arr_link, hs, Mem.set, hne, hne', hself]
  · have hne2 : alist ≠ c.next := fun h => hself h.symm
    simp [arr_link, hs, ho, Mem.set, hne, hne', hhead, hhead', hself, hne2]

theorem arr_link_new (env : Env) (s : Mem) (alist alocal a : Nat) (hdr : Array) (c old : Cell)
    (hs : s.cells alist = some c) (ho : s.cells c.next = some old) (hfresh : s.cells a = none)
    (hh : hdr.hashed = none) (hm : hdr.hashmod = false) :
    NewLinked env s (arr_link env s alist alocal a hdr) alist a hdr.ref := by
  obtain ⟨cell, c1, old1, h1, h2, h3, h4, h5, -, h7, h8, h9, h10, h11⟩ :=
    arr_link_spec env s alist alocal a hdr c old hs ho hfresh
  refine ⟨c, cell, c1, hs, h1, h2, ?_, ?_, ?_, ?_, h5, h7, h8, h9, ?_, h11⟩
  · rw [h4]
  · rw [h4]; exact hh
  · rw [h4]; exact hm
  · rw [h4]
  · intro old' _
    exact ⟨old1, h3, h10⟩

/-- C23, the claim as stated fails: the header `arr_new` returns has the
reference count 0 that `arr_alloc` gave it, not 1; so have the headers of
`map_new`, `lwo_new` and `lwo_copy`. -/
theorem arr_new_ref_zero :
    ((Mem.arr_new (ref_env 100 0) (ref_mem 1 0) 1 9 2 3).toOption.bind
      (fun s1 => (s1.cells 2).map (fun c => c.hdr.ref))) = some 0 ∧
    ((Mem.map_new (ref_env 100 0) (ref_mem 1 0) 1 9 2 4).toOption.bind
      (fun s1 => (s1.cells 2).map (fun c => c.hdr.ref))) = some 0 ∧
    (((Mem.lwo_new (ref_env 100 0) (ref_mem 1 0) 1 9 2 5 0 0 [.int 1]).cells 2).map
      (fun c => c.hdr.ref)) = some 0 ∧
    (((Mem.lwo_copy (ref_env 100 0) (ref_mem 1 0) 1 9 2
      { elts := [.obj 5 0, .flt 0 0, .int 1], odcount := 0, ref := 1 }).cells 2).map
      (fun c => c.hdr.ref)) = some 0 :=
  ⟨rfl, rfl, rfl, rfl⟩

/-- C23, amended: in a dataspace whose list head `alist` and first header
exist, for an unused address `a`: every collection returned by `arr_new`,
`map_new`, `lwo_new` or `lwo_copy` has reference count 0, has no hash table and
`hashmod` false, carries the global `odcount` and the tag counter of before,
and is linked at the head of the list of the dataspace (it is the `next` of the
list head, the list head is its `prev`, the head of before is its `next` and
has it as `prev`); `arr_new` and `map_new` return within their caps. -/
theorem new_collection_linked (env : Env) (s : Mem) (alist alocal a : Nat) (c old : Cell)
    (hs : s.cells alist = some c) (ho : s.cells c.next = some old) (hfresh : s.cells a = none) :
    (∀ size, size ≤ env.max_size →
      ∃ s1, Mem.arr_new env s alist alocal a size = .ok s1 ∧ NewLinked env s s1 alist a 0) ∧
    (∀ size, size ≤ env.max_size <<< 1 →
      ∃ s1, Mem.map_new env s alist alocal a size = .ok s1 ∧ NewLinked env s s1 alist a 0) ∧
    (∀ oindex objcnt update vars,
      NewLinked env s (Mem.lwo_new env s alist alocal a oindex objcnt update vars) alist a 0) ∧
    (∀ src, NewLinked env s (Mem.lwo_copy env s alist alocal a src) alist a 0) := by
  refine ⟨fun size h => ?_, fun size h => ?_, fun oindex objcnt update vars => ?_, fun src => ?_⟩
  · refine ⟨arr_link env s alist alocal a (arr_alloc size),
      by simp only [Mem.arr_new, if_neg (not_lt.2 h)], ?_⟩
    exact arr_link_new env s alist alocal a (arr_alloc size) c old hs ho hfresh rfl rfl
  · refine ⟨arr_link env s alist alocal a (arr_alloc size),
      by simp only [Mem.map_new, if_neg (not_lt.2 h)], ?_⟩
    exact arr_link_new env s alist alocal a (arr_alloc size) c old hs ho hfresh rfl rfl
  · exact arr_link_new env s alist alocal a _ c old hs ho hfresh rfl rfl
  · exact arr_link_new env s alist alocal a _ c old hs ho hfresh rfl rfl

/-- C23, amended, in a dataspace with an empty list (the list head at address
1 points to itself): the array `arr_new` makes at address 2 is linked between
the list head and itself. -/
theorem new_collection_linked_witness :
    (∃ s1, Mem.arr_new (ref_env 100 5) (ref_mem 1 7) 1 9 2 3 = .ok s1 ∧
      NewLinked (ref_env 100 5) (ref_mem 1 7) s1 1 2 0) ∧
    ((Mem.arr_new (ref_env 100 5) (ref_mem 1 7) 1 9 2 3).toOption.bind
      (fun s1 => s1.cells 2)) =
      some { hdr := { elts := [.nil, .nil, .nil], odcount := 5 }, tag := 7, primary := 9,
             prev := 1, next := 1 } :=
  ⟨(new_collection_linked (ref_env 100 5) (ref_mem 1 7) 1 9 2 _ _ rfl rfl rfl).1 3 (by decide),
    rfl⟩

theorem arrh_find_append_self (a idx : Nat) : ∀ l : List arrh, arrh_find a l = none →
    arrh_find a (l ++ [{ arr := a, index := idx }]) = some idx
  | [], _ => by simp [arrh_find]
  | h :: rest, hn => by
    simp only [arrh_find] at hn
    split_ifs at hn with h1
    simp only [List.cons_append, arrh_find, h1, ↓reduceIte]
    exact arrh_find_append_self a idx rest hn

theorem arrh_find_append_other (a b idx : Nat) (hne : b ≠ a) : ∀ l : List arrh,
    arrh_find b (l ++ [{ arr := a, index := idx }]) = arrh_find b l
  | [] => by simp [arrh_find, Ne.symm hne]
  | h :: rest => by
    simp only [List.cons_append, arrh_find]
    split_ifs
    · rfl
    · exact arrh_find_append_other a b idx hne rest

theorem arr_ref_at (s : Store) (a : Nat) (hdr : Array) (h : s.heap a = some hdr) :
    (arr_ref s a).heap a = some { hdr with ref := hdr.ref + 1 } := by
  unfold arr_ref
  rw [h]
  exact put_heap_same _ _ _

/-- C25: in the merge table made by `arr_merge` no array is registered.  For
any table: when the array at address `a` is not registered, `arr_put(a, i)`
returns `i`, registers `a` with the index `i`, takes one reference on `a` and
leaves the other headers and the registration of every other array as they
were, also of arrays in the same bucket; when `a` is registered with the index
`j`, `arr_put(a, i)` returns `j` for every `i` and changes neither the table
nor any reference count. -/
theorem arr_put_registry (tabsz : Nat) (aht : Nat → List arrh) (s : Store) (a idx : Nat) :
    (∀ b, registered tabsz arr_merge b = none) ∧
    (registered tabsz aht a = none →
      (arr_put tabsz aht s a idx).2 = idx ∧
      registered tabsz (arr_put tabsz aht s a idx).1.1 a = some idx ∧
      (∀ b, b ≠ a →
        registered tabsz (arr_put tabsz aht s a idx).1.1 b = registered tabsz aht b) ∧
      (∀ hdr, s.heap a = some hdr →
        (arr_put tabsz aht s a idx).1.2.heap a = some { hdr with ref := hdr.ref + 1 }) ∧
      (∀ b, b ≠ a → (arr_put tabsz aht s a idx).1.2.heap b = s.heap b)) ∧
    (∀ j, registered tabsz aht a = some j → arr_put tabsz aht s a idx = ((aht, s), j)) := by
  refine ⟨fun b => rfl, fun hn => ?_, fun j hj => ?_⟩
  · unfold registered at hn
    have hp : arr_put tabsz aht s a idx =
        ((fun b => if b = a % tabsz then aht b ++ [{ arr := a, index := idx }] else aht b,
          arr_ref s a), idx) := by
      unfold arr_put
      rw [hn]
    rw [hp]
    refine ⟨rfl, ?_, ?_, fun hdr h => arr_ref_at s a hdr h,
      fun b hb => arr_ref_frame s b a (Ne.symm hb)⟩
    · simp only [registered, ↓reduceIte]
      exact arrh_find_append_self a idx _ hn
    · intro b hb
      simp only [registered]
      split_ifs with h1
      · exact arrh_find_append_other a b idx hb _
      · rfl
  · unfold registered at hj
    unfold arr_put
    rw [hj]

/-- C25 on a table of 16 buckets, starting empty: the arrays at the addresses 8
and 24 fall in the same bucket; they are registered with the indices 0 and 1,
and a second `arr_put` of the first returns 0, whatever index is offered. -/
theorem arr_put_registry_witness :
    (arr_put 16 arr_merge (ref_store 8 { elts := [], odcount := 0, ref := 1 }) 8 0).2 = 0 ∧
    (arr_put 16
      (arr_put 16 arr_merge (ref_store 8 { elts := [], odcount := 0, ref := 1 }) 8 0).1.1
      (arr_put 16 arr_merge (ref_store 8 { elts := [], odcount := 0, ref := 1 }) 8 0).1.2
      24 1).2 = 1 ∧
    registered 16
      (arr_put 16
        (arr_put 16 arr_merge (ref_store 8 { elts := [], odcount := 0, ref := 1 }) 8 0).1.1
        (arr_put 16 arr_merge (ref_store 8 { elts := [], odcount := 0, ref := 1 }) 8 0).1.2
        24 1).1.1 8 = some 0 ∧
    (∀ j, registered 16
        (arr_put 16 arr_merge (ref_store 8 { elts := [], odcount := 0, ref := 1 }) 8 0).1.1
        8 = some j →
      arr_put 16
        (arr_put 16 arr_merge (ref_store 8 { elts := [], odcount := 0, ref := 1 }) 8 0).1.1
        (arr_put 16 arr_merge (ref_store 8 { elts := [], odcount := 0, ref := 1 }) 8 0).1.2
        8 5 =
      (((arr_put 16 arr_merge (ref_store 8 { elts := [], odcount := 0, ref := 1 }) 8 0).1.1,
        (arr_put 16 arr_merge (ref_store 8 { elts := [], odcount := 0, ref := 1 }) 8 0).1.2),
        j)) ∧
    ((arr_put 16 arr_merge (ref_store 8 { elts := [], odcount := 0, ref := 1 }) 8 0).1.2.heap
      8).map (fun h => h.ref) = some 2 :=
  ⟨rfl, rfl, rfl,
    (arr_put_registry 16
      (arr_put 16 arr_merge (ref_store 8 { elts := [], odcount := 0, ref := 1 }) 8 0).1.1
      (arr_put 16 arr_merge (ref_store 8 { elts := [], odcount := 0, ref := 1 }) 8 0).1.2
      8 5).2.2, rfl⟩

/-- C29 fails for collections that share a tag: on the pairs `A: 1, B: 2, A: 3`,
where `A` and `B` are two arrays with the tag 7, the sort leaves the order (the
three indices compare equal), the test of neighbours finds `A, B` and `B, A`
to be different arrays, and `map_sort` returns a mapping that holds the index
`A` twice.  With the integer indices `1, 2, 1` it signals identical indices,
and a pair with a nil value is removed. -/
theorem map_sort_misses_identical :
    map_sort (ref_env 100 0)
      { elts := [.arr 8 7, .int 1, .arr 16 7, .int 2, .arr 8 7, .int 3], odcount := 0 } =
      .ok { elts := [.arr 8 7, .int 1, .arr 16 7, .int 2, .arr 8 7, .int 3], odcount := 0 } ∧
    veq (ref_env 100 0) (.arr 8 7) (.arr 8 7) = true ∧
    map_sort (ref_env 100 0)
      { elts := [.int 1, .int 1, .int 2, .int 2, .int 1, .int 3], odcount := 0 } =
      .error .identical_indices ∧
    map_sort (ref_env 100 0)
      { elts := [.int 2, .int 1, .int 3, .nil, .int 1, .int 3], odcount := 0 } =
      .ok { elts := [.int 1, .int 3, .int 2, .int 1], odcount := 0 } :=
  ⟨rfl, rfl, rfl, rfl⟩

/-- C24 fails for an index the mapping does not hold: on an empty mapping,
`map_index(m, 1, 5, "s")` stores the value 5 under the index 1, though no
value, and so not the string `"s"`, was stored for it; a read of the index 1
then returns 5.  With the index bound to another value the call with verify
changes nothing: the read still returns the old value. -/
theorem map_index_verify_absent_stores :
    ∃ m1 m2 m3 m4, map_index (ref_env 100 0) false { elts := [], odcount := 0 } (.int 1)
        (some (.int 5)) (some (.str 115 [115])) = .ok (m1, .int 5) ∧
      map_index (ref_env 100 0) false m1 (.int 1) none none = .ok (m2, .int 5) ∧
      map_index (ref_env 100 0) false m2 (.int 1) (some (.int 6)) (some (.str 115 [115])) =
        .ok (m3, .int 5) ∧
      map_index (ref_env 100 0) false m3 (.int 1) none none = .ok (m4, .int 5) :=
  ⟨_, _, _, _, rfl, rfl, rfl, rfl⟩

theorem map_sort_prune_pairs : ∀ l : List Value,
    elts_pairs (map_sort_prune l) = (elts_pairs l).filter (fun p => !VAL_NIL p.2)
  | [] => rfl
  | [_] => rfl
  | k :: v :: rest => by
    simp only [map_sort_prune, elts_pairs, List.filter_cons]
    cases hv : VAL_NIL v
    · simp only [Bool.not_false, ↓reduceIte, elts_pairs, map_sort_prune_pairs rest]
    · simp only [Bool.not_true, Bool.false_eq_true, ↓reduceIte, map_sort_prune_pairs rest]

/-- The test of `map_sort` passes exactly when no two neighbours have equal
indices. -/
theorem map_sort_check_chain (env : Env) : ∀ L : List (Value × Value),
    map_sort_check env L = false ↔ L.Chain' (fun p q => veq env p.1 q.1 = false)
  | [] => by simp [map_sort_check]
  | [_] => by simp [map_sort_check]
  | p :: q :: rest => by
    have ih := map_sort_check_chain env (q :: rest)
    rw [List.chain'_cons, ← ih]
    simp only [map_sort_check, veq, Bool.or_eq_false_iff]

/-- In a sorted buffer without collections among the indices, indices that
differ from their neighbours are pairwise different. -/
theorem chain_pairwise_plain (env : Env) (hc : env.CmpLawful) :
    ∀ L : List (Value × Value), (∀ p ∈ L, T_INDEXED p.1.type = false) →
    L.Pairwise (fun p q => cmp env p.1 q.1 ≤ 0) →
    L.Chain' (fun p q => veq env p.1 q.1 = false) →
    (L.map Prod.fst).Pairwise (fun a b => veq env a b = false)
  | [], _, _, _ => by simp
  | [p], _, _, _ => by simp
  | p :: q :: rest, hk, hs, hch => by
    rw [List.chain'_cons] at hch
    have hs' := List.pairwise_cons.1 hs
    have ih := chain_pairwise_plain env hc (q :: rest)
      (fun x hx => hk x (List.mem_cons_of_mem _ hx)) hs'.2 hch.2
    rw [List.map_cons, List.pairwise_cons]
    refine ⟨?_, ih⟩
    intro y hy
    obtain ⟨x, hx, rfl⟩ := List.mem_map.1 hy
    have h1 := hch.1
    rw [veq_non_indexed env q.1 (hk p (List.mem_cons_self _ _))] at h1
    have hne : cmp env p.1 q.1 ≠ 0 := by simpa using h1
    have hle := hs'.1 q (List.mem_cons_self _ _)
    have hlt : cmp env p.1 q.1 < 0 := by omega
    have hqx : cmp env q.1 x.1 ≤ 0 := by
      rcases List.mem_cons.1 hx with e | e
      · rw [e]; exact le_of_eq (cmp_refl env hc _)
      · exact (List.pairwise_cons.1 hs'.2).1 x e
    have := cmp_lt_of_lt_of_le env hc hlt hqx
    exact veq_false_of_cmp_ne env (by omega)

theorem chain_of_pairwise_fst (env : Env) (L : List (Value × Value))
    (h : (L.map Prod.fst).Pairwise (fun a b => veq env a b = false)) :
    L.Chain' (fun p q => veq env p.1 q.1 = false) := by
  have : L.Pairwise (fun p q => veq env p.1 q.1 = false) := (List.pairwise_map).1 h
  exact List.Pairwise.chain' this

/-- What `map_sort` does, apart from the pairs with identical collection
indices that are no neighbours: the pairs with a nil value are removed; on
success the result holds the other pairs, sorted by `cmp` on the index, no two
neighbours with equal indices, and, when no index is a collection, no two equal
indices at all; identical indices are signalled only when two of the retained
pairs have equal indices, and always when they have and no index is a
collection. -/
theorem map_sort_spec (env : Env) (hl : env.Lawful) (m : Array) :
    (∀ m', map_sort env m = .ok m' →
      (elts_pairs m'.elts).Perm ((elts_pairs m.elts).filter (fun p => !VAL_NIL p.2)) ∧
      m'.size = 2 * ((elts_pairs m.elts).filter (fun p => !VAL_NIL p.2)).length ∧
      (elts_indices m'.elts).Pairwise (fun a b => cmp env a b ≤ 0) ∧
      (elts_pairs m'.elts).Chain' (fun p q => veq env p.1 q.1 = false) ∧
      ((∀ p ∈ (elts_pairs m.elts).filter (fun p => !VAL_NIL p.2),
          T_INDEXED p.1.type = false) →
        (elts_indices m'.elts).Pairwise (fun a b => veq env a b = false))) ∧
    (∀ e, map_sort env m = .error e → e = .identical_indices ∧
      ¬ (((elts_pairs m.elts).filter (fun p => !VAL_NIL p.2)).map Prod.fst).Pairwise
        (fun a b => veq env a b = false)) ∧
    ((∀ p ∈ (elts_pairs m.elts).filter (fun p => !VAL_NIL p.2), T_INDEXED p.1.type = false) →
      ¬ (((elts_pairs m.elts).filter (fun p => !VAL_NIL p.2)).map Prod.fst).Pairwise
        (fun a b => veq env a b = false) →
      map_sort env m = .error .identical_indices) := by
  have hc := hl.cmp_laws
  have hperm := hl.qsort2_perm ((elts_pairs m.elts).filter (fun p => !VAL_NIL p.2))
  have hsorted := hl.qsort2_sorted ((elts_pairs m.elts).filter (fun p => !VAL_NIL p.2))
  unfold map_sort
  rw [map_sort_prune_pairs]
  generalize (elts_pairs m.elts).filter (fun p => !VAL_NIL p.2) = R at hperm hsorted ⊢
  dsimp only
  by_cases h0 : R.length ≠ 0
  · rw [if_pos h0]
    cases hchk : map_sort_check env (env.qsort2 R) with
    | true =>
      simp only [↓reduceIte]
      have hnch : ¬ (env.qsort2 R).Chain' (fun p q => veq env p.1 q.1 = false) := by
        rw [← map_sort_check_chain, hchk]
        decide
      have hnp : ¬ (R.map Prod.fst).Pairwise (fun a b => veq env a b = false) := by
        intro hp
        exact hnch (chain_of_pairwise_fst env _
          (pairwise_veq_perm env hc (hperm.symm.map Prod.fst) hp))
      exact ⟨fun m' h => by simp at h, fun e h => ⟨by simpa using h.symm, hnp⟩, fun _ _ => trivial⟩
    | false =>
      simp only [Bool.false_eq_true, ↓reduceIte]
      have hch := (map_sort_check_chain env _).1 hchk
      refine ⟨fun m' h => ?_, fun e h => by simp at h, fun hk hnp => ?_⟩
      · simp only [Except.ok.injEq] at h
        subst h
        simp only [Array.size, pairs_flat, flat_length, indices_eq_pairs]
        refine ⟨hperm, by rw [hperm.length_eq], (List.pairwise_map).2 hsorted, hch, fun hk => ?_⟩
        exact chain_pairwise_plain env hc _ (fun p hp => hk p (hperm.subset hp)) hsorted hch
      · exfalso
        apply hnp
        exact pairwise_veq_perm env hc (hperm.map Prod.fst)
          (chain_pairwise_plain env hc _ (fun p hp => hk p (hperm.subset hp)) hsorted hch)
  · have hR : R = [] := List.length_eq_zero.1 (by simpa using h0)
    subst hR
    simp only [List.length_nil, ne_eq, not_true_eq_false, ↓reduceIte]
    refine ⟨fun m' h => ?_, fun e h => by simp at h, fun _ hnp => absurd (by simp) hnp⟩
    simp only [Except.ok.injEq] at h
    subst h
    simp [Array.size, elts_pairs, elts_indices]

/-- C33 fails for collections that share a tag: with `A` and `B` two arrays
with the tag 7, `map_add({A: 1, B: 2}, {B: 20})` compares `A` with `B`, copies
`B: 20`, finds no `A` ahead in the second mapping and copies `A: 1` as well,
and then copies the rest of the first mapping, `B: 2`: the result holds the
index `B` twice.  The size of the result, 6, is within the sum of the sizes of
the operands. -/
theorem map_add_duplicates_handle :
    ∃ r, map_add (ref_env 100 0) false false
        { elts := [.arr 8 7, .int 1, .arr 16 7, .int 2], odcount := 0 }
        { elts := [.arr 16 7, .int 20], odcount := 0 } = .ok r ∧
      r.val.elts = [.arr 16 7, .int 20, .arr 8 7, .int 1, .arr 16 7, .int 2] ∧
      same_array (r.val.elts.getD 0 Value.nil) (r.val.elts.getD 4 Value.nil) = true ∧
      veq (ref_env 100 0) (r.val.elts.getD 0 Value.nil) (r.val.elts.getD 4 Value.nil) = true ∧
      r.val.size ≤ 4 + 2 :=
  ⟨_, rfl, rfl, rfl, rfl, by decide⟩

/-- The size of the sum of two mappings is at most the sum of the sizes of the
operands as `map_compact` leaves them. -/
theorem map_add_size_le (env : Env) (f1 f2 : Bool) (m1 m2 : Array) (r : MapResult)
    (h : map_add env f1 f2 m1 m2 = .ok r) :
    r.val.size ≤ (map_compact env f1 m1).size + (map_compact env f2 m2).size := by
  unfold map_add at h
  dsimp only at h
  split at h
  · simp at h
  · split_ifs at h
    · simp only [Except.ok.injEq] at h
      rw [← h]
      simp [Array.size]
    · simp only [Except.ok.injEq] at h
      rw [← h]
      exact map_add_loop_length_le env _ _ _

theorem map_rmhash_hashed (env : Env) (m : Array) : (map_rmhash env m).hashed = none := by
  unfold map_rmhash
  cases hh : m.hashed with
  | none => exact hh
  | some h => rfl

/-- The mapping `map_rmhash` leaves satisfies the representation invariant. -/
theorem map_rmhash_inv (env : Env) (hl : env.Lawful) (m : Array) (hi : Inv env m) :
    Inv env (map_rmhash env m) := by
  unfold map_rmhash
  cases hh : m.hashed with
  | none => exact hi
  | some h =>
    dsimp only
    have key : Inv env (if m.hashmod then map_dehash env m false else m) ∧
        (if m.hashmod then map_dehash env m false else m).hashmod = false := by
      by_cases hm : m.hashmod = true
      · simp only [hm, ↓reduceIte]
        exact ⟨map_dehash_inv env hl m false hi, map_dehash_hashmod_any env m false hi⟩
      · simp only [hm, Bool.false_eq_true, ↓reduceIte]
        exact ⟨hi, by simp⟩
    obtain ⟨hi1, hm1⟩ := key
    exact {
      even := hi1.even
      sorted := hi1.sorted
      distinct := hi1.distinct
      nohash := fun _ => ⟨hm1, inv_keys_le env (if m.hashmod then map_dehash env m false else m) hi1⟩
      table := fun h' hh' => by simp at hh' }

theorem map_rmhash_coherent (env : Env) (m : Array) : Coherent (map_rmhash env m) := by
  intro h hh
  rw [map_rmhash_hashed] at hh
  simp at hh

theorem sameOrder_symm {env e : Env} (h : SameOrder env e) : SameOrder e env :=
  ⟨h.1.symm, h.2.1.symm, h.2.2.1.symm, h.2.2.2.1.symm, h.2.2.2.2.symm⟩

theorem cmp_congr {env e : Env} (h : SameOrder env e) : cmp e = cmp env := by
  funext a b
  cases a <;> cases b <;> simp [cmp, h.2.1, h.2.2.1]

theorem veq_congr {env e : Env} (h : SameOrder env e) : veq e = veq env := by
  funext a b
  simp only [veq, cmp_congr h]

theorem map_hash_congr {env e : Env} (h : SameOrder env e) : map_hash e = map_hash env := by
  funext v
  cases v <;> simp [map_hash, h.2.2.2.1, h.2.2.2.2]

/-- The representation invariant does not depend on the destruct epoch, the
destructed objects or the sort function of the environment. -/
theorem inv_congr {env e : Env} (h : SameOrder env e) (m : Array) (hi : Inv env m) :
    Inv e m where
  even := hi.even
  sorted := by rw [cmp_congr h]; exact hi.sorted
  distinct := by rw [veq_congr h]; exact hi.distinct
  nohash := fun hh => by rw [h.1]; exact hi.nohash hh
  table := fun t ht =>
    { len := (hi.table t ht).len
      pos := (hi.table t ht).pos
      size_eq := (hi.table t ht).size_eq
      sizemod_eq := (hi.table t ht).sizemod_eq
      hashmod_eq := (hi.table t ht).hashmod_eq
      bucket := (hi.table t ht).bucket
      hashval := by rw [map_hash_congr h]; exact (hi.table t ht).hashval
      distinct := by rw [veq_congr h]; exact (hi.table t ht).distinct
      fresh := by rw [veq_congr h]; exact (hi.table t ht).fresh
      cap := by rw [h.1]; exact (hi.table t ht).cap }

theorem load_of_hashed_eq {m m' : Array} (h : m'.hashed = m.hashed) (hl : Load m) : Load m' :=
  fun t ht => hl t (by rw [← h]; exact ht)

theorem load_of_none {m : Array} (h : m.hashed = none) : Load m := by
  intro t ht
  rw [h] at ht
  simp at ht

/-- A table of the same size with no more entries keeps the load bound. -/
theorem load_of_le {m m' : Array} (hl : Load m)
    (h : ∀ t', m'.hashed = some t' → ∃ t, m.hashed = some t ∧ t'.tablesize = t.tablesize ∧
      t'.size ≤ t.size) : Load m' := by
  intro t' ht'
  obtain ⟨t, ht, h1, h2⟩ := h t' ht'
  obtain ⟨hk, hle⟩ := hl t ht
  rw [h1]
  exact ⟨hk, by omega⟩

/-- `map_dehash` keeps the size of the table and adds no entry. -/
theorem map_dehash_load (env : Env) (m : Array) (clean : Bool) (hi : Inv env m)
    (hl : Load m) : Load (map_dehash env m clean) := by
  have ha := map_dehash_array_hashed env m clean
  have hi1 := map_dehash_array_inv env env m clean hi
  have hl1 : Load (map_dehash_array env m clean) := load_of_hashed_eq ha.1 hl
  unfold map_dehash
  dsimp only
  cases hh : (map_dehash_array env m clean).hashed with
  | none => exact hl1
  | some h =>
    dsimp only
    have tok := hi1.table h hh
    split_ifs
    · refine load_of_le hl1 ?_
      intro t' ht'
      refine ⟨h, hh, ?_⟩
      unfold map_dehash_merge at ht'
      cases clean with
      | true =>
        simp only [↓reduceIte, dehash_clean_table_exact env h.table h.size tok.size_eq,
          Option.some.injEq] at ht'
        subst ht'
        refine ⟨rfl, ?_⟩
        show (h.table.flatten.filter (mapelt.live env)).length ≤ h.size
        rw [tok.size_eq]
        exact List.length_filter_le _ _
      | false =>
        simp only [Bool.false_eq_true, ↓reduceIte, Option.some.injEq] at ht'
        subst ht'
        exact ⟨rfl, le_refl _⟩
    · exact hl1

theorem map_compact_load (env : Env) (hl' : env.Lawful) (f : Bool) (m : Array)
    (hi : Inv env m) (hl : Load m) : Load (map_compact env f m) := by
  unfold map_compact
  split_ifs
  · exact load_of_hashed_eq rfl (map_dehash_load env _ true (map_dehash_inv env hl' m false hi)
      (map_dehash_load env m false hi hl))
  · exact load_of_hashed_eq rfl (map_dehash_load env m true hi hl)
  · exact hl

theorem map_index_plane_load (env : Env) (f : Bool) (m : Array) (hi : Inv env m)
    (hl : Load m) : Load (map_index_plane env f m) := by
  unfold map_index_plane
  split_ifs
  · exact map_dehash_load env m false hi hl
  · exact hl

/-- The table `map_grow` adds its entry to has room for it. -/
theorem map_grow_table_load (o : Option maphash)
    (h : ∀ t, o = some t → (∃ k, t.tablesize = MTABLE_SIZE * 2 ^ k) ∧
      4 * t.size ≤ 3 * t.tablesize) :
    (∃ k, (map_grow_table o).tablesize = MTABLE_SIZE * 2 ^ k) ∧
      4 * ((map_grow_table o).size + 1) ≤ 3 * (map_grow_table o).tablesize := by
  cases o with
  | none => exact ⟨⟨0, by simp [map_grow_table]⟩, by simp [map_grow_table, MTABLE_SIZE]⟩
  | some t =>
    obtain ⟨⟨k, hk⟩, hle⟩ := h t rfl
    have hpos : 0 < 2 ^ k := Nat.pow_pos (by decide)
    simp only [map_grow_table]
    split_ifs with hfull
    · refine ⟨⟨k + 1, ?_⟩, ?_⟩
      · simp only [Nat.shiftLeft_eq, pow_one, hk, pow_succ]
        ring
      · simp only [Nat.shiftLeft_eq, pow_one, hk, MTABLE_SIZE] at hle ⊢
        omega
    · refine ⟨⟨k, hk⟩, ?_⟩
      simp only [Nat.shiftLeft_eq, pow_two, hk, MTABLE_SIZE, not_le] at hfull hle ⊢
      omega

/-- The end of `map_index` on an index that the hash table does not hold keeps
the load bound. -/
theorem map_index_extend_load (env : Env) (hl' : env.Lawful) (f : Bool) (m m' : Array)
    (i : Nat) (add : Bool) (idx x : Value) (hi : Inv env m) (hl : Load m)
    (hr : map_index_extend env f m i add idx x = .ok m') : Load m' := by
  obtain ⟨m1, hm1, rfl⟩ := map_index_extend_eq env f m m' i add idx x hi hl' hr
  have hl1 : Load m1 := by
    rcases hm1 with ⟨rfl, -⟩ | ⟨-, rfl, -⟩
    · exact hl
    · exact map_compact_load env hl' f m hi hl
  intro t ht
  simp only [Option.some.injEq] at ht
  subst ht
  exact map_grow_table_load m1.hashed hl1

/-- What `map_index` does with an entry it has found keeps the size of the
table and adds no entry. -/
theorem map_index_hashed_load (m : Array) (h : maphash) (b pos : Nat) (e : mapelt)
    (k : Value) (elt : Option Value) (del : Bool) (verify : Option Value)
    (hh : m.hashed = some h) (hl : Load m) :
    Load (map_index_hashed m h b pos e k elt del verify).1 := by
  refine load_of_le hl ?_
  intro t' ht'
  refine ⟨h, hh, ?_⟩
  unfold map_index_hashed at ht'
  dsimp only at ht'
  split_ifs at ht' <;> simp only [Option.some.injEq] at ht'
  all_goals first
    | (subst ht'; exact ⟨rfl, le_refl _⟩)
    | (subst ht'; exact ⟨rfl, Nat.sub_le _ _⟩)
    | (rw [hh] at ht'; simp only [Option.some.injEq] at ht'; subst ht'; exact ⟨rfl, le_refl _⟩)

/-- The array part of `map_index` and its end keep the load bound. -/
theorem map_index_array_load (env : Env) (hl' : env.Lawful) (f : Bool) (m m' : Array)
    (k : Value) (elt : Option Value) (del : Bool) (verify : Option Value) (hash : Bool)
    (r : Value) (hi : Inv env m) (hl : Load m)
    (hr : map_index_array env f m k elt del verify hash = .ok (m', r)) : Load m' := by
  unfold map_index_array at hr
  dsimp only at hr
  by_cases hn : (if m.size > 0 then search env k m.elts m.size 2 false else -1) ≥ 0
  · obtain ⟨j, hj, hjl, hg, hv⟩ := search_present env m k hi hn
    simp only [hn, ↓reduceIte, hj] at hr
    by_cases h1 : (elt.isSome && verify_ok verify (m.elts.getD (2 * j + 1) Value.nil)) = true
    · simp only [h1, ↓reduceIte] at hr
      have hi2 := inv_array_set env m j k (elt.getD Value.nil) hi hjl
      have hl2 : Load { m with elts := ((m.elts.set (2 * j + 1) (elt.getD Value.nil)).set (2 * j)
          (refresh_objcnt k (m.elts.getD (2 * j) Value.nil))) } := load_of_hashed_eq rfl hl
      cases hash with
      | true =>
        simp only [Bool.not_true, Bool.false_eq_true, ↓reduceIte, Except.ok.injEq,
          Prod.mk.injEq] at hr
        rw [← hr.1]
        exact hl2
      | false =>
        simp only [Bool.not_false, ↓reduceIte] at hr
        split at hr
        · simp at hr
        · rename_i m1 he
          simp only [Except.ok.injEq, Prod.mk.injEq] at hr
          rw [← hr.1]
          exact map_index_extend_load env hl' f _ m1 _ false _ _ hi2 hl2 he
    · simp only [h1, Bool.false_eq_true, ↓reduceIte] at hr
      by_cases h2 : (del || stale_object k (m.elts.getD (2 * j) Value.nil)) = true
      · simp only [h2, ↓reduceIte, Except.ok.injEq, Prod.mk.injEq] at hr
        rw [← hr.1]
        exact load_of_hashed_eq rfl hl
      · simp only [h2, Bool.false_eq_true, ↓reduceIte] at hr
        cases hash with
        | true =>
          simp only [Bool.not_true, Bool.false_eq_true, ↓reduceIte, Except.ok.injEq,
            Prod.mk.injEq] at hr
          rw [← hr.1]
          exact hl
        | false =>
          simp only [Bool.not_false, ↓reduceIte] at hr
          split at hr
          · simp at hr
          · rename_i m1 he
            simp only [Except.ok.injEq, Prod.mk.injEq] at hr
            rw [← hr.1]
            exact map_index_extend_load env hl' f _ m1 _ false _ _ hi hl he
  · simp only [hn, ↓reduceIte] at hr
    cases elt with
    | none =>
      simp only [Except.ok.injEq, Prod.mk.injEq] at hr
      rw [← hr.1]
      exact hl
    | some x =>
      cases hash with
      | true =>
        simp only [Bool.not_true, Bool.false_eq_true, ↓reduceIte, Except.ok.injEq,
          Prod.mk.injEq] at hr
        rw [← hr.1]
        exact hl
      | false =>
        simp only [Bool.not_false, ↓reduceIte] at hr
        split at hr
        · simp at hr
        · rename_i m1 he
          simp only [Except.ok.injEq, Prod.mk.injEq] at hr
          rw [← hr.1]
          exact map_index_extend_load env hl' f _ m1 _ true _ _ hi hl he

theorem map_index_body_load (env : Env) (hl' : env.Lawful) (f : Bool) (m m' : Array)
    (k : Value) (elt : Option Value) (del : Bool) (verify : Option Value) (r : Value)
    (hi : Inv env m) (hl : Load m)
    (hr : map_index_body env f m k elt del verify = .ok (m', r)) : Load m' := by
  unfold map_index_body at hr
  rcases map_index_lookup_cases env hl' m k elt del verify
    { hashval := 0, add := false, idx := Value.nil, val := Value.nil } hi with
    ⟨h1, -⟩ | ⟨h, b, pos, hh, hp, -, he⟩
  · rw [h1] at hr
    exact map_index_array_load env hl' f m m' k elt del verify false r hi hl hr
  · have hi1 := map_index_hashed_inv env hl' m h b pos
      { hashval := 0, add := false, idx := Value.nil, val := Value.nil } k elt del verify hi hh hp
    have hl1 := map_index_hashed_load m h b pos ((h.table.getD b []).getD pos
      { hashval := 0, add := false, idx := Value.nil, val := Value.nil }) k elt del verify hh hl
    rw [he] at hr
    split at hr
    · rename_i m1 r1 heq
      simp only [Option.some.injEq] at heq
      rw [heq] at hl1
      simp only [Except.ok.injEq, Prod.mk.injEq] at hr
      rw [← hr.1]
      exact hl1
    · rename_i m1 heq
      simp only [Option.some.injEq] at heq
      rw [heq] at hi1 hl1
      exact map_index_array_load env hl' f m1 m' k elt del verify true r hi1 hl1 hr
    · rename_i heq
      simp at heq

/-- Every call of `map_index` keeps the load bound of the hash table. -/
theorem map_index_load (env : Env) (hl' : env.Lawful) (f : Bool) (m m' : Array)
    (k : Value) (elt : Option Value) (verify : Option Value) (r : Value)
    (hi : Inv env m) (hl : Load m) (hr : map_index env f m k elt verify = .ok (m', r)) :
    Load m' :=
  map_index_body_load env hl' f _ m' k _ _ verify r (map_index_plane_inv env hl' f m hi)
    (map_index_plane_load env f m hi hl) hr

theorem map_rmhash_load (env : Env) (m : Array) : Load (map_rmhash env m) :=
  load_of_none (map_rmhash_hashed env m)

/-- Every reachable mapping satisfies the representation invariant, has a
coherent hash table and keeps the load bound. -/
theorem reach_inv (env : Env) (m : Array) (hr : Reach env m) :
    Inv env m ∧ Coherent m ∧ Load m := by
  induction hr with
  | fresh m hh hi =>
    refine ⟨hi, ?_, load_of_none hh⟩
    intro h e
    rw [hh] at e
    simp at e
  | index e f m val elt verify m' r hl hs _ hx ih =>
    obtain ⟨hi, hco, hlo⟩ := ih
    have hie := inv_congr hs m hi
    exact ⟨inv_congr (sameOrder_symm hs) m' (map_index_inv e hl f m m' val elt verify r hie hx),
      map_index_coherent e hl f m m' val elt verify r hie hco hx,
      map_index_load e hl f m m' val elt verify r hie hlo hx⟩
  | dehash e m clean hl hs _ ih =>
    obtain ⟨hi, hco, hlo⟩ := ih
    have hie := inv_congr hs m hi
    exact ⟨inv_congr (sameOrder_symm hs) _ (map_dehash_inv e hl m clean hie),
      map_dehash_coherent e hl m clean hie hco, map_dehash_load e m clean hie hlo⟩
  | compact e f m hl hs _ ih =>
    obtain ⟨hi, hco, hlo⟩ := ih
    have hie := inv_congr hs m hi
    exact ⟨inv_congr (sameOrder_symm hs) _ (map_compact_inv e hl f m hie),
      map_compact_coherent e hl f m hie hco, map_compact_load e hl f m hie hlo⟩
  | rmhash e m hl hs _ ih =>
    obtain ⟨hi, hco, hlo⟩ := ih
    have hie := inv_congr hs m hi
    exact ⟨inv_congr (sameOrder_symm hs) _ (map_rmhash_inv e hl m hie),
      map_rmhash_coherent e m, map_rmhash_load e m⟩

/-- The shape of the hash table follows from the representation invariant and
the load bound. -/
theorem shape_of_inv (env : Env) (m : Array) (hi : Inv env m) (hl : Load m) : Shape m := by
  refine ⟨fun hh => (hi.nohash hh).1, fun h hh => ?_⟩
  have tok := hi.table h hh
  obtain ⟨hk, hle⟩ := hl h hh
  refine ⟨tok.size_eq, tok.sizemod_eq, tok.bucket, tok.len, hk, hle, ?_⟩
  rw [tok.hashmod_eq]
  simp

/-- The mapping `map_grow` returns, before its caller has filled in the new
entry, has a hash table of the right shape. -/
theorem map_grow_shape (env : Env) (hl' : env.Lawful) (f : Bool) (m m' : Array) (hv : Nat)
    (add : Bool) (hi : Inv env m) (hl : Load m) (hg : map_grow env f m hv add = .ok m') :
    Shape m' := by
  obtain ⟨m1, hm1, rfl⟩ := map_grow_ok env f m m' hv add hg
  have key : Inv env m1 ∧ Load m1 := by
    rcases hm1 with rfl | ⟨-, rfl, -⟩
    · exact ⟨hi, hl⟩
    · exact ⟨map_compact_inv env hl' f m hi, map_compact_load env hl' f m hi hl⟩
  obtain ⟨hi1, hl1⟩ := key
  obtain ⟨tok, -, -⟩ := map_grow_table_ok env hl'.cmp_laws (elts_indices m1.elts)
    m1.hashmod m1.hashed hi1.nohash hi1.table
  obtain ⟨hk, hle⟩ := map_grow_table_load m1.hashed hl1
  have hlt : hv % (map_grow_table m1.hashed).tablesize <
      (map_grow_table m1.hashed).table.length := by
    rw [tok.len]; exact Nat.mod_lt _ tok.pos
  have hperm := flatten_push_perm (map_grow_table m1.hashed).table
    (hv % (map_grow_table m1.hashed).tablesize)
    { hashval := hv, add := false, idx := Value.nil, val := Value.nil } hlt
  refine ⟨fun hh => by simp at hh, fun h hh => ?_⟩
  simp only [Option.some.injEq] at hh
  subst hh
  refine ⟨?_, ?_, ?_, ?_, hk, hle, ?_⟩
  · show (map_grow_table m1.hashed).size + 1 = _
    simp only [map_grow_entry, table_push]
    rw [hperm.length_eq, List.length_cons, tok.size_eq]
  · show (map_grow_table m1.hashed).sizemod = _
    simp only [map_grow_entry, table_push]
    rw [filter_add_length_perm hperm, tok.sizemod_eq]
    simp only [List.filter_cons, Bool.false_eq_true, ↓reduceIte]
  · show ∀ b e, e ∈ (table_push _ _ _).getD b [] → e.hashval % _ = b
    refine bucket_set _ _ _ _ hlt tok.bucket ?_
    intro e he
    rcases List.mem_cons.1 he with e1 | e1
    · rw [e1]
      rfl
    · exact tok.bucket _ e e1
  · show (table_push _ _ _).length = _
    rw [table_push_length]
    exact tok.len
  · show m1.hashmod = true ↔ 0 < (map_grow_table m1.hashed).sizemod
    rw [tok.hashmod_eq]
    simp

/-- The entries of a coherent hash table are no more than the cap: the pending
additions and the pairs of the array part are, and the other entries are
copies of different pairs. -/
theorem table_size_le (env : Env) (hc : env.CmpLawful) (m : Array) (hi : Inv env m)
    (hco : Coherent m) (h : maphash) (hh : m.hashed = some h) :
    h.size ≤ env.max_size ∧ h.sizemod ≤ h.size := by
  have tok := hi.table h hh
  have hsplit : h.table.flatten.length =
      (h.table.flatten.filter (fun e => e.add)).length +
        (h.table.flatten.filter (fun e => !e.add)).length := by
    have := List.length_eq_length_filter_add (l := h.table.flatten) (fun e => e.add)
    simpa using this
  have hnd : ((h.table.flatten.filter (fun e => !e.add)).map (fun e => e.idx)).Nodup := by
    have h1 : ((h.table.flatten.filter (fun e => !e.add)).map (fun e => e.idx)).Pairwise
        (fun a b => veq env a b = false) :=
      List.Pairwise.sublist (List.Sublist.map _ (List.filter_sublist _)) tok.distinct
    refine List.Pairwise.imp ?_ h1
    intro a b hab heq
    rw [heq, veq_refl env hc b] at hab
    exact absurd hab (by decide)
  have hsub : (h.table.flatten.filter (fun e => !e.add)).map (fun e => e.idx) ⊆
      elts_indices m.elts := by
    intro x hx
    obtain ⟨e, he, rfl⟩ := List.mem_map.1 hx
    have he' := List.mem_filter.1 he
    exact mem_indices_of_pair (hco h hh e he'.1 (by simpa using he'.2))
  have hle := (List.subperm_of_subset hnd hsub).length_le
  rw [List.length_map] at hle
  have hcap := tok.cap
  have h1 := tok.size_eq
  have h2 := tok.sizemod_eq
  constructor <;> omega

/-- C31: every mapping reachable from a new mapping (no hash table, the array
part in order) by `map_index`, `map_dehash`, `map_compact` and `map_rmhash`, in
environments that share the cap, the comparators and the hash functions, has
the shape of spec 3.2 and 3.3: without a hash table `hashmod` is false; with
one, `size` is the number of entries chained in the table, `sizemod` the number
of those with `add` set, every entry sits in the chain `hashval % tablesize`,
`tablesize` is 16 times a power of two with `4 * size <= 3 * tablesize`, and
`hashmod` is true exactly when `sizemod > 0`.  Both counters stay within
`max_size`.  The mapping that `map_grow`, which only `map_index` calls, returns
on such a mapping has that shape as well. -/
theorem reach_shape (env : Env) (hc : env.CmpLawful) (m : Array) (hr : Reach env m) :
    Shape m ∧
    (∀ h, m.hashed = some h → h.size ≤ env.max_size ∧ h.sizemod ≤ h.size) ∧
    ∀ (e : Env) (f : Bool) (hv : Nat) (add : Bool) (m' : Array), e.Lawful → SameOrder env e →
      map_grow e f m hv add = .ok m' → Shape m' := by
  obtain ⟨hi, hco, hlo⟩ := reach_inv env m hr
  refine ⟨shape_of_inv env m hi hlo, fun h hh => table_size_le env hc m hi hco h hh, ?_⟩
  intro e f hv add m' hl hs hg
  exact map_grow_shape e hl f m m' hv add (inv_congr hs m hi) hlo hg

/-- C31 at the mapping built by `m[3] = 7` on an empty mapping: the hash table
has 16 chains and one entry, a pending addition, and `hashmod` is true. -/
theorem reach_shape_witness :
    ∃ m1, map_index (ref_env 100 0) false { elts := [], odcount := 0 } (.int 3)
        (some (.int 7)) none = .ok (m1, .int 7) ∧
      m1.hashed.map (fun h => (h.size, h.sizemod, h.tablesize)) = some (1, 1, 16) ∧
      m1.hashmod = true ∧ Shape m1 :=
  ⟨_, rfl, rfl, rfl,
    (reach_shape (ref_env 100 0) (ref_env_lawful 100 0 (by decide)).cmp_laws _
      (Reach.index (ref_env 100 0) false { elts := [], odcount := 0 } (.int 3)
        (some (.int 7)) none _ (.int 7) (ref_env_lawful 100 0 (by decide))
        ⟨rfl, rfl, rfl, rfl, rfl⟩ (Reach.fresh _ rfl (inv_empty _ 0)) rfl)).1⟩

/-- The test of `verify` is by address: a stored string with the text of
`verify` in another `String` does not pass, the same `String` does. -/
theorem verify_ok_same_string :
    verify_ok (some (.str 2 [115])) (.str 1 [115]) = false ∧
      verify_ok (some (.str 1 [115])) (.str 1 [115]) = true ∧
      cmp (ref_env 100 0) (.str 2 [115]) (.str 1 [115]) = 0 :=
  ⟨rfl, rfl, rfl⟩

/-- C10 fails on a mapping that holds a handle twice, as `map_add` returns for
operands whose keys share a tag: with `A` and `B` two arrays with the tag 7,
`m = map_add({A: 1, B: 2}, {B: 20})` is `[B: 20, A: 1, B: 2]`.  After
`map_index(m, B, 7)` the call `map_index(m, B, nil)` returns nil, but it has
removed one of the two pairs only: `map_indices(m)` still holds `B`, and a read
of `B` returns 20. -/
theorem map_index_delete_leaves_duplicate :
    ∃ r m1 m2 m3 ks m4,
      map_add (ref_env 100 0) false false
        { elts := [.arr 8 7, .int 1, .arr 16 7, .int 2], odcount := 0 }
        { elts := [.arr 16 7, .int 20], odcount := 0 } = .ok r ∧
      map_index (ref_env 100 0) false r.val (.arr 16 7) (some (.int 7)) none =
        .ok (m1, .int 7) ∧
      map_index (ref_env 100 0) false m1 (.arr 16 7) (some Value.nil) none =
        .ok (m2, Value.nil) ∧
      m2.elts = [.arr 16 7, .int 20, .arr 8 7, .int 1] ∧
      map_indices (ref_env 100 0) false m2 = .ok (m3, ks) ∧
      ks.elts = [.arr 16 7, .arr 8 7] ∧
      Value.arr 16 7 ∈ ks.elts ∧
      map_index (ref_env 100 0) false m3 (.arr 16 7) none none = .ok (m4, .int 20) :=
  ⟨_, _, _, _, _, _, rfl, rfl, rfl, rfl, rfl, rfl, by decide, rfl⟩

/-- C11 fails on the result of `map_add` for operands whose keys share a tag:
with `A` and `B` two arrays with the tag 7, the mappings `{A: 1, B: 2}` and
`{B: 20}` are built by `map_index` on empty mappings; `map_add` of the two
returns `[B: 20, A: 1, B: 2]`, which has no hash table and the global
`odcount`, and `map_compact` leaves it as it is: the array part holds the
index `B` twice. -/
theorem map_compact_keeps_duplicate :
    ∃ a1 a2 b1 r,
      map_index (ref_env 100 0) false { elts := [], odcount := 0 } (.arr 8 7)
        (some (.int 1)) none = .ok (a1, .int 1) ∧
      map_index (ref_env 100 0) false a1 (.arr 16 7) (some (.int 2)) none = .ok (a2, .int 2) ∧
      map_index (ref_env 100 0) false { elts := [], odcount := 0 } (.arr 16 7)
        (some (.int 20)) none = .ok (b1, .int 20) ∧
      map_add (ref_env 100 0) false false a2 b1 = .ok r ∧
      map_compact (ref_env 100 0) false r.val = r.val ∧
      (map_compact (ref_env 100 0) false r.val).elts =
        [.arr 16 7, .int 20, .arr 8 7, .int 1, .arr 16 7, .int 2] ∧
      veq (ref_env 100 0) ((map_compact (ref_env 100 0) false r.val).elts.getD 0 Value.nil)
        ((map_compact (ref_env 100 0) false r.val).elts.getD 4 Value.nil) = true :=
  ⟨_, _, _, _, rfl, rfl, rfl, rfl, rfl, rfl, rfl⟩

/-- C12 fails on a mapping that holds a handle twice, as `map_add` returns for
operands whose keys share a tag: with `A` and `B` two arrays with the tag 7,
`m = map_add({A: 1, B: 2}, {B: 20})` is `[B: 20, A: 1, B: 2]`.  `map_size(m)`
is 3 and `map_indices(m)` and `map_values(m)` have 3 elements each, `[B, A, B]`
and `[20, 1, 2]`; but a read of the index at position 0, `B`, returns 2, not
the value 20 at position 0. -/
theorem map_values_misaligned :
    ∃ r mi ks mv vs m4,
      map_add (ref_env 100 0) false false
        { elts := [.arr 8 7, .int 1, .arr 16 7, .int 2], odcount := 0 }
        { elts := [.arr 16 7, .int 20], odcount := 0 } = .ok r ∧
      (map_size (ref_env 100 0) false r.val).2 = 3 ∧
      map_indices (ref_env 100 0) false r.val = .ok (mi, ks) ∧
      ks.elts = [.arr 16 7, .arr 8 7, .arr 16 7] ∧
      map_values (ref_env 100 0) false r.val = .ok (mv, vs) ∧
      vs.elts = [.int 20, .int 1, .int 2] ∧
      map_index (ref_env 100 0) false r.val (ks.elts.getD 0 Value.nil) none none =
        .ok (m4, .int 2) ∧
      vs.elts.getD 0 Value.nil = .int 20 :=
  ⟨_, _, _, _, _, _, rfl, rfl, rfl, rfl, rfl, rfl, rfl, rfl⟩

/-- The decrement is the subtraction modulo `2 ^ 32` on the counts a `Uint`
holds. -/
theorem ref_dec_mod (r : Nat) (h : r < 4294967296) :
    ref_dec r = (r + 4294967295) % 4294967296 := by
  unfold ref_dec
  split_ifs with h0
  · subst h0; rfl
  · omega

end Dgd
